import Mathlib

/-!
# The NIR vectorizer `nir_opt_vectorize`: a shallow embedding

The definitions below follow `src/compiler/nir/nir_opt_vectorize.c` function by
function.  Instructions live in a heap indexed by their address; the address of
an instruction also stands for the address of the SSA value it defines, which is
what `hash_src` hashes and what `srcs_equal` compares.  Blocks are lists of
instruction addresses, so that unlinking an instruction (`nir_instr_remove`)
leaves its memory readable, as in the C program.

What the C file takes from other files (the opcode table `nir_op_infos`, the
opcodes `nir_op_imov` and `nir_op_fmov`, the FNV-1a hash macros) is collected in
the record `Env` and passed as a parameter.
-/

namespace Nir

/-! ## Data model -/

/-- One row of the opcode table `nir_op_infos`: the fields that the pass reads. -/
structure nir_op_info where
  num_inputs : Nat
  output_size : Nat
  input_sizes : List Nat

/-- What `nir_opt_vectorize.c` uses of its environment: the opcode table, the two
move opcodes, and the hash primitives `_mesa_fnv32_1a_offset_bias` and
`_mesa_fnv32_1a_accumulate` (arguments: running hash, `sizeof` the datum, the
datum). -/
structure Env where
  nir_op_infos : Nat → nir_op_info
  nir_op_imov : Nat
  nir_op_fmov : Nat
  fnv32_1a_offset_bias : Nat
  fnv32_1a_accumulate : Nat → Nat → Nat → Nat

/-- An ALU operand (`nir_alu_src`): the SSA value it references, by address, and the
four swizzle bytes.  The modifiers `abs` and `negate` are asserted absent by the
pass and are not represented. -/
structure nir_alu_src where
  ssa : Nat
  swizzle : List Nat
deriving DecidableEq

instance : Inhabited nir_alu_src := ⟨⟨0, [0, 0, 0, 0]⟩⟩

/-- An ALU instruction (`nir_alu_instr`) with its SSA destination:
`num_components` and `bit_size` are those of `dest.dest.ssa`, `write_mask` is
`dest.write_mask`. -/
structure nir_alu_instr where
  op : Nat
  num_components : Nat
  bit_size : Nat
  write_mask : Nat
  src : List nir_alu_src
deriving DecidableEq

/-- An instruction: an ALU instruction, or an instruction of any other type
(intrinsic, texture, phi, ...) of which the pass only sees the SSA values its
sources reference. -/
inductive nir_instr where
  | alu (a : nir_alu_instr)
  | other (srcs : List Nat)
deriving DecidableEq

/-- Ghost record of one successful call of `instr_try_combine`: the two arguments,
their contents and the block lists when the call was made, and the instruction it
returned.  No operation reads these records. -/
structure merge_record where
  instr1 : Nat
  instr2 : Nat
  alu1 : nir_alu_instr
  alu2 : nir_alu_instr
  blocks : List (List Nat)
  new_instr : Nat

/-- The state one function body is processed in.  `heap` is the instruction memory,
`next` the address the next created instruction gets, `blocks` the instruction
list of each block (by block index), `if_uses` the condition of each `nir_if`,
`instr_set` the entries of the hash set (stored hash, stack from bottom to top) in
insertion order, `merges` the ghost log. -/
structure vec_state where
  heap : Nat → nir_instr
  next : Nat
  blocks : List (List Nat)
  if_uses : List Nat
  instr_set : List (Nat × List Nat)
  merges : List merge_record

/-- The dominator tree: a block index and its immediately dominated children, in the
order of `block->dom_children`. -/
inductive DomTree where
  | node (block : Nat) (dom_children : List DomTree)

/-- A function body: its blocks, the conditions of its ifs and its dominator tree,
rooted at the start block (the metadata `nir_metadata_require` provides). -/
structure nir_function_impl where
  blocks : List (List Nat)
  if_uses : List Nat
  dom_tree : DomTree

/-- A shader: the instruction memory, the allocation pointer, and its functions, each
with an optional body (`function->impl`); `merges` is the ghost log of the combines
made so far. -/
structure nir_shader where
  heap : Nat → nir_instr
  next : Nat
  functions : List (Option nir_function_impl)
  merges : List merge_record

/-! ## Hashing and equality (lines 30-121) -/

/-- `HASH(hash, src->ssa)` in `hash_src`: the datum is a pointer. -/
def hash_src (E : Env) (hash : Nat) (src : Nat) : Nat :=
  E.fnv32_1a_accumulate hash 8 src

/-- `hash_alu_src`: the swizzle is intentionally not hashed. -/
def hash_alu_src (E : Env) (hash : Nat) (src : nir_alu_src) : Nat :=
  hash_src E hash src.ssa

/-- `hash_alu`: opcode (an enum), bit size (a byte), then the operand sources. -/
def hash_alu (E : Env) (hash : Nat) (instr : nir_alu_instr) : Nat :=
  let hash1 := E.fnv32_1a_accumulate hash 4 instr.op
  let hash2 := E.fnv32_1a_accumulate hash1 1 instr.bit_size
  (List.range (E.nir_op_infos instr.op).num_inputs).foldl
    (fun h i => hash_alu_src E h (instr.src.getD i default)) hash2

/-- `hash_instr`.  The default case is `unreachable` in the source; callers only pass
instructions accepted by `instr_can_rewrite`. -/
def hash_instr (E : Env) (instr : nir_instr) : Nat :=
  match instr with
  | .alu a => hash_alu E E.fnv32_1a_offset_bias a
  | .other _ => E.fnv32_1a_offset_bias

/-- `srcs_equal`: pointer equality of the referenced SSA values. -/
def srcs_equal (src1 src2 : Nat) : Bool :=
  src1 == src2

/-- `alu_srcs_equal`: the swizzles are not compared. -/
def alu_srcs_equal (src1 src2 : nir_alu_src) : Bool :=
  srcs_equal src1.ssa src2.ssa

/-- The ALU case of `instrs_equal`. -/
def alu_instrs_equal (E : Env) (alu1 alu2 : nir_alu_instr) : Bool :=
  if alu1.op != alu2.op then false
  else if alu1.bit_size != alu2.bit_size then false
  else (List.range (E.nir_op_infos alu1.op).num_inputs).all
    (fun i => alu_srcs_equal (alu1.src.getD i default) (alu2.src.getD i default))

/-- `instrs_equal`.  The default case is `unreachable` in the source. -/
def instrs_equal (E : Env) (instr1 instr2 : nir_instr) : Bool :=
  match instr1, instr2 with
  | .alu alu1, .alu alu2 => alu_instrs_equal E alu1 alu2
  | _, _ => false

/-! ## Eligibility (lines 123-154) -/

/-- `instr_can_rewrite`. -/
def instr_can_rewrite (E : Env) (instr : nir_instr) : Bool :=
  match instr with
  | .alu alu =>
    if alu.op == E.nir_op_imov || alu.op == E.nir_op_fmov then false
    else if (E.nir_op_infos alu.op).output_size != 0 then false
    else (List.range (E.nir_op_infos alu.op).num_inputs).all
      (fun i => (E.nir_op_infos alu.op).input_sizes.getD i 0 == 0)
  | .other _ => false

/-! ## Combining two instructions (lines 156-272) -/

/-- The loop `for (j = 0; j < n; j++) dst[j + off] = src[j]` over swizzle bytes. -/
def copy_swizzle (dst src : List Nat) (off n : Nat) : List Nat :=
  (List.range n).foldl (fun d j => d.set (j + off) (src.getD j 0)) dst

/-- The loop `for (i = 0; i < n; i++) swiz[i] += k` over `unsigned` lanes (line 205). -/
def shift_swiz (swiz : List Nat) (n k : Nat) : List Nat :=
  (List.range n).foldl (fun d i => d.set i (d.getD i 0 + k)) swiz

/-- The loop `for (i = 0; i < n; i++) swizzle[i] += k` over the `uint8_t` swizzle of
an operand (line 251). -/
def shift_swizzle (swizzle : List Nat) (n k : Nat) : List Nat :=
  (List.range n).foldl (fun d i => d.set i ((d.getD i 0 + k) % 256)) swizzle

/-- Operand `i` of the combined instruction (body of the loop at line 187): the source
of `alu1`, the lanes of `alu1` and after them the lanes of `alu2`.  The operand
starts with the identity swizzle `xyzw`, as `nir_alu_instr_create` (which is not
part of the sources) leaves it; the lanes from the combined width on keep it. -/
def combined_src (alu1 alu2 : nir_alu_instr) (i : Nat) : nir_alu_src :=
  { ssa := (alu1.src.getD i default).ssa
    swizzle := copy_swizzle
      (copy_swizzle [0, 1, 2, 3] (alu1.src.getD i default).swizzle 0 alu1.num_components)
      (alu2.src.getD i default).swizzle alu1.num_components alu2.num_components }

/-- The instruction built at lines 182-197.  The write mask `(1 << total) - 1` is at
most 15 for the totals `instr_try_combine` accepts, so it fits the mask field. -/
def combined_alu (E : Env) (alu1 alu2 : nir_alu_instr) : nir_alu_instr :=
  { op := alu1.op
    num_components := alu1.num_components + alu2.num_components
    bit_size := alu1.bit_size
    write_mask := (1 <<< (alu1.num_components + alu2.num_components)) - 1
    src := (List.range (E.nir_op_infos alu1.op).num_inputs).map (combined_src alu1 alu2) }

/-- Modelled from the spec: `nir_swizzle` of the IR builder, the "lane-extraction
builder" of the external interfaces, is not part of the sources.  With
`use_fmov = false` it builds an integer move of `num_components` components whose
single operand reads lanes `swiz[0 .. num_components)` of `src`; the instruction is
inserted at the cursor by the caller below. -/
def nir_swizzle (E : Env) (src : Nat) (bit_size : Nat) (swiz : List Nat)
    (num_components : Nat) : nir_alu_instr :=
  { op := E.nir_op_imov
    num_components := num_components
    bit_size := bit_size
    write_mask := (1 <<< num_components) - 1
    src := [{ ssa := src, swizzle := copy_swizzle [0, 0, 0, 0] swiz 0 num_components }] }

/-- `nir_ssa_alu_instr_src_components`: the number of lanes operand `src` of `use`
reads. -/
def nir_ssa_alu_instr_src_components (E : Env) (use : nir_alu_instr) (src : Nat) : Nat :=
  if (E.nir_op_infos use.op).input_sizes.getD src 0 > 0 then
    (E.nir_op_infos use.op).input_sizes.getD src 0
  else use.num_components

/-- Apply `f` to operand `i` of a source list, for every `i` from `start` on. -/
def map_srcs (f : Nat → nir_alu_src → nir_alu_src) : Nat → List nir_alu_src → List nir_alu_src
  | _, [] => []
  | i, s :: rest => f i s :: map_srcs f (i + 1) rest

/-- What the loop at lines 210-222 does to one consumer of the result of `alu1`: an
ALU consumer reads the combined result directly, another consumer reads the
extraction `new_alu1`. -/
def rewrite_use1 (E : Env) (def1 new_alu new_alu1 : Nat) (use : nir_instr) : nir_instr :=
  match use with
  | .alu u =>
    let f := fun (i : Nat) (s : nir_alu_src) =>
      if i < (E.nir_op_infos u.op).num_inputs ∧ s.ssa = def1 then { s with ssa := new_alu }
      else s
    .alu { u with src := map_srcs f 0 u.src }
  | .other srcs => .other (srcs.map (fun x => if x = def1 then new_alu1 else x))

/-- What the loop at lines 231-259 does to one consumer of the result of `alu2`: an
ALU consumer reads the combined result and the lanes it reads are moved up by
`alu1_components`; another consumer reads the extraction `new_alu2`. -/
def rewrite_use2 (E : Env) (def2 new_alu new_alu2 alu1_components : Nat) (use : nir_instr) :
    nir_instr :=
  match use with
  | .alu u =>
    let f := fun (i : Nat) (s : nir_alu_src) =>
      if i < (E.nir_op_infos u.op).num_inputs ∧ s.ssa = def2 then
        { ssa := new_alu
          swizzle := shift_swizzle s.swizzle (nir_ssa_alu_instr_src_components E u i)
            alu1_components }
      else s
    .alu { u with src := map_srcs f 0 u.src }
  | .other srcs => .other (srcs.map (fun x => if x = def2 then new_alu2 else x))

/-- Rewrite every use held by a linked instruction: the use lists of an SSA value
hold the sources of the instructions that are in a block. -/
def rewrite_uses (blocks : List (List Nat)) (f : nir_instr → nir_instr)
    (heap : Nat → nir_instr) : Nat → nir_instr :=
  fun p => if p ∈ blocks.flatten then f (heap p) else heap p

/-- `nir_if_rewrite_condition` for every if whose condition is `d`. -/
def rewrite_if_uses (d new_src : Nat) (if_uses : List Nat) : List Nat :=
  if_uses.map (fun x => if x = d then new_src else x)

/-- Store an instruction at an address. -/
def heap_set (heap : Nat → nir_instr) (p : Nat) (v : nir_instr) : Nat → nir_instr :=
  fun q => if q = p then v else heap q

/-- `nir_builder_instr_insert` with the cursor right after instruction `after`. -/
def nir_instr_insert_after (blocks : List (List Nat)) (after new_instr : Nat) :
    List (List Nat) :=
  blocks.map (fun b => b.flatMap (fun p => if p = after then [p, new_instr] else [p]))

/-- `nir_instr_remove`: unlink the instruction from its block. -/
def nir_instr_remove (blocks : List (List Nat)) (instr : Nat) : List (List Nat) :=
  blocks.map (fun b => b.filter (fun p => p != instr))

/-- The successful path of `instr_try_combine` (lines 178-271) for two ALU
instructions `alu1` at `instr1` and `alu2` at `instr2`. -/
def combine_alu (E : Env) (s : vec_state) (instr1 instr2 : Nat)
    (alu1 alu2 : nir_alu_instr) : vec_state :=
  let alu1_components := alu1.num_components
  let alu2_components := alu2.num_components
  let new_alu := s.next
  let new_alu1 := s.next + 1
  let new_alu2 := s.next + 2
  let heap1 := heap_set s.heap new_alu (.alu (combined_alu E alu1 alu2))
  let blocks1 := nir_instr_insert_after s.blocks instr1 new_alu
  let swiz := [0, 1, 2, 3]
  let heap2 := heap_set heap1 new_alu1
    (.alu (nir_swizzle E new_alu alu1.bit_size swiz alu1_components))
  let blocks2 := nir_instr_insert_after blocks1 new_alu new_alu1
  let swiz2 := shift_swiz swiz alu2_components alu1_components
  let heap3 := heap_set heap2 new_alu2
    (.alu (nir_swizzle E new_alu alu1.bit_size swiz2 alu2_components))
  let blocks3 := nir_instr_insert_after blocks2 new_alu1 new_alu2
  let heap4 := rewrite_uses blocks3 (rewrite_use1 E instr1 new_alu new_alu1) heap3
  let if_uses1 := rewrite_if_uses instr1 new_alu1 s.if_uses
  let heap5 := rewrite_uses blocks3
    (rewrite_use2 E instr2 new_alu new_alu2 alu1_components) heap4
  let if_uses2 := rewrite_if_uses instr2 new_alu2 if_uses1
  let blocks4 := nir_instr_remove (nir_instr_remove blocks3 instr1) instr2
  { heap := heap5
    next := s.next + 3
    blocks := blocks4
    if_uses := if_uses2
    instr_set := s.instr_set
    merges := s.merges ++ [{ instr1 := instr1, instr2 := instr2, alu1 := alu1, alu2 := alu2,
                             blocks := s.blocks, new_instr := new_alu }] }

/-- `instr_try_combine`: returns the combined instruction, or nothing (`NULL`) when
the result would be wider than 4 components.  The assertions of the source (both
instructions are ALU instructions of one bit size) are the contract of the
function; on instructions of another type the model returns nothing. -/
def instr_try_combine (E : Env) (s : vec_state) (instr1 instr2 : Nat) :
    Option Nat × vec_state :=
  match s.heap instr1, s.heap instr2 with
  | .alu alu1, .alu alu2 =>
    if alu1.num_components + alu2.num_components > 4 then (none, s)
    else (some s.next, combine_alu E s instr1 instr2 alu1 alu2)
  | _, _ => (none, s)

/-! ## Stacks of equivalent instructions (lines 274-317) -/

/-- The loop of `vec_instr_stack_push` over the stack entries, given from the top of
the stack down (`util_dynarray_foreach_reverse`): the first entry that combines
with `instr` is replaced by the combined instruction. -/
def vec_instr_stack_scan (E : Env) (instr : Nat) :
    List Nat → vec_state → Option (List Nat) × vec_state
  | [], s => (none, s)
  | stack_instr :: below, s =>
    match instr_try_combine E s stack_instr instr with
    | (some new_instr, s1) => (some (new_instr :: below), s1)
    | (none, s1) =>
      match vec_instr_stack_scan E instr below s1 with
      | (some below1, s2) => (some (stack_instr :: below1), s2)
      | (none, s2) => (none, s2)

/-- `vec_instr_stack_push`: true if `instr` was combined with an entry of the stack;
otherwise `instr` is appended.  A stack is the list of its entries, bottom first. -/
def vec_instr_stack_push (E : Env) (stack : List Nat) (instr : Nat) (s : vec_state) :
    Bool × List Nat × vec_state :=
  match vec_instr_stack_scan E instr stack.reverse s with
  | (some r, s1) => (true, r.reverse, s1)
  | (none, s1) => (false, stack ++ [instr], s1)

/-- `vec_instr_stack_pop`; the assertion `last == instr` is not evaluated. -/
def vec_instr_stack_pop (stack : List Nat) : List Nat :=
  stack.dropLast

/-! ## The set of stacks (lines 319-402) -/

/-- `cmp_func`: two stacks are equal when their first entries are `instrs_equal`. -/
def cmp_func (E : Env) (heap : Nat → nir_instr) (arr1 arr2 : List Nat) : Bool :=
  instrs_equal E (heap (arr1.headD 0)) (heap (arr2.headD 0))

/-- `hash_stack`: the hash of the first entry. -/
def hash_stack (E : Env) (heap : Nat → nir_instr) (stack : List Nat) : Nat :=
  hash_instr E (heap (stack.headD 0))

/-- Index of the first element from position `i` on that satisfies `p`. -/
def find_entry (p : Nat × List Nat → Bool) : List (Nat × List Nat) → Nat → Option Nat
  | [], _ => none
  | e :: rest, i => if p e then some i else find_entry p rest (i + 1)

/-- Modelled from the spec: `_mesa_set_search` of the generic hash set, which is not
part of the sources.  It hashes the key with the set's hash function and returns
the entry whose stored hash equals that hash and whose key the set's comparison
function accepts.  Entries are kept in insertion order and the result is the index
of the first such entry. -/
def _mesa_set_search (E : Env) (s : vec_state) (key : List Nat) : Option Nat :=
  find_entry (fun e => e.1 == hash_stack E s.heap key && cmp_func E s.heap key e.2)
    s.instr_set 0

/-- Modelled from the spec: `_mesa_set_add` of the generic hash set.  The key is
stored with its hash at the time of the call; an entry with an equal key is
replaced. -/
def _mesa_set_add (E : Env) (s : vec_state) (key : List Nat) : List (Nat × List Nat) :=
  match _mesa_set_search E s key with
  | some idx => s.instr_set.set idx (hash_stack E s.heap key, key)
  | none => s.instr_set ++ [(hash_stack E s.heap key, key)]

/-- Modelled from the spec: `_mesa_set_remove` of the generic hash set deletes one
entry. -/
def _mesa_set_remove (set : List (Nat × List Nat)) (entry : Nat) : List (Nat × List Nat) :=
  set.eraseIdx entry

/-- The stack an entry of the set points to, updated in place. -/
def set_stack (set : List (Nat × List Nat)) (entry : Nat) (stack : List Nat) :
    List (Nat × List Nat) :=
  set.set entry ((set.getD entry (0, [])).1, stack)

/-- `vec_instr_set_add_or_rewrite`. -/
def vec_instr_set_add_or_rewrite (E : Env) (instr : Nat) (s : vec_state) :
    Bool × vec_state :=
  if !instr_can_rewrite E (s.heap instr) then (false, s)
  else
    let pushed := vec_instr_stack_push E [] instr s
    let new_stack := pushed.2.1
    let s0 := pushed.2.2
    match _mesa_set_search E s0 new_stack with
    | some entry =>
      let stack := (s0.instr_set.getD entry (0, [])).2
      let r := vec_instr_stack_push E stack instr s0
      (r.1, { r.2.2 with instr_set := set_stack r.2.2.instr_set entry r.2.1 })
    | none => (false, { s0 with instr_set := _mesa_set_add E s0 new_stack })

/-- `vec_instr_set_remove`. -/
def vec_instr_set_remove (E : Env) (instr : Nat) (s : vec_state) : vec_state :=
  if !instr_can_rewrite E (s.heap instr) then s
  else
    let pushed := vec_instr_stack_push E [] instr s
    let temp := pushed.2.1
    let s0 := pushed.2.2
    match _mesa_set_search E s0 temp with
    | some entry =>
      let stack := (s0.instr_set.getD entry (0, [])).2
      if stack.length > 1 then
        { s0 with instr_set := set_stack s0.instr_set entry (vec_instr_stack_pop stack) }
      else { s0 with instr_set := _mesa_set_remove s0.instr_set entry }
    | none => s0

/-! ## The walk over the dominator tree (lines 404-453) -/

/-- The loop `nir_foreach_instr_safe` of `vectorize_block` over the instructions the
block holds when the loop starts. -/
def vectorize_instrs (E : Env) : List Nat → vec_state → Bool × vec_state
  | [], s => (false, s)
  | instr :: rest, s =>
    let r := vec_instr_set_add_or_rewrite E instr s
    let r2 := vectorize_instrs E rest r.2
    (r.1 || r2.1, r2.2)

/-- The loop `nir_foreach_instr_reverse` of `vectorize_block`, given the instructions
of the block in reverse. -/
def remove_instrs (E : Env) : List Nat → vec_state → vec_state
  | [], s => s
  | instr :: rest, s => remove_instrs E rest (vec_instr_set_remove E instr s)

mutual
/-- `vectorize_block`. -/
def vectorize_block (E : Env) : DomTree → vec_state → Bool × vec_state
  | .node block dom_children, s =>
    let r1 := vectorize_instrs E (s.blocks.getD block []) s
    let r2 := vectorize_children E dom_children r1.2
    (r1.1 || r2.1, remove_instrs E (r2.2.blocks.getD block []).reverse r2.2)
/-- The loop of `vectorize_block` over `block->dom_children`. -/
def vectorize_children (E : Env) : List DomTree → vec_state → Bool × vec_state
  | [], s => (false, s)
  | child :: rest, s =>
    let r := vectorize_block E child s
    let r2 := vectorize_children E rest r.2
    (r.1 || r2.1, r2.2)
end

/-- `nir_opt_vectorize_impl`: a fresh set, one walk from the start block.  The set is
destroyed at the end; the metadata calls do not touch instructions. -/
def nir_opt_vectorize_impl (E : Env) (sh : nir_shader) (impl : nir_function_impl) :
    Bool × nir_shader × nir_function_impl :=
  let r := vectorize_block E impl.dom_tree
    { heap := sh.heap, next := sh.next, blocks := impl.blocks, if_uses := impl.if_uses,
      instr_set := [], merges := sh.merges }
  (r.1, { sh with heap := r.2.heap, next := r.2.next, merges := r.2.merges },
    { impl with blocks := r.2.blocks, if_uses := r.2.if_uses })

/-- The loop `nir_foreach_function` of `nir_opt_vectorize` over the functions still to
be visited; the functions already visited are collected in `sh.functions`. -/
def vectorize_functions (E : Env) :
    List (Option nir_function_impl) → nir_shader → Bool × nir_shader
  | [], sh => (false, sh)
  | none :: rest, sh =>
    let r := vectorize_functions E rest { sh with functions := sh.functions ++ [none] }
    (r.1, r.2)
  | some impl :: rest, sh =>
    let r := nir_opt_vectorize_impl E sh impl
    let r2 := vectorize_functions E rest
      { r.2.1 with functions := r.2.1.functions ++ [some r.2.2] }
    (r.1 || r2.1, r2.2)

/-- `nir_opt_vectorize`. -/
def nir_opt_vectorize (E : Env) (shader : nir_shader) : Bool × nir_shader :=
  vectorize_functions E shader.functions { shader with functions := [] }

/-! ## Meaning of a per-component instruction -/

/-- Modelled from the spec: the meaning of an ALU instruction whose opcode works per
component ("Swizzle: per-component lane-selection mapping from a source vector's
components to a consumer's input lanes").  With `val d l` the value of lane `l` of
the SSA value `d` and `f` the function of the opcode on one lane, lane `j` of the
result is `f` applied to the lanes `swizzle[j]` of the operands. -/
def alu_lane {α : Type} (E : Env) (f : List α → α) (val : Nat → Nat → α)
    (a : nir_alu_instr) (j : Nat) : α :=
  f ((List.range (E.nir_op_infos a.op).num_inputs).map
    (fun i => val (a.src.getD i default).ssa ((a.src.getD i default).swizzle.getD j 0)))

/-- The lane of its source that lane `j` of an operand reads. -/
def read_lane {α : Type} (val : Nat → Nat → α) (src : nir_alu_src) (j : Nat) : α :=
  val src.ssa (src.swizzle.getD j 0)

/-! ## Concrete data for closed statements -/

/-- The FNV-1a accumulation the hash macro names: every byte of the datum, low byte
first, is xor-ed into the 32-bit hash, which is then multiplied by the FNV prime. -/
def fnv32_1a_accumulate_block (hash size data : Nat) : Nat :=
  (List.range size).foldl
    (fun h k => ((h ^^^ (data / 256 ^ k % 256)) * 16777619) % 4294967296) hash

/-- A small opcode table: opcode 1 is a two-input per-component operation (an
addition), opcode 2 a one-input per-component operation (a negation), opcodes 10
and 11 are the moves. -/
def ex_infos (op : Nat) : nir_op_info :=
  if op = 1 then { num_inputs := 2, output_size := 0, input_sizes := [0, 0, 0, 0] }
  else { num_inputs := 1, output_size := 0, input_sizes := [0, 0, 0, 0] }

/-- The environment of the closed statements: the table above and FNV-1a with its
offset basis. -/
def ex_env : Env :=
  { nir_op_infos := ex_infos, nir_op_imov := 10, nir_op_fmov := 11,
    fnv32_1a_offset_bias := 2166136261, fnv32_1a_accumulate := fnv32_1a_accumulate_block }

/-- An ALU instruction of opcode `op`, 32 bits and the given number of components,
reading the given operands. -/
def ex_alu (op : Nat) (num_components : Nat) (src : List nir_alu_src) : nir_instr :=
  .alu { op := op, num_components := num_components, bit_size := 32,
         write_mask := (1 <<< num_components) - 1, src := src }

/-- Instruction memory of the first example: `100` and `101` are two values `a` and
`b` produced by other instructions, `102` is `A = a.x + b.x`, `103` is `P = -A`,
`104` is `B = a.y + b.y`, `105` is `Q = -B`, `106` stores `P`, `Q` and `A`. -/
def ex_heap : Nat → nir_instr := fun p =>
  if p = 102 then ex_alu 1 1 [⟨100, [0, 0, 0, 0]⟩, ⟨101, [0, 0, 0, 0]⟩]
  else if p = 103 then ex_alu 2 1 [⟨102, [0, 0, 0, 0]⟩]
  else if p = 104 then ex_alu 1 1 [⟨100, [1, 0, 0, 0]⟩, ⟨101, [1, 0, 0, 0]⟩]
  else if p = 105 then ex_alu 2 1 [⟨104, [0, 0, 0, 0]⟩]
  else if p = 106 then .other [103, 105, 102]
  else .other []

/-- The first example as a state: one block, an if on `B`, an empty set. -/
def ex_state : vec_state :=
  { heap := ex_heap, next := 200, blocks := [[100, 101, 102, 103, 104, 105, 106]],
    if_uses := [104], instr_set := [], merges := [] }

/-- The first example as a shader of one function. -/
def ex_shader : nir_shader :=
  { heap := ex_heap, next := 200,
    functions := [some { blocks := [[100, 101, 102, 103, 104, 105, 106]], if_uses := [104],
                         dom_tree := .node 0 [] }],
    merges := [] }

/-- Instruction memory of the second example: `102` and `104` are two additions of
three components each, reading the same two values. -/
def ex_wide_heap : Nat → nir_instr := fun p =>
  if p = 102 then ex_alu 1 3 [⟨100, [0, 1, 2, 0]⟩, ⟨101, [0, 1, 2, 0]⟩]
  else if p = 104 then ex_alu 1 3 [⟨100, [0, 1, 2, 0]⟩, ⟨101, [2, 1, 0, 0]⟩]
  else .other []

/-- The second example as a state. -/
def ex_wide_state : vec_state :=
  { heap := ex_wide_heap, next := 200, blocks := [[100, 101, 102, 104]],
    if_uses := [], instr_set := [], merges := [] }

/-- The values after a combine of `instr1` (of `n1` components) and `instr2` into
`new_alu`, given the values `val` before it: the lanes of the new value are those
of `instr1` followed by those of `instr2` (what claim C4 establishes), every other
value is unchanged. -/
def combined_val {α : Type} (val : Nat → Nat → α) (instr1 instr2 n1 new_alu : Nat) :
    Nat → Nat → α :=
  fun d l => if d = new_alu then (if l < n1 then val instr1 l else val instr2 (l - n1))
    else val d l

/-- The block lists after the three insertions of a combine (`blocks3` in
`combine_alu`). -/
def combine_blocks3 (s : vec_state) (instr1 : Nat) : List (List Nat) :=
  nir_instr_insert_after (nir_instr_insert_after (nir_instr_insert_after s.blocks instr1 s.next)
    s.next (s.next + 1)) (s.next + 1) (s.next + 2)

/-- What the two rewriting loops of a combine do to one operand in slot `i` of an ALU
consumer `u`. -/
def rewrite_src (E : Env) (instr1 instr2 new_alu n1 : Nat) (u : nir_alu_instr) (i : Nat)
    (s : nir_alu_src) : nir_alu_src :=
  if i < (E.nir_op_infos u.op).num_inputs ∧ s.ssa = instr1 then { s with ssa := new_alu }
  else if i < (E.nir_op_infos u.op).num_inputs ∧ s.ssa = instr2 then
    { ssa := new_alu
      swizzle := shift_swizzle s.swizzle (nir_ssa_alu_instr_src_components E u i) n1 }
  else s

/-! ## Relations kept by the walk -/

/-- Hypotheses on a relation `R s b t` between a state `s`, a progress flag `b` and a
later state `t`: it holds when nothing happens, composes along steps, allows any
change of the set of stacks, and holds with flag `true` across a combine. -/
structure WalkRel (E : Env) (R : vec_state → Bool → vec_state → Prop) : Prop where
  refl : ∀ s, R s false s
  trans : ∀ s1 b1 s2 b2 s3, R s1 b1 s2 → R s2 b2 s3 → R s1 (b1 || b2) s3
  set : ∀ s set, R s false { s with instr_set := set }
  comb : ∀ s instr1 instr2 alu1 alu2, s.heap instr1 = .alu alu1 → s.heap instr2 = .alu alu2 →
    alu1.num_components + alu2.num_components ≤ 4 →
    R s true (combine_alu E s instr1 instr2 alu1 alu2)

/-- The relation behind claims C9 and C10: the log of combines only grows, it grows
when the flag is true, and with flag false the program is unchanged. -/
def progress_rel (s : vec_state) (b : Bool) (t : vec_state) : Prop :=
  ∃ l, t.merges = s.merges ++ l ∧ (b = true → l ≠ []) ∧
    (b = false → l = [] ∧ t.heap = s.heap ∧ t.next = s.next ∧ t.blocks = s.blocks ∧
      t.if_uses = s.if_uses)

/-- The instruction memory after the three instructions of a combine are created
(`heap3` in `combine_alu`). -/
def combine_heap3 (E : Env) (s : vec_state) (alu1 alu2 : nir_alu_instr) : Nat → nir_instr :=
  heap_set (heap_set (heap_set s.heap s.next (.alu (combined_alu E alu1 alu2)))
    (s.next + 1)
    (.alu (nir_swizzle E s.next alu1.bit_size [0, 1, 2, 3] alu1.num_components)))
    (s.next + 2)
    (.alu (nir_swizzle E s.next alu1.bit_size
      (shift_swiz [0, 1, 2, 3] alu2.num_components alu1.num_components)
      alu2.num_components))

/-- An instruction is not an ALU instruction of more than 4 components. -/
def width_ok (i : nir_instr) : Prop :=
  ∀ a, i = .alu a → a.num_components ≤ 4

/-- The instruction a logged combine created is an ALU instruction whose component
count is the sum of the component counts of the two combined instructions and at
most 4. -/
def merge_ok (heap : Nat → nir_instr) (m : merge_record) : Prop :=
  ∃ a, heap m.new_instr = .alu a ∧
    a.num_components = m.alu1.num_components + m.alu2.num_components ∧
    a.num_components ≤ 4

/-- The relation behind claim C1. -/
def width_rel (s : vec_state) (_b : Bool) (t : vec_state) : Prop :=
  s.next ≤ t.next ∧
  (∀ p, width_ok (s.heap p) → width_ok (t.heap p)) ∧
  (∀ p, p ∈ t.blocks.flatten → p ∈ s.blocks.flatten ∨ width_ok (t.heap p)) ∧
  (∀ m, m.new_instr < s.next → merge_ok s.heap m → merge_ok t.heap m) ∧
  (∀ m, m ∈ t.merges → m ∈ s.merges ∨ (m.new_instr < t.next ∧ merge_ok t.heap m))

/-- The second example as a shader of one function. -/
def ex_wide_shader : nir_shader :=
  { heap := ex_wide_heap, next := 200,
    functions := [some { blocks := [[100, 101, 102, 104]], if_uses := [],
                         dom_tree := .node 0 [] }],
    merges := [] }

/-! ## Well-formedness and the invariant of the walk -/

mutual
/-- The blocks of a dominator tree, root first. -/
def tree_blocks : DomTree → List Nat
  | .node block dom_children => block :: forest_blocks dom_children
/-- The blocks of a list of dominator trees. -/
def forest_blocks : List DomTree → List Nat
  | [] => []
  | child :: rest => tree_blocks child ++ forest_blocks rest
end

/-- The instructions on the stacks of a set. -/
def entries (set : List (Nat × List Nat)) : List Nat :=
  (set.map Prod.snd).flatten

/-- An ALU instruction has as many operands as its opcode has inputs. -/
def arity_ok (E : Env) (i : nir_instr) : Prop :=
  ∀ a, i = .alu a → a.src.length = (E.nir_op_infos a.op).num_inputs

/-- The invariant of the walk: linked instructions have distinct addresses below the
allocation pointer and the operand count of their opcode; the stack entries are
distinct linked instructions; the entries of one stack are pairwise `instrs_equal`;
every logged combine was of two equal instructions. -/
structure walk_inv (E : Env) (s : vec_state) : Prop where
  nodup_live : s.blocks.flatten.Nodup
  lt_next : ∀ p, p ∈ s.blocks.flatten → p < s.next
  entries_live : ∀ e, e ∈ entries s.instr_set → e ∈ s.blocks.flatten
  entries_nodup : (entries s.instr_set).Nodup
  arity : ∀ p, p ∈ s.blocks.flatten → arity_ok E (s.heap p)
  stacks_equal : ∀ st, st ∈ s.instr_set → ∀ e, e ∈ st.2 → ∀ e2, e2 ∈ st.2 →
    instrs_equal E (s.heap e) (s.heap e2) = true
  merges_equal : ∀ m, m ∈ s.merges → alu_instrs_equal E m.alu1 m.alu2 = true

/-- The part of the invariant about the instructions still to be visited: `pend` are
the instructions left in the block being walked, `U` the blocks not yet entered.
None of these instructions is on a stack. -/
structure walk_pend (s : vec_state) (U : List Nat) (pend : List Nat) : Prop where
  pend_live : ∀ p, p ∈ pend → p ∈ s.blocks.flatten
  pend_nodup : pend.Nodup
  pend_fresh : ∀ p, p ∈ pend → p ∉ entries s.instr_set
  unvisited : ∀ c, c ∈ U → ∀ p, p ∈ s.blocks.getD c [] →
    p ∉ entries s.instr_set ∧ p ∉ pend

/-- Both rewriting loops of a combine, applied to one instruction. -/
def rewrite_both (E : Env) (instr1 instr2 new_alu n1 : Nat) (i : nir_instr) : nir_instr :=
  rewrite_use2 E instr2 new_alu (new_alu + 2) n1 (rewrite_use1 E instr1 new_alu (new_alu + 1) i)

/-- The relation behind the treatment of several function bodies: a walk leaves the
memory unchanged at every allocated address that is not linked in the body walked,
and links only instructions of the body or new ones. -/
def frame_rel (s : vec_state) (_b : Bool) (t : vec_state) : Prop :=
  s.next ≤ t.next ∧
  (∀ p, p ∉ s.blocks.flatten → p < s.next → t.heap p = s.heap p) ∧
  (∀ p, p ∈ t.blocks.flatten → p ∈ s.blocks.flatten ∨ s.next ≤ p)

/-- The instructions linked in the function bodies of a list of functions. -/
def functions_instrs : List (Option nir_function_impl) → List Nat
  | [] => []
  | none :: rest => functions_instrs rest
  | some impl :: rest => impl.blocks.flatten ++ functions_instrs rest

/-- Instruction memory of the third example: `102` is an addition of three
components, `104` and `105` are additions of two components, all of the same two
values. -/
def ex_stack_heap : Nat → nir_instr := fun p =>
  if p = 102 then ex_alu 1 3 [⟨100, [0, 1, 2, 0]⟩, ⟨101, [0, 1, 2, 0]⟩]
  else if p = 104 then ex_alu 1 2 [⟨100, [0, 1, 0, 0]⟩, ⟨101, [1, 0, 0, 0]⟩]
  else if p = 105 then ex_alu 1 2 [⟨100, [2, 2, 0, 0]⟩, ⟨101, [0, 0, 0, 0]⟩]
  else .other []

/-- The third example as a shader of one function with one block. -/
def ex_stack_shader : nir_shader :=
  { heap := ex_stack_heap, next := 200,
    functions := [some { blocks := [[100, 101, 102, 104, 105]], if_uses := [],
                         dom_tree := .node 0 [] }],
    merges := [] }

/-- The state `nir_opt_vectorize_impl` starts the walk of a function body in. -/
def impl_state (sh : nir_shader) (impl : nir_function_impl) : vec_state :=
  { heap := sh.heap, next := sh.next, blocks := impl.blocks, if_uses := impl.if_uses,
    instr_set := [], merges := sh.merges }

/-! ## Dominance of instructions -/

mutual
/-- Block `a` is a strict ancestor of block `b` in the dominator tree. -/
def strictly_dominates (a b : Nat) : DomTree → Bool
  | .node block dom_children =>
    (block == a && (forest_blocks dom_children).contains b) ||
      strictly_dominates_any a b dom_children
/-- Block `a` is a strict ancestor of block `b` in one of the trees of a list. -/
def strictly_dominates_any (a b : Nat) : List DomTree → Bool
  | [] => false
  | child :: rest => strictly_dominates a b child || strictly_dominates_any a b rest
end

/-- The index of the block that holds instruction `p`. -/
def block_of (blocks : List (List Nat)) (p : Nat) : Option Nat :=
  (List.range blocks.length).find? (fun c => (blocks.getD c []).contains p)

/-- Instruction `p` dominates instruction `q`: both are in one block and `p` comes
first, or the block of `p` is a strict ancestor of the block of `q` in the
dominator tree. -/
def instr_dominates (t : DomTree) (blocks : List (List Nat)) (p q : Nat) : Bool :=
  match block_of blocks p, block_of blocks q with
  | some bp, some bq =>
    if bp = bq then decide ((blocks.getD bp []).indexOf p < (blocks.getD bp []).indexOf q)
    else strictly_dominates bp bq t
  | _, _ => false

/-- Instruction memory of the fourth example.  `a` (100) and `b` (101) are values of
other instructions, `A = a.x + b.x` is at address `94374466540880`, `P = -A` is
103, `B = a.y + b.y` is 104, `C = a.z + b.z` is 105 and `Q = -A` is 106. -/
def ex_sibling_heap : Nat → nir_instr := fun p =>
  if p = 94374466540880 then ex_alu 1 1 [⟨100, [0, 0, 0, 0]⟩, ⟨101, [0, 0, 0, 0]⟩]
  else if p = 103 then ex_alu 2 1 [⟨94374466540880, [0, 0, 0, 0]⟩]
  else if p = 104 then ex_alu 1 1 [⟨100, [1, 0, 0, 0]⟩, ⟨101, [1, 0, 0, 0]⟩]
  else if p = 105 then ex_alu 1 1 [⟨100, [2, 0, 0, 0]⟩, ⟨101, [2, 0, 0, 0]⟩]
  else if p = 106 then ex_alu 2 1 [⟨94374466540880, [0, 0, 0, 0]⟩]
  else .other []

/-- The dominator tree of the fourth example: block 0 with the children 1 and 2, the
two sides of an if. -/
def ex_sibling_tree : DomTree :=
  .node 0 [.node 1 [], .node 2 []]

/-- The fourth example: block 0 holds `a`, `b` and `A`, block 1 holds `P` and `B`,
block 2 holds `C` and `Q`.  The allocation pointer is such that the second
instruction the pass creates by a combine gets the address `94375660088864`. -/
def ex_sibling_shader : nir_shader :=
  { heap := ex_sibling_heap, next := 94375660088861,
    functions := [some { blocks := [[100, 101, 94374466540880], [103, 104], [105, 106]],
                         if_uses := [], dom_tree := ex_sibling_tree }],
    merges := [] }


/-! ## The I/O scalarizers: data model -/

/-- Constants that `nir_lower_io_to_scalar.c` takes from headers outside the
translated sources. -/
structure IoEnv where
  NIR_MAX_VEC_COMPONENTS : Nat
  nir_var_shader_in : Nat
  nir_var_shader_out : Nat
  VARYING_SLOT_VAR0 : Int
  MESA_SHADER_VERTEX : Nat

/-- The intrinsic opcodes that the scalarizers tell apart; every other opcode
is `other`. -/
inductive nir_intrinsic_op
  | load_input
  | store_output
  | load_deref
  | store_deref
  | interp_deref_at_centroid
  | interp_deref_at_sample
  | interp_deref_at_offset
  | other (n : Nat)
  deriving DecidableEq, Repr

/-- An intrinsic instruction: opcode, component count, bit size of the result,
the constant indices `base`, `component` and `write_mask`, and the sources
(SSA definitions, named by the address of the defining instruction). -/
structure nir_intrinsic_instr where
  intrinsic : nir_intrinsic_op
  num_components : Nat
  bit_size : Nat
  base : Int
  component : Nat
  write_mask : Nat
  src : List Nat
  deriving DecidableEq, Repr

/-- The kinds of deref instruction. -/
inductive nir_deref_type
  | var
  | array
  | struct
  | cast
  deriving DecidableEq, Repr

/-- A deref instruction: `var` is used by kind `var`, `parent` by the other
kinds and `index` (`arr.index`) by kind `array`. -/
structure nir_deref_instr where
  deref_type : nir_deref_type
  mode : Nat
  var : Nat
  parent : Nat
  index : Nat
  deriving DecidableEq, Repr

/-- Instructions as the scalarizers see them. `vec` is the vector construct
made by `nir_vec`, `channel` the one-lane move made by `nir_channel`; `other`
is any other instruction, with its sources. -/
inductive io_instr
  | intrinsic (intr : nir_intrinsic_instr)
  | deref (d : nir_deref_instr)
  | vec (comp : List Nat)
  | channel (value : Nat) (c : Nat)
  | other (srcs : List Nat)
  deriving DecidableEq, Repr

/-- Modelled from the spec: the GLSL types as far as the early scalarizer looks
at them: scalars and vectors with the bit size of their base type, matrices,
structures, and arrays of these. -/
inductive glsl_type
  | scalar (bits : Nat)
  | vector (bits : Nat) (components : Nat)
  | matrix (bits : Nat)
  | struct
  | array (element : glsl_type) (length : Nat)
  deriving DecidableEq, Repr

/-- A variable: its type and the fields of `data` that the early scalarizer
reads or writes. -/
structure nir_variable where
  type : glsl_type
  mode : Nat
  location : Int
  location_frac : Nat
  patch : Bool
  always_active_io : Bool
  deriving DecidableEq, Repr

/-- A shader as the scalarizers see it: instructions and variables live in
heaps, `functions` holds for every function its body (if it has one) as the list
of its blocks, `if_uses` the conditions of the ifs, `var_list` the list of
declared variables. `next` and `next_var` are the next free addresses. -/
structure io_shader where
  heap : Nat → io_instr
  next : Nat
  functions : List (Option (List (List Nat)))
  if_uses : List Nat
  stage : Nat
  vars : Nat → nir_variable
  next_var : Nat
  var_list : List Nat

/-- All instructions that are linked into a block of a function body. -/
def io_instrs (functions : List (Option (List (List Nat)))) : List Nat :=
  (functions.flatMap (fun f => (f.getD []).flatten))

/-- Replace source `d` by `new_src` in one source slot. -/
def io_rewrite_slot (d new_src : Nat) (x : Nat) : Nat :=
  if x = d then new_src else x

/-- Replace every source of one instruction that reads `d` by `new_src`. -/
def io_rewrite_src (d new_src : Nat) : io_instr → io_instr
  | .intrinsic intr =>
      .intrinsic { intr with src := intr.src.map (io_rewrite_slot d new_src) }
  | .deref dr =>
      .deref { dr with
               parent := if dr.deref_type = .var then dr.parent
                         else io_rewrite_slot d new_src dr.parent
               index := if dr.deref_type = .array then io_rewrite_slot d new_src dr.index
                        else dr.index }
  | .vec comp => .vec (comp.map (io_rewrite_slot d new_src))
  | .channel value c => .channel (io_rewrite_slot d new_src value) c
  | .other srcs => .other (srcs.map (io_rewrite_slot d new_src))

/-- `nir_ssa_def_rewrite_uses`: every linked instruction and every if that
reads `d` reads `new_src` instead. -/
def nir_ssa_def_rewrite_uses (s : io_shader) (d new_src : Nat) : io_shader :=
  { s with
    heap := fun p => if p ∈ io_instrs s.functions then io_rewrite_src d new_src (s.heap p)
                     else s.heap p
    if_uses := rewrite_if_uses d new_src s.if_uses }

/-- Link `new_instr` right before instruction `before`. -/
def nir_instr_insert_before (blocks : List (List Nat)) (before new_instr : Nat) :
    List (List Nat) :=
  blocks.map (fun b => b.flatMap (fun p => if p = before then [new_instr, p] else [p]))

/-- `nir_builder_instr_insert` with the cursor of the builder before instruction
`cursor`: the new instruction gets the next free address and is linked right
before `cursor` (the cursor then stands after the new instruction, which is
still right before `cursor`). Returns the address with the shader. -/
def nir_builder_instr_insert (s : io_shader) (cursor : Nat) (instr : io_instr) :
    Nat × io_shader :=
  (s.next,
   { s with
     heap := fun q => if q = s.next then instr else s.heap q
     next := s.next + 1
     functions := s.functions.map (Option.map (fun bs => nir_instr_insert_before bs cursor s.next)) })

/-- `nir_instr_remove` on a shader. -/
def io_instr_remove (s : io_shader) (instr : Nat) : io_shader :=
  { s with functions := s.functions.map (Option.map (fun bs => nir_instr_remove bs instr)) }

/-- Modelled from the spec: `nir_vec` builds one vector construct of the given
scalar results at the cursor. -/
def nir_vec (s : io_shader) (cursor : Nat) (comp : List Nat) : Nat × io_shader :=
  nir_builder_instr_insert s cursor (.vec comp)

/-- Modelled from the spec: `nir_channel` builds a move of lane `c` of `value`
at the cursor. -/
def nir_channel (s : io_shader) (cursor : Nat) (value c : Nat) : Nat × io_shader :=
  nir_builder_instr_insert s cursor (.channel value c)

/-- Modelled from the spec: `nir_ssa_for_src` of a source in SSA form with the
asked number of components is the definition the source names. -/
def nir_ssa_for_src (src : Nat) : Nat := src


/-! ## The late scalarizer `nir_lower_io_to_scalar` -/

/-- The single-component load that `lower_load_input_to_scalar` creates for
channel `i` (lines 44-54): same opcode, one component, the bit size and base of
`intr`, component offset `component + i`, and a copy of the offset source. -/
def load_input_chan (intr : nir_intrinsic_instr) (i : Nat) : nir_intrinsic_instr :=
  { intrinsic := intr.intrinsic
    num_components := 1
    bit_size := intr.bit_size
    base := intr.base
    component := intr.component + i
    write_mask := 0
    src := [intr.src.getD 0 0] }

/-- The loop of `lower_load_input_to_scalar` (lines 43-57): the loads of the
channels `0 .. n-1` are inserted at the cursor, `loads[i]` is the result of
load `i`. -/
def lower_load_input_loop (intr : nir_intrinsic_instr) (cursor n : Nat) (s : io_shader) :
    List Nat × io_shader :=
  (List.range n).foldl
    (fun acc i =>
      let r := nir_builder_instr_insert acc.2 cursor (.intrinsic (load_input_chan intr i))
      (acc.1 ++ [r.1], r.2))
    ([], s)

/-- `lower_load_input_to_scalar` (lines 34-64) for the load `intr` at address
`instr`. The array `loads` has `NIR_MAX_VEC_COMPONENTS` slots: with more
components the loop writes past its end, which is the result `none`. -/
def lower_load_input_to_scalar (E : IoEnv) (s : io_shader) (instr : Nat)
    (intr : nir_intrinsic_instr) : Option io_shader :=
  if intr.num_components > E.NIR_MAX_VEC_COMPONENTS then none
  else
    let r := lower_load_input_loop intr instr intr.num_components s
    let v := nir_vec r.2 instr r.1
    some (io_instr_remove (nir_ssa_def_rewrite_uses v.2 instr v.1) instr)

/-- The single-component store that `lower_store_output_to_scalar` creates for
channel `i` (lines 77-88), `chan` being lane `i` of the value. -/
def store_output_chan (intr : nir_intrinsic_instr) (i chan : Nat) : nir_intrinsic_instr :=
  { intrinsic := intr.intrinsic
    num_components := 1
    bit_size := 0
    base := intr.base
    component := intr.component + i
    write_mask := 1
    src := [chan, intr.src.getD 1 0] }

/-- One round of the loop of `lower_store_output_to_scalar` (lines 74-90). -/
def lower_store_output_step (intr : nir_intrinsic_instr) (cursor value : Nat)
    (s : io_shader) (i : Nat) : io_shader :=
  if intr.write_mask &&& (1 <<< i) = 0 then s
  else
    let c := nir_channel s cursor value i
    (nir_builder_instr_insert c.2 cursor (.intrinsic (store_output_chan intr i c.1))).2

/-- `lower_store_output_to_scalar` (lines 66-94) for the store `intr` at address
`instr`. -/
def lower_store_output_to_scalar (s : io_shader) (instr : Nat)
    (intr : nir_intrinsic_instr) : io_shader :=
  let value := nir_ssa_for_src (intr.src.getD 0 0)
  let s1 := (List.range intr.num_components).foldl
    (lower_store_output_step intr instr value) s
  io_instr_remove s1 instr

/-- The body of the instruction loop of `nir_lower_io_to_scalar` (lines 103-126)
for the instruction at address `instr`. -/
def lower_io_instr (E : IoEnv) (mask : Nat) (s : io_shader) (instr : Nat) :
    Option io_shader :=
  match s.heap instr with
  | .intrinsic intr =>
      if intr.num_components = 1 then some s
      else
        match intr.intrinsic with
        | .load_input =>
            if mask &&& E.nir_var_shader_in ≠ 0 then lower_load_input_to_scalar E s instr intr
            else some s
        | .store_output =>
            if mask &&& E.nir_var_shader_out ≠ 0 then
              some (lower_store_output_to_scalar s instr intr)
            else some s
        | _ => some s
  | _ => some s

/-- Block `bi` of function `fi` (empty if there is none). -/
def io_block (functions : List (Option (List (List Nat)))) (fi bi : Nat) : List Nat :=
  ((functions.getD fi none).getD []).getD bi []

/-- `nir_foreach_instr_safe` over one block with the loop body `body`: the loop
visits the instructions that the block holds when the loop starts; the bodies of
the scalarizers insert only before the visited instruction and remove only the
visited instruction. -/
def io_foreach_instr {σ : Type} (body : σ → Nat → Option σ) (s : σ) (block : List Nat) :
    Option σ :=
  block.foldlM body s

/-- `nir_foreach_block` over the body of function `fi`, if it has one;
`functions` reads the function list of the shader in the state. -/
def io_foreach_block {σ : Type} (functions : σ → List (Option (List (List Nat))))
    (body : σ → Nat → Option σ) (s : σ) (fi : Nat) : Option σ :=
  match (functions s).getD fi none with
  | none => some s
  | some blocks =>
      (List.range blocks.length).foldlM
        (fun s bi => io_foreach_instr body s (io_block (functions s) fi bi)) s

/-- `nir_foreach_function` with the two inner loops: the loop nest of both
scalarizers. -/
def io_foreach_function {σ : Type} (functions : σ → List (Option (List (List Nat))))
    (body : σ → Nat → Option σ) (s : σ) : Option σ :=
  (List.range (functions s).length).foldlM
    (fun s fi => io_foreach_block functions body s fi) s

/-- `nir_lower_io_to_scalar` (lines 96-130). -/
def nir_lower_io_to_scalar (E : IoEnv) (shader : io_shader) (mask : Nat) :
    Option io_shader :=
  io_foreach_function io_shader.functions (lower_io_instr E mask) shader

/-! ## Describing the result of the scalarizers -/

/-- The block `b` with every occurrence of `a` replaced by the list `l`. -/
def io_splice (a : Nat) (l : List Nat) (b : List Nat) : List Nat :=
  b.flatMap (fun p => if p = a then l else [p])

/-- All blocks of all function bodies with `a` replaced by the list `l`. -/
def io_splice_all (a : Nat) (l : List Nat) (functions : List (Option (List (List Nat)))) :
    List (Option (List (List Nat))) :=
  functions.map (Option.map (List.map (io_splice a l)))

/-- The heap after `lower_load_input_to_scalar` has created its instructions and
before it redirects the uses: the loads of the channels at the addresses from
`s.next` on, then the vector of their results. -/
def lowered_load_heap (s : io_shader) (intr : nir_intrinsic_instr) : Nat → io_instr :=
  fun q =>
    if q = s.next + intr.num_components then .vec (List.range' s.next intr.num_components)
    else if s.next ≤ q ∧ q < s.next + intr.num_components then
      .intrinsic (load_input_chan intr (q - s.next))
    else s.heap q

/-! ## Concrete data for closed statements on the scalarizers -/

/-- Example values of the constants: four components at most, mode bits 1 and 2
for inputs and outputs, first generic slot 32, vertex stage 0. -/
def ex_io_env : IoEnv :=
  { NIR_MAX_VEC_COMPONENTS := 4
    nir_var_shader_in := 1
    nir_var_shader_out := 2
    VARYING_SLOT_VAR0 := 32
    MESA_SHADER_VERTEX := 0 }

/-- A variable that no example reads. -/
def ex_io_var : nir_variable :=
  { type := .scalar 32, mode := 0, location := 0, location_frac := 0, patch := false,
    always_active_io := false }

/-- One block `o = ..; x = load_input(o) (2 components, base 7, component 1);
y = f(x, x); store_output(y, o) (3 components, write mask 0b101, base 5)`, and
an if on `x`. -/
def ex_late_heap : Nat → io_instr
  | 0 => .other []
  | 1 => .intrinsic ⟨.load_input, 2, 32, 7, 1, 0, [0]⟩
  | 2 => .other [1, 1]
  | 3 => .intrinsic ⟨.store_output, 3, 0, 5, 0, 5, [2, 0]⟩
  | _ => .other []

/-- The shader of `ex_late_heap`: a function without body and one with the
block. -/
def ex_late_shader : io_shader :=
  { heap := ex_late_heap
    next := 4
    functions := [none, some [[0, 1, 2, 3]]]
    if_uses := [1]
    stage := 0
    vars := fun _ => ex_io_var
    next_var := 0
    var_list := [] }

/-- The channels among `chs` whose write-mask bit is set, in the order of
`chs`: the channels for which the loop of `lower_store_output_to_scalar` emits
a store. -/
def store_channels (write_mask : Nat) (chs : List Nat) : List Nat :=
  chs.filter (fun i => !decide (write_mask &&& (1 <<< i) = 0))

/-- The heap after the loop of `lower_store_output_to_scalar` has emitted the
stores of the channels `chs`: from `s.next` on, for every channel the move of
its lane of `value` followed by the store of that move. -/
def lowered_store_heap (s : io_shader) (intr : nir_intrinsic_instr) (value : Nat)
    (chs : List Nat) : Nat → io_instr :=
  fun q =>
    if s.next ≤ q ∧ q < s.next + 2 * chs.length then
      if (q - s.next) % 2 = 0 then .channel value (chs.getD ((q - s.next) / 2) 0)
      else .intrinsic (store_output_chan intr (chs.getD ((q - s.next) / 2) 0) (q - 1))
    else s.heap q

/-- Whether an instruction is an intrinsic with opcode `op`. -/
def is_intrinsic_op (op : nir_intrinsic_op) : io_instr → Bool
  | .intrinsic intr => decide (intr.intrinsic = op)
  | _ => false

/-- The number of store_output instructions among the instructions created
between the shaders `s` and `t`. -/
def io_new_stores (s t : io_shader) : Nat :=
  ((List.range' s.next (t.next - s.next)).filter
    (fun q => is_intrinsic_op .store_output (t.heap q))).length

/-- The number of set bits of `m`; a set bit `i` of `m` has `i < 2 ^ i ≤ m`. -/
def popcount (m : Nat) : Nat :=
  ((List.range m).filter (fun i => m.testBit i)).length

/-- The shape of a function list: which functions have a body, and the number
of blocks of each body. -/
def io_shape (functions : List (Option (List (List Nat)))) : List (Option Nat) :=
  functions.map (Option.map List.length)

/-- What every step of a scalarizer keeps, for predicates `V` and `ok` on states
and addresses: `V` and `ok` stay true, the shape stays, and an instruction of a
block is `ok` or was in the block before. -/
structure IoStep {σ : Type} (functions : σ → List (Option (List (List Nat))))
    (V ok : σ → Nat → Prop) (s t : σ) : Prop where
  keep_V : ∀ x, V s x → V t x
  keep_ok : ∀ x, ok s x → ok t x
  shape : io_shape (functions t) = io_shape (functions s)
  blocks : ∀ fi bi x, x ∈ io_block (functions t) fi bi →
    ok t x ∨ x ∈ io_block (functions s) fi bi

/-- Whether the loop body of `nir_lower_io_to_scalar` lowers the instruction:
an intrinsic with a component count other than 1 that is a load_input with the
input mode in the mask or a store_output with the output mode in the mask. -/
def io_matches (E : IoEnv) (mask : Nat) : io_instr → Bool
  | .intrinsic intr =>
      !decide (intr.num_components = 1) &&
        ((decide (intr.intrinsic = .load_input) && !decide (mask &&& E.nir_var_shader_in = 0)) ||
         (decide (intr.intrinsic = .store_output) &&
            !decide (mask &&& E.nir_var_shader_out = 0)))
  | _ => false

/-- The array `loads` of `lower_load_input_to_scalar` is large enough for the
instruction if it is a load_input that is not yet scalar. -/
def io_loads_fit (E : IoEnv) (x : io_instr) : Prop :=
  ∀ intr, x = .intrinsic intr → intr.intrinsic = .load_input → intr.num_components ≠ 1 →
    intr.num_components ≤ E.NIR_MAX_VEC_COMPONENTS

/-- Whether an instruction is a vector construct. -/
def io_is_vec : io_instr → Bool
  | .vec _ => true
  | _ => false

/-- The instruction with `f` applied to every source. -/
def io_map_srcs (f : Nat → Nat) : io_instr → io_instr
  | .intrinsic intr => .intrinsic { intr with src := intr.src.map f }
  | .deref dr =>
      .deref { dr with
               parent := if dr.deref_type = .var then dr.parent else f dr.parent
               index := if dr.deref_type = .array then f dr.index else dr.index }
  | .vec comp => .vec (comp.map f)
  | .channel value c => .channel (f value) c
  | .other srcs => .other (srcs.map f)

/-- What one round of the loop body of `nir_lower_io_to_scalar` that lowers the
instruction `a` does to the shader: new instructions get the addresses from
`s.next` on and have one component if they are intrinsics, the blocks hold some of them in
place of `a`, and every older instruction is as before or, `a` being a load, reads
a new vector where it read `a`. -/
structure LateStep (E : IoEnv) (mask : Nat) (a : Nat) (s t : io_shader) : Prop where
  lowered : io_matches E mask (s.heap a) = true
  next_le : s.next ≤ t.next
  functions : ∃ L, t.functions = io_splice_all a L s.functions ∧
    ∀ x ∈ L, s.next ≤ x ∧ x < t.next
  fresh : ∀ p, s.next ≤ p → p < t.next →
    ∀ intr, t.heap p = .intrinsic intr → intr.num_components = 1
  old : ∀ p, ¬ (s.next ≤ p ∧ p < t.next) →
    t.heap p = s.heap p ∨
    ∃ v, s.next ≤ v ∧ v < t.next ∧ io_is_vec (t.heap v) = true ∧
      is_intrinsic_op .load_input (s.heap a) = true ∧
      t.heap p = io_rewrite_src a v (s.heap p)
  if_uses : t.if_uses = s.if_uses ∨
    ∃ v, s.next ≤ v ∧ v < t.next ∧ t.if_uses = rewrite_if_uses a v s.if_uses
  vars : t.vars = s.vars ∧ t.next_var = s.next_var ∧ t.var_list = s.var_list ∧
    t.stage = s.stage

/-- What `nir_lower_io_to_scalar` keeps between the shader `s0` it starts on and
every later shader `s`: the linked instructions have addresses below `next` and
loads that fit; the instructions created since `s0` are none that the pass
lowers; an instruction of `s0` is as in `s0` except that a source that read a
lowered load reads a new vector; the instructions of `s0` that a block still
holds are those of `s0` without the removed ones `R`, in the same order. -/
structure LateInv (E : IoEnv) (mask : Nat) (s0 s : io_shader) : Prop where
  base : ∀ p ∈ io_instrs s.functions, p < s.next ∧ io_loads_fit E (s.heap p)
  next_le : s0.next ≤ s.next
  fresh : ∀ p, s0.next ≤ p → p < s.next → io_matches E mask (s.heap p) = false
  heap : ∀ p, p < s0.next → ∃ f : Nat → Nat, s.heap p = io_map_srcs f (s0.heap p) ∧
    ∀ x, f x = x ∨
      (x < s0.next ∧ io_matches E mask (s0.heap x) = true ∧
        is_intrinsic_op .load_input (s0.heap x) = true ∧
        s0.next ≤ f x ∧ f x < s.next ∧ io_is_vec (s.heap (f x)) = true)
  removed : ∃ R : List Nat, (∀ x ∈ R, io_matches E mask (s0.heap x) = true) ∧
    ∀ fi bi, (io_block s.functions fi bi).filter (fun p => decide (p < s0.next))
      = (io_block s0.functions fi bi).filter (fun p => decide (p ∉ R))

/-! ## The early scalarizer `nir_lower_io_to_scalar_early` -/

/-- Modelled from the spec: the type with its array dimensions removed. -/
def glsl_without_array : glsl_type → glsl_type
  | .array element _ => glsl_without_array element
  | .scalar bits => .scalar bits
  | .vector bits components => .vector bits components
  | .matrix bits => .matrix bits
  | .struct => .struct

/-- Modelled from the spec: whether the base type has 64 bits. -/
def glsl_type_is_64bit : glsl_type → Bool
  | .scalar bits => bits == 64
  | .vector bits _ => bits == 64
  | .matrix bits => bits == 64
  | _ => false

/-- Modelled from the spec: whether the type is a matrix. -/
def glsl_type_is_matrix : glsl_type → Bool
  | .matrix _ => true
  | _ => false

/-- Modelled from the spec: whether the type is a structure. -/
def glsl_type_is_struct : glsl_type → Bool
  | .struct => true
  | _ => false

/-- Modelled from the spec: the type of one channel: the scalar of the base
type, under the same array dimensions. -/
def glsl_channel_type : glsl_type → glsl_type
  | .array element length => .array (glsl_channel_type element) length
  | .scalar bits => .scalar bits
  | .vector bits _ => .scalar bits
  | .matrix bits => .scalar bits
  | .struct => .struct

/-- The state of one run of `nir_lower_io_to_scalar_early`: the shader and the
two tables `split_inputs` and `split_outputs`. A table maps a variable to its
array of four channel variables; an entry of the list is a key with its
array. `rewritten` is a ghost log: the instruction and the root variable of
every call of one of the two lowering functions that returned. -/
structure early_state where
  shader : io_shader
  split_inputs : List (Nat × List (Option Nat))
  split_outputs : List (Nat × List (Option Nat))
  rewritten : List (Nat × Nat)

/-- `_mesa_hash_table_search` on a table with pointer keys: the array stored
for `var`, if there is one. -/
def io_table_search : List (Nat × List (Option Nat)) → Nat → Option (List (Option Nat))
  | [], _ => none
  | e :: rest, var => if e.1 = var then some e.2 else io_table_search rest var

/-- `get_channel_variables` (lines 132-145): the table after the call; a variable
without entry gets an array of four empty slots (`calloc`). The returned array
`chan_vars` is the entry of `var` in this table. -/
def get_channel_variables (ht : List (Nat × List (Option Nat))) (var : Nat) :
    List (Nat × List (Option Nat)) :=
  match io_table_search ht var with
  | none => ht ++ [(var, [none, none, none, none])]
  | some _ => ht

/-- The assignment `chan_vars[k] = chan_var` on the array of `var`. -/
def io_table_set (ht : List (Nat × List (Option Nat))) (var k chan_var : Nat) :
    List (Nat × List (Option Nat)) :=
  ht.map (fun e => if e.1 = var then (e.1, e.2.set k (some chan_var)) else e)

/-- The channel variable of channel `i` of `var` (lines 189-199 and 244-253):
slot `location_frac + i` of the array of `var`, filled on first use with a clone
of `var` that has `location_frac + i` as `location_frac` and the channel type as
type and is added to the variable list. Reading a slot outside the array, or
the array of a variable without entry, is the result `none`. -/
def io_chan_var (sh : io_shader) (ht : List (Nat × List (Option Nat))) (var i : Nat) :
    Option (Nat × io_shader × List (Nat × List (Option Nat))) :=
  let k := (sh.vars var).location_frac + i
  match io_table_search ht var with
  | none => none
  | some chan_vars =>
      match chan_vars[k]? with
      | none => none
      | some (some chan_var) => some (chan_var, sh, ht)
      | some none =>
          let v := sh.vars var
          let chan : nir_variable :=
            { v with location_frac := v.location_frac + i, type := glsl_channel_type v.type }
          some (sh.next_var,
            { sh with
              vars := fun q => if q = sh.next_var then chan else sh.vars q
              next_var := sh.next_var + 1
              var_list := sh.var_list ++ [sh.next_var] },
            io_table_set ht var k sh.next_var)

/-- Modelled from the spec: `nir_build_deref_var` builds at the cursor the deref
of the variable `var`, with the mode of the variable. -/
def nir_build_deref_var (sh : io_shader) (cursor var : Nat) : Nat × io_shader :=
  nir_builder_instr_insert sh cursor
    (.deref { deref_type := .var, mode := (sh.vars var).mode, var := var, parent := 0,
              index := 0 })

/-- The mode of the deref instruction at `d`. -/
def io_deref_mode (sh : io_shader) (d : Nat) : Nat :=
  match sh.heap d with
  | .deref dr => dr.mode
  | _ => 0

/-- Modelled from the spec: `nir_build_deref_array` builds at the cursor the
array step with index `index` on the deref `parent`, with the mode of `parent`. -/
def nir_build_deref_array (sh : io_shader) (cursor parent index : Nat) : Nat × io_shader :=
  nir_builder_instr_insert sh cursor
    (.deref { deref_type := .array, mode := io_deref_mode sh parent, var := 0,
              parent := parent, index := index })

/-- `clone_deref_array` (lines 154-169) with the recursion depth bounded by
`fuel`: the result `none` stands for a source head or parent that is no deref
instruction (the cast of `nir_src_as_deref` fails), for the failing assertion
that a step with a parent is an array step, and for the end of the fuel. -/
def clone_deref_array : Nat → io_shader → Nat → Nat → Nat → Option (Nat × io_shader)
  | 0, _, _, _, _ => none
  | fuel + 1, sh, cursor, dst_tail, src_head =>
      match sh.heap src_head with
      | .deref d =>
          if d.deref_type = .var then some (dst_tail, sh)
          else
            match sh.heap d.parent with
            | .deref _ =>
                if d.deref_type = .array then
                  match clone_deref_array fuel sh cursor dst_tail d.parent with
                  | none => none
                  | some r => some (nir_build_deref_array r.2 cursor r.1 (nir_ssa_for_src d.index))
                else none
            | _ => none
      | _ => none

/-- The single-component intrinsic that `lower_load_to_scalar_early` creates
(lines 201-216): same opcode, one component, the bit size of `intr`, the new
deref as first source and, for interp_deref_at_offset and
interp_deref_at_sample, a copy of the second source. -/
def load_early_chan (intr : nir_intrinsic_instr) (deref : Nat) : nir_intrinsic_instr :=
  { intrinsic := intr.intrinsic
    num_components := 1
    bit_size := intr.bit_size
    base := 0
    component := 0
    write_mask := 0
    src := if intr.intrinsic = .interp_deref_at_offset ∨
              intr.intrinsic = .interp_deref_at_sample then
             [deref, intr.src.getD 1 0]
           else [deref] }

/-- One round of the loop of `lower_load_to_scalar_early` (lines 188-219) for
channel `i`, on the results `loads` so far, the shader and the table. -/
def lower_load_early_step (fuel : Nat) (intr : nir_intrinsic_instr) (cursor var : Nat)
    (acc : List Nat × io_shader × List (Nat × List (Option Nat))) (i : Nat) :
    Option (List Nat × io_shader × List (Nat × List (Option Nat))) :=
  match io_chan_var acc.2.1 acc.2.2 var i with
  | none => none
  | some (chan_var, sh1, ht1) =>
      let dv := nir_build_deref_var sh1 cursor chan_var
      match clone_deref_array fuel dv.2 cursor dv.1 (intr.src.getD 0 0) with
      | none => none
      | some (deref, sh2) =>
          let r := nir_builder_instr_insert sh2 cursor (.intrinsic (load_early_chan intr deref))
          some (acc.1 ++ [r.1], r.2, ht1)

/-- The body of `lower_load_to_scalar_early` (lines 176-227) on the table `ht`
that `get_channel_variables` returned the array from. The array `loads` has
`NIR_MAX_VEC_COMPONENTS` slots: with more components the loop writes past its
end, which is the result `none`. -/
def lower_load_early_body (E : IoEnv) (fuel : Nat) (sh : io_shader)
    (ht : List (Nat × List (Option Nat))) (instr : Nat) (intr : nir_intrinsic_instr)
    (var : Nat) : Option (io_shader × List (Nat × List (Option Nat))) :=
  if intr.num_components > E.NIR_MAX_VEC_COMPONENTS then none
  else
    match (List.range intr.num_components).foldlM
        (lower_load_early_step fuel intr instr var) ([], sh, ht) with
    | none => none
    | some (loads, sh1, ht1) =>
        let v := nir_vec sh1 instr loads
        some (io_instr_remove (nir_ssa_def_rewrite_uses v.2 instr v.1) instr, ht1)

/-- `lower_load_to_scalar_early` (lines 171-228) for the intrinsic `intr` at
address `instr` with root variable `var`. -/
def lower_load_to_scalar_early (E : IoEnv) (fuel : Nat) (s : early_state) (instr : Nat)
    (intr : nir_intrinsic_instr) (var : Nat) : Option early_state :=
  if (s.shader.vars var).mode = E.nir_var_shader_in then
    match lower_load_early_body E fuel s.shader (get_channel_variables s.split_inputs var)
        instr intr var with
    | none => none
    | some r =>
        some { s with shader := r.1, split_inputs := r.2,
                      rewritten := s.rewritten ++ [(instr, var)] }
  else
    match lower_load_early_body E fuel s.shader (get_channel_variables s.split_outputs var)
        instr intr var with
    | none => none
    | some r =>
        some { s with shader := r.1, split_outputs := r.2,
                      rewritten := s.rewritten ++ [(instr, var)] }

/-- The single-component store that `lower_store_output_to_scalar_early`
creates (lines 255-266): same opcode, one component, write mask 1, the new deref
as first source and lane `i` of the value as second. -/
def store_early_chan (intr : nir_intrinsic_instr) (deref chan : Nat) : nir_intrinsic_instr :=
  { intrinsic := intr.intrinsic
    num_components := 1
    bit_size := 0
    base := 0
    component := 0
    write_mask := 1
    src := [deref, chan] }

/-- One round of the loop of `lower_store_output_to_scalar_early` (lines
240-269) for channel `i`. -/
def lower_store_early_step (fuel : Nat) (intr : nir_intrinsic_instr)
    (cursor var value : Nat) (acc : io_shader × List (Nat × List (Option Nat))) (i : Nat) :
    Option (io_shader × List (Nat × List (Option Nat))) :=
  if intr.write_mask &&& (1 <<< i) = 0 then some acc
  else
    match io_chan_var acc.1 acc.2 var i with
    | none => none
    | some (chan_var, sh1, ht1) =>
        let dv := nir_build_deref_var sh1 cursor chan_var
        match clone_deref_array fuel dv.2 cursor dv.1 (intr.src.getD 0 0) with
        | none => none
        | some (deref, sh2) =>
            let c := nir_channel sh2 cursor value i
            some ((nir_builder_instr_insert c.2 cursor
                    (.intrinsic (store_early_chan intr deref c.1))).2, ht1)

/-- `lower_store_output_to_scalar_early` (lines 230-273) for the store `intr`
at address `instr` with root variable `var`. -/
def lower_store_output_to_scalar_early (fuel : Nat) (s : early_state) (instr : Nat)
    (intr : nir_intrinsic_instr) (var : Nat) : Option early_state :=
  let value := nir_ssa_for_src (intr.src.getD 1 0)
  match (List.range intr.num_components).foldlM
      (lower_store_early_step fuel intr instr var value)
      (s.shader, get_channel_variables s.split_outputs var) with
  | none => none
  | some r =>
      some { s with shader := io_instr_remove r.1 instr, split_outputs := r.2,
                    rewritten := s.rewritten ++ [(instr, var)] }

/-- Modelled from the spec: `nir_deref_instr_get_variable` follows the parents
of a deref to the deref of the root variable, at most `fuel` steps far; `none`
stands for a cast on the way (the null result, which the caller dereferences),
for a parent that is no deref instruction, and for the end of the fuel. -/
def nir_deref_instr_get_variable : Nat → io_shader → Nat → Option Nat
  | 0, _, _ => none
  | fuel + 1, sh, d =>
      match sh.heap d with
      | .deref dr =>
          if dr.deref_type = .var then some dr.var
          else if dr.deref_type = .cast then none
          else nir_deref_instr_get_variable fuel sh dr.parent
      | _ => none

/-- The eligibility filter of `nir_lower_io_to_scalar_early` (lines 317-341):
whether an access with deref mode `mode` to the variable `v` is skipped. -/
def io_early_skips (E : IoEnv) (stage mode : Nat) (v : nir_variable) : Bool :=
  v.patch ||
  glsl_type_is_64bit (glsl_without_array v.type) ||
  (!(decide (stage = E.MESA_SHADER_VERTEX) && decide (mode = E.nir_var_shader_in)) &&
    decide (v.location < E.VARYING_SLOT_VAR0) && decide (v.location ≥ 0)) ||
  v.always_active_io ||
  (glsl_type_is_matrix (glsl_without_array v.type) ||
    glsl_type_is_struct (glsl_without_array v.type))

/-- The body of the instruction loop of `nir_lower_io_to_scalar_early` (lines
296-361) for the instruction at address `instr`. -/
def lower_io_early_instr (E : IoEnv) (fuel mask : Nat) (s : early_state) (instr : Nat) :
    Option early_state :=
  match s.shader.heap instr with
  | .intrinsic intr =>
      if intr.num_components = 1 then some s
      else if intr.intrinsic ≠ .load_deref ∧ intr.intrinsic ≠ .store_deref ∧
          intr.intrinsic ≠ .interp_deref_at_centroid ∧
          intr.intrinsic ≠ .interp_deref_at_sample ∧
          intr.intrinsic ≠ .interp_deref_at_offset then some s
      else
        match s.shader.heap (intr.src.getD 0 0) with
        | .deref deref =>
            let mode := deref.mode
            if mode &&& mask = 0 then some s
            else
              match nir_deref_instr_get_variable fuel s.shader (intr.src.getD 0 0) with
              | none => none
              | some var =>
                  if io_early_skips E s.shader.stage mode (s.shader.vars var) then some s
                  else if intr.intrinsic = .store_deref then
                    if mask &&& E.nir_var_shader_out ≠ 0 ∧ mode = E.nir_var_shader_out then
                      lower_store_output_to_scalar_early fuel s instr intr var
                    else some s
                  else
                    if (mask &&& E.nir_var_shader_in ≠ 0 ∧ mode = E.nir_var_shader_in) ∨
                        (mask &&& E.nir_var_shader_out ≠ 0 ∧ mode = E.nir_var_shader_out) then
                      lower_load_to_scalar_early E fuel s instr intr var
                    else some s
        | _ => none
  | _ => some s

/-- The sources of an instruction. -/
def io_srcs : io_instr → List Nat
  | .intrinsic intr => intr.src
  | .deref dr =>
      (if dr.deref_type = .var then [] else [dr.parent]) ++
        (if dr.deref_type = .array then [dr.index] else [])
  | .vec comp => comp
  | .channel value _ => [value]
  | .other srcs => srcs

/-- Whether a linked instruction or an if reads the result of `d`. -/
def io_has_uses (sh : io_shader) (d : Nat) : Bool :=
  (io_instrs sh.functions).any (fun p => decide (d ∈ io_srcs (sh.heap p))) ||
    decide (d ∈ sh.if_uses)

/-- Modelled from the spec: `nir_deref_instr_remove_if_unused` unlinks the deref
`d` if nothing reads it, and then in the same way its parent, at most `fuel`
steps far. -/
def nir_deref_instr_remove_if_unused : Nat → io_shader → Nat → io_shader
  | 0, sh, _ => sh
  | fuel + 1, sh, d =>
      match sh.heap d with
      | .deref dr =>
          if io_has_uses sh d then sh
          else if dr.deref_type = .var then io_instr_remove sh d
          else nir_deref_instr_remove_if_unused fuel (io_instr_remove sh d) dr.parent
      | _ => sh

/-- Modelled from the spec: the body of the sweep `nir_remove_dead_derefs` for
the instruction at `p`. -/
def remove_dead_deref_instr (fuel : Nat) (sh : io_shader) (p : Nat) : Option io_shader :=
  match sh.heap p with
  | .deref _ => some (nir_deref_instr_remove_if_unused fuel sh p)
  | _ => some sh

/-- Modelled from the spec: `nir_remove_dead_derefs` removes the deref chains
that nothing reads any more, in one sweep over all instructions. -/
def nir_remove_dead_derefs (fuel : Nat) (sh : io_shader) : io_shader :=
  (io_foreach_function io_shader.functions (remove_dead_deref_instr fuel) sh).getD sh

/-- The two loops `hash_table_foreach` of `nir_lower_io_to_scalar_early` (lines
367-381): `exec_node_remove` takes every key of the table out of the variable
list. -/
def io_remove_split (ht : List (Nat × List (Option Nat))) (var_list : List Nat) : List Nat :=
  ht.foldl (fun l e => l.filter (fun v => v != e.1)) var_list

/-- The loops of `nir_lower_io_to_scalar_early` over the instructions (lines
279-364), from empty tables; `fuel` bounds the length of the deref chains that
the run follows. -/
def early_run (E : IoEnv) (fuel : Nat) (shader : io_shader) (mask : Nat) :
    Option early_state :=
  io_foreach_function (fun s : early_state => s.shader.functions)
    (lower_io_early_instr E fuel mask)
    { shader := shader, split_inputs := [], split_outputs := [], rewritten := [] }

/-- The end of `nir_lower_io_to_scalar_early` (lines 366-386): the keys of both
tables leave the variable list, then the dead derefs are removed. -/
def early_cleanup (fuel : Nat) (s : early_state) : io_shader :=
  nir_remove_dead_derefs fuel
    { s.shader with
      var_list := io_remove_split s.split_outputs
        (io_remove_split s.split_inputs s.shader.var_list) }

/-- `nir_lower_io_to_scalar_early` (lines 279-387). -/
def nir_lower_io_to_scalar_early (E : IoEnv) (fuel : Nat) (shader : io_shader) (mask : Nat) :
    Option io_shader :=
  (early_run E fuel shader mask).map (early_cleanup fuel)

/-- The shader after the instructions of the list have been created and inserted
at the cursor, one after the other. -/
def io_emit (sh : io_shader) (cursor : Nat) (l : List io_instr) : io_shader :=
  l.foldl (fun s x => (nir_builder_instr_insert s cursor x).2) sh

/-- The indices of the array steps from the root variable to the deref `d`, root
first, if `d` is reached from the deref of a variable by at most `fuel - 1`
array steps through derefs at addresses below `bound`: the deref chains that
`clone_deref_array` clones. -/
def io_deref_path : Nat → io_shader → Nat → Nat → Option (List Nat)
  | 0, _, _, _ => none
  | fuel + 1, sh, bound, d =>
      if d < bound then
        match sh.heap d with
        | .deref dr =>
            if dr.deref_type = .var then some []
            else if dr.parent < bound then
              match sh.heap dr.parent with
              | .deref _ =>
                  if dr.deref_type = .array then
                    (io_deref_path fuel sh bound dr.parent).map (fun path => path ++ [dr.index])
                  else none
              | _ => none
            else none
        | _ => none
      else none

/-- The array steps with the indices `path` on the deref at address `tail`, each
at the address after its parent. -/
def io_array_derefs (mode tail : Nat) (path : List Nat) : List io_instr :=
  path.mapIdx (fun j index =>
    .deref { deref_type := .array, mode := mode, var := 0, parent := tail + j, index := index })

/-- The channel variable in slot `k` of the array of `var`, if the table has an
array for `var` and the slot is filled. -/
def io_slot (ht : List (Nat × List (Option Nat))) (var k : Nat) : Option Nat :=
  match io_table_search ht var with
  | none => none
  | some chan_vars => (chan_vars.getD k none)

/-- The clone of `v` for channel `i` (lines 191-193, 246-248). -/
def io_chan_clone (v : nir_variable) (i : Nat) : nir_variable :=
  { v with location_frac := v.location_frac + i, type := glsl_channel_type v.type }

/-- What the rounds of the loops of the two early lowering functions do to the
variables and to the table, for the root variable `var`: variables are only
added, at the end of the list; only the array of `var` changes, filled slots
stay, a newly filled slot holds a new variable, the clone of `var` for the
channel of the slot, and every new variable is in exactly one slot. -/
structure ChanRel (var : Nat) (a b : io_shader × List (Nat × List (Option Nat))) : Prop where
  next_var_le : a.1.next_var ≤ b.1.next_var
  old_vars : ∀ q, q < a.1.next_var → b.1.vars q = a.1.vars q
  var_list : b.1.var_list
    = a.1.var_list ++ List.range' a.1.next_var (b.1.next_var - a.1.next_var)
  keys : b.2.map Prod.fst = a.2.map Prod.fst
  others : ∀ v, v ≠ var → io_table_search b.2 v = io_table_search a.2 v
  lengths : ∀ arr, io_table_search a.2 var = some arr →
    ∃ arr', io_table_search b.2 var = some arr' ∧ arr'.length = arr.length
  persist : ∀ k cv, io_slot a.2 var k = some cv → io_slot b.2 var k = some cv
  created : ∀ k cv, io_slot b.2 var k = some cv →
    io_slot a.2 var k = some cv ∨
    (a.1.next_var ≤ cv ∧ cv < b.1.next_var ∧ (a.1.vars var).location_frac ≤ k ∧
      b.1.vars cv = io_chan_clone (a.1.vars var) (k - (a.1.vars var).location_frac))
  fresh_once : ∀ q, a.1.next_var ≤ q → q < b.1.next_var →
    ∃ k, io_slot b.2 var k = some q ∧ ∀ k', io_slot b.2 var k' = some q → k' = k

/-- The deref of the variable `cv` with mode `mode`. -/
def io_deref_var (mode cv : Nat) : io_instr :=
  .deref { deref_type := .var, mode := mode, var := cv, parent := 0, index := 0 }

/-- The instructions that one round of the loop of `lower_load_to_scalar_early`
builds from address `n` on: the deref of the channel variable `cv`, the array
steps with the indices `path`, and the single-component intrinsic reading the
last of them. -/
def early_load_group (intr : nir_intrinsic_instr) (mode n cv : Nat) (path : List Nat) :
    List io_instr :=
  io_deref_var mode cv ::
    (io_array_derefs mode n path ++ [.intrinsic (load_early_chan intr (n + path.length))])

/-- The instructions that one round of the loop of
`lower_store_output_to_scalar_early` builds from address `n` on for channel `i`:
the deref of the channel variable `cv`, the array steps with the indices `path`,
the move of lane `i` of `value`, and the single-component store. -/
def early_store_group (intr : nir_intrinsic_instr) (mode n cv : Nat) (path : List Nat)
    (value i : Nat) : List io_instr :=
  io_deref_var mode cv ::
    (io_array_derefs mode n path ++
      [.channel value i,
       .intrinsic (store_early_chan intr (n + path.length) (n + path.length + 1))])

/-- The instruction at `d` is the last of a newly built deref chain of the
variable `cv` with `len` array steps: the deref of `cv` at `d - len`, then the
array steps, each on the instruction before it. -/
def EarlyChainAt (len : Nat) (sh : io_shader) (d cv : Nat) : Prop :=
  len ≤ d ∧
  sh.heap (d - len) = io_deref_var (sh.vars cv).mode cv ∧
  ∀ j, j < len → ∃ index,
    sh.heap (d - len + 1 + j)
      = .deref { deref_type := .array, mode := (sh.vars cv).mode, var := 0,
                 parent := d - len + j, index := index }

/-- The table that `lower_load_to_scalar_early` takes the channel variables of
`var` from (lines 182-187). -/
def early_load_table (E : IoEnv) (s : early_state) (var : Nat) :
    List (Nat × List (Option Nat)) :=
  if (s.shader.vars var).mode = E.nir_var_shader_in then s.split_inputs else s.split_outputs

/-- Two shaders with the same instructions: heap, next free address, blocks,
ifs and stage. -/
def io_same_instrs (a b : io_shader) : Prop :=
  a.heap = b.heap ∧ a.next = b.next ∧ a.functions = b.functions ∧ a.if_uses = b.if_uses ∧
    a.stage = b.stage

/-- What a call of one of the two early lowering functions for the instruction
`instr` does to the instructions: the new instructions get the addresses from
`next` on and stand in the blocks in place of `instr`, new intrinsics have one
component, and an older instruction is as before or reads a new instruction
where it read `instr`. -/
structure EarlyInstrStep (instr : Nat) (sh0 sh : io_shader) : Prop where
  next_le : sh0.next ≤ sh.next
  functions : sh.functions
    = io_splice_all instr (List.range' sh0.next (sh.next - sh0.next)) sh0.functions
  fresh : ∀ q, sh0.next ≤ q → q < sh.next →
    ∀ i, sh.heap q = .intrinsic i → i.num_components = 1
  old : ∀ p, p < sh0.next →
    sh.heap p = sh0.heap p ∨
    ∃ v, sh0.next ≤ v ∧ v < sh.next ∧ sh.heap p = io_rewrite_src instr v (sh0.heap p)
  stage : sh.stage = sh0.stage

/-- Variables of the example for the early scalarizer: the output `0` (four
components, first generic slot), the always-live input `1`, and the input `2`,
an array of three-component vectors at the built-in location 0 with
`location_frac` 1. -/
def ex_early_vars : Nat → nir_variable
  | 0 => { type := .vector 32 4, mode := 2, location := 32, location_frac := 0,
           patch := false, always_active_io := false }
  | 1 => { type := .vector 32 2, mode := 1, location := 33, location_frac := 0,
           patch := false, always_active_io := true }
  | 2 => { type := .array (.vector 32 3) 5, mode := 1, location := 0, location_frac := 1,
           patch := false, always_active_io := false }
  | _ => ex_io_var

/-- One block: `x = load_deref(v2[i])` (3 components), `y = f(x)`,
`store_deref(v0, y)` (4 components, write mask 0b1011), `z = load_deref(v1)` (2
components), `w = load_deref(v0)` (4 components). -/
def ex_early_heap : Nat → io_instr
  | 0 => io_deref_var 1 2
  | 1 => .other []
  | 2 => .deref { deref_type := .array, mode := 1, var := 0, parent := 0, index := 1 }
  | 3 => .intrinsic ⟨.load_deref, 3, 32, 0, 0, 0, [2]⟩
  | 4 => io_deref_var 2 0
  | 5 => .other [3]
  | 6 => .intrinsic ⟨.store_deref, 4, 0, 0, 0, 11, [4, 5]⟩
  | 7 => io_deref_var 1 1
  | 8 => .intrinsic ⟨.load_deref, 2, 32, 0, 0, 0, [7]⟩
  | 9 => .intrinsic ⟨.load_deref, 4, 32, 0, 0, 0, [4]⟩
  | _ => .other []

/-- The vertex shader of `ex_early_heap` and `ex_early_vars`. -/
def ex_early_shader : io_shader :=
  { heap := ex_early_heap
    next := 10
    functions := [some [[0, 1, 2, 3, 4, 5, 6, 7, 8, 9]]]
    if_uses := []
    stage := 0
    vars := ex_early_vars
    next_var := 3
    var_list := [0, 1, 2] }

/-- The state in which a run on `ex_early_shader` starts. -/
def ex_early_state : early_state :=
  { shader := ex_early_shader, split_inputs := [], split_outputs := [], rewritten := [] }

/-- Whether an instruction is a deref instruction. -/
def io_is_deref : io_instr → Bool
  | .deref _ => true
  | _ => false

/-- The deref instruction at an address, if there is one. -/
def io_deref_at (sh : io_shader) (d : Nat) : Option nir_deref_instr :=
  match sh.heap d with
  | .deref dr => some dr
  | _ => none

/-- The root variable of the deref `d`, if `d` is reached from the deref of a
variable by at most `fuel - 1` array steps through derefs at addresses below
`bound`. -/
def io_deref_root : Nat → io_shader → Nat → Nat → Option Nat
  | 0, _, _, _ => none
  | fuel + 1, sh, bound, d =>
      if d < bound then
        match io_deref_at sh d with
        | some dr =>
            if dr.deref_type = .var then some dr.var
            else if dr.parent < bound ∧ io_is_deref (sh.heap dr.parent) = true ∧
                dr.deref_type = .array then io_deref_root fuel sh bound dr.parent
            else none
        | none => none
      else none

/-- Whether the opcode is one that `nir_lower_io_to_scalar_early` looks at
(lines 303-308). -/
def io_is_deref_op (op : nir_intrinsic_op) : Bool :=
  decide (op = .load_deref) || decide (op = .store_deref) ||
    decide (op = .interp_deref_at_centroid) || decide (op = .interp_deref_at_sample) ||
    decide (op = .interp_deref_at_offset)

/-- The well-formedness that a run of `nir_lower_io_to_scalar_early` needs of an
instruction: an access with more than one component through a deref reads a
deref chain of array steps below `bound` on a variable below `nv`; the mode of
the deref is the mode of the variable, the channels fit into the four slots and
the components into the array `loads`. -/
def io_access_ok (E : IoEnv) (fuel : Nat) (sh : io_shader) (bound nv : Nat) : io_instr → Bool
  | .intrinsic intr =>
      decide (intr.num_components = 1) || !io_is_deref_op intr.intrinsic ||
        (match io_deref_root fuel sh bound (intr.src.getD 0 0) with
         | some var =>
             decide (var < nv) &&
             decide ((sh.vars var).location_frac + intr.num_components ≤ 4) &&
             decide (intr.num_components ≤ E.NIR_MAX_VEC_COMPONENTS) &&
             decide (io_deref_mode sh (intr.src.getD 0 0) = (sh.vars var).mode)
         | none => false)
  | _ => true

/-- Whether the table has an array for the variable `v`. -/
def io_is_key (ht : List (Nat × List (Option Nat))) (v : Nat) : Prop :=
  (io_table_search ht v).isSome = true

/-- A table of a run that started with `nv0` variables: every array has four
slots and belongs to a variable of the beginning, and every filled slot holds a
variable created since. -/
def io_table_ok (nv0 : Nat) (sh : io_shader) (ht : List (Nat × List (Option Nat))) : Prop :=
  (∀ v arr, io_table_search ht v = some arr → arr.length = 4 ∧ v < nv0) ∧
  (∀ v k cv, io_slot ht v k = some cv → nv0 ≤ cv ∧ cv < sh.next_var)

/-- The part of the eligibility filter that depends on the variable alone. -/
def io_var_eligible (v : nir_variable) : Prop :=
  v.patch = false ∧ v.always_active_io = false ∧
  glsl_type_is_64bit (glsl_without_array v.type) = false ∧
  glsl_type_is_matrix (glsl_without_array v.type) = false ∧
  glsl_type_is_struct (glsl_without_array v.type) = false

/-- What a run of `nir_lower_io_to_scalar_early` keeps between the shader `s0`
it starts on and every later state `s`. -/
structure EarlyInv (E : IoEnv) (fuel : Nat) (s0 : io_shader) (s : early_state) : Prop where
  linked : ∀ p ∈ io_instrs s.shader.functions, p < s.shader.next ∧
    io_access_ok E fuel s.shader s0.next s0.next_var (s.shader.heap p) = true
  next_le : s0.next ≤ s.shader.next
  next_var_le : s0.next_var ≤ s.shader.next_var
  old_vars : ∀ q, q < s0.next_var → s.shader.vars q = s0.vars q
  stage : s.shader.stage = s0.stage
  var_list : s.shader.var_list
    = s0.var_list ++ List.range' s0.next_var (s.shader.next_var - s0.next_var)
  inputs_ok : io_table_ok s0.next_var s.shader s.split_inputs
  outputs_ok : io_table_ok s0.next_var s.shader s.split_outputs
  in_mode : ∀ v, io_is_key s.split_inputs v → (s0.vars v).mode = E.nir_var_shader_in
  out_mode : ∀ v, io_is_key s.split_outputs v → (s0.vars v).mode ≠ E.nir_var_shader_in
  keys_log : ∀ v, (io_is_key s.split_inputs v ∨ io_is_key s.split_outputs v) ↔
    ∃ a, (a, v) ∈ s.rewritten
  eligible : ∀ v, (io_is_key s.split_inputs v ∨ io_is_key s.split_outputs v) →
    io_var_eligible (s0.vars v)
  shadows : ∀ q, s0.next_var ≤ q → q < s.shader.next_var →
    ∃ v k, (io_slot s.split_inputs v k = some q ∨ io_slot s.split_outputs v k = some q) ∧
      (s0.vars v).location_frac ≤ k ∧
      s.shader.vars q = io_chan_clone (s0.vars v) (k - (s0.vars v).location_frac) ∧
      ∀ v' k', (io_slot s.split_inputs v' k' = some q ∨
          io_slot s.split_outputs v' k' = some q) → v' = v ∧ k' = k

/-- What a call of one of the two early lowering functions for the instruction
`instr` with root variable `var` does to the state; `inp` tells whether the
channel variables come from `split_inputs`. -/
structure EarlyStep (instr var : Nat) (inp : Bool) (s t : early_state) : Prop where
  instrs : EarlyInstrStep instr s.shader t.shader
  log : t.rewritten = s.rewritten ++ [(instr, var)]
  other : if inp = true then t.split_outputs = s.split_outputs
          else t.split_inputs = s.split_inputs
  rel : ChanRel var
    (s.shader, get_channel_variables (if inp = true then s.split_inputs else s.split_outputs) var)
    (t.shader, if inp = true then t.split_inputs else t.split_outputs)

/-- Instruction memory of the fifth example: `102` is an addition of two
components, `104` one of three and `105` one of two, all of the same two values
`100` and `101`. -/
def ex_deep_heap : Nat → nir_instr := fun p =>
  if p = 102 then ex_alu 1 2 [⟨100, [0, 1, 0, 0]⟩, ⟨101, [0, 1, 0, 0]⟩]
  else if p = 104 then ex_alu 1 3 [⟨100, [0, 1, 2, 0]⟩, ⟨101, [2, 1, 0, 0]⟩]
  else if p = 105 then ex_alu 1 2 [⟨100, [2, 3, 0, 0]⟩, ⟨101, [2, 3, 0, 0]⟩]
  else .other []

/-- The fifth example as a shader of one function with one block. -/
def ex_deep_shader : nir_shader :=
  { heap := ex_deep_heap, next := 200,
    functions := [some { blocks := [[100, 101, 102, 104, 105]], if_uses := [],
                         dom_tree := .node 0 [] }],
    merges := [] }

/-- The state of the walk of the fifth example when `105` is visited: the set
holds one stack, with `102` at the bottom and `104` on top. -/
def ex_deep_state : vec_state :=
  { heap := ex_deep_heap, next := 200, blocks := [[100, 101, 102, 104, 105]],
    if_uses := [], instr_set := [(hash_stack ex_env ex_deep_heap [102], [102, 104])],
    merges := [] }

/-- The SSA values that an instruction is a user of: for an ALU instruction the
sources of its operands, as many as the opcode has inputs; for another
instruction all its sources. -/
def instr_uses (E : Env) : nir_instr → List Nat
  | .alu a => (a.src.take (E.nir_op_infos a.op).num_inputs).map (fun s => s.ssa)
  | .other srcs => srcs

/-- The function body of the fourth example. -/
def ex_sibling_impl : nir_function_impl :=
  { blocks := [[100, 101, 94374466540880], [103, 104], [105, 106]],
    if_uses := [], dom_tree := ex_sibling_tree }

/-- The state in which the walk of the fourth example enters block 1: the
instructions of block 0 have been visited. -/
def ex_sibling_enter : vec_state :=
  (vectorize_instrs ex_env [100, 101, 94374466540880]
    (impl_state ex_sibling_shader ex_sibling_impl)).2

/-- Instruction memory of the sixth example: as the fourth, but `P = -A` (103)
has three components and `Q = -A` (106) has two. -/
def ex_chain_heap : Nat → nir_instr := fun p =>
  if p = 94374466540880 then ex_alu 1 1 [⟨100, [0, 0, 0, 0]⟩, ⟨101, [0, 0, 0, 0]⟩]
  else if p = 103 then ex_alu 2 3 [⟨94374466540880, [0, 0, 0, 0]⟩]
  else if p = 104 then ex_alu 1 1 [⟨100, [1, 0, 0, 0]⟩, ⟨101, [1, 0, 0, 0]⟩]
  else if p = 105 then ex_alu 1 1 [⟨100, [2, 0, 0, 0]⟩, ⟨101, [2, 0, 0, 0]⟩]
  else if p = 106 then ex_alu 2 2 [⟨94374466540880, [0, 0, 0, 0]⟩]
  else .other []

/-- The sixth example: the blocks, the dominator tree and the allocation pointer
of the fourth. -/
def ex_chain_shader : nir_shader :=
  { heap := ex_chain_heap, next := 94375660088861,
    functions := [some ex_sibling_impl], merges := [] }

/-- The state of the walk of the sixth example when block 0 and the subtree of
block 1 have been walked and the instructions of block 2 have been visited,
before the entries of block 2 are removed. -/
def ex_chain_walk : vec_state :=
  (vectorize_instrs ex_env [105, 106]
    (vectorize_block ex_env (.node 1 [])
      (vectorize_instrs ex_env [100, 101, 94374466540880]
        (impl_state ex_chain_shader ex_sibling_impl)).2).2).2

/-- The array steps with the indices `path`, built at the addresses from `base`
on: the first one on the deref at `tail`, every further one on the step before
it. -/
def io_chain_derefs (mode tail base : Nat) (path : List Nat) : List io_instr :=
  path.mapIdx (fun j index =>
    .deref { deref_type := .array, mode := mode, var := 0,
             parent := if j = 0 then tail else base + j - 1, index := index })

/-- What a call of `nir_lower_io_to_scalar` returns to its caller next to the
changed shader: the function is declared `void` (line 96). -/
def nir_lower_io_to_scalar_return (_E : IoEnv) (_shader : io_shader) (_mask : Nat) : Unit :=
  ()

/-- Instruction memory of the seventh example: as the fourth, with `Y = -A` (102,
two components) in block 0 and `P = -A` (103, three components) in block 1. -/
def ex_pop_heap : Nat → nir_instr := fun p =>
  if p = 94374466540880 then ex_alu 1 1 [⟨100, [0, 0, 0, 0]⟩, ⟨101, [0, 0, 0, 0]⟩]
  else if p = 102 then ex_alu 2 2 [⟨94374466540880, [0, 0, 0, 0]⟩]
  else if p = 103 then ex_alu 2 3 [⟨94374466540880, [0, 0, 0, 0]⟩]
  else if p = 104 then ex_alu 1 1 [⟨100, [1, 0, 0, 0]⟩, ⟨101, [1, 0, 0, 0]⟩]
  else if p = 105 then ex_alu 1 1 [⟨100, [2, 0, 0, 0]⟩, ⟨101, [2, 0, 0, 0]⟩]
  else .other []

/-- The function body of the seventh example: block 0 holds `a`, `b`, `A` and `Y`,
block 1 holds `P` and `B`, block 2 holds `C`; the dominator tree is that of the
fourth example. -/
def ex_pop_impl : nir_function_impl :=
  { blocks := [[100, 101, 94374466540880, 102], [103, 104], [105]],
    if_uses := [], dom_tree := ex_sibling_tree }

/-- The seventh example, with the allocation pointer of the fourth. -/
def ex_pop_shader : nir_shader :=
  { heap := ex_pop_heap, next := 94375660088861,
    functions := [some ex_pop_impl], merges := [] }

/-- The state of the walk of the seventh example when block 0 is left: its
instructions have been visited and the subtrees of blocks 1 and 2 walked; the
loop over `vec_instr_set_remove` is about to start. -/
def ex_pop_walk : vec_state :=
  (vectorize_children ex_env [.node 1 [], .node 2 []]
    (vectorize_instrs ex_env [100, 101, 94374466540880, 102]
      (impl_state ex_pop_shader ex_pop_impl)).2).2

/-- The input `0` of the interpolation example: a three-component vector at
the first generic slot. -/
def ex_interp_vars : Nat → nir_variable
  | 0 => { type := .vector 32 3, mode := 1, location := 32, location_frac := 0,
           patch := false, always_active_io := false }
  | _ => ex_io_var

/-- One block: the deref of input `0`, `o = ..`,
`x = interp_deref_at_offset(v0, o)` (3 components), `y = f(x)`. -/
def ex_interp_heap : Nat → io_instr
  | 0 => io_deref_var 1 0
  | 1 => .other []
  | 2 => .intrinsic ⟨.interp_deref_at_offset, 3, 32, 0, 0, 0, [0, 1]⟩
  | 3 => .other [2]
  | _ => .other []

/-- The fragment shader of `ex_interp_heap` and `ex_interp_vars`. -/
def ex_interp_shader : io_shader :=
  { heap := ex_interp_heap
    next := 4
    functions := [some [[0, 1, 2, 3]]]
    if_uses := []
    stage := 4
    vars := ex_interp_vars
    next_var := 1
    var_list := [0] }

/-- The state in which a run on `ex_interp_shader` starts. -/
def ex_interp_state : early_state :=
  { shader := ex_interp_shader, split_inputs := [], split_outputs := [], rewritten := [] }

/-- Instruction memory of the eighth example: `100` and `101` are two values `a`
and `b`, `102` is `A = a.x + b.x`, `103` is `B = a.y + b.y`, `104` is
`C = a.z + b.z`, `105` is `U = A + C` and `106` is `V = -B`. -/
def ex_three_heap : Nat → nir_instr := fun p =>
  if p = 102 then ex_alu 1 1 [⟨100, [0, 0, 0, 0]⟩, ⟨101, [0, 0, 0, 0]⟩]
  else if p = 103 then ex_alu 1 1 [⟨100, [1, 0, 0, 0]⟩, ⟨101, [1, 0, 0, 0]⟩]
  else if p = 104 then ex_alu 1 1 [⟨100, [2, 0, 0, 0]⟩, ⟨101, [2, 0, 0, 0]⟩]
  else if p = 105 then ex_alu 1 1 [⟨102, [0, 0, 0, 0]⟩, ⟨104, [0, 0, 0, 0]⟩]
  else if p = 106 then ex_alu 2 1 [⟨103, [0, 0, 0, 0]⟩]
  else .other []

/-- The eighth example as a state: one block, an empty set. -/
def ex_three_state : vec_state :=
  { heap := ex_three_heap, next := 200, blocks := [[100, 101, 102, 103, 104, 105, 106]],
    if_uses := [], instr_set := [], merges := [] }

/-- The result of instruction `x` is available at the end of block `c`: `x` is
in `c` or in a block that strictly dominates `c`. This is what the condition of
an if that ends block `c` needs, and what a phi needs of its source for the
predecessor `c`. -/
def dominates_block_end (t : DomTree) (blocks : List (List Nat)) (x c : Nat) : Bool :=
  match block_of blocks x with
  | some cx => cx == c || strictly_dominates cx c t
  | none => false

/-- Instruction memory of the ninth example: `100` and `101` are two values `a`
and `b`, `102` is `A = a.x + b.x`, `103` is `P = -A`, `104` is `B = a.y + b.y`,
`105` stores `B`, `106` is `Q = -A`, `107` is a phi of `P` and `Q`, `108` is
`R = -A`. -/
def ex_phi_heap : Nat → nir_instr := fun p =>
  if p = 102 then ex_alu 1 1 [⟨100, [0, 0, 0, 0]⟩, ⟨101, [0, 0, 0, 0]⟩]
  else if p = 103 then ex_alu 2 1 [⟨102, [0, 0, 0, 0]⟩]
  else if p = 104 then ex_alu 1 1 [⟨100, [1, 0, 0, 0]⟩, ⟨101, [1, 0, 0, 0]⟩]
  else if p = 105 then .other [104]
  else if p = 106 then ex_alu 2 1 [⟨102, [0, 0, 0, 0]⟩]
  else if p = 107 then .other [103, 106]
  else if p = 108 then ex_alu 2 1 [⟨102, [0, 0, 0, 0]⟩]
  else .other []

/-- The dominator tree of the ninth example: block 0 ends with an if, blocks 1 and
2 are its two sides and block 3 is the join. -/
def ex_phi_tree : DomTree :=
  .node 0 [.node 1 [], .node 2 [], .node 3 []]

/-- The ninth example as a state: block 0 holds `a`, `b`, `A` and ends with an if
on `A`; block 1 holds `P`, `B` and the store; block 2 holds `Q`; block 3 holds
the phi, whose sources come from the ends of blocks 1 and 2, and `R`. -/
def ex_phi_state : vec_state :=
  { heap := ex_phi_heap, next := 200,
    blocks := [[100, 101, 102], [103, 104, 105], [106], [107, 108]],
    if_uses := [102], instr_set := [], merges := [] }

/-- The intrinsic `c` is a per-channel instruction of `intr` for channel `i`: it
has the opcode and base of `intr`, one component and the component offset
`component + i`; a load has the bit size of `intr`, a store the write mask 1. -/
def io_chan_of (intr : nir_intrinsic_instr) (i : Nat) (c : nir_intrinsic_instr) : Prop :=
  c.intrinsic = intr.intrinsic ∧ c.num_components = 1 ∧ c.base = intr.base ∧
  c.component = intr.component + i ∧
  (intr.intrinsic = .load_input → c.bit_size = intr.bit_size) ∧
  (intr.intrinsic = .store_output → c.write_mask = 1)

/-- The channels of `intr` for which the scalarizer creates an instruction: every
channel of a load, and the channels of a store whose write-mask bit is set. -/
def io_chan_needed (intr : nir_intrinsic_instr) (i : Nat) : Prop :=
  i < intr.num_components ∧
  (intr.intrinsic = .store_output → intr.write_mask &&& (1 <<< i) ≠ 0)

/-- What `nir_lower_io_to_scalar` has put in place of the instructions of the
shader `s0` it started on that it has unlinked so far: for every channel that
needs one, a linked new per-channel instruction. -/
def LateRepl (E : IoEnv) (mask : Nat) (s0 s : io_shader) : Prop :=
  ∀ x intr0, x ∈ io_instrs s0.functions → s0.heap x = .intrinsic intr0 →
    io_matches E mask (s0.heap x) = true → x ∉ io_instrs s.functions →
    ∀ i, io_chan_needed intr0 i →
      ∃ q c, s0.next ≤ q ∧ q ∈ io_instrs s.functions ∧ s.heap q = .intrinsic c ∧
        io_chan_of intr0 i c

/-! ## Lemmas: the swizzle loops -/

theorem foldl_set_length (g : List Nat → Nat → Nat) (off : Nat) (dst : List Nat) (n : Nat) :
    ((List.range n).foldl (fun d j => d.set (j + off) (g d j)) dst).length = dst.length := by
  induction n with
  | zero => simp
  | succ n ih => simp only [List.range_succ, List.foldl_append, List.foldl_cons, List.foldl_nil,
      List.length_set, ih]

theorem foldl_set_getElem? (g : Nat → Nat) (off : Nat) (dst : List Nat) (n k : Nat) :
    ((List.range n).foldl (fun d j => d.set (j + off) (g j)) dst)[k]? =
      if off ≤ k ∧ k < off + n ∧ k < dst.length then some (g (k - off)) else dst[k]? := by
  induction n with
  | zero => rw [if_neg (by omega)]; rfl
  | succ n ih =>
    have hlen := foldl_set_length (fun _ j => g j) off dst n
    simp only [List.range_succ, List.foldl_append, List.foldl_cons, List.foldl_nil]
    rw [List.getElem?_set, hlen]
    by_cases hk : n + off = k
    · subst hk
      rw [if_pos rfl]
      by_cases hl : n + off < dst.length
      · rw [if_pos hl, if_pos (by omega)]
        simp
      · rw [if_neg hl, if_neg (by omega), List.getElem?_eq_none (by omega)]
    · rw [if_neg hk, ih]
      by_cases h1 : off ≤ k ∧ k < off + n ∧ k < dst.length
      · rw [if_pos h1, if_pos (by omega)]
      · rw [if_neg h1, if_neg (by omega)]

theorem copy_swizzle_length (dst src : List Nat) (off n : Nat) :
    (copy_swizzle dst src off n).length = dst.length :=
  foldl_set_length (fun _ j => src.getD j 0) off dst n

theorem copy_swizzle_getD (dst src : List Nat) (off n k : Nat) :
    (copy_swizzle dst src off n).getD k 0 =
      if off ≤ k ∧ k < off + n ∧ k < dst.length then src.getD (k - off) 0 else dst.getD k 0 := by
  unfold copy_swizzle
  rw [List.getD_eq_getElem?_getD, foldl_set_getElem? (fun j => src.getD j 0)]
  split <;> simp

theorem shift_getElem? (m : Nat → Nat) (sw : List Nat) (n j : Nat) :
    ((List.range n).foldl (fun d i => d.set i (m (d.getD i 0))) sw)[j]? =
      if j < n ∧ j < sw.length then some (m (sw.getD j 0)) else sw[j]? := by
  induction n with
  | zero => rw [if_neg (by omega)]; rfl
  | succ n ih =>
    have hlen : ((List.range n).foldl (fun d i => d.set i (m (d.getD i 0))) sw).length
        = sw.length := by
      have := foldl_set_length (fun d i => m (d.getD i 0)) 0 sw n
      simpa using this
    simp only [List.range_succ, List.foldl_append, List.foldl_cons, List.foldl_nil]
    rw [List.getElem?_set, hlen]
    by_cases hk : n = j
    · subst hk
      rw [if_pos rfl]
      by_cases hl : n < sw.length
      · rw [if_pos hl, if_pos (by omega)]
        congr 2
        rw [List.getD_eq_getElem?_getD, ih, if_neg (by omega)]
        simp
      · rw [if_neg hl, if_neg (by omega), List.getElem?_eq_none (by omega)]
    · rw [if_neg hk, ih]
      by_cases h1 : j < n ∧ j < sw.length
      · rw [if_pos h1, if_pos (by omega)]
      · rw [if_neg h1, if_neg (by omega)]

theorem shift_swizzle_getD (sw : List Nat) (n k j : Nat) :
    (shift_swizzle sw n k).getD j 0 =
      if j < n ∧ j < sw.length then (sw.getD j 0 + k) % 256 else sw.getD j 0 := by
  unfold shift_swizzle
  rw [List.getD_eq_getElem?_getD, shift_getElem? (fun x => (x + k) % 256)]
  split <;> simp

theorem shift_swiz_getD (sw : List Nat) (n k j : Nat) :
    (shift_swiz sw n k).getD j 0 =
      if j < n ∧ j < sw.length then sw.getD j 0 + k else sw.getD j 0 := by
  unfold shift_swiz
  rw [List.getD_eq_getElem?_getD, shift_getElem? (fun x => x + k)]
  split <;> simp

/-! ## Lemmas: rewriting the operands of one instruction -/

theorem map_srcs_length (f : Nat → nir_alu_src → nir_alu_src) (i : Nat) (l : List nir_alu_src) :
    (map_srcs f i l).length = l.length := by
  induction l generalizing i with
  | nil => rfl
  | cons s rest ih => simp [map_srcs, ih]

theorem map_srcs_getElem? (f : Nat → nir_alu_src → nir_alu_src) (i : Nat)
    (l : List nir_alu_src) (k : Nat) :
    (map_srcs f i l)[k]? = (l[k]?).map (f (i + k)) := by
  induction l generalizing i k with
  | nil => simp [map_srcs]
  | cons s rest ih =>
    cases k with
    | zero => simp [map_srcs]
    | succ k =>
      simp only [map_srcs, List.getElem?_cons_succ, ih]
      have : i + 1 + k = i + (k + 1) := by omega
      rw [this]

theorem map_srcs_getD (f : Nat → nir_alu_src → nir_alu_src) (l : List nir_alu_src) (k : Nat)
    (hk : k < l.length) :
    (map_srcs f 0 l).getD k default = f k (l.getD k default) := by
  rw [List.getD_eq_getElem?_getD, List.getD_eq_getElem?_getD, map_srcs_getElem?,
    List.getElem?_eq_getElem hk]
  simp

theorem map_srcs_id (f : Nat → nir_alu_src → nir_alu_src) (l : List nir_alu_src)
    (h : ∀ k, k < l.length → f k (l.getD k default) = l.getD k default) :
    map_srcs f 0 l = l := by
  apply List.ext_getElem?
  intro k
  rw [map_srcs_getElem?]
  by_cases hk : k < l.length
  · have := h k hk
    rw [List.getD_eq_getElem?_getD, List.getElem?_eq_getElem hk] at this
    rw [List.getElem?_eq_getElem hk]
    simpa using this
  · rw [List.getElem?_eq_none (by omega)]
    rfl

/-! ## Lemmas: the combined instruction -/

theorem combined_alu_src_length (E : Env) (alu1 alu2 : nir_alu_instr) :
    (combined_alu E alu1 alu2).src.length = (E.nir_op_infos alu1.op).num_inputs := by
  simp [combined_alu]

theorem combined_alu_src_getD (E : Env) (alu1 alu2 : nir_alu_instr) (i : Nat)
    (hi : i < (E.nir_op_infos alu1.op).num_inputs) :
    (combined_alu E alu1 alu2).src.getD i default = combined_src alu1 alu2 i := by
  simp [combined_alu, List.getD_eq_getElem?_getD, hi]

theorem combined_src_low (alu1 alu2 : nir_alu_instr) (i j : Nat)
    (hw : alu1.num_components + alu2.num_components ≤ 4) (hj : j < alu1.num_components) :
    (combined_src alu1 alu2 i).swizzle.getD j 0 = (alu1.src.getD i default).swizzle.getD j 0 := by
  simp only [combined_src]
  rw [copy_swizzle_getD, if_neg (by omega), copy_swizzle_getD, if_pos]
  · rfl
  · simp only [List.length_cons, List.length_nil]
    omega

theorem combined_src_high (alu1 alu2 : nir_alu_instr) (i j : Nat)
    (hw : alu1.num_components + alu2.num_components ≤ 4) (hj : j < alu2.num_components) :
    (combined_src alu1 alu2 i).swizzle.getD (alu1.num_components + j) 0 =
      (alu2.src.getD i default).swizzle.getD j 0 := by
  simp only [combined_src]
  rw [copy_swizzle_getD, if_pos]
  · congr 1
    omega
  · rw [copy_swizzle_length]
    simp only [List.length_cons, List.length_nil]
    omega

theorem instr_try_combine_alu (E : Env) (s : vec_state) (instr1 instr2 : Nat)
    (alu1 alu2 : nir_alu_instr) (h1 : s.heap instr1 = .alu alu1) (h2 : s.heap instr2 = .alu alu2) :
    instr_try_combine E s instr1 instr2 =
      if alu1.num_components + alu2.num_components > 4 then (none, s)
      else (some s.next, combine_alu E s instr1 instr2 alu1 alu2) := by
  unfold instr_try_combine
  rw [h1, h2]

theorem rewrite_use1_id (E : Env) (d new_alu new_alu1 : Nat) (c : nir_alu_instr)
    (h : ∀ i, i < (E.nir_op_infos c.op).num_inputs → i < c.src.length →
      (c.src.getD i default).ssa ≠ d) :
    rewrite_use1 E d new_alu new_alu1 (.alu c) = .alu c := by
  simp only [rewrite_use1]
  congr 1
  have : map_srcs (fun (i : Nat) (s : nir_alu_src) =>
      if i < (E.nir_op_infos c.op).num_inputs ∧ s.ssa = d then { s with ssa := new_alu }
      else s) 0 c.src = c.src := by
    apply map_srcs_id
    intro k hkl
    by_cases hk : k < (E.nir_op_infos c.op).num_inputs
    · rw [if_neg]
      intro hh
      exact h k hk hkl hh.2
    · rw [if_neg]
      intro hh
      exact hk hh.1
  rw [this]

theorem rewrite_use2_id (E : Env) (d new_alu new_alu2 n1 : Nat) (c : nir_alu_instr)
    (h : ∀ i, i < (E.nir_op_infos c.op).num_inputs → i < c.src.length →
      (c.src.getD i default).ssa ≠ d) :
    rewrite_use2 E d new_alu new_alu2 n1 (.alu c) = .alu c := by
  simp only [rewrite_use2]
  congr 1
  have : map_srcs (fun (i : Nat) (s : nir_alu_src) =>
      if i < (E.nir_op_infos c.op).num_inputs ∧ s.ssa = d then
        { ssa := new_alu
          swizzle := shift_swizzle s.swizzle (nir_ssa_alu_instr_src_components E c i) n1 }
      else s) 0 c.src = c.src := by
    apply map_srcs_id
    intro k hkl
    by_cases hk : k < (E.nir_op_infos c.op).num_inputs
    · rw [if_neg]
      intro hh
      exact h k hk hkl hh.2
    · rw [if_neg]
      intro hh
      exact hk hh.1
  rw [this]

/-- The memory cell of the combined instruction after a combine whose first
instruction does not read the result of either instruction. -/
theorem combine_alu_heap_new (E : Env) (s : vec_state) (instr1 instr2 : Nat)
    (alu1 alu2 : nir_alu_instr)
    (hsrc : ∀ i, i < (E.nir_op_infos alu1.op).num_inputs →
      (alu1.src.getD i default).ssa ≠ instr1 ∧ (alu1.src.getD i default).ssa ≠ instr2) :
    (combine_alu E s instr1 instr2 alu1 alu2).heap s.next = .alu (combined_alu E alu1 alu2) := by
  have hc1 : ∀ d, (d = instr1 ∨ d = instr2) →
      ∀ i, i < (E.nir_op_infos (combined_alu E alu1 alu2).op).num_inputs →
      i < (combined_alu E alu1 alu2).src.length →
      ((combined_alu E alu1 alu2).src.getD i default).ssa ≠ d := by
    intro d hd i hi _
    have hi2 : i < (E.nir_op_infos alu1.op).num_inputs := hi
    rw [combined_alu_src_getD E alu1 alu2 i hi2]
    simp only [combined_src]
    rcases hd with rfl | rfl
    · exact (hsrc i hi2).1
    · exact (hsrc i hi2).2
  have h3 : heap_set (heap_set (heap_set s.heap s.next (.alu (combined_alu E alu1 alu2)))
      (s.next + 1) (.alu (nir_swizzle E s.next alu1.bit_size [0, 1, 2, 3] alu1.num_components)))
      (s.next + 2) (.alu (nir_swizzle E s.next alu1.bit_size
        (shift_swiz [0, 1, 2, 3] alu2.num_components alu1.num_components) alu2.num_components))
      s.next = .alu (combined_alu E alu1 alu2) := by
    simp [heap_set]
  simp only [combine_alu, rewrite_uses]
  split
  · rw [h3, rewrite_use1_id E _ _ _ _ (hc1 instr1 (Or.inl rfl)),
      rewrite_use2_id E _ _ _ _ _ (hc1 instr2 (Or.inr rfl))]
  · exact h3

/-! ## Equality of instructions -/

theorem alu_instrs_equal_iff (E : Env) (a b : nir_alu_instr) :
    alu_instrs_equal E a b = true ↔
      a.op = b.op ∧ a.bit_size = b.bit_size ∧
      ∀ i, i < (E.nir_op_infos a.op).num_inputs →
        (a.src.getD i default).ssa = (b.src.getD i default).ssa := by
  unfold alu_instrs_equal alu_srcs_equal srcs_equal
  by_cases hop : a.op = b.op
  · by_cases hb : a.bit_size = b.bit_size
    · simp [hop, hb, List.all_eq_true]
    · simp [hop, hb]
  · simp [hop]

theorem set_swizzle_ssa (w : Nat → List Nat) (l : List nir_alu_src) (i : Nat) :
    ((map_srcs (fun k s => { s with swizzle := w k }) 0 l).getD i default).ssa =
      (l.getD i default).ssa := by
  by_cases hi : i < l.length
  · rw [map_srcs_getD _ _ _ hi]
  · rw [List.getD_eq_default _ _ (by rw [map_srcs_length]; omega),
      List.getD_eq_default _ _ (by omega)]

/-- C2: `instrs_equal` on two ALU instructions is true exactly when the opcodes are
equal, the result bit sizes are equal and every operand slot below the opcode's
number of inputs references the same SSA value; replacing the swizzles of all
operands of both instructions by arbitrary ones does not change the result. -/
theorem C2_instrs_equal_iff (E : Env) (a b : nir_alu_instr) (wa wb : Nat → List Nat) :
    (instrs_equal E (.alu a) (.alu b) = true ↔
      a.op = b.op ∧ a.bit_size = b.bit_size ∧
      ∀ i, i < (E.nir_op_infos a.op).num_inputs →
        (a.src.getD i default).ssa = (b.src.getD i default).ssa) ∧
    instrs_equal E
        (.alu { a with src := map_srcs (fun k s => { s with swizzle := wa k }) 0 a.src })
        (.alu { b with src := map_srcs (fun k s => { s with swizzle := wb k }) 0 b.src }) =
      instrs_equal E (.alu a) (.alu b) := by
  constructor
  · exact alu_instrs_equal_iff E a b
  · simp only [instrs_equal]
    rw [Bool.eq_iff_iff, alu_instrs_equal_iff, alu_instrs_equal_iff]
    simp only [set_swizzle_ssa]

/-! ## The combined instruction: claims C6, C7 and C4 -/

/-- C7: for two ALU instructions, `instr_try_combine` returns no instruction exactly
when the two component counts add up to more than 4, and then the state it returns
is the state it was given: nothing is created, rewritten or removed. -/
theorem C7_combine_fails_iff (E : Env) (s : vec_state) (instr1 instr2 : Nat)
    (alu1 alu2 : nir_alu_instr) (h1 : s.heap instr1 = .alu alu1)
    (h2 : s.heap instr2 = .alu alu2) :
    ((instr_try_combine E s instr1 instr2).1 = none ↔
      alu1.num_components + alu2.num_components > 4) ∧
    ((instr_try_combine E s instr1 instr2).1 = none →
      (instr_try_combine E s instr1 instr2).2 = s) := by
  rw [instr_try_combine_alu E s instr1 instr2 alu1 alu2 h1 h2]
  by_cases hw : alu1.num_components + alu2.num_components > 4
  · simp [hw]
  · simp [hw]

/-- C7 at two three-component additions: the combine fails and changes nothing. -/
theorem C7_combine_fails_iff_witness :
    ex_wide_state.heap 102 = ex_alu 1 3 [⟨100, [0, 1, 2, 0]⟩, ⟨101, [0, 1, 2, 0]⟩] ∧
    ex_wide_state.heap 104 = ex_alu 1 3 [⟨100, [0, 1, 2, 0]⟩, ⟨101, [2, 1, 0, 0]⟩] ∧
    ((instr_try_combine ex_env ex_wide_state 102 104).1 = none ↔ 3 + 3 > 4) ∧
    ((instr_try_combine ex_env ex_wide_state 102 104).1 = none →
      (instr_try_combine ex_env ex_wide_state 102 104).2 = ex_wide_state) :=
  ⟨rfl, rfl, C7_combine_fails_iff ex_env ex_wide_state 102 104 _ _ rfl rfl⟩

/-- C6: a combine of `alu1` and `alu2` with at most 4 components in total returns the
new instruction, which has the opcode and bit size of `alu1`, the sum of the two
component counts, the write mask `2^(n1+n2) - 1`, and in every operand slot the
source of `alu1` with the swizzle lanes of `alu1` followed by those of `alu2`. -/
theorem C6_combined_instr (E : Env) (s : vec_state) (instr1 instr2 : Nat)
    (alu1 alu2 : nir_alu_instr) (h1 : s.heap instr1 = .alu alu1)
    (h2 : s.heap instr2 = .alu alu2)
    (hw : alu1.num_components + alu2.num_components ≤ 4)
    (hsrc : ∀ i, i < (E.nir_op_infos alu1.op).num_inputs →
      (alu1.src.getD i default).ssa ≠ instr1 ∧ (alu1.src.getD i default).ssa ≠ instr2) :
    (instr_try_combine E s instr1 instr2).1 = some s.next ∧
    ∃ new_alu, (instr_try_combine E s instr1 instr2).2.heap s.next = .alu new_alu ∧
      new_alu.op = alu1.op ∧ new_alu.bit_size = alu1.bit_size ∧
      new_alu.num_components = alu1.num_components + alu2.num_components ∧
      new_alu.write_mask = 2 ^ (alu1.num_components + alu2.num_components) - 1 ∧
      new_alu.src.length = (E.nir_op_infos alu1.op).num_inputs ∧
      ∀ i, i < (E.nir_op_infos alu1.op).num_inputs →
        (new_alu.src.getD i default).ssa = (alu1.src.getD i default).ssa ∧
        (∀ j, j < alu1.num_components →
          (new_alu.src.getD i default).swizzle.getD j 0 =
            (alu1.src.getD i default).swizzle.getD j 0) ∧
        (∀ j, j < alu2.num_components →
          (new_alu.src.getD i default).swizzle.getD (alu1.num_components + j) 0 =
            (alu2.src.getD i default).swizzle.getD j 0) := by
  rw [instr_try_combine_alu E s instr1 instr2 alu1 alu2 h1 h2, if_neg (by omega)]
  refine ⟨rfl, combined_alu E alu1 alu2, combine_alu_heap_new E s instr1 instr2 alu1 alu2 hsrc,
    rfl, rfl, rfl, ?_, combined_alu_src_length E alu1 alu2, ?_⟩
  · simp [combined_alu, Nat.shiftLeft_eq]
  · intro i hi
    rw [combined_alu_src_getD E alu1 alu2 i hi]
    exact ⟨rfl, fun j hj => combined_src_low alu1 alu2 i j hw hj,
      fun j hj => combined_src_high alu1 alu2 i j hw hj⟩

/-- C6 at `A = a.x + b.x` and `B = a.y + b.y` of the first example: the combine
returns the new instruction `200`, an addition of two components reading `a.xy`
and `b.xy` with write mask 3. -/
theorem C6_combined_instr_witness :
    (instr_try_combine ex_env ex_state 102 104).1 = some 200 ∧
    (instr_try_combine ex_env ex_state 102 104).2.heap 200 =
      .alu { op := 1, num_components := 2, bit_size := 32, write_mask := 3,
             src := [⟨100, [0, 1, 2, 3]⟩, ⟨101, [0, 1, 2, 3]⟩] } :=
  ⟨(C6_combined_instr ex_env ex_state 102 104
      { op := 1, num_components := 1, bit_size := 32, write_mask := 1,
        src := [⟨100, [0, 0, 0, 0]⟩, ⟨101, [0, 0, 0, 0]⟩] }
      { op := 1, num_components := 1, bit_size := 32, write_mask := 1,
        src := [⟨100, [1, 0, 0, 0]⟩, ⟨101, [1, 0, 0, 0]⟩] }
      rfl rfl (by decide) (by decide)).1, by decide⟩

/-- C4: with `f` the function of the opcode on one lane and `val` any values of the
SSA values, the lanes below `n1` of the instruction a combine of two equal
instructions creates are the lanes of `alu1`, and the lanes from `n1` on are the
lanes of `alu2`. -/
theorem C4_combine_preserves_values {α : Type} (E : Env) (s : vec_state)
    (instr1 instr2 : Nat) (alu1 alu2 : nir_alu_instr) (f : List α → α) (val : Nat → Nat → α)
    (h1 : s.heap instr1 = .alu alu1) (h2 : s.heap instr2 = .alu alu2)
    (heq : instrs_equal E (.alu alu1) (.alu alu2) = true)
    (hw : alu1.num_components + alu2.num_components ≤ 4)
    (hsrc : ∀ i, i < (E.nir_op_infos alu1.op).num_inputs →
      (alu1.src.getD i default).ssa ≠ instr1 ∧ (alu1.src.getD i default).ssa ≠ instr2) :
    ∃ new_alu, (instr_try_combine E s instr1 instr2).2.heap s.next = .alu new_alu ∧
      new_alu.num_components = alu1.num_components + alu2.num_components ∧
      (∀ j, j < alu1.num_components →
        alu_lane E f val new_alu j = alu_lane E f val alu1 j) ∧
      (∀ j, j < alu2.num_components →
        alu_lane E f val new_alu (alu1.num_components + j) = alu_lane E f val alu2 j) := by
  rw [instr_try_combine_alu E s instr1 instr2 alu1 alu2 h1 h2, if_neg (by omega)]
  have he := (alu_instrs_equal_iff E alu1 alu2).1 heq
  refine ⟨combined_alu E alu1 alu2, combine_alu_heap_new E s instr1 instr2 alu1 alu2 hsrc,
    rfl, ?_, ?_⟩
  · intro j hj
    unfold alu_lane
    congr 1
    apply List.map_congr_left
    intro i hi
    have hi2 : i < (E.nir_op_infos alu1.op).num_inputs := List.mem_range.1 hi
    rw [combined_alu_src_getD E alu1 alu2 i hi2, combined_src_low alu1 alu2 i j hw hj]
    rfl
  · intro j hj
    unfold alu_lane
    have hop : (combined_alu E alu1 alu2).op = alu2.op := he.1
    rw [hop]
    congr 1
    apply List.map_congr_left
    intro i hi
    have hi2 : i < (E.nir_op_infos alu1.op).num_inputs := by
      rw [he.1]
      exact List.mem_range.1 hi
    rw [combined_alu_src_getD E alu1 alu2 i hi2, combined_src_high alu1 alu2 i j hw hj]
    simp only [combined_src]
    rw [he.2.2 i hi2]

/-- C4 at Scenario A: `r0 = a.x + b.x` and `r1 = a.y + b.y` are combined into `200`,
whose lane 0 is `r0` and whose lane 1 is `r1`, for the values `a = (3, 5)` and
`b = (10, 20)`. -/
theorem C4_combine_preserves_values_witness :
    ∃ new_alu, (instr_try_combine ex_env ex_state 102 104).2.heap 200 = .alu new_alu ∧
      new_alu.num_components = 2 ∧
      alu_lane ex_env List.sum (fun d l => if d = 100 then [3, 5].getD l 0 else [10, 20].getD l 0)
        new_alu 0 = 13 ∧
      alu_lane ex_env List.sum (fun d l => if d = 100 then [3, 5].getD l 0 else [10, 20].getD l 0)
        new_alu 1 = 25 := by
  obtain ⟨new_alu, hn, hc, hA, hB⟩ := C4_combine_preserves_values ex_env ex_state 102 104
      { op := 1, num_components := 1, bit_size := 32, write_mask := 1,
        src := [⟨100, [0, 0, 0, 0]⟩, ⟨101, [0, 0, 0, 0]⟩] }
      { op := 1, num_components := 1, bit_size := 32, write_mask := 1,
        src := [⟨100, [1, 0, 0, 0]⟩, ⟨101, [1, 0, 0, 0]⟩] }
      List.sum (fun d l => if d = 100 then [3, 5].getD l 0 else [10, 20].getD l 0)
      rfl rfl (by decide) (by decide) (by decide)
  refine ⟨new_alu, hn, hc, ?_, ?_⟩
  · rw [hA 0 (by decide)]
    decide
  · rw [hB 0 (by decide)]
    decide

/-! ## Lemmas: block lists -/

theorem mem_insert_after (blocks : List (List Nat)) (a n q : Nat) :
    q ∈ (nir_instr_insert_after blocks a n).flatten ↔
      q ∈ blocks.flatten ∨ (q = n ∧ a ∈ blocks.flatten) := by
  simp only [nir_instr_insert_after, List.mem_flatten, List.mem_map, List.mem_flatMap]
  constructor
  · rintro ⟨l, ⟨b, hb, rfl⟩, hq⟩
    rw [List.mem_flatMap] at hq
    obtain ⟨p, hp, hq⟩ := hq
    by_cases hpa : p = a
    · rw [if_pos hpa] at hq
      simp only [List.mem_cons, List.mem_singleton, List.not_mem_nil, or_false] at hq
      rcases hq with rfl | rfl
      · exact Or.inl ⟨b, hb, hp⟩
      · exact Or.inr ⟨rfl, b, hb, hpa ▸ hp⟩
    · rw [if_neg hpa] at hq
      simp only [List.mem_singleton] at hq
      exact Or.inl ⟨b, hb, hq ▸ hp⟩
  · rintro (⟨b, hb, hq⟩ | ⟨rfl, b, hb, ha⟩)
    · refine ⟨_, ⟨b, hb, rfl⟩, ?_⟩
      rw [List.mem_flatMap]
      refine ⟨q, hq, ?_⟩
      by_cases hqa : q = a
      · rw [if_pos hqa]; simp
      · rw [if_neg hqa]; simp
    · refine ⟨_, ⟨b, hb, rfl⟩, ?_⟩
      rw [List.mem_flatMap]
      refine ⟨a, ha, ?_⟩
      rw [if_pos rfl]; simp

theorem mem_remove (blocks : List (List Nat)) (a q : Nat) :
    q ∈ (nir_instr_remove blocks a).flatten ↔ q ∈ blocks.flatten ∧ q ≠ a := by
  simp only [nir_instr_remove, List.mem_flatten, List.mem_map]
  constructor
  · rintro ⟨l, ⟨b, hb, rfl⟩, hq⟩
    rw [List.mem_filter] at hq
    exact ⟨⟨b, hb, hq.1⟩, by simpa using hq.2⟩
  · rintro ⟨⟨b, hb, hq⟩, hne⟩
    exact ⟨_, ⟨b, hb, rfl⟩, List.mem_filter.2 ⟨hq, by simpa using hne⟩⟩

/-! ## Lemmas: the memory after a combine -/

theorem mem_combine_blocks3_of_mem (s : vec_state) (instr1 p : Nat)
    (hp : p ∈ s.blocks.flatten) : p ∈ (combine_blocks3 s instr1).flatten := by
  unfold combine_blocks3
  rw [mem_insert_after, mem_insert_after, mem_insert_after]
  exact Or.inl (Or.inl (Or.inl hp))

theorem combine_alu_heap (E : Env) (s : vec_state) (instr1 instr2 : Nat)
    (alu1 alu2 : nir_alu_instr) :
    (combine_alu E s instr1 instr2 alu1 alu2).heap =
      rewrite_uses (combine_blocks3 s instr1)
        (rewrite_use2 E instr2 s.next (s.next + 2) alu1.num_components)
        (rewrite_uses (combine_blocks3 s instr1) (rewrite_use1 E instr1 s.next (s.next + 1))
          (heap_set (heap_set (heap_set s.heap s.next (.alu (combined_alu E alu1 alu2)))
            (s.next + 1)
            (.alu (nir_swizzle E s.next alu1.bit_size [0, 1, 2, 3] alu1.num_components)))
            (s.next + 2)
            (.alu (nir_swizzle E s.next alu1.bit_size
              (shift_swiz [0, 1, 2, 3] alu2.num_components alu1.num_components)
              alu2.num_components)))) := rfl

theorem combine_alu_heap_old (E : Env) (s : vec_state) (instr1 instr2 : Nat)
    (alu1 alu2 : nir_alu_instr) (p : Nat) (hp : p ∈ s.blocks.flatten) (hlt : p < s.next) :
    (combine_alu E s instr1 instr2 alu1 alu2).heap p =
      rewrite_use2 E instr2 s.next (s.next + 2) alu1.num_components
        (rewrite_use1 E instr1 s.next (s.next + 1) (s.heap p)) := by
  rw [combine_alu_heap]
  have hm := mem_combine_blocks3_of_mem s instr1 p hp
  simp only [rewrite_uses, if_pos hm, heap_set]
  rw [if_neg (by omega), if_neg (by omega), if_neg (by omega)]

theorem map_srcs_comp (f g : Nat → nir_alu_src → nir_alu_src) (i : Nat) (l : List nir_alu_src) :
    map_srcs g i (map_srcs f i l) = map_srcs (fun k s => g k (f k s)) i l := by
  induction l generalizing i with
  | nil => rfl
  | cons s rest ih => simp [map_srcs, ih]

theorem rewrite_both_alu (E : Env) (instr1 instr2 new_alu new_alu1 new_alu2 n1 : Nat)
    (u : nir_alu_instr) (hn : new_alu ≠ instr2) :
    rewrite_use2 E instr2 new_alu new_alu2 n1 (rewrite_use1 E instr1 new_alu new_alu1 (.alu u)) =
      .alu { u with src := map_srcs (rewrite_src E instr1 instr2 new_alu n1 u) 0 u.src } := by
  simp only [rewrite_use1, rewrite_use2, map_srcs_comp]
  congr 2
  congr 1
  funext k s
  unfold rewrite_src nir_ssa_alu_instr_src_components
  by_cases h1 : k < (E.nir_op_infos u.op).num_inputs ∧ s.ssa = instr1
  · rw [if_pos h1, if_pos h1, if_neg]
    simp only [not_and]
    intro _
    exact hn
  · rw [if_neg h1, if_neg h1]

theorem rewrite_both_other (E : Env) (instr1 instr2 new_alu new_alu1 new_alu2 n1 : Nat)
    (srcs : List Nat) (hn : new_alu1 ≠ instr2) :
    rewrite_use2 E instr2 new_alu new_alu2 n1
        (rewrite_use1 E instr1 new_alu new_alu1 (.other srcs)) =
      .other (srcs.map (fun x => if x = instr1 then new_alu1
        else if x = instr2 then new_alu2 else x)) := by
  simp only [rewrite_use1, rewrite_use2, List.map_map]
  congr 1
  apply List.map_congr_left
  intro x _
  simp only [Function.comp]
  by_cases h1 : x = instr1
  · rw [if_pos h1, if_pos h1, if_neg hn]
  · rw [if_neg h1, if_neg h1]

theorem rewrite_both_if_uses (instr1 instr2 new_alu1 new_alu2 : Nat) (l : List Nat)
    (hn : new_alu1 ≠ instr2) :
    rewrite_if_uses instr2 new_alu2 (rewrite_if_uses instr1 new_alu1 l) =
      l.map (fun x => if x = instr1 then new_alu1 else if x = instr2 then new_alu2 else x) := by
  simp only [rewrite_if_uses, List.map_map]
  apply List.map_congr_left
  intro x _
  simp only [Function.comp]
  by_cases h1 : x = instr1
  · rw [if_pos h1, if_pos h1, if_neg hn]
  · rw [if_neg h1, if_neg h1]

theorem rewrite_uses_fix (blocks : List (List Nat)) (f : nir_instr → nir_instr)
    (heap : Nat → nir_instr) (p : Nat) (v : nir_instr) (hv : heap p = v) (hf : f v = v) :
    rewrite_uses blocks f heap p = v := by
  unfold rewrite_uses
  split
  · rw [hv, hf]
  · exact hv

theorem combine_alu_heap_mov (E : Env) (s : vec_state) (instr1 instr2 : Nat)
    (alu1 alu2 : nir_alu_instr) (hf1 : instr1 < s.next) (hf2 : instr2 < s.next) :
    (combine_alu E s instr1 instr2 alu1 alu2).heap (s.next + 1) =
      .alu (nir_swizzle E s.next alu1.bit_size [0, 1, 2, 3] alu1.num_components) ∧
    (combine_alu E s instr1 instr2 alu1 alu2).heap (s.next + 2) =
      .alu (nir_swizzle E s.next alu1.bit_size
        (shift_swiz [0, 1, 2, 3] alu2.num_components alu1.num_components)
        alu2.num_components) := by
  have hid : ∀ sw n d, d < s.next →
      ∀ i, i < (E.nir_op_infos (nir_swizzle E s.next alu1.bit_size sw n).op).num_inputs →
      i < (nir_swizzle E s.next alu1.bit_size sw n).src.length →
      ((nir_swizzle E s.next alu1.bit_size sw n).src.getD i default).ssa ≠ d := by
    intro sw n d hd i _ hi
    simp only [nir_swizzle, List.length_singleton] at hi
    have : i = 0 := by omega
    subst this
    simp only [nir_swizzle, List.getD_cons_zero]
    omega
  rw [combine_alu_heap]
  constructor
  · apply rewrite_uses_fix
    · apply rewrite_uses_fix
      · simp [heap_set]
      · exact rewrite_use1_id E _ _ _ _ (hid _ _ instr1 hf1)
    · exact rewrite_use2_id E _ _ _ _ _ (hid _ _ instr2 hf2)
  · apply rewrite_uses_fix
    · apply rewrite_uses_fix
      · simp [heap_set]
      · exact rewrite_use1_id E _ _ _ _ (hid _ _ instr1 hf1)
    · exact rewrite_use2_id E _ _ _ _ _ (hid _ _ instr2 hf2)

/-! ## Consumers after a combine: claim C5 -/

theorem identity_swiz_getD (j : Nat) (hj : j < 4) : [0, 1, 2, 3].getD j 0 = j := by
  interval_cases j <;> rfl

theorem nir_swizzle_low (E : Env) (src bit_size n j : Nat) (hn : n ≤ 4) (hj : j < n) :
    ((nir_swizzle E src bit_size [0, 1, 2, 3] n).src.getD 0 default).swizzle.getD j 0 = j := by
  simp only [nir_swizzle, List.getD_cons_zero]
  rw [copy_swizzle_getD, if_pos, Nat.sub_zero, identity_swiz_getD j (by omega)]
  simp only [List.length_cons, List.length_nil]
  omega

theorem nir_swizzle_high (E : Env) (src bit_size n1 n2 j : Nat) (hn : n1 + n2 ≤ 4)
    (hj : j < n2) :
    ((nir_swizzle E src bit_size (shift_swiz [0, 1, 2, 3] n2 n1) n2).src.getD 0
      default).swizzle.getD j 0 = n1 + j := by
  simp only [nir_swizzle, List.getD_cons_zero]
  rw [copy_swizzle_getD, if_pos, Nat.sub_zero, shift_swiz_getD, if_pos,
    identity_swiz_getD j (by omega)]
  · omega
  · simp only [List.length_cons, List.length_nil]
    omega
  · simp only [List.length_cons, List.length_nil]
    omega

theorem combined_val_low {α : Type} (val : Nat → Nat → α) (instr1 instr2 n1 new_alu l : Nat)
    (hl : l < n1) : combined_val val instr1 instr2 n1 new_alu new_alu l = val instr1 l := by
  simp [combined_val, hl]

theorem combined_val_high {α : Type} (val : Nat → Nat → α) (instr1 instr2 n1 new_alu l : Nat) :
    combined_val val instr1 instr2 n1 new_alu new_alu (n1 + l) = val instr2 l := by
  simp [combined_val]

/-- What a combine does to the operands of an ALU instruction that was linked before
the combine. -/
theorem combine_alu_consumer {α : Type} (E : Env) (s : vec_state) (instr1 instr2 : Nat)
    (alu1 alu2 : nir_alu_instr) (val : Nat → Nat → α)
    (hw : alu1.num_components + alu2.num_components ≤ 4)
    (hne : instr1 ≠ instr2) (hf2 : instr2 < s.next)
    (p : Nat) (u : nir_alu_instr) (hp : p ∈ s.blocks.flatten) (hlt : p < s.next)
    (hu : s.heap p = .alu u) :
    ∃ u2, (combine_alu E s instr1 instr2 alu1 alu2).heap p = .alu u2 ∧ u2.op = u.op ∧
      u2.num_components = u.num_components ∧ u2.bit_size = u.bit_size ∧
      u2.src.length = u.src.length ∧
      ∀ i, i < (E.nir_op_infos u.op).num_inputs → i < u.src.length →
        ((u.src.getD i default).ssa = instr1 →
          u2.src.getD i default =
            { ssa := s.next, swizzle := (u.src.getD i default).swizzle } ∧
          ∀ j, (u.src.getD i default).swizzle.getD j 0 < alu1.num_components →
            read_lane (combined_val val instr1 instr2 alu1.num_components s.next)
              (u2.src.getD i default) j = read_lane val (u.src.getD i default) j) ∧
        ((u.src.getD i default).ssa = instr2 →
          (u2.src.getD i default).ssa = s.next ∧
          ∀ j, j < nir_ssa_alu_instr_src_components E u i →
            j < (u.src.getD i default).swizzle.length →
            (u2.src.getD i default).swizzle.getD j 0 =
              ((u.src.getD i default).swizzle.getD j 0 + alu1.num_components) % 256 ∧
            ((u.src.getD i default).swizzle.getD j 0 < alu2.num_components →
              (u2.src.getD i default).swizzle.getD j 0 =
                (u.src.getD i default).swizzle.getD j 0 + alu1.num_components ∧
              (u2.src.getD i default).swizzle.getD j 0 <
                alu1.num_components + alu2.num_components ∧
              read_lane (combined_val val instr1 instr2 alu1.num_components s.next)
                (u2.src.getD i default) j = read_lane val (u.src.getD i default) j)) ∧
        ((u.src.getD i default).ssa ≠ instr1 → (u.src.getD i default).ssa ≠ instr2 →
          u2.src.getD i default = u.src.getD i default) := by
  rw [combine_alu_heap_old E s instr1 instr2 alu1 alu2 p hp hlt, hu,
    rewrite_both_alu E instr1 instr2 s.next (s.next + 1) (s.next + 2) alu1.num_components u
      (by omega)]
  refine ⟨_, rfl, rfl, rfl, rfl, map_srcs_length _ _ _, ?_⟩
  intro i hi hil
  simp only []
  rw [map_srcs_getD _ _ _ hil]
  refine ⟨?_, ?_, ?_⟩
  · intro h1
    have hr : rewrite_src E instr1 instr2 s.next alu1.num_components u i (u.src.getD i default)
        = { ssa := s.next, swizzle := (u.src.getD i default).swizzle } := by
      unfold rewrite_src
      rw [if_pos ⟨hi, h1⟩]
    rw [hr]
    refine ⟨rfl, ?_⟩
    intro j hj
    simp only [read_lane]
    rw [combined_val_low val instr1 instr2 _ _ _ hj, h1]
  · intro h2
    have hr : rewrite_src E instr1 instr2 s.next alu1.num_components u i (u.src.getD i default)
        = { ssa := s.next
            swizzle := shift_swizzle (u.src.getD i default).swizzle
              (nir_ssa_alu_instr_src_components E u i) alu1.num_components } := by
      unfold rewrite_src
      rw [if_neg, if_pos ⟨hi, h2⟩]
      rintro ⟨_, h1⟩
      exact hne (h1.symm.trans h2)
    rw [hr]
    refine ⟨rfl, ?_⟩
    intro j hj hjl
    simp only []
    rw [shift_swizzle_getD, if_pos ⟨hj, hjl⟩]
    refine ⟨rfl, ?_⟩
    intro hlane
    have hmod : ((u.src.getD i default).swizzle.getD j 0 + alu1.num_components) % 256 =
        (u.src.getD i default).swizzle.getD j 0 + alu1.num_components :=
      Nat.mod_eq_of_lt (by omega)
    rw [hmod]
    refine ⟨rfl, by omega, ?_⟩
    simp only [read_lane]
    rw [shift_swizzle_getD, if_pos ⟨hj, hjl⟩, hmod, Nat.add_comm,
      combined_val_high val instr1 instr2, h2]
  · intro n1 n2
    unfold rewrite_src
    rw [if_neg (fun h => n1 h.2), if_neg (fun h => n2 h.2)]

/-- C5: after a successful combine of `instr1` (`n1` components) and `instr2` (`n2`
components) into the new instruction `s.next`, with the extractions `s.next + 1`
and `s.next + 2`: an ALU consumer of `instr1` reads `s.next` with its swizzle
unchanged; an ALU consumer of `instr2` reads `s.next` with every lane it uses
increased by `n1`, which stays below `n1 + n2` for a lane below `n2`; both read the
values they read before; an operand of another value is unchanged; every other
consumer and every if-condition of `instr1` reads the extraction of lanes
`0 .. n1-1`, and one of `instr2` the extraction of lanes `n1 .. n1+n2-1`. -/
theorem C5_consumers_rewired {α : Type} (E : Env) (s : vec_state) (instr1 instr2 : Nat)
    (alu1 alu2 : nir_alu_instr) (val : Nat → Nat → α)
    (h1 : s.heap instr1 = .alu alu1) (h2 : s.heap instr2 = .alu alu2)
    (hw : alu1.num_components + alu2.num_components ≤ 4)
    (hne : instr1 ≠ instr2) (hf1 : instr1 < s.next) (hf2 : instr2 < s.next) :
    (∀ p u, p ∈ s.blocks.flatten → p < s.next → s.heap p = .alu u →
      ∃ u2, (instr_try_combine E s instr1 instr2).2.heap p = .alu u2 ∧ u2.op = u.op ∧
        u2.num_components = u.num_components ∧ u2.bit_size = u.bit_size ∧
        u2.src.length = u.src.length ∧
        ∀ i, i < (E.nir_op_infos u.op).num_inputs → i < u.src.length →
          ((u.src.getD i default).ssa = instr1 →
            u2.src.getD i default =
              { ssa := s.next, swizzle := (u.src.getD i default).swizzle } ∧
            ∀ j, (u.src.getD i default).swizzle.getD j 0 < alu1.num_components →
              read_lane (combined_val val instr1 instr2 alu1.num_components s.next)
                (u2.src.getD i default) j = read_lane val (u.src.getD i default) j) ∧
          ((u.src.getD i default).ssa = instr2 →
            (u2.src.getD i default).ssa = s.next ∧
            ∀ j, j < nir_ssa_alu_instr_src_components E u i →
              j < (u.src.getD i default).swizzle.length →
              (u2.src.getD i default).swizzle.getD j 0 =
                ((u.src.getD i default).swizzle.getD j 0 + alu1.num_components) % 256 ∧
              ((u.src.getD i default).swizzle.getD j 0 < alu2.num_components →
                (u2.src.getD i default).swizzle.getD j 0 =
                  (u.src.getD i default).swizzle.getD j 0 + alu1.num_components ∧
                (u2.src.getD i default).swizzle.getD j 0 <
                  alu1.num_components + alu2.num_components ∧
                read_lane (combined_val val instr1 instr2 alu1.num_components s.next)
                  (u2.src.getD i default) j = read_lane val (u.src.getD i default) j)) ∧
          ((u.src.getD i default).ssa ≠ instr1 → (u.src.getD i default).ssa ≠ instr2 →
            u2.src.getD i default = u.src.getD i default)) ∧
    (∀ p srcs, p ∈ s.blocks.flatten → p < s.next → s.heap p = .other srcs →
      (instr_try_combine E s instr1 instr2).2.heap p =
        .other (srcs.map (fun x => if x = instr1 then s.next + 1
          else if x = instr2 then s.next + 2 else x))) ∧
    (instr_try_combine E s instr1 instr2).2.if_uses =
      s.if_uses.map (fun x => if x = instr1 then s.next + 1
        else if x = instr2 then s.next + 2 else x) ∧
    (∃ m1, (instr_try_combine E s instr1 instr2).2.heap (s.next + 1) = .alu m1 ∧
      m1.op = E.nir_op_imov ∧ m1.num_components = alu1.num_components ∧
      (m1.src.getD 0 default).ssa = s.next ∧
      ∀ j, j < alu1.num_components →
        (m1.src.getD 0 default).swizzle.getD j 0 = j ∧
        read_lane (combined_val val instr1 instr2 alu1.num_components s.next)
          (m1.src.getD 0 default) j = val instr1 j) ∧
    (∃ m2, (instr_try_combine E s instr1 instr2).2.heap (s.next + 2) = .alu m2 ∧
      m2.op = E.nir_op_imov ∧ m2.num_components = alu2.num_components ∧
      (m2.src.getD 0 default).ssa = s.next ∧
      ∀ j, j < alu2.num_components →
        (m2.src.getD 0 default).swizzle.getD j 0 = alu1.num_components + j ∧
        read_lane (combined_val val instr1 instr2 alu1.num_components s.next)
          (m2.src.getD 0 default) j = val instr2 j) := by
  rw [instr_try_combine_alu E s instr1 instr2 alu1 alu2 h1 h2, if_neg (by omega)]
  have hmov := combine_alu_heap_mov E s instr1 instr2 alu1 alu2 hf1 hf2
  refine ⟨?_, ?_, ?_, ?_, ?_⟩
  · intro p u hp hlt hu
    exact combine_alu_consumer E s instr1 instr2 alu1 alu2 val hw hne hf2 p u hp hlt hu
  · intro p srcs hp hlt hu
    simp only []
    rw [combine_alu_heap_old E s instr1 instr2 alu1 alu2 p hp hlt, hu,
      rewrite_both_other E instr1 instr2 s.next (s.next + 1) (s.next + 2) _ srcs (by omega)]
  · exact rewrite_both_if_uses instr1 instr2 (s.next + 1) (s.next + 2) s.if_uses (by omega)
  · refine ⟨_, hmov.1, rfl, rfl, rfl, ?_⟩
    intro j hj
    have hl := nir_swizzle_low E s.next alu1.bit_size alu1.num_components j (by omega) hj
    refine ⟨hl, ?_⟩
    simp only [read_lane]
    rw [hl]
    exact combined_val_low val instr1 instr2 _ _ _ hj
  · refine ⟨_, hmov.2, rfl, rfl, rfl, ?_⟩
    intro j hj
    have hl := nir_swizzle_high E s.next alu1.bit_size alu1.num_components
      alu2.num_components j hw hj
    refine ⟨hl, ?_⟩
    simp only [read_lane]
    rw [hl]
    exact combined_val_high val instr1 instr2 _ _ _

/-- C5 at the first example: after combining `A` (102) and `B` (104) the if on `B`
tests the extraction `202` of lane 1, and the store reads the extraction `201`
instead of `A`. -/
theorem C5_consumers_rewired_witness :
    (instr_try_combine ex_env ex_state 102 104).2.if_uses = [202] ∧
    (instr_try_combine ex_env ex_state 102 104).2.heap 106 = .other [103, 105, 201] :=
  ⟨((C5_consumers_rewired ex_env ex_state 102 104
      { op := 1, num_components := 1, bit_size := 32, write_mask := 1,
        src := [⟨100, [0, 0, 0, 0]⟩, ⟨101, [0, 0, 0, 0]⟩] }
      { op := 1, num_components := 1, bit_size := 32, write_mask := 1,
        src := [⟨100, [1, 0, 0, 0]⟩, ⟨101, [1, 0, 0, 0]⟩] }
      (fun _ _ => 0) rfl rfl (by decide) (by decide) (by decide) (by decide)).2.2.1).trans
      (by decide),
    ((C5_consumers_rewired ex_env ex_state 102 104
      { op := 1, num_components := 1, bit_size := 32, write_mask := 1,
        src := [⟨100, [0, 0, 0, 0]⟩, ⟨101, [0, 0, 0, 0]⟩] }
      { op := 1, num_components := 1, bit_size := 32, write_mask := 1,
        src := [⟨100, [1, 0, 0, 0]⟩, ⟨101, [1, 0, 0, 0]⟩] }
      (fun _ _ => 0) rfl rfl (by decide) (by decide) (by decide) (by decide)).2.1
      106 [103, 105, 102] (by decide) (by decide) rfl).trans (by decide)⟩

/-! ## A relation kept by every step of the walk -/

theorem vec_instr_stack_push_nil (E : Env) (instr : Nat) (s : vec_state) :
    vec_instr_stack_push E [] instr s = (false, [instr], s) := rfl

theorem instr_try_combine_rel (E : Env) (R : vec_state → Bool → vec_state → Prop)
    (hR : WalkRel E R) (s : vec_state) (instr1 instr2 : Nat) :
    R s (instr_try_combine E s instr1 instr2).1.isSome (instr_try_combine E s instr1 instr2).2 := by
  unfold instr_try_combine
  cases h1 : s.heap instr1 with
  | other srcs => exact hR.refl s
  | alu alu1 =>
    cases h2 : s.heap instr2 with
    | other srcs => exact hR.refl s
    | alu alu2 =>
      simp only []
      by_cases hw : alu1.num_components + alu2.num_components > 4
      · rw [if_pos hw]
        exact hR.refl s
      · rw [if_neg hw]
        exact hR.comb s instr1 instr2 alu1 alu2 h1 h2 (by omega)

theorem vec_instr_stack_scan_rel (E : Env) (R : vec_state → Bool → vec_state → Prop)
    (hR : WalkRel E R) (instr : Nat) (l : List Nat) (s : vec_state) :
    R s (vec_instr_stack_scan E instr l s).1.isSome (vec_instr_stack_scan E instr l s).2 := by
  induction l generalizing s with
  | nil => exact hR.refl s
  | cons stack_instr below ih =>
    have hc := instr_try_combine_rel E R hR s stack_instr instr
    unfold vec_instr_stack_scan
    rcases hr : instr_try_combine E s stack_instr instr with ⟨o, s1⟩
    rw [hr] at hc
    cases o with
    | some new_instr => exact hc
    | none =>
      have hi := ih s1
      simp only []
      rcases hr2 : vec_instr_stack_scan E instr below s1 with ⟨o2, s2⟩
      rw [hr2] at hi
      have := hR.trans s false s1 _ s2 hc hi
      cases o2 with
      | some below1 => simpa using this
      | none => simpa using this

theorem vec_instr_stack_push_rel (E : Env) (R : vec_state → Bool → vec_state → Prop)
    (hR : WalkRel E R) (stack : List Nat) (instr : Nat) (s : vec_state) :
    R s (vec_instr_stack_push E stack instr s).1 (vec_instr_stack_push E stack instr s).2.2 := by
  have h := vec_instr_stack_scan_rel E R hR instr stack.reverse s
  unfold vec_instr_stack_push
  rcases hr : vec_instr_stack_scan E instr stack.reverse s with ⟨o, s1⟩
  rw [hr] at h
  cases o with
  | some r => exact h
  | none => exact h

theorem vec_instr_set_add_or_rewrite_rel (E : Env) (R : vec_state → Bool → vec_state → Prop)
    (hR : WalkRel E R) (instr : Nat) (s : vec_state) :
    R s (vec_instr_set_add_or_rewrite E instr s).1 (vec_instr_set_add_or_rewrite E instr s).2 := by
  unfold vec_instr_set_add_or_rewrite
  split
  · exact hR.refl s
  · simp only [vec_instr_stack_push_nil]
    split
    · rename_i entry _
      have h := vec_instr_stack_push_rel E R hR (s.instr_set.getD entry (0, [])).2 instr s
      have h2 := hR.trans _ _ _ _ _ h (hR.set (vec_instr_stack_push E
        (s.instr_set.getD entry (0, [])).2 instr s).2.2
        (set_stack (vec_instr_stack_push E (s.instr_set.getD entry (0, [])).2 instr s).2.2.instr_set
          entry (vec_instr_stack_push E (s.instr_set.getD entry (0, [])).2 instr s).2.1))
      simpa using h2
    · exact hR.set s _

theorem vec_instr_set_remove_rel (E : Env) (R : vec_state → Bool → vec_state → Prop)
    (hR : WalkRel E R) (instr : Nat) (s : vec_state) :
    R s false (vec_instr_set_remove E instr s) := by
  unfold vec_instr_set_remove
  split
  · exact hR.refl s
  · simp only [vec_instr_stack_push_nil]
    split
    · split
      · exact hR.set s _
      · exact hR.set s _
    · exact hR.refl s

theorem vectorize_instrs_rel (E : Env) (R : vec_state → Bool → vec_state → Prop)
    (hR : WalkRel E R) (l : List Nat) (s : vec_state) :
    R s (vectorize_instrs E l s).1 (vectorize_instrs E l s).2 := by
  induction l generalizing s with
  | nil => exact hR.refl s
  | cons instr rest ih =>
    simp only [vectorize_instrs]
    exact hR.trans _ _ _ _ _ (vec_instr_set_add_or_rewrite_rel E R hR instr s) (ih _)

theorem remove_instrs_rel (E : Env) (R : vec_state → Bool → vec_state → Prop)
    (hR : WalkRel E R) (l : List Nat) (s : vec_state) :
    R s false (remove_instrs E l s) := by
  induction l generalizing s with
  | nil => exact hR.refl s
  | cons instr rest ih =>
    simp only [remove_instrs]
    have := hR.trans _ _ _ _ _ (vec_instr_set_remove_rel E R hR instr s) (ih _)
    simpa using this

theorem vectorize_block_rel (E : Env) (R : vec_state → Bool → vec_state → Prop)
    (hR : WalkRel E R) (t : DomTree) :
    ∀ s, R s (vectorize_block E t s).1 (vectorize_block E t s).2 := by
  induction t using DomTree.rec
    (motive_2 := fun cs => ∀ s, R s (vectorize_children E cs s).1 (vectorize_children E cs s).2) with
  | node block dom_children ih =>
    intro s
    simp only [vectorize_block]
    have h1 := vectorize_instrs_rel E R hR (s.blocks.getD block []) s
    have h2 := ih (vectorize_instrs E (s.blocks.getD block []) s).2
    have h12 := hR.trans _ _ _ _ _ h1 h2
    have h3 := remove_instrs_rel E R hR
      ((vectorize_children E dom_children
        (vectorize_instrs E (s.blocks.getD block []) s).2).2.blocks.getD block []).reverse
      (vectorize_children E dom_children (vectorize_instrs E (s.blocks.getD block []) s).2).2
    have := hR.trans _ _ _ _ _ h12 h3
    simpa using this
  | nil => exact hR.refl _
  | cons child rest ih1 ih2 =>
    simp only [vectorize_children]
    exact hR.trans _ _ _ _ _ (ih1 _) (ih2 _)

/-! ## Progress: claims C10 and C9 -/

theorem progress_rel_walk (E : Env) : WalkRel E progress_rel where
  refl := fun s => ⟨[], by simp, by simp, fun _ => ⟨rfl, rfl, rfl, rfl, rfl⟩⟩
  trans := by
    rintro s1 b1 s2 b2 s3 ⟨l1, h1, h1t, h1f⟩ ⟨l2, h2, h2t, h2f⟩
    refine ⟨l1 ++ l2, by rw [h2, h1, List.append_assoc], ?_, ?_⟩
    · intro hb
      rcases Bool.or_eq_true_iff.1 hb with hb1 | hb2
      · intro hl
        exact h1t hb1 (List.append_eq_nil.1 hl).1
      · intro hl
        exact h2t hb2 (List.append_eq_nil.1 hl).2
    · intro hb
      have hb1 : b1 = false := by cases b1 <;> simp_all
      have hb2 : b2 = false := by cases b2 <;> simp_all
      obtain ⟨e1, a1, a2, a3, a4⟩ := h1f hb1
      obtain ⟨e2, c1, c2, c3, c4⟩ := h2f hb2
      exact ⟨by rw [e1, e2]; rfl, c1.trans a1, c2.trans a2, c3.trans a3, c4.trans a4⟩
  set := fun s set => ⟨[], by simp, by simp, fun _ => ⟨rfl, rfl, rfl, rfl, rfl⟩⟩
  comb := by
    intro s instr1 instr2 alu1 alu2 _ _ _
    exact ⟨[{ instr1 := instr1, instr2 := instr2, alu1 := alu1, alu2 := alu2,
              blocks := s.blocks, new_instr := s.next }], rfl, by simp, by simp⟩

theorem vectorize_functions_progress (E : Env) (fs : List (Option nir_function_impl)) :
    ∀ sh : nir_shader, ∃ l, (vectorize_functions E fs sh).2.merges = sh.merges ++ l ∧
      ((vectorize_functions E fs sh).1 = true → l ≠ []) ∧
      ((vectorize_functions E fs sh).1 = false →
        l = [] ∧ (vectorize_functions E fs sh).2.heap = sh.heap ∧
        (vectorize_functions E fs sh).2.next = sh.next ∧
        (vectorize_functions E fs sh).2.functions = sh.functions ++ fs) := by
  induction fs with
  | nil =>
    intro sh
    exact ⟨[], by simp [vectorize_functions], by simp [vectorize_functions],
      fun _ => by simp [vectorize_functions]⟩
  | cons f rest ih =>
    intro sh
    cases f with
    | none =>
      obtain ⟨l, hl, ht, hf⟩ := ih { sh with functions := sh.functions ++ [none] }
      simp only [vectorize_functions]
      refine ⟨l, hl, ht, ?_⟩
      intro hb
      obtain ⟨e, a1, a2, a3⟩ := hf hb
      exact ⟨e, a1, a2, by rw [a3]; simp⟩
    | some impl =>
      simp only [vectorize_functions]
      obtain ⟨l1, h1, h1t, h1f⟩ := vectorize_block_rel E progress_rel (progress_rel_walk E)
        impl.dom_tree { heap := sh.heap, next := sh.next, blocks := impl.blocks,
                        if_uses := impl.if_uses, instr_set := [], merges := sh.merges }
      obtain ⟨l2, h2, h2t, h2f⟩ := ih
        { (nir_opt_vectorize_impl E sh impl).2.1 with
          functions := (nir_opt_vectorize_impl E sh impl).2.1.functions ++
            [some (nir_opt_vectorize_impl E sh impl).2.2] }
      refine ⟨l1 ++ l2, ?_, ?_, ?_⟩
      · rw [h2]
        simp only [nir_opt_vectorize_impl]
        rw [h1, List.append_assoc]
      · intro hb
        rcases Bool.or_eq_true_iff.1 hb with hb1 | hb2
        · intro hl
          exact h1t hb1 (List.append_eq_nil.1 hl).1
        · intro hl
          exact h2t hb2 (List.append_eq_nil.1 hl).2
      · intro hb
        have hb1 : (nir_opt_vectorize_impl E sh impl).1 = false := by
          cases h : (nir_opt_vectorize_impl E sh impl).1 <;> simp_all
        have hb2 := (Bool.or_eq_false_iff.1 hb).2
        obtain ⟨e1, a1, a2, a3, a4⟩ := h1f hb1
        obtain ⟨e2, c1, c2, c3⟩ := h2f hb2
        refine ⟨by rw [e1, e2]; rfl, ?_, ?_, ?_⟩
        · rw [c1]
          exact a1
        · rw [c2]
          exact a2
        · rw [c3]
          simp only [nir_opt_vectorize_impl, List.append_assoc, List.singleton_append]
          rw [a3, a4]

/-- A run that reports no progress returns the shader it was given. -/
theorem nir_opt_vectorize_no_progress (E : Env) (shader : nir_shader)
    (h : (nir_opt_vectorize E shader).1 = false) : (nir_opt_vectorize E shader).2 = shader := by
  obtain ⟨l, hl, _, hf⟩ := vectorize_functions_progress E shader.functions
    { shader with functions := [] }
  obtain ⟨e, a1, a2, a3⟩ := hf h
  have hm : (nir_opt_vectorize E shader).2.merges = shader.merges := by
    show (vectorize_functions E shader.functions { shader with functions := [] }).2.merges = _
    rw [hl, e]
    simp
  have h1 : (nir_opt_vectorize E shader).2.heap = shader.heap := a1
  have h2 : (nir_opt_vectorize E shader).2.next = shader.next := a2
  have h3 : (nir_opt_vectorize E shader).2.functions = shader.functions := by
    show (vectorize_functions E shader.functions { shader with functions := [] }).2.functions = _
    rw [a3]
    simp
  cases hr : (nir_opt_vectorize E shader).2 with
  | mk heap next functions merges =>
    rw [hr] at hm h1 h2 h3
    simp only at hm h1 h2 h3
    subst hm h1 h2 h3
    rfl

/-- C10: `nir_opt_vectorize` returns true exactly when at least one pair of
instructions was combined during the run (the log of combines grew), in whichever
function body; when it returns false the shader is the one it was given. -/
theorem C10_progress_iff_combined (E : Env) (shader : nir_shader) :
    ∃ l, (nir_opt_vectorize E shader).2.merges = shader.merges ++ l ∧
      ((nir_opt_vectorize E shader).1 = true ↔ l ≠ []) ∧
      ((nir_opt_vectorize E shader).1 = false → (nir_opt_vectorize E shader).2 = shader) := by
  obtain ⟨l, hl, ht, hf⟩ := vectorize_functions_progress E shader.functions
    { shader with functions := [] }
  refine ⟨l, hl, ⟨ht, ?_⟩, nir_opt_vectorize_no_progress E shader⟩
  intro hne
  cases hb : (nir_opt_vectorize E shader).1 with
  | true => rfl
  | false => exact absurd (hf hb).1 hne

/-- C9 fails on the first example, the block
`A = a.x + b.x; P = -A; B = a.y + b.y; Q = -B`. The first run combines `A` and
`B` only: `P` is on a stack, stored with the hash it has while it reads `A`; the
combine rewrites the source of `P` in place, which changes its hash, so the
search for `Q` does not find that stack, although `P` and `Q` are then
`instrs_equal` and have the same hash. Both stay linked, and a second run
directly after the first reports progress: it combines `P` and `Q`. -/
theorem C9_second_run_progress :
    (nir_opt_vectorize ex_env ex_shader).1 = true ∧
    (nir_opt_vectorize ex_env ex_shader).2.merges.map (fun m => (m.instr1, m.instr2)) =
      [(102, 104)] ∧
    functions_instrs (nir_opt_vectorize ex_env ex_shader).2.functions
      = [100, 101, 200, 201, 202, 103, 105, 106] ∧
    hash_instr ex_env (ex_shader.heap 103)
      ≠ hash_instr ex_env ((nir_opt_vectorize ex_env ex_shader).2.heap 103) ∧
    hash_instr ex_env ((nir_opt_vectorize ex_env ex_shader).2.heap 103)
      = hash_instr ex_env ((nir_opt_vectorize ex_env ex_shader).2.heap 105) ∧
    instrs_equal ex_env ((nir_opt_vectorize ex_env ex_shader).2.heap 103)
      ((nir_opt_vectorize ex_env ex_shader).2.heap 105) = true ∧
    (nir_opt_vectorize ex_env (nir_opt_vectorize ex_env ex_shader).2).1 = true ∧
    (nir_opt_vectorize ex_env (nir_opt_vectorize ex_env ex_shader).2).2.merges.map
      (fun m => (m.instr1, m.instr2)) = [(102, 104), (103, 105)] := by
  decide

/-- A run of `nir_opt_vectorize` that reports no progress has reached a fixed
point: the run directly after it reports no progress and returns the same
shader. -/
theorem no_progress_fixed_point (E : Env) (shader : nir_shader)
    (h : (nir_opt_vectorize E shader).1 = false) :
    nir_opt_vectorize E (nir_opt_vectorize E shader).2 = (false, shader) := by
  rw [nir_opt_vectorize_no_progress E shader h]
  have h2 := nir_opt_vectorize_no_progress E shader h
  rw [Prod.ext_iff]
  exact ⟨h, h2⟩

/-! ## Widths: claim C1 -/

theorem combine_alu_heap_eq (E : Env) (s : vec_state) (instr1 instr2 : Nat)
    (alu1 alu2 : nir_alu_instr) :
    (combine_alu E s instr1 instr2 alu1 alu2).heap =
      rewrite_uses (combine_blocks3 s instr1)
        (rewrite_use2 E instr2 s.next (s.next + 2) alu1.num_components)
        (rewrite_uses (combine_blocks3 s instr1) (rewrite_use1 E instr1 s.next (s.next + 1))
          (combine_heap3 E s alu1 alu2)) := rfl

theorem combine_alu_blocks_eq (E : Env) (s : vec_state) (instr1 instr2 : Nat)
    (alu1 alu2 : nir_alu_instr) :
    (combine_alu E s instr1 instr2 alu1 alu2).blocks =
      nir_instr_remove (nir_instr_remove (combine_blocks3 s instr1) instr1) instr2 := rfl

theorem rewrite_use1_alu (E : Env) (d n n1 : Nat) (i : nir_instr) (a : nir_alu_instr)
    (h : rewrite_use1 E d n n1 i = .alu a) :
    ∃ a0, i = .alu a0 ∧ a0.num_components = a.num_components ∧ a0.op = a.op ∧
      a0.bit_size = a.bit_size := by
  cases i with
  | other srcs => simp [rewrite_use1] at h
  | alu u =>
    simp only [rewrite_use1, nir_instr.alu.injEq] at h
    subst h
    exact ⟨u, rfl, rfl, rfl, rfl⟩

theorem rewrite_use2_alu (E : Env) (d n n2 k : Nat) (i : nir_instr) (a : nir_alu_instr)
    (h : rewrite_use2 E d n n2 k i = .alu a) :
    ∃ a0, i = .alu a0 ∧ a0.num_components = a.num_components ∧ a0.op = a.op ∧
      a0.bit_size = a.bit_size := by
  cases i with
  | other srcs => simp [rewrite_use2] at h
  | alu u =>
    simp only [rewrite_use2, nir_instr.alu.injEq] at h
    subst h
    exact ⟨u, rfl, rfl, rfl, rfl⟩

/-- A property of instructions that both rewriting loops keep holds in the memory
after a combine wherever it held after the three instructions were created. -/
theorem combine_alu_heap_pres (E : Env) (s : vec_state) (instr1 instr2 : Nat)
    (alu1 alu2 : nir_alu_instr) (Pr : nir_instr → Prop)
    (h1 : ∀ i, Pr i → Pr (rewrite_use1 E instr1 s.next (s.next + 1) i))
    (h2 : ∀ i, Pr i → Pr (rewrite_use2 E instr2 s.next (s.next + 2) alu1.num_components i))
    (p : Nat) (hp : Pr (combine_heap3 E s alu1 alu2 p)) :
    Pr ((combine_alu E s instr1 instr2 alu1 alu2).heap p) := by
  rw [combine_alu_heap_eq]
  unfold rewrite_uses
  split
  · exact h2 _ (h1 _ hp)
  · exact hp

theorem combine_heap3_old (E : Env) (s : vec_state) (alu1 alu2 : nir_alu_instr) (p : Nat)
    (hp : p < s.next) : combine_heap3 E s alu1 alu2 p = s.heap p := by
  unfold combine_heap3 heap_set
  rw [if_neg (by omega), if_neg (by omega), if_neg (by omega)]

theorem combine_heap3_cases (E : Env) (s : vec_state) (alu1 alu2 : nir_alu_instr) (p : Nat) :
    combine_heap3 E s alu1 alu2 p = s.heap p ∨
    combine_heap3 E s alu1 alu2 p = .alu (combined_alu E alu1 alu2) ∨
    combine_heap3 E s alu1 alu2 p =
      .alu (nir_swizzle E s.next alu1.bit_size [0, 1, 2, 3] alu1.num_components) ∨
    combine_heap3 E s alu1 alu2 p =
      .alu (nir_swizzle E s.next alu1.bit_size
        (shift_swiz [0, 1, 2, 3] alu2.num_components alu1.num_components)
        alu2.num_components) := by
  unfold combine_heap3 heap_set
  by_cases h2 : p = s.next + 2
  · rw [if_pos h2]; exact Or.inr (Or.inr (Or.inr rfl))
  · rw [if_neg h2]
    by_cases h1 : p = s.next + 1
    · rw [if_pos h1]; exact Or.inr (Or.inr (Or.inl rfl))
    · rw [if_neg h1]
      by_cases h0 : p = s.next
      · rw [if_pos h0]; exact Or.inr (Or.inl rfl)
      · rw [if_neg h0]; exact Or.inl rfl

theorem combine_heap3_new (E : Env) (s : vec_state) (alu1 alu2 : nir_alu_instr) (p : Nat)
    (hp : p = s.next ∨ p = s.next + 1 ∨ p = s.next + 2) :
    combine_heap3 E s alu1 alu2 p = .alu (combined_alu E alu1 alu2) ∨
    combine_heap3 E s alu1 alu2 p =
      .alu (nir_swizzle E s.next alu1.bit_size [0, 1, 2, 3] alu1.num_components) ∨
    combine_heap3 E s alu1 alu2 p =
      .alu (nir_swizzle E s.next alu1.bit_size
        (shift_swiz [0, 1, 2, 3] alu2.num_components alu1.num_components)
        alu2.num_components) := by
  unfold combine_heap3 heap_set
  rcases hp with rfl | rfl | rfl
  · rw [if_neg (by omega), if_neg (by omega), if_pos rfl]; exact Or.inl rfl
  · rw [if_neg (by omega), if_pos rfl]; exact Or.inr (Or.inl rfl)
  · rw [if_pos rfl]; exact Or.inr (Or.inr rfl)

theorem mem_combine_blocks3 (s : vec_state) (instr1 p : Nat)
    (hp : p ∈ (combine_blocks3 s instr1).flatten) :
    p ∈ s.blocks.flatten ∨ p = s.next ∨ p = s.next + 1 ∨ p = s.next + 2 := by
  unfold combine_blocks3 at hp
  rw [mem_insert_after, mem_insert_after, mem_insert_after] at hp
  rcases hp with ((h | h) | h) | h
  · exact Or.inl h
  · exact Or.inr (Or.inl h.1)
  · exact Or.inr (Or.inr (Or.inl h.1))
  · exact Or.inr (Or.inr (Or.inr h.1))

theorem mem_combine_blocks (E : Env) (s : vec_state) (instr1 instr2 : Nat)
    (alu1 alu2 : nir_alu_instr) (p : Nat)
    (hp : p ∈ (combine_alu E s instr1 instr2 alu1 alu2).blocks.flatten) :
    p ∈ s.blocks.flatten ∨ p = s.next ∨ p = s.next + 1 ∨ p = s.next + 2 := by
  rw [combine_alu_blocks_eq, mem_remove, mem_remove] at hp
  exact mem_combine_blocks3 s instr1 p hp.1.1

theorem width_ok_rewrite1 (E : Env) (d n n1 : Nat) (i : nir_instr) (h : width_ok i) :
    width_ok (rewrite_use1 E d n n1 i) := by
  intro a ha
  obtain ⟨a0, h0, hc, _, _⟩ := rewrite_use1_alu E d n n1 i a ha
  rw [← hc]
  exact h a0 h0

theorem width_ok_rewrite2 (E : Env) (d n n2 k : Nat) (i : nir_instr) (h : width_ok i) :
    width_ok (rewrite_use2 E d n n2 k i) := by
  intro a ha
  obtain ⟨a0, h0, hc, _, _⟩ := rewrite_use2_alu E d n n2 k i a ha
  rw [← hc]
  exact h a0 h0

theorem width_ok_heap3_new (E : Env) (s : vec_state) (alu1 alu2 : nir_alu_instr) (p : Nat)
    (hw : alu1.num_components + alu2.num_components ≤ 4)
    (hp : p = s.next ∨ p = s.next + 1 ∨ p = s.next + 2) :
    width_ok (combine_heap3 E s alu1 alu2 p) := by
  intro a ha
  rcases combine_heap3_new E s alu1 alu2 p hp with h | h | h
  · rw [h] at ha
    injection ha with ha
    subst ha
    exact hw
  · rw [h] at ha
    injection ha with ha
    subst ha
    simp only [nir_swizzle]
    omega
  · rw [h] at ha
    injection ha with ha
    subst ha
    simp only [nir_swizzle]
    omega

theorem width_ok_heap3 (E : Env) (s : vec_state) (alu1 alu2 : nir_alu_instr) (p : Nat)
    (hw : alu1.num_components + alu2.num_components ≤ 4) (h : width_ok (s.heap p)) :
    width_ok (combine_heap3 E s alu1 alu2 p) := by
  by_cases hp : p = s.next ∨ p = s.next + 1 ∨ p = s.next + 2
  · exact width_ok_heap3_new E s alu1 alu2 p hw hp
  · have : combine_heap3 E s alu1 alu2 p = s.heap p := by
      unfold combine_heap3 heap_set
      rw [if_neg (fun h => hp (Or.inr (Or.inr h))), if_neg (fun h => hp (Or.inr (Or.inl h))),
        if_neg (fun h => hp (Or.inl h))]
    rw [this]
    exact h

theorem merge_ok_pres (E : Env) (s : vec_state) (instr1 instr2 : Nat)
    (alu1 alu2 : nir_alu_instr) (m : merge_record)
    (h : merge_ok (combine_heap3 E s alu1 alu2) m) :
    merge_ok (combine_alu E s instr1 instr2 alu1 alu2).heap m := by
  apply combine_alu_heap_pres E s instr1 instr2 alu1 alu2
    (fun i => ∃ a, i = .alu a ∧
      a.num_components = m.alu1.num_components + m.alu2.num_components ∧
      a.num_components ≤ 4) _ _ m.new_instr h
  · rintro i ⟨a, rfl, hc, hle⟩
    exact ⟨_, rfl, hc, hle⟩
  · rintro i ⟨a, rfl, hc, hle⟩
    exact ⟨_, rfl, hc, hle⟩

theorem width_rel_walk (E : Env) : WalkRel E width_rel where
  refl := fun s => ⟨le_refl _, fun _ h => h, fun _ h => Or.inl h, fun _ _ h => h,
    fun _ h => Or.inl h⟩
  trans := by
    rintro s1 b1 s2 b2 s3 ⟨n1, w1, l1, m1, g1⟩ ⟨n2, w2, l2, m2, g2⟩
    refine ⟨le_trans n1 n2, fun p h => w2 p (w1 p h), ?_, ?_, ?_⟩
    · intro p hp
      rcases l2 p hp with h | h
      · rcases l1 p h with h' | h'
        · exact Or.inl h'
        · exact Or.inr (w2 p h')
      · exact Or.inr h
    · intro m hm h
      exact m2 m (by omega) (m1 m hm h)
    · intro m hm
      rcases g2 m hm with h | h
      · rcases g1 m h with h' | h'
        · exact Or.inl h'
        · exact Or.inr ⟨by omega, m2 m h'.1 h'.2⟩
      · exact Or.inr h
  set := fun s set => ⟨le_refl _, fun _ h => h, fun _ h => Or.inl h, fun _ _ h => h,
    fun _ h => Or.inl h⟩
  comb := by
    intro s instr1 instr2 alu1 alu2 _ _ hw
    refine ⟨by simp [combine_alu], ?_, ?_, ?_, ?_⟩
    · intro p hp
      exact combine_alu_heap_pres E s instr1 instr2 alu1 alu2 width_ok
        (width_ok_rewrite1 E _ _ _) (width_ok_rewrite2 E _ _ _ _) p
        (width_ok_heap3 E s alu1 alu2 p hw hp)
    · intro p hp
      rcases mem_combine_blocks E s instr1 instr2 alu1 alu2 p hp with h | h
      · exact Or.inl h
      · exact Or.inr (combine_alu_heap_pres E s instr1 instr2 alu1 alu2 width_ok
          (width_ok_rewrite1 E _ _ _) (width_ok_rewrite2 E _ _ _ _) p
          (width_ok_heap3_new E s alu1 alu2 p hw h))
    · intro m hm h
      apply merge_ok_pres
      unfold merge_ok
      rw [combine_heap3_old E s alu1 alu2 _ hm]
      exact h
    · intro m hm
      simp only [combine_alu, List.mem_append, List.mem_singleton] at hm
      rcases hm with h | h
      · exact Or.inl h
      · right
        subst h
        refine ⟨by simp [combine_alu], ?_⟩
        apply merge_ok_pres
        refine ⟨combined_alu E alu1 alu2, ?_, rfl, hw⟩
        show combine_heap3 E s alu1 alu2 s.next = _
        unfold combine_heap3 heap_set
        rw [if_neg (by omega), if_neg (by omega), if_pos rfl]

theorem vectorize_functions_width (E : Env) (fs : List (Option nir_function_impl)) :
    ∀ sh : nir_shader,
      sh.next ≤ (vectorize_functions E fs sh).2.next ∧
      (∀ p, width_ok (sh.heap p) → width_ok ((vectorize_functions E fs sh).2.heap p)) ∧
      (∀ m, m.new_instr < sh.next → merge_ok sh.heap m →
        merge_ok (vectorize_functions E fs sh).2.heap m) ∧
      (∀ m, m ∈ (vectorize_functions E fs sh).2.merges → m ∈ sh.merges ∨
        (m.new_instr < (vectorize_functions E fs sh).2.next ∧
          merge_ok (vectorize_functions E fs sh).2.heap m)) ∧
      (∀ impl2, some impl2 ∈ (vectorize_functions E fs sh).2.functions →
        some impl2 ∈ sh.functions ∨
        ∃ impl, some impl ∈ fs ∧ ∀ p, p ∈ impl2.blocks.flatten →
          p ∈ impl.blocks.flatten ∨ width_ok ((vectorize_functions E fs sh).2.heap p)) := by
  induction fs with
  | nil =>
    intro sh
    simp only [vectorize_functions]
    exact ⟨le_refl _, fun _ h => h, fun _ _ h => h, fun _ h => Or.inl h, fun _ h => Or.inl h⟩
  | cons f rest ih =>
    intro sh
    cases f with
    | none =>
      obtain ⟨n, w, g, l, fn⟩ := ih { sh with functions := sh.functions ++ [none] }
      simp only [vectorize_functions]
      refine ⟨n, w, g, l, ?_⟩
      intro impl2 h2
      rcases fn impl2 h2 with h | ⟨impl, hi, hp⟩
      · simp only [List.mem_append, List.mem_singleton] at h
        rcases h with h | h
        · exact Or.inl h
        · exact absurd h (by simp)
      · exact Or.inr ⟨impl, List.mem_cons_of_mem _ hi, hp⟩
    | some impl =>
      simp only [vectorize_functions]
      obtain ⟨n1, w1, l1, m1, g1⟩ := vectorize_block_rel E width_rel (width_rel_walk E)
        impl.dom_tree { heap := sh.heap, next := sh.next, blocks := impl.blocks,
                        if_uses := impl.if_uses, instr_set := [], merges := sh.merges }
      obtain ⟨n2, w2, m2, g2, fn⟩ := ih
        { (nir_opt_vectorize_impl E sh impl).2.1 with
          functions := (nir_opt_vectorize_impl E sh impl).2.1.functions ++
            [some (nir_opt_vectorize_impl E sh impl).2.2] }
      refine ⟨le_trans n1 n2, fun p h => w2 p (w1 p h), ?_, ?_, ?_⟩
      · intro m hm h
        exact m2 m (lt_of_lt_of_le hm n1) (m1 m hm h)
      · intro m hm
        rcases g2 m hm with h | h
        · rcases g1 m h with h' | h'
          · exact Or.inl h'
          · exact Or.inr ⟨lt_of_lt_of_le h'.1 n2, m2 m h'.1 h'.2⟩
        · exact Or.inr h
      · intro impl2 h2
        rcases fn impl2 h2 with h | ⟨impl3, hi, hp⟩
        · simp only [nir_opt_vectorize_impl, List.mem_append, List.mem_singleton,
            Option.some.injEq] at h
          rcases h with h | h
          · exact Or.inl h
          · right
            refine ⟨impl, List.mem_cons_self _ _, ?_⟩
            intro p hp
            subst h
            rcases l1 p hp with h' | h'
            · exact Or.inl h'
            · exact Or.inr (w2 p h')
        · exact Or.inr ⟨impl3, List.mem_cons_of_mem _ hi, hp⟩

/-- C1: every instruction a run of `nir_opt_vectorize` logs as created by a combine
is an ALU instruction whose component count is exactly the sum of the component
counts of the two combined instructions and at most 4; and when no ALU instruction
linked in a function body of the shader has more than 4 components before the run,
none has after it. -/
theorem C1_width_bound (E : Env) (shader : nir_shader)
    (h : ∀ impl, some impl ∈ shader.functions → ∀ p, p ∈ impl.blocks.flatten →
      ∀ a, shader.heap p = .alu a → a.num_components ≤ 4) :
    (∀ m, m ∈ (nir_opt_vectorize E shader).2.merges → m ∈ shader.merges ∨
      ∃ a, (nir_opt_vectorize E shader).2.heap m.new_instr = .alu a ∧
        a.num_components = m.alu1.num_components + m.alu2.num_components ∧
        a.num_components ≤ 4) ∧
    (∀ impl, some impl ∈ (nir_opt_vectorize E shader).2.functions →
      ∀ p, p ∈ impl.blocks.flatten →
      ∀ a, (nir_opt_vectorize E shader).2.heap p = .alu a → a.num_components ≤ 4) := by
  obtain ⟨_, w, _, g, fn⟩ := vectorize_functions_width E shader.functions
    { shader with functions := [] }
  constructor
  · intro m hm
    rcases g m hm with h' | h'
    · exact Or.inl h'
    · exact Or.inr h'.2
  · intro impl2 h2 p hp
    rcases fn impl2 h2 with h' | ⟨impl, hi, hpp⟩
    · exact absurd h' (by simp)
    · rcases hpp p hp with h' | h'
      · exact w p (h impl hi p h')
      · exact h'

/-- C1 at the first example: the instruction `200` that the run creates from `A` and
`B` has `1 + 1` components. -/
theorem C1_width_bound_witness :
    ∃ a, (nir_opt_vectorize ex_env ex_shader).2.heap 200 = .alu a ∧
      a.num_components = 1 + 1 ∧ a.num_components ≤ 4 := by
  have hyp : ∀ impl, some impl ∈ ex_shader.functions → ∀ p, p ∈ impl.blocks.flatten →
      ∀ a, ex_shader.heap p = .alu a → a.num_components ≤ 4 := by
    intro impl himpl p hp a ha
    simp only [ex_shader, List.mem_singleton, Option.some.injEq] at himpl
    subst himpl
    simp only [List.flatten_cons, List.flatten_nil, List.append_nil, List.mem_cons,
      List.not_mem_nil, or_false] at hp
    have hheap : ex_shader.heap p = ex_heap p := rfl
    rw [hheap] at ha
    rcases hp with rfl | rfl | rfl | rfl | rfl | rfl | rfl <;>
      simp [ex_heap, ex_alu] at ha <;> subst ha <;> decide
  have hlen : 0 < (nir_opt_vectorize ex_env ex_shader).2.merges.length := by decide
  rcases (C1_width_bound ex_env ex_shader hyp).1
      ((nir_opt_vectorize ex_env ex_shader).2.merges.get ⟨0, hlen⟩)
      (List.get_mem _ _ _) with h | h
  · exact absurd h (List.not_mem_nil _)
  · exact h

/-! ## Lemmas: the flat list of linked instructions -/

theorem flatten_insert_after (blocks : List (List Nat)) (a n : Nat) :
    (nir_instr_insert_after blocks a n).flatten =
      blocks.flatten.flatMap (fun p => if p = a then [p, n] else [p]) := by
  unfold nir_instr_insert_after
  induction blocks with
  | nil => rfl
  | cons b rest ih =>
    simp only [List.map_cons, List.flatten_cons, List.flatMap_append, ih]

theorem flatten_remove (blocks : List (List Nat)) (a : Nat) :
    (nir_instr_remove blocks a).flatten = blocks.flatten.filter (fun p => p != a) := by
  unfold nir_instr_remove
  induction blocks with
  | nil => rfl
  | cons b rest ih =>
    simp only [List.map_cons, List.flatten_cons, List.filter_append, ih]

theorem nodup_flatMap_insert (l : List Nat) (a n : Nat) (hl : l.Nodup) (hn : n ∉ l) :
    (l.flatMap (fun p => if p = a then [p, n] else [p])).Nodup := by
  induction l with
  | nil => simp
  | cons x rest ih =>
    have hx : x ∉ rest := (List.nodup_cons.1 hl).1
    have hr : rest.Nodup := (List.nodup_cons.1 hl).2
    have hn2 : n ∉ rest := fun h => hn (List.mem_cons_of_mem _ h)
    have hnx : n ≠ x := fun h => hn (h ▸ List.mem_cons_self _ _)
    have ih2 := ih hr hn2
    have hmem : ∀ q, q ∈ rest.flatMap (fun p => if p = a then [p, n] else [p]) →
        q ∈ rest ∨ (q = n ∧ a ∈ rest) := by
      intro q hq
      rw [List.mem_flatMap] at hq
      obtain ⟨p, hp, hq⟩ := hq
      by_cases hpa : p = a
      · rw [if_pos hpa] at hq
        simp only [List.mem_cons, List.mem_singleton, List.not_mem_nil, or_false] at hq
        rcases hq with rfl | rfl
        · exact Or.inl hp
        · exact Or.inr ⟨rfl, hpa ▸ hp⟩
      · rw [if_neg hpa] at hq
        simp only [List.mem_singleton] at hq
        exact Or.inl (hq ▸ hp)
    simp only [List.flatMap_cons]
    by_cases hxa : x = a
    · rw [if_pos hxa]
      simp only [List.cons_append, List.nil_append, List.nodup_cons, List.mem_cons]
      refine ⟨?_, ?_, ih2⟩
      · rintro (h | h)
        · exact hnx h.symm
        · rcases hmem x h with h' | h'
          · exact hx h'
          · exact hnx h'.1.symm
      · intro h
        rcases hmem n h with h' | h'
        · exact hn2 h'
        · exact hx (hxa ▸ h'.2)
    · rw [if_neg hxa]
      simp only [List.cons_append, List.nil_append, List.nodup_cons]
      refine ⟨?_, ih2⟩
      intro h
      rcases hmem x h with h' | h'
      · exact hx h'
      · exact hnx h'.1.symm

theorem nodup_insert_after (blocks : List (List Nat)) (a n : Nat)
    (hl : blocks.flatten.Nodup) (hn : n ∉ blocks.flatten) :
    (nir_instr_insert_after blocks a n).flatten.Nodup := by
  rw [flatten_insert_after]
  exact nodup_flatMap_insert _ a n hl hn

theorem nodup_remove (blocks : List (List Nat)) (a : Nat) (hl : blocks.flatten.Nodup) :
    (nir_instr_remove blocks a).flatten.Nodup := by
  rw [flatten_remove]
  exact hl.filter _

theorem mem_combine_blocks3_iff (s : vec_state) (instr1 p : Nat)
    (h1 : instr1 ∈ s.blocks.flatten) :
    p ∈ (combine_blocks3 s instr1).flatten ↔
      p ∈ s.blocks.flatten ∨ p = s.next ∨ p = s.next + 1 ∨ p = s.next + 2 := by
  constructor
  · exact mem_combine_blocks3 s instr1 p
  · intro hp
    unfold combine_blocks3
    have hN : s.next ∈ (nir_instr_insert_after s.blocks instr1 s.next).flatten :=
      (mem_insert_after _ _ _ _).2 (Or.inr ⟨rfl, h1⟩)
    have hN1 : s.next + 1 ∈ (nir_instr_insert_after
        (nir_instr_insert_after s.blocks instr1 s.next) s.next (s.next + 1)).flatten :=
      (mem_insert_after _ _ _ _).2 (Or.inr ⟨rfl, hN⟩)
    rcases hp with h | h | h | h
    · exact (mem_insert_after _ _ _ _).2 (Or.inl ((mem_insert_after _ _ _ _).2
        (Or.inl ((mem_insert_after _ _ _ _).2 (Or.inl h)))))
    · rw [h]
      exact (mem_insert_after _ _ _ _).2 (Or.inl ((mem_insert_after _ _ _ _).2 (Or.inl hN)))
    · rw [h]
      exact (mem_insert_after _ _ _ _).2 (Or.inl hN1)
    · rw [h]
      exact (mem_insert_after _ _ _ _).2 (Or.inr ⟨rfl, hN1⟩)

theorem nodup_combine_blocks3 (s : vec_state) (instr1 : Nat) (hn : s.blocks.flatten.Nodup)
    (hlt : ∀ q, q ∈ s.blocks.flatten → q < s.next) :
    (combine_blocks3 s instr1).flatten.Nodup := by
  unfold combine_blocks3
  apply nodup_insert_after
  · apply nodup_insert_after
    · apply nodup_insert_after _ _ _ hn
      intro h
      exact absurd (hlt _ h) (by omega)
    · rw [mem_insert_after]
      rintro (h | h)
      · exact absurd (hlt _ h) (by omega)
      · omega
  · rw [mem_insert_after, mem_insert_after]
    rintro ((h | h) | h)
    · exact absurd (hlt _ h) (by omega)
    · omega
    · omega

/-! ## Lemmas: what one step of the walk does to the set of stacks -/

theorem find_entry_some (p : Nat × List Nat → Bool) (l : List (Nat × List Nat)) (i k : Nat)
    (h : find_entry p l i = some k) :
    ∃ L1 e L2, l = L1 ++ e :: L2 ∧ k = i + L1.length ∧ p e = true := by
  induction l generalizing i with
  | nil => simp [find_entry] at h
  | cons x rest ih =>
    unfold find_entry at h
    by_cases hx : p x = true
    · rw [if_pos hx] at h
      injection h with h
      exact ⟨[], x, rest, rfl, by simp [h], hx⟩
    · rw [if_neg hx] at h
      obtain ⟨L1, e, L2, hl, hk, hp⟩ := ih (i + 1) h
      exact ⟨x :: L1, e, L2, by rw [hl]; rfl, by simp [hk]; omega, hp⟩

theorem getD_append_mid (L1 L2 : List (Nat × List Nat)) (e d : Nat × List Nat) :
    (L1 ++ e :: L2).getD L1.length d = e := by
  rw [List.getD_eq_getElem?_getD, List.getElem?_append_right (le_refl _)]
  simp

theorem set_stack_append_mid (L1 L2 : List (Nat × List Nat)) (e : Nat × List Nat)
    (stack : List Nat) :
    set_stack (L1 ++ e :: L2) L1.length stack = L1 ++ (e.1, stack) :: L2 := by
  unfold set_stack
  rw [getD_append_mid]
  simp

theorem eraseIdx_append_mid (L1 L2 : List (Nat × List Nat)) (e : Nat × List Nat) :
    _mesa_set_remove (L1 ++ e :: L2) L1.length = L1 ++ L2 := by
  unfold _mesa_set_remove
  rw [List.eraseIdx_append_of_length_le (le_refl _)]
  simp

theorem mesa_set_search_some (E : Env) (s : vec_state) (key : List Nat) (idx : Nat)
    (h : _mesa_set_search E s key = some idx) :
    ∃ L1 e L2, s.instr_set = L1 ++ e :: L2 ∧ idx = L1.length ∧
      cmp_func E s.heap key e.2 = true := by
  unfold _mesa_set_search at h
  obtain ⟨L1, e, L2, hl, hk, hp⟩ := find_entry_some _ _ _ _ h
  refine ⟨L1, e, L2, hl, by simpa using hk, ?_⟩
  simp only [Bool.and_eq_true] at hp
  exact hp.2

theorem instr_try_combine_cases (E : Env) (s : vec_state) (instr1 instr2 : Nat) :
    instr_try_combine E s instr1 instr2 = (none, s) ∨
    ∃ alu1 alu2, s.heap instr1 = .alu alu1 ∧ s.heap instr2 = .alu alu2 ∧
      alu1.num_components + alu2.num_components ≤ 4 ∧
      instr_try_combine E s instr1 instr2 =
        (some s.next, combine_alu E s instr1 instr2 alu1 alu2) := by
  cases h1 : s.heap instr1 with
  | other srcs => left; unfold instr_try_combine; rw [h1]
  | alu alu1 =>
    cases h2 : s.heap instr2 with
    | other srcs => left; unfold instr_try_combine; rw [h1, h2]
    | alu alu2 =>
      rw [instr_try_combine_alu E s instr1 instr2 alu1 alu2 h1 h2]
      by_cases hw : alu1.num_components + alu2.num_components > 4
      · left; rw [if_pos hw]
      · right
        exact ⟨alu1, alu2, rfl, rfl, by omega, by rw [if_neg hw]⟩

theorem vec_instr_stack_scan_cases (E : Env) (instr : Nat) (l : List Nat) (s : vec_state) :
    vec_instr_stack_scan E instr l s = (none, s) ∨
    ∃ pre stack_instr post alu1 alu2, l = pre ++ stack_instr :: post ∧
      s.heap stack_instr = .alu alu1 ∧ s.heap instr = .alu alu2 ∧
      alu1.num_components + alu2.num_components ≤ 4 ∧
      vec_instr_stack_scan E instr l s =
        (some (pre ++ s.next :: post), combine_alu E s stack_instr instr alu1 alu2) := by
  induction l with
  | nil => left; rfl
  | cons x below ih =>
    rcases instr_try_combine_cases E s x instr with hc | ⟨alu1, alu2, h1, h2, hw, hc⟩
    · rcases ih with hi | ⟨pre, si, post, alu1, alu2, hl, h1, h2, hw, hi⟩
      · left
        unfold vec_instr_stack_scan
        rw [hc]
        simp only []
        rw [hi]
      · right
        refine ⟨x :: pre, si, post, alu1, alu2, by rw [hl]; rfl, h1, h2, hw, ?_⟩
        unfold vec_instr_stack_scan
        rw [hc]
        simp only []
        rw [hi]
        rfl
    · right
      refine ⟨[], x, below, alu1, alu2, rfl, h1, h2, hw, ?_⟩
      unfold vec_instr_stack_scan
      rw [hc]
      rfl

theorem vec_instr_stack_push_cases (E : Env) (stack : List Nat) (instr : Nat) (s : vec_state) :
    vec_instr_stack_push E stack instr s = (false, stack ++ [instr], s) ∨
    ∃ pre stack_instr post alu1 alu2, stack = pre ++ stack_instr :: post ∧
      s.heap stack_instr = .alu alu1 ∧ s.heap instr = .alu alu2 ∧
      alu1.num_components + alu2.num_components ≤ 4 ∧
      vec_instr_stack_push E stack instr s =
        (true, pre ++ s.next :: post, combine_alu E s stack_instr instr alu1 alu2) := by
  rcases vec_instr_stack_scan_cases E instr stack.reverse s with
    h | ⟨pre, si, post, alu1, alu2, hl, h1, h2, hw, h⟩
  · left
    unfold vec_instr_stack_push
    rw [h]
  · right
    refine ⟨post.reverse, si, pre.reverse, alu1, alu2, ?_, h1, h2, hw, ?_⟩
    · have := congrArg List.reverse hl
      simpa using this
    · unfold vec_instr_stack_push
      rw [h]
      simp

/-- The four outcomes of `vec_instr_set_add_or_rewrite`. -/
theorem vec_instr_set_add_or_rewrite_cases (E : Env) (instr : Nat) (s : vec_state) :
    vec_instr_set_add_or_rewrite E instr s = (false, s) ∨
    (instr_can_rewrite E (s.heap instr) = true ∧
      vec_instr_set_add_or_rewrite E instr s =
        (false, { s with instr_set := s.instr_set ++ [(hash_stack E s.heap [instr], [instr])] })) ∨
    (instr_can_rewrite E (s.heap instr) = true ∧
      ∃ L1 h stack L2, s.instr_set = L1 ++ (h, stack) :: L2 ∧
        cmp_func E s.heap [instr] stack = true ∧
        vec_instr_set_add_or_rewrite E instr s =
          (false, { s with instr_set := L1 ++ (h, stack ++ [instr]) :: L2 })) ∨
    (instr_can_rewrite E (s.heap instr) = true ∧
      ∃ L1 h pre stack_instr post L2 alu1 alu2,
        s.instr_set = L1 ++ (h, pre ++ stack_instr :: post) :: L2 ∧
        cmp_func E s.heap [instr] (pre ++ stack_instr :: post) = true ∧
        s.heap stack_instr = .alu alu1 ∧ s.heap instr = .alu alu2 ∧
        alu1.num_components + alu2.num_components ≤ 4 ∧
        vec_instr_set_add_or_rewrite E instr s =
          (true, { combine_alu E s stack_instr instr alu1 alu2 with
                   instr_set := L1 ++ (h, pre ++ s.next :: post) :: L2 })) := by
  by_cases hr : instr_can_rewrite E (s.heap instr) = true
  · right
    cases hs : _mesa_set_search E s [instr] with
    | none =>
      left
      refine ⟨hr, ?_⟩
      unfold vec_instr_set_add_or_rewrite
      simp only [hr, vec_instr_stack_push_nil, hs, _mesa_set_add]
      rfl
    | some idx =>
      right
      obtain ⟨L1, e, L2, hl, hidx, hcmp⟩ := mesa_set_search_some E s [instr] idx hs
      subst hidx
      have hget : (s.instr_set.getD L1.length (0, [])).2 = e.2 := by
        rw [hl, getD_append_mid]
      rcases vec_instr_stack_push_cases E e.2 instr s with
        hp | ⟨pre, si, post, alu1, alu2, hst, h1, h2, hw, hp⟩
      · left
        refine ⟨hr, L1, e.1, e.2, L2, hl, hcmp, ?_⟩
        unfold vec_instr_set_add_or_rewrite
        simp only [hr, vec_instr_stack_push_nil, hs, hget, hp]
        rw [hl, set_stack_append_mid]
        rfl
      · right
        refine ⟨hr, L1, e.1, pre, si, post, L2, alu1, alu2, ?_, ?_, h1, h2, hw, ?_⟩
        · rw [hl, ← hst]
        · rw [← hst]
          exact hcmp
        · unfold vec_instr_set_add_or_rewrite
          simp only [hr, vec_instr_stack_push_nil, hs, hget, hp]
          have : (combine_alu E s si instr alu1 alu2).instr_set = s.instr_set := rfl
          rw [this, hl, set_stack_append_mid]
          rfl
  · left
    unfold vec_instr_set_add_or_rewrite
    simp [hr]

/-- The three outcomes of `vec_instr_set_remove`. -/
theorem vec_instr_set_remove_cases (E : Env) (instr : Nat) (s : vec_state) :
    vec_instr_set_remove E instr s = s ∨
    (∃ L1 e L2, s.instr_set = L1 ++ e :: L2 ∧
      vec_instr_set_remove E instr s =
        { s with instr_set := L1 ++ (e.1, e.2.dropLast) :: L2 }) ∨
    (∃ L1 e L2, s.instr_set = L1 ++ e :: L2 ∧
      vec_instr_set_remove E instr s = { s with instr_set := L1 ++ L2 }) := by
  by_cases hr : instr_can_rewrite E (s.heap instr) = true
  · cases hs : _mesa_set_search E s [instr] with
    | none =>
      left
      unfold vec_instr_set_remove
      simp only [hr, vec_instr_stack_push_nil, hs]
      rfl
    | some idx =>
      right
      obtain ⟨L1, e, L2, hl, hidx, _⟩ := mesa_set_search_some E s [instr] idx hs
      subst hidx
      have hget : (s.instr_set.getD L1.length (0, [])).2 = e.2 := by
        rw [hl, getD_append_mid]
      by_cases hlen : e.2.length > 1
      · left
        refine ⟨L1, e, L2, hl, ?_⟩
        unfold vec_instr_set_remove
        simp only [hr, vec_instr_stack_push_nil, hs, hget, hlen, vec_instr_stack_pop]
        rw [hl, set_stack_append_mid]
        rfl
      · right
        refine ⟨L1, e, L2, hl, ?_⟩
        unfold vec_instr_set_remove
        simp only [hr, vec_instr_stack_push_nil, hs, hget, hlen]
        rw [hl, eraseIdx_append_mid]
        rfl
  · left
    unfold vec_instr_set_remove
    simp [hr]

/-! ## Lemmas: `instrs_equal` is an equivalence kept by the rewriting loops -/

theorem instrs_equal_alu (E : Env) (i j : nir_instr) (h : instrs_equal E i j = true) :
    ∃ a b, i = .alu a ∧ j = .alu b ∧ alu_instrs_equal E a b = true := by
  cases i with
  | other srcs => simp [instrs_equal] at h
  | alu a =>
    cases j with
    | other srcs => simp [instrs_equal] at h
    | alu b => exact ⟨a, b, rfl, rfl, h⟩

theorem instrs_equal_refl (E : Env) (a : nir_alu_instr) :
    instrs_equal E (.alu a) (.alu a) = true := by
  simp only [instrs_equal]
  rw [alu_instrs_equal_iff]
  exact ⟨rfl, rfl, fun _ _ => rfl⟩

theorem instrs_equal_symm (E : Env) (i j : nir_instr) (h : instrs_equal E i j = true) :
    instrs_equal E j i = true := by
  obtain ⟨a, b, rfl, rfl, hab⟩ := instrs_equal_alu E i j h
  simp only [instrs_equal]
  rw [alu_instrs_equal_iff] at hab ⊢
  refine ⟨hab.1.symm, hab.2.1.symm, ?_⟩
  intro k hk
  rw [← hab.1] at hk
  exact (hab.2.2 k hk).symm

theorem instrs_equal_trans (E : Env) (i j k : nir_instr) (h1 : instrs_equal E i j = true)
    (h2 : instrs_equal E j k = true) : instrs_equal E i k = true := by
  obtain ⟨a, b, rfl, rfl, hab⟩ := instrs_equal_alu E i j h1
  obtain ⟨b2, c, hb, rfl, hbc⟩ := instrs_equal_alu E _ k h2
  injection hb with hb
  subst hb
  simp only [instrs_equal]
  rw [alu_instrs_equal_iff] at hab hbc ⊢
  refine ⟨hab.1.trans hbc.1, hab.2.1.trans hbc.2.1, ?_⟩
  intro m hm
  rw [hab.2.2 m hm]
  rw [hab.1] at hm
  exact hbc.2.2 m hm

theorem instr_can_rewrite_alu (E : Env) (i : nir_instr) (h : instr_can_rewrite E i = true) :
    ∃ a, i = .alu a := by
  cases i with
  | other srcs => simp [instr_can_rewrite] at h
  | alu a => exact ⟨a, rfl⟩

theorem rewrite_src_ssa (E : Env) (instr1 instr2 new_alu n1 : Nat) (u : nir_alu_instr)
    (i : Nat) (s : nir_alu_src) (hi : i < (E.nir_op_infos u.op).num_inputs) :
    (rewrite_src E instr1 instr2 new_alu n1 u i s).ssa =
      if s.ssa = instr1 then new_alu else if s.ssa = instr2 then new_alu else s.ssa := by
  unfold rewrite_src
  by_cases h1 : s.ssa = instr1
  · rw [if_pos ⟨hi, h1⟩, if_pos h1]
  · rw [if_neg (fun h => h1 h.2), if_neg h1]
    by_cases h2 : s.ssa = instr2
    · rw [if_pos ⟨hi, h2⟩, if_pos h2]
    · rw [if_neg (fun h => h2 h.2), if_neg h2]

theorem rewrite_both_alu_eq (E : Env) (instr1 instr2 new_alu n1 : Nat) (u : nir_alu_instr)
    (hn : new_alu ≠ instr2) :
    rewrite_both E instr1 instr2 new_alu n1 (.alu u) =
      .alu { u with src := map_srcs (rewrite_src E instr1 instr2 new_alu n1 u) 0 u.src } :=
  rewrite_both_alu E instr1 instr2 new_alu (new_alu + 1) (new_alu + 2) n1 u hn

theorem arity_ok_rewrite_both (E : Env) (instr1 instr2 new_alu n1 : Nat) (i : nir_instr)
    (h : arity_ok E i) : arity_ok E (rewrite_both E instr1 instr2 new_alu n1 i) := by
  intro a ha
  cases i with
  | other srcs => simp [rewrite_both, rewrite_use1, rewrite_use2] at ha
  | alu u =>
    simp only [rewrite_both, rewrite_use1, rewrite_use2, nir_instr.alu.injEq] at ha
    subst ha
    simp only [map_srcs_length]
    exact h u rfl

/-- Both rewriting loops replace a source by a function of the source alone, so two
equal instructions stay equal. -/
theorem instrs_equal_rewrite_both (E : Env) (instr1 instr2 new_alu n1 : Nat)
    (i j : nir_instr) (hn : new_alu ≠ instr2) (h : instrs_equal E i j = true)
    (hi : arity_ok E i) (hj : arity_ok E j) :
    instrs_equal E (rewrite_both E instr1 instr2 new_alu n1 i)
      (rewrite_both E instr1 instr2 new_alu n1 j) = true := by
  obtain ⟨a, b, rfl, rfl, hab⟩ := instrs_equal_alu E i j h
  rw [rewrite_both_alu_eq E _ _ _ _ a hn, rewrite_both_alu_eq E _ _ _ _ b hn]
  simp only [instrs_equal]
  rw [alu_instrs_equal_iff] at hab ⊢
  refine ⟨hab.1, hab.2.1, ?_⟩
  intro k hk
  have hk1 : k < (E.nir_op_infos a.op).num_inputs := hk
  have hk2 : k < (E.nir_op_infos b.op).num_inputs := hab.1 ▸ hk1
  have hla : k < a.src.length := by rw [hi a rfl]; exact hk1
  have hlb : k < b.src.length := by rw [hj b rfl]; exact hk2
  simp only []
  rw [map_srcs_getD _ _ _ hla, map_srcs_getD _ _ _ hlb, rewrite_src_ssa E _ _ _ _ a k _ hk1,
    rewrite_src_ssa E _ _ _ _ b k _ hk2, hab.2.2 k hk1]

/-! ## Lemmas: entries of a set, blocks of a state -/

theorem entries_append (L1 L2 : List (Nat × List Nat)) :
    entries (L1 ++ L2) = entries L1 ++ entries L2 := by
  simp [entries]

theorem entries_cons (e : Nat × List Nat) (L : List (Nat × List Nat)) :
    entries (e :: L) = e.2 ++ entries L := by
  simp [entries]

theorem entries_mid (L1 L2 : List (Nat × List Nat)) (h : Nat) (stack : List Nat) :
    entries (L1 ++ (h, stack) :: L2) = entries L1 ++ (stack ++ entries L2) := by
  rw [entries_append, entries_cons]

theorem mem_entries (set : List (Nat × List Nat)) (e : Nat) :
    e ∈ entries set ↔ ∃ st, st ∈ set ∧ e ∈ st.2 := by
  simp only [entries, List.mem_flatten, List.mem_map]
  constructor
  · rintro ⟨l, ⟨st, hst, rfl⟩, he⟩
    exact ⟨st, hst, he⟩
  · rintro ⟨st, hst, he⟩
    exact ⟨st.2, ⟨st, hst, rfl⟩, he⟩

theorem headD_mem (l : List Nat) (d : Nat) (h : l ≠ []) : l.headD d ∈ l := by
  cases l with
  | nil => exact absurd rfl h
  | cons x rest => simp

theorem getD_mem_flatten (blocks : List (List Nat)) (c p : Nat)
    (h : p ∈ blocks.getD c []) : p ∈ blocks.flatten := by
  rw [List.getD_eq_getElem?_getD] at h
  cases hc : blocks[c]? with
  | none => rw [hc] at h; simp at h
  | some b =>
    rw [hc] at h
    simp only [Option.getD_some] at h
    exact List.mem_flatten.2 ⟨b, List.getElem?_mem hc, h⟩

theorem getD_map_blocks (f : List Nat → List Nat) (hf : f [] = []) (blocks : List (List Nat))
    (c : Nat) : (blocks.map f).getD c [] = f (blocks.getD c []) := by
  rw [List.getD_eq_getElem?_getD, List.getD_eq_getElem?_getD, List.getElem?_map]
  cases blocks[c]? with
  | none => simp [hf]
  | some b => simp

theorem getD_insert_after (blocks : List (List Nat)) (a n c p : Nat)
    (hp : p ∈ (nir_instr_insert_after blocks a n).getD c []) :
    p ∈ blocks.getD c [] ∨ (p = n ∧ a ∈ blocks.getD c []) := by
  unfold nir_instr_insert_after at hp
  rw [getD_map_blocks _ (by rfl)] at hp
  rw [List.mem_flatMap] at hp
  obtain ⟨q, hq, hp⟩ := hp
  by_cases hqa : q = a
  · rw [if_pos hqa] at hp
    simp only [List.mem_cons, List.mem_singleton, List.not_mem_nil, or_false] at hp
    rcases hp with rfl | rfl
    · exact Or.inl hq
    · exact Or.inr ⟨rfl, hqa ▸ hq⟩
  · rw [if_neg hqa] at hp
    simp only [List.mem_singleton] at hp
    exact Or.inl (hp ▸ hq)

theorem getD_remove (blocks : List (List Nat)) (a c p : Nat)
    (hp : p ∈ (nir_instr_remove blocks a).getD c []) : p ∈ blocks.getD c [] := by
  unfold nir_instr_remove at hp
  rw [getD_map_blocks _ (by rfl)] at hp
  exact (List.mem_filter.1 hp).1

/-- A block that holds neither the first instruction of a combine nor a new address
gains nothing in the combine. -/
theorem getD_combine_blocks (E : Env) (s : vec_state) (instr1 instr2 : Nat)
    (alu1 alu2 : nir_alu_instr) (c p : Nat)
    (hlt : ∀ q, q ∈ s.blocks.flatten → q < s.next)
    (h1 : instr1 ∉ s.blocks.getD c [])
    (hp : p ∈ (combine_alu E s instr1 instr2 alu1 alu2).blocks.getD c []) :
    p ∈ s.blocks.getD c [] := by
  rw [combine_alu_blocks_eq] at hp
  have hp3 := getD_remove _ _ _ _ (getD_remove _ _ _ _ hp)
  unfold combine_blocks3 at hp3
  have hno : ∀ q, q ∈ s.blocks.getD c [] → q < s.next :=
    fun q hq => hlt q (getD_mem_flatten _ _ _ hq)
  rcases getD_insert_after _ _ _ _ _ hp3 with h | ⟨_, h⟩
  · rcases getD_insert_after _ _ _ _ _ h with h' | ⟨_, h'⟩
    · rcases getD_insert_after _ _ _ _ _ h' with h'' | ⟨_, h''⟩
      · exact h''
      · exact absurd h'' h1
    · rcases getD_insert_after _ _ _ _ _ h' with h'' | ⟨_, h''⟩
      · exact absurd (hno _ h'') (by omega)
      · exact absurd h'' h1
  · rcases getD_insert_after _ _ _ _ _ h with h' | ⟨_, h'⟩
    · rcases getD_insert_after _ _ _ _ _ h' with h'' | ⟨h'', _⟩
      · exact absurd (hno _ h'') (by omega)
      · omega
    · rcases getD_insert_after _ _ _ _ _ h' with h'' | ⟨_, h''⟩
      · exact absurd (hno _ h'') (by omega)
      · exact absurd h'' h1

theorem mem_combine_blocks_iff (E : Env) (s : vec_state) (instr1 instr2 : Nat)
    (alu1 alu2 : nir_alu_instr) (p : Nat) (h1 : instr1 ∈ s.blocks.flatten) :
    p ∈ (combine_alu E s instr1 instr2 alu1 alu2).blocks.flatten ↔
      (p ∈ s.blocks.flatten ∨ p = s.next ∨ p = s.next + 1 ∨ p = s.next + 2) ∧
      p ≠ instr1 ∧ p ≠ instr2 := by
  rw [combine_alu_blocks_eq, mem_remove, mem_remove, mem_combine_blocks3_iff s instr1 p h1]
  tauto

theorem nodup_combine_blocks (E : Env) (s : vec_state) (instr1 instr2 : Nat)
    (alu1 alu2 : nir_alu_instr) (hn : s.blocks.flatten.Nodup)
    (hlt : ∀ q, q ∈ s.blocks.flatten → q < s.next) :
    (combine_alu E s instr1 instr2 alu1 alu2).blocks.flatten.Nodup := by
  rw [combine_alu_blocks_eq]
  exact nodup_remove _ _ (nodup_remove _ _ (nodup_combine_blocks3 s instr1 hn hlt))

theorem combine_heap_live (E : Env) (s : vec_state) (instr1 instr2 : Nat)
    (alu1 alu2 : nir_alu_instr) (p : Nat) (hp : p ∈ s.blocks.flatten) (hlt : p < s.next) :
    (combine_alu E s instr1 instr2 alu1 alu2).heap p =
      rewrite_both E instr1 instr2 s.next alu1.num_components (s.heap p) :=
  combine_alu_heap_old E s instr1 instr2 alu1 alu2 p hp hlt

theorem combine_heap_new (E : Env) (s : vec_state) (instr1 instr2 : Nat)
    (alu1 alu2 : nir_alu_instr) (h1 : instr1 ∈ s.blocks.flatten) :
    (combine_alu E s instr1 instr2 alu1 alu2).heap s.next =
      rewrite_both E instr1 instr2 s.next alu1.num_components
        (.alu (combined_alu E alu1 alu2)) := by
  rw [combine_alu_heap_eq]
  have hm : s.next ∈ (combine_blocks3 s instr1).flatten :=
    (mem_combine_blocks3_iff s instr1 s.next h1).2 (Or.inr (Or.inl rfl))
  have h3 : combine_heap3 E s alu1 alu2 s.next = .alu (combined_alu E alu1 alu2) := by
    unfold combine_heap3 heap_set
    rw [if_neg (by omega), if_neg (by omega), if_pos rfl]
  simp only [rewrite_uses, if_pos hm, h3]
  rfl

theorem arity_ok_combine (E : Env) (s : vec_state) (instr1 instr2 : Nat)
    (alu1 alu2 : nir_alu_instr)
    (hE : (E.nir_op_infos E.nir_op_imov).num_inputs = 1)
    (har : ∀ p, p ∈ s.blocks.flatten → arity_ok E (s.heap p))
    (hlt : ∀ q, q ∈ s.blocks.flatten → q < s.next) (p : Nat)
    (hp : p ∈ (combine_alu E s instr1 instr2 alu1 alu2).blocks.flatten) :
    arity_ok E ((combine_alu E s instr1 instr2 alu1 alu2).heap p) := by
  apply combine_alu_heap_pres E s instr1 instr2 alu1 alu2 (arity_ok E)
  · intro i hi
    intro a ha
    obtain ⟨a0, h0, _, hop, _⟩ := rewrite_use1_alu E _ _ _ i a ha
    subst h0
    simp only [rewrite_use1, nir_instr.alu.injEq] at ha
    subst ha
    simp only [map_srcs_length]
    exact hi a0 rfl
  · intro i hi a ha
    obtain ⟨a0, h0, _, hop, _⟩ := rewrite_use2_alu E _ _ _ _ i a ha
    subst h0
    simp only [rewrite_use2, nir_instr.alu.injEq] at ha
    subst ha
    simp only [map_srcs_length]
    exact hi a0 rfl
  · rcases mem_combine_blocks E s instr1 instr2 alu1 alu2 p hp with h | h
    · rw [combine_heap3_old E s alu1 alu2 p (hlt p h)]
      exact har p h
    · intro a ha
      rcases combine_heap3_new E s alu1 alu2 p h with h' | h' | h'
      · rw [h'] at ha
        injection ha with ha
        subst ha
        exact combined_alu_src_length E alu1 alu2
      · rw [h'] at ha
        injection ha with ha
        subst ha
        simp only [nir_swizzle, List.length_singleton]
        exact hE.symm
      · rw [h'] at ha
        injection ha with ha
        subst ha
        simp only [nir_swizzle, List.length_singleton]
        exact hE.symm

/-! ## The invariant across a combine -/

theorem combined_alu_equal (E : Env) (alu1 alu2 : nir_alu_instr) :
    instrs_equal E (.alu (combined_alu E alu1 alu2)) (.alu alu1) = true := by
  simp only [instrs_equal]
  rw [alu_instrs_equal_iff]
  refine ⟨rfl, rfl, ?_⟩
  intro i hi
  rw [combined_alu_src_getD E alu1 alu2 i hi]
  rfl

theorem replaced_stack (L1 L2 : List (Nat × List Nat)) (h : Nat) (pre post : List Nat)
    (a n : Nat) (st2 : Nat × List Nat)
    (hst : st2 ∈ L1 ++ (h, pre ++ n :: post) :: L2) :
    ∃ st, st ∈ L1 ++ (h, pre ++ a :: post) :: L2 ∧
      ∀ e, e ∈ st2.2 → (e = n ∧ a ∈ st.2) ∨ e ∈ st.2 := by
  simp only [List.mem_append, List.mem_cons] at hst
  rcases hst with h1 | rfl | h2
  · exact ⟨st2, by simp [h1], fun e he => Or.inr he⟩
  · refine ⟨(h, pre ++ a :: post), by simp, ?_⟩
    intro e he
    simp only [List.mem_append, List.mem_cons] at he
    rcases he with he | rfl | he
    · exact Or.inr (List.mem_append_left _ he)
    · exact Or.inl ⟨rfl, List.mem_append_right _ (List.mem_cons_self _ _)⟩
    · exact Or.inr (List.mem_append_right _ (List.mem_cons_of_mem _ he))
  · exact ⟨st2, by simp [h2], fun e he => Or.inr he⟩

theorem walk_inv_combine (E : Env) (s : vec_state) (U : List Nat) (instr : Nat)
    (rest : List Nat) (L1 L2 : List (Nat × List Nat)) (h : Nat) (pre post : List Nat)
    (stack_instr : Nat) (alu1 alu2 : nir_alu_instr)
    (hE : (E.nir_op_infos E.nir_op_imov).num_inputs = 1)
    (hinv : walk_inv E s) (hpend : walk_pend s U (instr :: rest))
    (hset : s.instr_set = L1 ++ (h, pre ++ stack_instr :: post) :: L2)
    (hcmp : cmp_func E s.heap [instr] (pre ++ stack_instr :: post) = true)
    (h1 : s.heap stack_instr = .alu alu1) (h2 : s.heap instr = .alu alu2) :
    walk_inv E { combine_alu E s stack_instr instr alu1 alu2 with
                 instr_set := L1 ++ (h, pre ++ s.next :: post) :: L2 } ∧
    walk_pend { combine_alu E s stack_instr instr alu1 alu2 with
                instr_set := L1 ++ (h, pre ++ s.next :: post) :: L2 } U rest := by
  have hs_eq : entries s.instr_set =
      (entries L1 ++ pre) ++ stack_instr :: (post ++ entries L2) := by
    rw [hset, entries_mid]
    simp [List.append_assoc]
  have ht_eq : entries (L1 ++ (h, pre ++ s.next :: post) :: L2) =
      (entries L1 ++ pre) ++ s.next :: (post ++ entries L2) := by
    rw [entries_mid]
    simp [List.append_assoc]
  have hAent : stack_instr ∈ entries s.instr_set := by
    rw [hs_eq]
    simp
  have hAlive := hinv.entries_live _ hAent
  have hBlive := hpend.pend_live instr (List.mem_cons_self _ _)
  have hBent := hpend.pend_fresh instr (List.mem_cons_self _ _)
  have hAlt := hinv.lt_next _ hAlive
  have hBlt := hinv.lt_next _ hBlive
  have hAB : stack_instr ≠ instr := fun hh => hBent (hh ▸ hAent)
  have hst0 : (h, pre ++ stack_instr :: post) ∈ s.instr_set := by
    rw [hset]
    simp
  have hnd := List.nodup_middle.1 (hs_eq ▸ hinv.entries_nodup)
  have hA_notin := (List.nodup_cons.1 hnd).1
  have hXY := (List.nodup_cons.1 hnd).2
  have hXY_sub : ∀ e, e ∈ (entries L1 ++ pre) ++ (post ++ entries L2) →
      e ∈ entries s.instr_set := by
    intro e he
    rw [hs_eq]
    simp only [List.mem_append, List.mem_cons] at he ⊢
    tauto
  have hmem_t : ∀ e, e ∈ entries (L1 ++ (h, pre ++ s.next :: post) :: L2) →
      e = s.next ∨ e ∈ (entries L1 ++ pre) ++ (post ++ entries L2) := by
    intro e he
    rw [ht_eq] at he
    simp only [List.mem_append, List.mem_cons] at he ⊢
    tauto
  have heq : instrs_equal E (.alu alu2) (.alu alu1) = true := by
    have hhead : (pre ++ stack_instr :: post).headD 0 ∈ pre ++ stack_instr :: post :=
      headD_mem _ _ (by simp)
    have hc : instrs_equal E (s.heap instr)
        (s.heap ((pre ++ stack_instr :: post).headD 0)) = true := hcmp
    have hs := hinv.stacks_equal _ hst0 _ hhead stack_instr (by simp)
    have := instrs_equal_trans E _ _ _ hc hs
    rw [h1, h2] at this
    exact this
  constructor
  · refine ⟨?_, ?_, ?_, ?_, ?_, ?_, ?_⟩
    · exact nodup_combine_blocks E s stack_instr instr alu1 alu2 hinv.nodup_live hinv.lt_next
    · intro p hp
      have : p ∈ s.blocks.flatten ∨ p = s.next ∨ p = s.next + 1 ∨ p = s.next + 2 :=
        mem_combine_blocks E s stack_instr instr alu1 alu2 p hp
      show p < s.next + 3
      rcases this with hh | hh | hh | hh
      · have := hinv.lt_next p hh
        omega
      · omega
      · omega
      · omega
    · intro e he
      apply (mem_combine_blocks_iff E s stack_instr instr alu1 alu2 e hAlive).2
      rcases hmem_t e he with hh | hh
      · exact ⟨Or.inr (Or.inl hh), by omega, by omega⟩
      · have hes := hXY_sub e hh
        refine ⟨Or.inl (hinv.entries_live e hes), ?_, ?_⟩
        · intro hh2
          exact hA_notin (hh2 ▸ hh)
        · intro hh2
          exact hBent (hh2 ▸ hes)
    · show (entries (L1 ++ (h, pre ++ s.next :: post) :: L2)).Nodup
      rw [ht_eq]
      apply List.nodup_middle.2
      refine List.nodup_cons.2 ⟨?_, hXY⟩
      intro hh
      have := hinv.lt_next _ (hinv.entries_live _ (hXY_sub _ hh))
      omega
    · intro p hp
      exact arity_ok_combine E s stack_instr instr alu1 alu2 hE hinv.arity hinv.lt_next p hp
    · intro st2 hst2 e he e2 he2
      obtain ⟨st, hst, hcov⟩ := replaced_stack L1 L2 h pre post stack_instr s.next st2 hst2
      rw [← hset] at hst
      have key : ∀ x, ((x = s.next ∧ stack_instr ∈ st.2) ∨ x ∈ st.2) →
          ∃ y r, r ∈ st.2 ∧
            (combine_alu E s stack_instr instr alu1 alu2).heap x =
              rewrite_both E stack_instr instr s.next alu1.num_components y ∧
            arity_ok E y ∧ instrs_equal E y (s.heap r) = true := by
        intro x hx
        rcases hx with ⟨rfl, hA⟩ | hx
        · refine ⟨.alu (combined_alu E alu1 alu2), stack_instr, hA,
            combine_heap_new E s stack_instr instr alu1 alu2 hAlive, ?_, ?_⟩
          · intro a ha
            injection ha with ha
            subst ha
            exact combined_alu_src_length E alu1 alu2
          · rw [h1]
            exact combined_alu_equal E alu1 alu2
        · have hxe : x ∈ entries s.instr_set := (mem_entries _ _).2 ⟨st, hst, hx⟩
          have hxl := hinv.entries_live x hxe
          exact ⟨s.heap x, x, hx,
            combine_heap_live E s stack_instr instr alu1 alu2 x hxl (hinv.lt_next x hxl),
            hinv.arity x hxl, hinv.stacks_equal st hst x hx x hx⟩
      obtain ⟨y, r, hr, hy, hay, hey⟩ := key e (hcov e he)
      obtain ⟨y2, r2, hr2, hy2, hay2, hey2⟩ := key e2 (hcov e2 he2)
      show instrs_equal E ((combine_alu E s stack_instr instr alu1 alu2).heap e)
        ((combine_alu E s stack_instr instr alu1 alu2).heap e2) = true
      rw [hy, hy2]
      apply instrs_equal_rewrite_both E _ _ _ _ _ _ (by omega) _ hay hay2
      exact instrs_equal_trans E _ _ _ hey
        (instrs_equal_trans E _ _ _ (hinv.stacks_equal st hst r hr r2 hr2)
          (instrs_equal_symm E _ _ hey2))
    · intro m hm
      have hm2 : m ∈ (combine_alu E s stack_instr instr alu1 alu2).merges := hm
      simp only [combine_alu, List.mem_append, List.mem_singleton] at hm2
      rcases hm2 with hh | hh
      · exact hinv.merges_equal m hh
      · subst hh
        exact instrs_equal_symm E _ _ heq
  · refine ⟨?_, (List.nodup_cons.1 hpend.pend_nodup).2, ?_, ?_⟩
    · intro p hp
      apply (mem_combine_blocks_iff E s stack_instr instr alu1 alu2 p hAlive).2
      refine ⟨Or.inl (hpend.pend_live p (List.mem_cons_of_mem _ hp)), ?_, ?_⟩
      · intro hh
        exact hpend.pend_fresh p (List.mem_cons_of_mem _ hp) (hh ▸ hAent)
      · intro hh
        exact (List.nodup_cons.1 hpend.pend_nodup).1 (hh ▸ hp)
    · intro p hp he
      rcases hmem_t p he with hh | hh
      · have := hinv.lt_next p (hpend.pend_live p (List.mem_cons_of_mem _ hp))
        omega
      · exact hpend.pend_fresh p (List.mem_cons_of_mem _ hp) (hXY_sub p hh)
    · intro c hc p hp
      have hA_not : stack_instr ∉ s.blocks.getD c [] := fun hh =>
        (hpend.unvisited c hc _ hh).1 hAent
      have hp0 := getD_combine_blocks E s stack_instr instr alu1 alu2 c p hinv.lt_next hA_not hp
      obtain ⟨hpe, hpp⟩ := hpend.unvisited c hc p hp0
      constructor
      · intro he
        rcases hmem_t p he with hh | hh
        · have := hinv.lt_next p (getD_mem_flatten _ _ _ hp0)
          omega
        · exact hpe (hXY_sub p hh)
      · intro hh
        exact hpp (List.mem_cons_of_mem _ hh)

/-! ## The invariant across the other outcomes of a step -/

theorem walk_inv_push (E : Env) (s : vec_state) (U : List Nat) (instr : Nat)
    (rest : List Nat) (L1 L2 : List (Nat × List Nat)) (h : Nat) (stack : List Nat)
    (hinv : walk_inv E s) (hpend : walk_pend s U (instr :: rest))
    (hr : instr_can_rewrite E (s.heap instr) = true)
    (hset : s.instr_set = L1 ++ (h, stack) :: L2)
    (hcmp : cmp_func E s.heap [instr] stack = true) :
    walk_inv E { s with instr_set := L1 ++ (h, stack ++ [instr]) :: L2 } ∧
    walk_pend { s with instr_set := L1 ++ (h, stack ++ [instr]) :: L2 } U rest := by
  have hs_eq : entries s.instr_set = (entries L1 ++ stack) ++ entries L2 := by
    rw [hset, entries_mid]
    simp [List.append_assoc]
  have ht_eq : entries (L1 ++ (h, stack ++ [instr]) :: L2) =
      (entries L1 ++ stack) ++ instr :: entries L2 := by
    rw [entries_mid]
    simp [List.append_assoc]
  have hBlive := hpend.pend_live instr (List.mem_cons_self _ _)
  have hBent := hpend.pend_fresh instr (List.mem_cons_self _ _)
  have hmem_t : ∀ e, e ∈ entries (L1 ++ (h, stack ++ [instr]) :: L2) →
      e = instr ∨ e ∈ entries s.instr_set := by
    intro e he
    rw [ht_eq] at he
    rw [hs_eq]
    simp only [List.mem_append, List.mem_cons] at he ⊢
    tauto
  have hst0 : (h, stack) ∈ s.instr_set := by
    rw [hset]
    simp
  obtain ⟨a, ha⟩ := instr_can_rewrite_alu E _ hr
  have hBB : instrs_equal E (s.heap instr) (s.heap instr) = true := by
    rw [ha]
    exact instrs_equal_refl E a
  have hBe : ∀ e, e ∈ stack → instrs_equal E (s.heap instr) (s.heap e) = true := by
    intro e he
    have hne : stack ≠ [] := List.ne_nil_of_mem he
    have hc : instrs_equal E (s.heap instr) (s.heap (stack.headD 0)) = true := hcmp
    exact instrs_equal_trans E _ _ _ hc
      (hinv.stacks_equal _ hst0 _ (headD_mem _ _ hne) e he)
  constructor
  · refine ⟨hinv.nodup_live, hinv.lt_next, ?_, ?_, hinv.arity, ?_, hinv.merges_equal⟩
    · intro e he
      rcases hmem_t e he with hh | hh
      · rw [hh]
        exact hBlive
      · exact hinv.entries_live e hh
    · show (entries (L1 ++ (h, stack ++ [instr]) :: L2)).Nodup
      rw [ht_eq]
      apply List.nodup_middle.2
      refine List.nodup_cons.2 ⟨?_, hs_eq ▸ hinv.entries_nodup⟩
      rw [← hs_eq]
      exact hBent
    · intro st2 hst2 e he e2 he2
      have hst2' : st2 ∈ L1 ++ (h, stack ++ [instr]) :: L2 := hst2
      simp only [List.mem_append, List.mem_cons] at hst2'
      have hold : st2 ∈ s.instr_set → instrs_equal E (s.heap e) (s.heap e2) = true :=
        fun hh => hinv.stacks_equal st2 hh e he e2 he2
      rcases hst2' with hh | rfl | hh
      · exact hold (by rw [hset]; simp [hh])
      · simp only [List.mem_append, List.mem_singleton] at he he2
        rcases he with he | rfl
        · rcases he2 with he2 | rfl
          · exact hinv.stacks_equal _ hst0 e he e2 he2
          · exact instrs_equal_symm E _ _ (hBe e he)
        · rcases he2 with he2 | rfl
          · exact hBe e2 he2
          · exact hBB
      · exact hold (by rw [hset]; simp [hh])
  · refine ⟨fun p hp => hpend.pend_live p (List.mem_cons_of_mem _ hp),
      (List.nodup_cons.1 hpend.pend_nodup).2, ?_, ?_⟩
    · intro p hp he
      rcases hmem_t p he with hh | hh
      · exact (List.nodup_cons.1 hpend.pend_nodup).1 (hh ▸ hp)
      · exact hpend.pend_fresh p (List.mem_cons_of_mem _ hp) hh
    · intro c hc p hp
      obtain ⟨hpe, hpp⟩ := hpend.unvisited c hc p hp
      constructor
      · intro he
        rcases hmem_t p he with hh | hh
        · exact hpp (hh ▸ List.mem_cons_self _ _)
        · exact hpe hh
      · intro hh
        exact hpp (List.mem_cons_of_mem _ hh)

theorem walk_inv_new_stack (E : Env) (s : vec_state) (U : List Nat) (instr : Nat)
    (rest : List Nat) (h : Nat)
    (hinv : walk_inv E s) (hpend : walk_pend s U (instr :: rest))
    (hr : instr_can_rewrite E (s.heap instr) = true) :
    walk_inv E { s with instr_set := s.instr_set ++ [(h, [instr])] } ∧
    walk_pend { s with instr_set := s.instr_set ++ [(h, [instr])] } U rest := by
  have ht_eq : entries (s.instr_set ++ [(h, [instr])]) = entries s.instr_set ++ [instr] := by
    rw [entries_append, entries_cons]
    simp [entries]
  have hBlive := hpend.pend_live instr (List.mem_cons_self _ _)
  have hBent := hpend.pend_fresh instr (List.mem_cons_self _ _)
  have hmem_t : ∀ e, e ∈ entries (s.instr_set ++ [(h, [instr])]) →
      e = instr ∨ e ∈ entries s.instr_set := by
    intro e he
    rw [ht_eq] at he
    simp only [List.mem_append, List.mem_singleton] at he
    tauto
  obtain ⟨a, ha⟩ := instr_can_rewrite_alu E _ hr
  constructor
  · refine ⟨hinv.nodup_live, hinv.lt_next, ?_, ?_, hinv.arity, ?_, hinv.merges_equal⟩
    · intro e he
      rcases hmem_t e he with hh | hh
      · rw [hh]
        exact hBlive
      · exact hinv.entries_live e hh
    · show (entries (s.instr_set ++ [(h, [instr])])).Nodup
      rw [ht_eq]
      apply List.nodup_append.2
      refine ⟨hinv.entries_nodup, by simp, ?_⟩
      intro x hx hx2
      simp only [List.mem_singleton] at hx2
      exact hBent (hx2 ▸ hx)
    · intro st2 hst2 e he e2 he2
      have hst2' : st2 ∈ s.instr_set ++ [(h, [instr])] := hst2
      simp only [List.mem_append, List.mem_singleton] at hst2'
      rcases hst2' with hh | rfl
      · exact hinv.stacks_equal st2 hh e he e2 he2
      · simp only [List.mem_singleton] at he he2
        rw [he, he2]
        show instrs_equal E (s.heap instr) (s.heap instr) = true
        rw [ha]
        exact instrs_equal_refl E a
  · refine ⟨fun p hp => hpend.pend_live p (List.mem_cons_of_mem _ hp),
      (List.nodup_cons.1 hpend.pend_nodup).2, ?_, ?_⟩
    · intro p hp he
      rcases hmem_t p he with hh | hh
      · exact (List.nodup_cons.1 hpend.pend_nodup).1 (hh ▸ hp)
      · exact hpend.pend_fresh p (List.mem_cons_of_mem _ hp) hh
    · intro c hc p hp
      obtain ⟨hpe, hpp⟩ := hpend.unvisited c hc p hp
      constructor
      · intro he
        rcases hmem_t p he with hh | hh
        · exact hpp (hh ▸ List.mem_cons_self _ _)
        · exact hpe hh
      · intro hh
        exact hpp (List.mem_cons_of_mem _ hh)

/-- Shrinking the stacks keeps the invariant. -/
theorem walk_inv_sub (E : Env) (s : vec_state) (U pend : List Nat)
    (set2 : List (Nat × List Nat))
    (hinv : walk_inv E s) (hpend : walk_pend s U pend)
    (hsub : (entries set2).Sublist (entries s.instr_set))
    (hst : ∀ st2, st2 ∈ set2 → ∃ st, st ∈ s.instr_set ∧ ∀ e, e ∈ st2.2 → e ∈ st.2) :
    walk_inv E { s with instr_set := set2 } ∧ walk_pend { s with instr_set := set2 } U pend := by
  constructor
  · refine ⟨hinv.nodup_live, hinv.lt_next, ?_, hsub.nodup hinv.entries_nodup, hinv.arity, ?_,
      hinv.merges_equal⟩
    · intro e he
      exact hinv.entries_live e (hsub.subset he)
    · intro st2 hst2 e he e2 he2
      obtain ⟨st, hs, hcov⟩ := hst st2 hst2
      exact hinv.stacks_equal st hs e (hcov e he) e2 (hcov e2 he2)
  · refine ⟨hpend.pend_live, hpend.pend_nodup, ?_, ?_⟩
    · intro p hp he
      exact hpend.pend_fresh p hp (hsub.subset he)
    · intro c hc p hp
      obtain ⟨hpe, hpp⟩ := hpend.unvisited c hc p hp
      exact ⟨fun he => hpe (hsub.subset he), hpp⟩

theorem walk_inv_remove (E : Env) (instr : Nat) (s : vec_state) (U pend : List Nat)
    (hinv : walk_inv E s) (hpend : walk_pend s U pend) :
    walk_inv E (vec_instr_set_remove E instr s) ∧
    walk_pend (vec_instr_set_remove E instr s) U pend := by
  rcases vec_instr_set_remove_cases E instr s with h | ⟨L1, e, L2, hl, h⟩ | ⟨L1, e, L2, hl, h⟩
  · rw [h]
    exact ⟨hinv, hpend⟩
  · rw [h]
    apply walk_inv_sub E s U pend _ hinv hpend
    · rw [hl, entries_append, entries_cons, entries_append, entries_cons]
      exact (List.Sublist.refl _).append
        ((List.dropLast_sublist _).append (List.Sublist.refl _))
    · intro st2 hst2
      simp only [List.mem_append, List.mem_cons] at hst2
      rcases hst2 with hh | rfl | hh
      · exact ⟨st2, by rw [hl]; simp [hh], fun _ he => he⟩
      · exact ⟨e, by rw [hl]; simp, fun x hx => List.dropLast_subset _ hx⟩
      · exact ⟨st2, by rw [hl]; simp [hh], fun _ he => he⟩
  · rw [h]
    apply walk_inv_sub E s U pend _ hinv hpend
    · rw [hl, entries_append, entries_append, entries_cons]
      exact (List.Sublist.refl _).append (List.sublist_append_right _ _)
    · intro st2 hst2
      simp only [List.mem_append] at hst2
      rcases hst2 with hh | hh
      · exact ⟨st2, by rw [hl]; simp [hh], fun _ he => he⟩
      · exact ⟨st2, by rw [hl]; simp [hh], fun _ he => he⟩

/-- One step of the forward loop keeps the invariant. -/
theorem walk_inv_add_or_rewrite (E : Env) (s : vec_state) (U : List Nat) (instr : Nat)
    (rest : List Nat) (hE : (E.nir_op_infos E.nir_op_imov).num_inputs = 1)
    (hinv : walk_inv E s) (hpend : walk_pend s U (instr :: rest)) :
    walk_inv E (vec_instr_set_add_or_rewrite E instr s).2 ∧
    walk_pend (vec_instr_set_add_or_rewrite E instr s).2 U rest := by
  rcases vec_instr_set_add_or_rewrite_cases E instr s with
    h | ⟨hr, h⟩ | ⟨hr, L1, hh, stack, L2, hset, hcmp, h⟩ |
    ⟨hr, L1, hh, pre, si, post, L2, alu1, alu2, hset, hcmp, h1, h2, _, h⟩
  · rw [h]
    refine ⟨hinv, fun p hp => hpend.pend_live p (List.mem_cons_of_mem _ hp),
      (List.nodup_cons.1 hpend.pend_nodup).2,
      fun p hp => hpend.pend_fresh p (List.mem_cons_of_mem _ hp), ?_⟩
    intro c hc p hp
    obtain ⟨hpe, hpp⟩ := hpend.unvisited c hc p hp
    exact ⟨hpe, fun hx => hpp (List.mem_cons_of_mem _ hx)⟩
  · rw [h]
    exact walk_inv_new_stack E s U instr rest _ hinv hpend hr
  · rw [h]
    exact walk_inv_push E s U instr rest L1 L2 hh stack hinv hpend hr hset hcmp
  · rw [h]
    exact walk_inv_combine E s U instr rest L1 L2 hh pre post si alu1 alu2 hE hinv hpend
      hset hcmp h1 h2

/-! ## The invariant along the walk -/

theorem getD_disjoint (blocks : List (List Nat)) (hn : blocks.flatten.Nodup) (c b p : Nat)
    (hcb : c ≠ b) (hc : p ∈ blocks.getD c []) (hb : p ∈ blocks.getD b []) : False := by
  induction blocks generalizing c b with
  | nil => simp at hc
  | cons x rest ih =>
    rw [List.flatten_cons] at hn
    have hnd := List.nodup_append.1 hn
    cases c with
    | zero =>
      cases b with
      | zero => exact hcb rfl
      | succ b =>
        rw [List.getD_cons_zero] at hc
        rw [List.getD_cons_succ] at hb
        exact hnd.2.2 hc (getD_mem_flatten _ _ _ hb)
    | succ c =>
      cases b with
      | zero =>
        rw [List.getD_cons_zero] at hb
        rw [List.getD_cons_succ] at hc
        exact hnd.2.2 hb (getD_mem_flatten _ _ _ hc)
      | succ b =>
        rw [List.getD_cons_succ] at hb hc
        exact ih hnd.2.1 c b (fun h => hcb (by rw [h])) hc hb

theorem nodup_getD (blocks : List (List Nat)) (hn : blocks.flatten.Nodup) (b : Nat) :
    (blocks.getD b []).Nodup := by
  induction blocks generalizing b with
  | nil => simp
  | cons x rest ih =>
    rw [List.flatten_cons] at hn
    have hnd := List.nodup_append.1 hn
    cases b with
    | zero => rw [List.getD_cons_zero]; exact hnd.1
    | succ b => rw [List.getD_cons_succ]; exact ih hnd.2.1 b

theorem walk_pend_enter (E : Env) (s : vec_state) (b : Nat) (U : List Nat)
    (hinv : walk_inv E s) (hpend : walk_pend s (b :: U) []) (hU : (b :: U).Nodup) :
    walk_pend s U (s.blocks.getD b []) := by
  refine ⟨fun p hp => getD_mem_flatten _ _ _ hp, nodup_getD _ hinv.nodup_live b, ?_, ?_⟩
  · intro p hp
    exact (hpend.unvisited b (List.mem_cons_self _ _) p hp).1
  · intro c hc p hp
    refine ⟨(hpend.unvisited c (List.mem_cons_of_mem _ hc) p hp).1, ?_⟩
    intro hpb
    have hcb : c ≠ b := fun h => (List.nodup_cons.1 hU).1 (h ▸ hc)
    exact getD_disjoint _ hinv.nodup_live c b p hcb hp hpb

theorem walk_inv_instrs (E : Env) (hE : (E.nir_op_infos E.nir_op_imov).num_inputs = 1)
    (U : List Nat) (l : List Nat) :
    ∀ s, walk_inv E s → walk_pend s U l →
      walk_inv E (vectorize_instrs E l s).2 ∧ walk_pend (vectorize_instrs E l s).2 U [] := by
  induction l with
  | nil =>
    intro s hinv hpend
    exact ⟨hinv, hpend⟩
  | cons instr rest ih =>
    intro s hinv hpend
    obtain ⟨h1, h2⟩ := walk_inv_add_or_rewrite E s U instr rest hE hinv hpend
    exact ih _ h1 h2

theorem walk_inv_remove_instrs (E : Env) (U : List Nat) (l : List Nat) :
    ∀ s, walk_inv E s → walk_pend s U [] →
      walk_inv E (remove_instrs E l s) ∧ walk_pend (remove_instrs E l s) U [] := by
  induction l with
  | nil =>
    intro s hinv hpend
    exact ⟨hinv, hpend⟩
  | cons instr rest ih =>
    intro s hinv hpend
    obtain ⟨h1, h2⟩ := walk_inv_remove E instr s U [] hinv hpend
    exact ih _ h1 h2

theorem walk_inv_block (E : Env) (hE : (E.nir_op_infos E.nir_op_imov).num_inputs = 1)
    (t : DomTree) :
    ∀ s U, (tree_blocks t ++ U).Nodup → walk_inv E s → walk_pend s (tree_blocks t ++ U) [] →
      walk_inv E (vectorize_block E t s).2 ∧ walk_pend (vectorize_block E t s).2 U [] := by
  induction t using DomTree.rec
    (motive_2 := fun cs => ∀ s U, (forest_blocks cs ++ U).Nodup → walk_inv E s →
      walk_pend s (forest_blocks cs ++ U) [] →
      walk_inv E (vectorize_children E cs s).2 ∧
        walk_pend (vectorize_children E cs s).2 U []) with
  | node block dom_children ih =>
    intro s U hU hinv hpend
    simp only [tree_blocks, List.cons_append] at hU hpend
    have h0 := walk_pend_enter E s block _ hinv hpend hU
    obtain ⟨h1, h2⟩ := walk_inv_instrs E hE _ _ s hinv h0
    obtain ⟨h3, h4⟩ := ih _ U (List.nodup_cons.1 hU).2 h1 h2
    simp only [vectorize_block]
    exact walk_inv_remove_instrs E U _ _ h3 h4
  | nil =>
    rename_i s U hU hinv hpend
    exact ⟨hinv, hpend⟩
  | cons child rest ih1 ih2 =>
    rename_i s U hU hinv hpend
    simp only [forest_blocks, List.append_assoc] at hU hpend
    obtain ⟨h1, h2⟩ := ih1 s _ hU hinv hpend
    simp only [vectorize_children]
    exact ih2 _ U (List.nodup_append.1 hU).2.1 h1 h2

/-! ## Merged instructions are equal: claim C3 -/

theorem frame_rel_walk (E : Env) : WalkRel E frame_rel where
  refl := fun s => ⟨le_refl _, fun _ _ _ => rfl, fun _ h => Or.inl h⟩
  trans := by
    rintro s1 b1 s2 b2 s3 ⟨n1, f1, l1⟩ ⟨n2, f2, l2⟩
    refine ⟨le_trans n1 n2, ?_, ?_⟩
    · intro p hp hlt
      have hp2 : p ∉ s2.blocks.flatten := by
        intro h
        rcases l1 p h with h' | h'
        · exact hp h'
        · omega
      rw [f2 p hp2 (by omega), f1 p hp hlt]
    · intro p hp
      rcases l2 p hp with h | h
      · exact l1 p h
      · exact Or.inr (by omega)
  set := fun s set => ⟨le_refl _, fun _ _ _ => rfl, fun _ h => Or.inl h⟩
  comb := by
    intro s instr1 instr2 alu1 alu2 _ _ _
    refine ⟨by simp [combine_alu], ?_, ?_⟩
    · intro p hp hlt
      rw [combine_alu_heap_eq]
      have hnot : p ∉ (combine_blocks3 s instr1).flatten := by
        intro h
        rcases mem_combine_blocks3 s instr1 p h with h' | h' | h' | h'
        · exact hp h'
        · omega
        · omega
        · omega
      simp only [rewrite_uses, if_neg hnot]
      exact combine_heap3_old E s alu1 alu2 p hlt
    · intro p hp
      rcases mem_combine_blocks E s instr1 instr2 alu1 alu2 p hp with h | h | h | h
      · exact Or.inl h
      · exact Or.inr (by omega)
      · exact Or.inr (by omega)
      · exact Or.inr (by omega)

theorem walk_inv_impl (E : Env) (hE : (E.nir_op_infos E.nir_op_imov).num_inputs = 1)
    (sh : nir_shader) (impl : nir_function_impl)
    (hnd : impl.blocks.flatten.Nodup) (htree : (tree_blocks impl.dom_tree).Nodup)
    (hlive : ∀ p, p ∈ impl.blocks.flatten → p < sh.next ∧ arity_ok E (sh.heap p))
    (hlog : ∀ m, m ∈ sh.merges → alu_instrs_equal E m.alu1 m.alu2 = true) :
    ∀ m, m ∈ (nir_opt_vectorize_impl E sh impl).2.1.merges →
      alu_instrs_equal E m.alu1 m.alu2 = true := by
  have hinv : walk_inv E (impl_state sh impl) :=
    ⟨hnd, fun p hp => (hlive p hp).1, fun e he => by simp [impl_state, entries] at he,
      by simp [impl_state, entries], fun p hp => (hlive p hp).2,
      fun st hst => by simp [impl_state] at hst, hlog⟩
  have hpend : walk_pend (impl_state sh impl) (tree_blocks impl.dom_tree ++ []) [] :=
    ⟨fun p hp => by simp at hp, List.nodup_nil, fun p hp => by simp at hp,
      fun c _ p _ => ⟨by simp [impl_state, entries], by simp⟩⟩
  exact (walk_inv_block E hE impl.dom_tree (impl_state sh impl) []
    (by simpa using htree) hinv hpend).1.merges_equal

theorem vectorize_functions_equal (E : Env)
    (hE : (E.nir_op_infos E.nir_op_imov).num_inputs = 1)
    (fs : List (Option nir_function_impl)) :
    ∀ sh : nir_shader, (functions_instrs fs).Nodup →
      (∀ impl, some impl ∈ fs → (tree_blocks impl.dom_tree).Nodup ∧
        ∀ p, p ∈ impl.blocks.flatten → p < sh.next ∧ arity_ok E (sh.heap p)) →
      (∀ m, m ∈ sh.merges → alu_instrs_equal E m.alu1 m.alu2 = true) →
      ∀ m, m ∈ (vectorize_functions E fs sh).2.merges →
        alu_instrs_equal E m.alu1 m.alu2 = true := by
  induction fs with
  | nil =>
    intro sh _ _ hlog
    exact hlog
  | cons f rest ih =>
    intro sh hnd hwf hlog
    cases f with
    | none =>
      simp only [vectorize_functions]
      exact ih _ hnd (fun impl hi => hwf impl (List.mem_cons_of_mem _ hi)) hlog
    | some impl =>
      simp only [vectorize_functions]
      simp only [functions_instrs] at hnd
      have hnd2 := List.nodup_append.1 hnd
      have himpl := hwf impl (List.mem_cons_self _ _)
      have hm := walk_inv_impl E hE sh impl hnd2.1 himpl.1 himpl.2 hlog
      obtain ⟨hn, hf, _⟩ := vectorize_block_rel E frame_rel (frame_rel_walk E)
        impl.dom_tree (impl_state sh impl)
      refine ih { (nir_opt_vectorize_impl E sh impl).2.1 with
                  functions := (nir_opt_vectorize_impl E sh impl).2.1.functions ++
                    [some (nir_opt_vectorize_impl E sh impl).2.2] } hnd2.2.1 ?_ hm
      intro impl2 hi2
      have h2 := hwf impl2 (List.mem_cons_of_mem _ hi2)
      refine ⟨h2.1, ?_⟩
      intro p hp
      have hp2 : p ∈ functions_instrs rest := by
        clear ih hm hnd hnd2 hwf h2
        induction rest with
        | nil => simp at hi2
        | cons g rest2 ih2 =>
          simp only [List.mem_cons] at hi2
          rcases hi2 with hh | hh
          · subst hh
            simp only [functions_instrs, List.mem_append]
            exact Or.inl hp
          · cases g with
            | none => exact ih2 hh
            | some impl3 =>
              simp only [functions_instrs, List.mem_append]
              exact Or.inr (ih2 hh)
      have hnot : p ∉ impl.blocks.flatten := fun h => hnd2.2.2 h hp2
      have hlt := (h2.2 p hp).1
      constructor
      · exact lt_of_lt_of_le hlt hn
      · have : (nir_opt_vectorize_impl E sh impl).2.1.heap p = sh.heap p := hf p hnot hlt
        show arity_ok E ((nir_opt_vectorize_impl E sh impl).2.1.heap p)
        rw [this]
        exact (h2.2 p hp).2

/-- C3: in a shader whose linked instructions have distinct addresses below the
allocation pointer and as many operands as their opcode has inputs, and whose
dominator trees name every block once, every pair of instructions that a run of
`nir_opt_vectorize` combines (every logged call of `instr_try_combine` that
succeeded, whichever entry of the stack it was made with) has, when it is combined,
the same opcode, the same bit size and the same source value in every operand
slot. -/
theorem C3_merged_are_equal (E : Env) (shader : nir_shader)
    (hE : (E.nir_op_infos E.nir_op_imov).num_inputs = 1)
    (hnd : (functions_instrs shader.functions).Nodup)
    (hwf : ∀ impl, some impl ∈ shader.functions → (tree_blocks impl.dom_tree).Nodup ∧
      ∀ p, p ∈ impl.blocks.flatten → p < shader.next ∧ arity_ok E (shader.heap p))
    (hlog : shader.merges = []) :
    ∀ m, m ∈ (nir_opt_vectorize E shader).2.merges →
      m.alu1.op = m.alu2.op ∧ m.alu1.bit_size = m.alu2.bit_size ∧
      ∀ i, i < (E.nir_op_infos m.alu1.op).num_inputs →
        (m.alu1.src.getD i default).ssa = (m.alu2.src.getD i default).ssa := by
  intro m hm
  have := vectorize_functions_equal E hE shader.functions { shader with functions := [] }
    hnd hwf (by intro m hm; rw [hlog] at hm; simp at hm) m hm
  exact (alu_instrs_equal_iff E m.alu1 m.alu2).1 this

/-- C3 at the third example: the stack holds `102` (three components) and `104` (two
components) when `105` arrives; it is combined with `104`, the second entry of the
stack, and the two have the same opcode, bit size and sources. -/
theorem C3_merged_are_equal_witness :
    ∃ m, m ∈ (nir_opt_vectorize ex_env ex_stack_shader).2.merges ∧
      m.instr1 = 104 ∧ m.instr2 = 105 ∧
      m.alu1.op = m.alu2.op ∧ m.alu1.bit_size = m.alu2.bit_size ∧
      ∀ i, i < (ex_env.nir_op_infos m.alu1.op).num_inputs →
        (m.alu1.src.getD i default).ssa = (m.alu2.src.getD i default).ssa := by
  have hwf : ∀ impl, some impl ∈ ex_stack_shader.functions →
      (tree_blocks impl.dom_tree).Nodup ∧
      ∀ p, p ∈ impl.blocks.flatten → p < ex_stack_shader.next ∧
        arity_ok ex_env (ex_stack_shader.heap p) := by
    intro impl himpl
    simp only [ex_stack_shader, List.mem_singleton, Option.some.injEq] at himpl
    subst himpl
    refine ⟨by decide, ?_⟩
    intro p hp
    simp only [List.flatten_cons, List.flatten_nil, List.append_nil, List.mem_cons,
      List.not_mem_nil, or_false] at hp
    have hheap : ex_stack_shader.heap p = ex_stack_heap p := rfl
    rw [hheap]
    rcases hp with rfl | rfl | rfl | rfl | rfl
    all_goals
      refine ⟨by decide, ?_⟩
      intro a ha
      simp [ex_stack_heap, ex_alu] at ha
      try (subst ha; decide)
  have hlen : 0 < (nir_opt_vectorize ex_env ex_stack_shader).2.merges.length := by decide
  refine ⟨(nir_opt_vectorize ex_env ex_stack_shader).2.merges.get ⟨0, hlen⟩,
    List.get_mem _ _ _, rfl, rfl, ?_⟩
  exact C3_merged_are_equal ex_env ex_stack_shader (by decide) (by decide) hwf rfl _
    (List.get_mem _ _ _)

/-! ## Dominance: claim C8 -/

/-- C8 fails on the fourth example.  `A` and `B` are combined while block 1 is walked,
which rewrites the source of `P`, already on a stack; the hash of `P` has changed,
so `vec_instr_set_remove` does not find its stack when block 1 is left.  In block 2
`C` is combined with the result, which rewrites `P` and `Q` again, and the hash of
`Q` now equals the hash `P` was stored with (the FNV-1a hashes of the addresses
`94374466540880` and `94375660088864` after the same opcode and bit size
collide).  `Q` of block 2 is then combined with `P` of block 1, although neither
block dominates the other. -/
theorem C8_sibling_blocks_merged :
    (functions_instrs ex_sibling_shader.functions).Nodup ∧
    hash_instr ex_env (ex_alu 2 1 [⟨94374466540880, [0, 0, 0, 0]⟩]) =
      hash_instr ex_env (ex_alu 2 1 [⟨94375660088864, [0, 0, 0, 0]⟩]) ∧
    (nir_opt_vectorize ex_env ex_sibling_shader).2.merges.map
        (fun m => (m.instr1, m.instr2, m.new_instr)) =
      [(94374466540880, 104, 94375660088861), (94375660088861, 105, 94375660088864),
       (103, 106, 94375660088867)] ∧
    (nir_opt_vectorize ex_env ex_sibling_shader).2.merges.map
        (fun m => (block_of m.blocks m.instr1, block_of m.blocks m.instr2,
          instr_dominates ex_sibling_tree m.blocks m.instr1 m.instr2)) =
      [(some 0, some 1, true), (some 0, some 2, true), (some 1, some 2, false)] := by
  decide

/-! ## Lemmas: splicing blocks -/

theorem io_splice_self (a : Nat) (b : List Nat) : io_splice a [a] b = b := by
  unfold io_splice
  have : (fun p : Nat => if p = a then [a] else [p]) = fun p => [p] := by
    funext p; by_cases h : p = a <;> simp [h]
  rw [this, List.flatMap_singleton']

theorem io_splice_all_self (a : Nat) (fs : List (Option (List (List Nat)))) :
    io_splice_all a [a] fs = fs := by
  unfold io_splice_all
  have h1 : (io_splice a [a]) = id := funext (io_splice_self a)
  rw [h1, List.map_id_fun, Option.map_id_fun, List.map_id_fun, id]

theorem io_splice_splice (a : Nat) (l1 l2 : List Nat) (b : List Nat) :
    io_splice a l2 (io_splice a (l1) b)
      = io_splice a (io_splice a l2 l1) b := by
  unfold io_splice
  rw [List.flatMap_assoc]
  apply List.flatMap_congr
  intro x _
  by_cases hx : x = a
  · simp [hx]
  · simp [hx]

theorem io_splice_all_splice (a : Nat) (l1 l2 : List Nat)
    (fs : List (Option (List (List Nat)))) :
    io_splice_all a l2 (io_splice_all a l1 fs) = io_splice_all a (io_splice a l2 l1) fs := by
  unfold io_splice_all
  rw [List.map_map]
  apply List.map_congr_left
  intro f _
  cases f with
  | none => rfl
  | some bs =>
      simp only [Function.comp, Option.map_some', List.map_map]
      congr 1
      apply List.map_congr_left
      intro b _
      exact io_splice_splice a l1 l2 b

theorem insert_before_eq_splice (bs : List (List Nat)) (a x : Nat) :
    nir_instr_insert_before bs a x = bs.map (io_splice a [x, a]) := by
  unfold nir_instr_insert_before io_splice
  apply List.map_congr_left
  intro b _
  apply List.flatMap_congr
  intro p _
  by_cases h : p = a <;> simp [h]

theorem remove_eq_splice (bs : List (List Nat)) (a : Nat) :
    nir_instr_remove bs a = bs.map (io_splice a []) := by
  unfold nir_instr_remove io_splice
  apply List.map_congr_left
  intro b hb
  clear hb
  induction b with
  | nil => rfl
  | cons x xs ih =>
      by_cases h : x = a
      · simp [List.filter_cons, h, ih]
      · simp [List.filter_cons, h, ih]

theorem insert_functions_eq (s : io_shader) (a : Nat) (instr : io_instr) :
    (nir_builder_instr_insert s a instr).2.functions
      = io_splice_all a [s.next, a] s.functions := by
  unfold nir_builder_instr_insert io_splice_all
  simp only
  apply List.map_congr_left
  intro f _
  cases f with
  | none => rfl
  | some bs => simp only [Option.map_some', insert_before_eq_splice]

theorem remove_functions_eq (s : io_shader) (a : Nat) :
    (io_instr_remove s a).functions = io_splice_all a [] s.functions := by
  unfold io_instr_remove io_splice_all
  simp only
  apply List.map_congr_left
  intro f _
  cases f with
  | none => rfl
  | some bs => simp only [Option.map_some', remove_eq_splice]

theorem io_splice_not_mem (a : Nat) (l L : List Nat) (h : a ∉ L) : io_splice a l L = L := by
  unfold io_splice
  induction L with
  | nil => rfl
  | cons x xs ih =>
      have hx : x ≠ a := fun e => h (by simp [e])
      have hxs : a ∉ xs := fun e => h (List.mem_cons_of_mem _ e)
      simp only [List.flatMap_cons, if_neg hx, ih hxs, List.singleton_append]

theorem io_splice_append (a : Nat) (l L1 L2 : List Nat) :
    io_splice a l (L1 ++ L2) = io_splice a l L1 ++ io_splice a l L2 := by
  unfold io_splice
  simp [List.flatMap_append]

theorem io_splice_tail (a : Nat) (l L : List Nat) (h : a ∉ L) :
    io_splice a l (L ++ [a]) = L ++ l := by
  rw [io_splice_append, io_splice_not_mem a l L h]
  simp [io_splice]

theorem not_mem_range' (a s n : Nat) (h : a < s) : a ∉ List.range' s n := by
  intro hm
  rw [List.mem_range'_1] at hm
  omega

theorem io_shader_ext (s t : io_shader) (h1 : s.heap = t.heap) (h2 : s.next = t.next)
    (h3 : s.functions = t.functions) (h4 : s.if_uses = t.if_uses) (h5 : s.stage = t.stage)
    (h6 : s.vars = t.vars) (h7 : s.next_var = t.next_var) (h8 : s.var_list = t.var_list) :
    s = t := by
  cases s; cases t; simp only at *; subst_vars; rfl

theorem load_loop_spec (intr : nir_intrinsic_instr) (a n : Nat) (s : io_shader)
    (ha : a < s.next) :
    lower_load_input_loop intr a n s =
      (List.range' s.next n,
       { s with
         heap := fun q => if s.next ≤ q ∧ q < s.next + n then
                            .intrinsic (load_input_chan intr (q - s.next))
                          else s.heap q
         next := s.next + n
         functions := io_splice_all a (List.range' s.next n ++ [a]) s.functions }) := by
  induction n with
  | zero =>
      refine Prod.ext rfl ?_
      apply io_shader_ext <;> try rfl
      · funext q
        have : ¬ (s.next ≤ q ∧ q < s.next + 0) := by omega
        simp only [if_neg this]
        rfl
      · simp [lower_load_input_loop, io_splice_all_self]
  | succ n ih =>
      unfold lower_load_input_loop at ih ⊢
      rw [List.range_succ, List.foldl_append, ih]
      simp only [List.foldl_cons, List.foldl_nil]
      refine Prod.ext ?_ ?_
      · simp [List.range'_concat, nir_builder_instr_insert]
      · apply io_shader_ext <;> try rfl
        · funext q
          simp only [nir_builder_instr_insert]
          by_cases h1 : q = s.next + n
          · subst h1
            simp
          · by_cases h2 : s.next ≤ q ∧ q < s.next + n
            · have h3 : s.next ≤ q ∧ q < s.next + (n + 1) := ⟨h2.1, by omega⟩
              simp only [if_neg h1, if_pos h2, if_pos h3]
            · have h3 : ¬ (s.next ≤ q ∧ q < s.next + (n + 1)) := fun h => h2 ⟨h.1, by omega⟩
              simp only [if_neg h1, if_neg h2, if_neg h3]
        · simp only [insert_functions_eq]
          rw [io_splice_all_splice, io_splice_tail _ _ _ (not_mem_range' a _ _ ha)]
          simp [List.range'_concat]

theorem mem_io_splice (a : Nat) (l b : List Nat) (p : Nat) :
    p ∈ io_splice a l b ↔ (p ≠ a ∧ p ∈ b) ∨ (p ∈ l ∧ a ∈ b) := by
  unfold io_splice
  rw [List.mem_flatMap]
  constructor
  · rintro ⟨x, hx, hp⟩
    by_cases h : x = a
    · rw [if_pos h] at hp
      exact Or.inr ⟨hp, h ▸ hx⟩
    · rw [if_neg h, List.mem_singleton] at hp
      exact Or.inl ⟨hp ▸ h, hp ▸ hx⟩
  · rintro (⟨h1, h2⟩ | ⟨h1, h2⟩)
    · exact ⟨p, h2, by rw [if_neg h1]; exact List.mem_singleton.2 rfl⟩
    · exact ⟨a, h2, by rw [if_pos rfl]; exact h1⟩

theorem mem_io_instrs (fs : List (Option (List (List Nat)))) (p : Nat) :
    p ∈ io_instrs fs ↔ ∃ bs b, some bs ∈ fs ∧ b ∈ bs ∧ p ∈ b := by
  unfold io_instrs
  rw [List.mem_flatMap]
  constructor
  · rintro ⟨f, hf, hp⟩
    cases f with
    | none => simp at hp
    | some bs =>
        simp only [Option.getD_some, List.mem_flatten] at hp
        obtain ⟨b, hb, hpb⟩ := hp
        exact ⟨bs, b, hf, hb, hpb⟩
  · rintro ⟨bs, b, hf, hb, hp⟩
    exact ⟨some bs, hf, by simp only [Option.getD_some, List.mem_flatten]; exact ⟨b, hb, hp⟩⟩

theorem mem_io_instrs_splice (a : Nat) (l : List Nat) (fs : List (Option (List (List Nat))))
    (p : Nat) :
    p ∈ io_instrs (io_splice_all a l fs)
      ↔ ∃ bs b, some bs ∈ fs ∧ b ∈ bs ∧ ((p ≠ a ∧ p ∈ b) ∨ (p ∈ l ∧ a ∈ b)) := by
  rw [mem_io_instrs]
  unfold io_splice_all
  constructor
  · rintro ⟨bs, b, hf, hb, hp⟩
    rw [List.mem_map] at hf
    obtain ⟨f, hf, hfe⟩ := hf
    cases f with
    | none => simp at hfe
    | some bs0 =>
        simp only [Option.map_some', Option.some.injEq] at hfe
        subst hfe
        rw [List.mem_map] at hb
        obtain ⟨b0, hb0, hbe⟩ := hb
        subst hbe
        exact ⟨bs0, b0, hf, hb0, (mem_io_splice a l b0 p).1 hp⟩
  · rintro ⟨bs, b, hf, hb, hp⟩
    refine ⟨bs.map (io_splice a l), io_splice a l b, ?_, List.mem_map_of_mem _ hb,
      (mem_io_splice a l b p).2 hp⟩
    rw [List.mem_map]
    exact ⟨some bs, hf, rfl⟩

theorem mem_io_instrs_splice_old (a : Nat) (l : List Nat)
    (fs : List (Option (List (List Nat)))) (p : Nat) (hp : p ∈ io_instrs fs) (hne : p ≠ a) :
    p ∈ io_instrs (io_splice_all a l fs) := by
  rw [mem_io_instrs_splice]
  obtain ⟨bs, b, hf, hb, hpb⟩ := (mem_io_instrs fs p).1 hp
  exact ⟨bs, b, hf, hb, Or.inl ⟨hne, hpb⟩⟩

theorem mem_io_instrs_splice_inv (a : Nat) (l : List Nat)
    (fs : List (Option (List (List Nat)))) (p : Nat)
    (hp : p ∈ io_instrs (io_splice_all a l fs)) :
    (p ≠ a ∧ p ∈ io_instrs fs) ∨ (p ∈ l ∧ a ∈ io_instrs fs) := by
  rw [mem_io_instrs_splice] at hp
  obtain ⟨bs, b, hf, hb, hpb⟩ := hp
  rcases hpb with ⟨h1, h2⟩ | ⟨h1, h2⟩
  · exact Or.inl ⟨h1, (mem_io_instrs fs p).2 ⟨bs, b, hf, hb, h2⟩⟩
  · exact Or.inr ⟨h1, (mem_io_instrs fs a).2 ⟨bs, b, hf, hb, h2⟩⟩

theorem mem_io_instrs_splice_new (a : Nat) (l : List Nat)
    (fs : List (Option (List (List Nat)))) (p : Nat) (ha : a ∈ io_instrs fs) (hp : p ∈ l) :
    p ∈ io_instrs (io_splice_all a l fs) := by
  rw [mem_io_instrs_splice]
  obtain ⟨bs, b, hf, hb, hab⟩ := (mem_io_instrs fs a).1 ha
  exact ⟨bs, b, hf, hb, Or.inr ⟨hp, hab⟩⟩

theorem lower_load_eq (E : IoEnv) (s : io_shader) (a : Nat) (intr : nir_intrinsic_instr)
    (ha : a < s.next) (hmax : intr.num_components ≤ E.NIR_MAX_VEC_COMPONENTS) :
    lower_load_input_to_scalar E s a intr = some
      { s with
        heap := fun p =>
          if p ∈ io_instrs (io_splice_all a
              (List.range' s.next (intr.num_components + 1) ++ [a]) s.functions) then
            io_rewrite_src a (s.next + intr.num_components) (lowered_load_heap s intr p)
          else lowered_load_heap s intr p
        next := s.next + intr.num_components + 1
        functions := io_splice_all a (List.range' s.next (intr.num_components + 1)) s.functions
        if_uses := rewrite_if_uses a (s.next + intr.num_components) s.if_uses } := by
  unfold lower_load_input_to_scalar
  rw [if_neg (by omega)]
  simp only [load_loop_spec intr a _ s ha, nir_vec]
  congr 1
  have hf : (nir_builder_instr_insert
      { s with
        heap := fun q => if s.next ≤ q ∧ q < s.next + intr.num_components then
                            .intrinsic (load_input_chan intr (q - s.next))
                          else s.heap q
        next := s.next + intr.num_components
        functions := io_splice_all a (List.range' s.next intr.num_components ++ [a]) s.functions }
      a (.vec (List.range' s.next intr.num_components))).2.functions
      = io_splice_all a (List.range' s.next (intr.num_components + 1) ++ [a]) s.functions := by
    rw [insert_functions_eq, io_splice_all_splice,
      io_splice_tail _ _ _ (not_mem_range' a _ _ ha)]
    simp [List.range'_concat]
  apply io_shader_ext <;> try rfl
  · funext p
    simp only [io_instr_remove, nir_ssa_def_rewrite_uses]
    rw [hf]
    simp only [nir_builder_instr_insert, lowered_load_heap]
  · simp only [remove_functions_eq, nir_ssa_def_rewrite_uses]
    rw [hf, io_splice_all_splice, io_splice_tail _ _ _ (not_mem_range' a _ _ ha)]
    simp

theorem map_rewrite_slot_not_mem (d new_src : Nat) (l : List Nat) (h : d ∉ l) :
    l.map (io_rewrite_slot d new_src) = l := by
  induction l with
  | nil => rfl
  | cons x xs ih =>
      have hx : x ≠ d := fun e => h (by simp [e])
      have hxs : d ∉ xs := fun e => h (List.mem_cons_of_mem _ e)
      rw [List.map_cons, ih hxs]
      simp only [io_rewrite_slot, if_neg hx]

/-- C12: for a load_input with N > 1 components (at most the component limit),
base b, component offset c, bit size w and offset operand o,
`lower_load_input_to_scalar` returns; every block that held the load holds in its
place the N new loads in channel order followed by the vector; load i has one
component, base b, component offset c + i, bit size w and offset operand o; lane
i of the vector is the result of load i; every other linked instruction and
every if reads the vector where it read the load; the load is linked nowhere. -/
theorem C12_load_input_scalarized (E : IoEnv) (s : io_shader) (instr : Nat)
    (intr : nir_intrinsic_instr)
    (hN : 1 < intr.num_components)
    (hmax : intr.num_components ≤ E.NIR_MAX_VEC_COMPONENTS)
    (h_op : intr.intrinsic = .load_input)
    (h_wf : ∀ p ∈ io_instrs s.functions, p < s.next)
    (h_in : instr ∈ io_instrs s.functions)
    (h_self : intr.src.getD 0 0 ≠ instr) :
    ∃ s', lower_load_input_to_scalar E s instr intr = some s' ∧
      s'.functions
        = io_splice_all instr (List.range' s.next (intr.num_components + 1)) s.functions ∧
      (∀ i < intr.num_components,
        s'.heap (s.next + i) = .intrinsic
          { intrinsic := .load_input, num_components := 1, bit_size := intr.bit_size,
            base := intr.base, component := intr.component + i, write_mask := 0,
            src := [intr.src.getD 0 0] }) ∧
      s'.heap (s.next + intr.num_components)
        = .vec (List.range' s.next intr.num_components) ∧
      (∀ p ∈ io_instrs s.functions, p ≠ instr →
        s'.heap p = io_rewrite_src instr (s.next + intr.num_components) (s.heap p)) ∧
      s'.if_uses = rewrite_if_uses instr (s.next + intr.num_components) s.if_uses ∧
      instr ∉ io_instrs s'.functions := by
  have ha : instr < s.next := h_wf instr h_in
  refine ⟨_, lower_load_eq E s instr intr ha hmax, rfl, ?_, ?_, ?_, rfl, ?_⟩
  · intro i hi
    have h1 : lowered_load_heap s intr (s.next + i)
        = .intrinsic (load_input_chan intr i) := by
      unfold lowered_load_heap
      rw [if_neg (by omega), if_pos ⟨by omega, by omega⟩, Nat.add_sub_cancel_left]
    have h2 : io_rewrite_src instr (s.next + intr.num_components)
        (.intrinsic (load_input_chan intr i)) = .intrinsic (load_input_chan intr i) := by
      simp only [io_rewrite_src, load_input_chan, List.map_cons, List.map_nil, io_rewrite_slot,
        if_neg h_self]
    simp only [h1, h2, ite_self]
    simp only [load_input_chan, h_op]
  · have h1 : lowered_load_heap s intr (s.next + intr.num_components)
        = .vec (List.range' s.next intr.num_components) := by
      unfold lowered_load_heap
      rw [if_pos rfl]
    have h2 : io_rewrite_src instr (s.next + intr.num_components)
        (.vec (List.range' s.next intr.num_components))
        = .vec (List.range' s.next intr.num_components) := by
      simp only [io_rewrite_src]
      rw [map_rewrite_slot_not_mem _ _ _ (not_mem_range' instr _ _ ha)]
    simp only [h1, h2, ite_self]
  · intro p hp hne
    have hlt := h_wf p hp
    have h1 : lowered_load_heap s intr p = s.heap p := by
      unfold lowered_load_heap
      rw [if_neg (by omega), if_neg (by omega)]
    simp only [h1]
    rw [if_pos (mem_io_instrs_splice_old _ _ _ _ hp hne)]
  · intro hm
    rcases mem_io_instrs_splice_inv _ _ _ _ hm with ⟨h1, _⟩ | ⟨h1, _⟩
    · exact h1 rfl
    · exact not_mem_range' instr _ _ ha h1

/-- Witness of C12: the two-component load at address 1 of `ex_late_shader`. -/
theorem C12_load_input_scalarized_witness :
    ∃ s', lower_load_input_to_scalar ex_io_env ex_late_shader 1
        ⟨.load_input, 2, 32, 7, 1, 0, [0]⟩ = some s' ∧
      s'.functions = [none, some [[0, 4, 5, 6, 2, 3]]] ∧
      s'.heap 4 = .intrinsic ⟨.load_input, 1, 32, 7, 1, 0, [0]⟩ ∧
      s'.heap 5 = .intrinsic ⟨.load_input, 1, 32, 7, 2, 0, [0]⟩ ∧
      s'.heap 6 = .vec [4, 5] ∧
      s'.heap 2 = .other [6, 6] ∧
      s'.if_uses = [6] := by
  obtain ⟨s', h, hf, hl, hv, hu, hi, _⟩ :=
    C12_load_input_scalarized ex_io_env ex_late_shader 1 ⟨.load_input, 2, 32, 7, 1, 0, [0]⟩
      (by decide) (by decide) rfl (by decide) (by decide) (by decide)
  refine ⟨s', h, ?_, ?_, ?_, ?_, ?_, ?_⟩
  · exact hf.trans (by decide)
  · exact hl 0 (by decide)
  · exact hl 1 (by decide)
  · exact hv.trans (by decide)
  · exact (hu 2 (by decide) (by decide)).trans (by decide)
  · exact hi.trans (by decide)

theorem getD_append_left {α : Type} (l1 l2 : List α) (k : Nat) (d : α) (h : k < l1.length) :
    (l1 ++ l2).getD k d = l1.getD k d := by
  rw [List.getD_eq_getElem?_getD, List.getD_eq_getElem?_getD, List.getElem?_append_left h]

theorem getD_append_length {α : Type} (l1 : List α) (x d : α) :
    (l1 ++ [x]).getD l1.length d = x := by
  rw [List.getD_eq_getElem?_getD, List.getElem?_append_right (Nat.le_refl _)]
  simp

theorem store_loop_spec (intr : nir_intrinsic_instr) (a value : Nat) (s : io_shader)
    (ha : a < s.next) (chs : List Nat) :
    chs.foldl (lower_store_output_step intr a value) s =
      { s with
        heap := lowered_store_heap s intr value (store_channels intr.write_mask chs)
        next := s.next + 2 * (store_channels intr.write_mask chs).length
        functions := io_splice_all a
          (List.range' s.next (2 * (store_channels intr.write_mask chs).length) ++ [a])
          s.functions } := by
  induction chs using List.reverseRecOn with
  | nil =>
      apply io_shader_ext <;> try rfl
      · funext q
        have h0 : ¬ (s.next ≤ q ∧ q < s.next + 2 * 0) := by omega
        simp only [lowered_store_heap, store_channels, List.filter_nil, List.length_nil,
          if_neg h0, List.foldl_nil]
      · simp [store_channels, io_splice_all_self]
  | append_singleton l i ih =>
      rw [List.foldl_append, ih]
      simp only [List.foldl_cons, List.foldl_nil]
      unfold lower_store_output_step
      by_cases hb : intr.write_mask &&& (1 <<< i) = 0
      · have hc : store_channels intr.write_mask (l ++ [i]) = store_channels intr.write_mask l := by
          simp [store_channels, List.filter_append, hb]
        rw [if_pos hb, hc]
      · have hc : store_channels intr.write_mask (l ++ [i])
            = store_channels intr.write_mask l ++ [i] := by
          simp [store_channels, List.filter_append, hb]
        rw [if_neg hb, hc]
        generalize store_channels intr.write_mask l = L
        apply io_shader_ext <;> try rfl
        · funext q
          simp only [nir_builder_instr_insert, nir_channel, lowered_store_heap,
            List.length_append, List.length_singleton]
          by_cases h1 : q = s.next + 2 * L.length + 1
          · subst h1
            have e1 : (s.next + 2 * L.length + 1 - s.next) = 2 * L.length + 1 := by omega
            have h4 : s.next ≤ s.next + 2 * L.length + 1 ∧
                s.next + 2 * L.length + 1 < s.next + 2 * (L.length + 1) := by omega
            have h5 : ¬ ((2 * L.length + 1) % 2 = 0) := by omega
            rw [if_pos rfl, if_pos h4, e1, if_neg h5]
            have e2 : (2 * L.length + 1) / 2 = L.length := by omega
            rw [e2, getD_append_length]
            rfl
          · rw [if_neg h1]
            by_cases h2 : q = s.next + 2 * L.length
            · subst h2
              have e1 : (s.next + 2 * L.length - s.next) = 2 * L.length := by omega
              have h4 : s.next ≤ s.next + 2 * L.length ∧
                  s.next + 2 * L.length < s.next + 2 * (L.length + 1) := by omega
              have h5 : (2 * L.length) % 2 = 0 := by omega
              rw [if_pos rfl, if_pos h4, e1, if_pos h5]
              have e2 : (2 * L.length) / 2 = L.length := by omega
              rw [e2, getD_append_length]
            · rw [if_neg h2]
              by_cases h3 : s.next ≤ q ∧ q < s.next + 2 * L.length
              · have h4 : s.next ≤ q ∧ q < s.next + 2 * (L.length + 1) := ⟨h3.1, by omega⟩
                have e3 : (q - s.next) / 2 < L.length := by omega
                rw [if_pos h3, if_pos h4, getD_append_left _ _ _ _ e3]
              · have h4 : ¬ (s.next ≤ q ∧ q < s.next + 2 * (L.length + 1)) := by omega
                rw [if_neg h3, if_neg h4]
        · simp only [nir_channel, List.length_append, List.length_singleton]
          show s.next + 2 * L.length + 1 + 1 = s.next + 2 * (L.length + 1)
          omega
        · simp only [insert_functions_eq, nir_channel]
          rw [io_splice_all_splice, io_splice_all_splice]
          have hne : s.next + 2 * L.length ≠ a := by omega
          have e4 : io_splice a
              (io_splice a [s.next + 2 * L.length + 1, a] [s.next + 2 * L.length, a])
              (List.range' s.next (2 * L.length) ++ [a])
              = List.range' s.next (2 * (L ++ [i]).length) ++ [a] := by
            rw [io_splice_tail _ _ _ (not_mem_range' a _ _ ha)]
            have e5 : io_splice a [s.next + 2 * L.length + 1, a] [s.next + 2 * L.length, a]
                = [s.next + 2 * L.length, s.next + 2 * L.length + 1, a] := by
              simp [io_splice, hne]
            have e6 : 2 * (L ++ [i]).length = 2 * L.length + 1 + 1 := by
              simp only [List.length_append, List.length_singleton]; omega
            rw [e5, e6, List.range'_concat, List.range'_concat]
            simp
            omega
          exact congrArg (fun l => io_splice_all a l s.functions) e4

theorem lower_store_eq (s : io_shader) (a : Nat) (intr : nir_intrinsic_instr)
    (ha : a < s.next) :
    lower_store_output_to_scalar s a intr =
      { s with
        heap := lowered_store_heap s intr (intr.src.getD 0 0)
          (store_channels intr.write_mask (List.range intr.num_components))
        next := s.next
          + 2 * (store_channels intr.write_mask (List.range intr.num_components)).length
        functions := io_splice_all a
          (List.range' s.next
            (2 * (store_channels intr.write_mask (List.range intr.num_components)).length))
          s.functions } := by
  unfold lower_store_output_to_scalar
  simp only [nir_ssa_for_src, store_loop_spec intr a _ s ha]
  apply io_shader_ext <;> try rfl
  simp only [remove_functions_eq]
  rw [io_splice_all_splice, io_splice_tail _ _ _ (not_mem_range' a _ _ ha), List.append_nil]

theorem mem_store_channels (m : Nat) (chs : List Nat) (i : Nat) :
    i ∈ store_channels m chs ↔ i ∈ chs ∧ m &&& (1 <<< i) ≠ 0 := by
  simp [store_channels]

theorem getD_mem_of_lt (l : List Nat) (k : Nat) (h : k < l.length) : l.getD k 0 ∈ l := by
  rw [List.getD_eq_getElem?_getD, List.getElem?_eq_getElem h]
  exact List.getElem_mem h

theorem exists_getD_of_mem (l : List Nat) (i : Nat) (h : i ∈ l) :
    ∃ j, j < l.length ∧ l.getD j 0 = i := by
  obtain ⟨j, hj, e⟩ := List.getElem_of_mem h
  refine ⟨j, hj, ?_⟩
  rw [List.getD_eq_getElem?_getD, List.getElem?_eq_getElem hj]
  exact e

/-- C13: for a store_output with N > 1 components, write mask m, component
offset c, base b, value v and offset operand o, `lower_store_output_to_scalar`
puts its new instructions where the store was and unlinks the store; for every
channel i < N whose bit of m is set there is a move of lane i of v followed by a
store with one component, write mask 1, base b, component offset c + i, that
move as value and o as offset operand; for a channel whose bit is clear no new
instruction is a store with component offset c + i; older instructions are as
they were. -/
theorem C13_store_output_scalarized (s : io_shader) (instr : Nat)
    (intr : nir_intrinsic_instr)
    (h_op : intr.intrinsic = .store_output)
    (h_wf : ∀ p ∈ io_instrs s.functions, p < s.next)
    (h_in : instr ∈ io_instrs s.functions) :
    (∃ k, (lower_store_output_to_scalar s instr intr).next = s.next + 2 * k ∧
      (lower_store_output_to_scalar s instr intr).functions
        = io_splice_all instr (List.range' s.next (2 * k)) s.functions) ∧
    (∀ i < intr.num_components, intr.write_mask &&& (1 <<< i) ≠ 0 →
      ∃ j, s.next + 2 * j + 1 < (lower_store_output_to_scalar s instr intr).next ∧
        (lower_store_output_to_scalar s instr intr).heap (s.next + 2 * j)
          = .channel (intr.src.getD 0 0) i ∧
        (lower_store_output_to_scalar s instr intr).heap (s.next + 2 * j + 1)
          = .intrinsic
              { intrinsic := .store_output, num_components := 1, bit_size := 0,
                base := intr.base, component := intr.component + i, write_mask := 1,
                src := [s.next + 2 * j, intr.src.getD 1 0] }) ∧
    (∀ i < intr.num_components, intr.write_mask &&& (1 <<< i) = 0 →
      ∀ q intr', s.next ≤ q → q < (lower_store_output_to_scalar s instr intr).next →
        (lower_store_output_to_scalar s instr intr).heap q = .intrinsic intr' →
        intr'.component ≠ intr.component + i) ∧
    (∀ p < s.next, (lower_store_output_to_scalar s instr intr).heap p = s.heap p) ∧
    instr ∉ io_instrs (lower_store_output_to_scalar s instr intr).functions := by
  have ha : instr < s.next := h_wf instr h_in
  rw [lower_store_eq s instr intr ha]
  generalize hL : store_channels intr.write_mask (List.range intr.num_components) = L
  refine ⟨⟨L.length, rfl, rfl⟩, ?_, ?_, ?_, ?_⟩
  · intro i hi hb
    have hmem : i ∈ L := by
      rw [← hL, mem_store_channels]
      exact ⟨List.mem_range.2 hi, hb⟩
    obtain ⟨j, hj, hji⟩ := exists_getD_of_mem L i hmem
    refine ⟨j, ?_, ?_, ?_⟩
    · show s.next + 2 * j + 1 < s.next + 2 * L.length
      omega
    · show lowered_store_heap s intr _ L (s.next + 2 * j) = _
      unfold lowered_store_heap
      have h4 : s.next ≤ s.next + 2 * j ∧ s.next + 2 * j < s.next + 2 * L.length := by omega
      have e1 : s.next + 2 * j - s.next = 2 * j := by omega
      have h5 : (2 * j) % 2 = 0 := by omega
      have e2 : (2 * j) / 2 = j := by omega
      rw [if_pos h4, e1, if_pos h5, e2, hji]
    · show lowered_store_heap s intr _ L (s.next + 2 * j + 1) = _
      unfold lowered_store_heap
      have h4 : s.next ≤ s.next + 2 * j + 1 ∧ s.next + 2 * j + 1 < s.next + 2 * L.length := by
        omega
      have e1 : s.next + 2 * j + 1 - s.next = 2 * j + 1 := by omega
      have h5 : ¬ ((2 * j + 1) % 2 = 0) := by omega
      have e2 : (2 * j + 1) / 2 = j := by omega
      rw [if_pos h4, e1, if_neg h5, e2, hji]
      simp only [store_output_chan, h_op, Nat.add_sub_cancel]
  · intro i _ hb q intr' hq1 hq2 hq
    have hq2' : q < s.next + 2 * L.length := hq2
    have hq' : lowered_store_heap s intr (intr.src.getD 0 0) L q = .intrinsic intr' := hq
    unfold lowered_store_heap at hq'
    have h4 : s.next ≤ q ∧ q < s.next + 2 * L.length := ⟨hq1, hq2'⟩
    rw [if_pos h4] at hq'
    by_cases h5 : (q - s.next) % 2 = 0
    · rw [if_pos h5] at hq'
      cases hq'
    · rw [if_neg h5] at hq'
      have hlt : (q - s.next) / 2 < L.length := by omega
      have hm := getD_mem_of_lt L _ hlt
      rw [← hL, mem_store_channels] at hm
      injection hq' with hq'
      subst hq'
      simp only [store_output_chan]
      intro e
      have e' : L.getD ((q - s.next) / 2) 0 = i := by omega
      rw [hL, e'] at hm
      exact hm.2 hb
  · intro p hp
    show lowered_store_heap s intr _ L p = _
    unfold lowered_store_heap
    have h4 : ¬ (s.next ≤ p ∧ p < s.next + 2 * L.length) := by omega
    rw [if_neg h4]
  · intro hm
    rcases mem_io_instrs_splice_inv _ _ _ _ hm with ⟨h1, _⟩ | ⟨h1, _⟩
    · exact h1 rfl
    · exact not_mem_range' instr _ _ ha h1

/-- Witness of C13, Scenario B: the three-component store with write mask 0b101
at address 3 of `ex_late_shader` gives exactly the stores of the channels 0 and
2. -/
theorem C13_store_output_scalarized_witness :
    (lower_store_output_to_scalar ex_late_shader 3
        ⟨.store_output, 3, 0, 5, 0, 5, [2, 0]⟩).functions
      = [none, some [[0, 1, 2, 4, 5, 6, 7]]] ∧
    (∃ j, 4 + 2 * j + 1 < (lower_store_output_to_scalar ex_late_shader 3
        ⟨.store_output, 3, 0, 5, 0, 5, [2, 0]⟩).next ∧
      (lower_store_output_to_scalar ex_late_shader 3
        ⟨.store_output, 3, 0, 5, 0, 5, [2, 0]⟩).heap (4 + 2 * j) = .channel 2 2 ∧
      (lower_store_output_to_scalar ex_late_shader 3
        ⟨.store_output, 3, 0, 5, 0, 5, [2, 0]⟩).heap (4 + 2 * j + 1)
        = .intrinsic ⟨.store_output, 1, 0, 5, 2, 1, [4 + 2 * j, 0]⟩) ∧
    (∀ q intr', 4 ≤ q → q < (lower_store_output_to_scalar ex_late_shader 3
        ⟨.store_output, 3, 0, 5, 0, 5, [2, 0]⟩).next →
      (lower_store_output_to_scalar ex_late_shader 3
        ⟨.store_output, 3, 0, 5, 0, 5, [2, 0]⟩).heap q = .intrinsic intr' →
      intr'.component ≠ 1) :=
  have h := C13_store_output_scalarized ex_late_shader 3 ⟨.store_output, 3, 0, 5, 0, 5, [2, 0]⟩
    rfl (by decide) (by decide)
  ⟨by decide, h.2.1 2 (by decide) (by decide), h.2.2.1 1 (by decide) (by decide)⟩

theorem and_shift_eq_zero_iff (m i : Nat) : m &&& (1 <<< i) = 0 ↔ m.testBit i = false := by
  rw [Nat.one_shiftLeft, Nat.and_two_pow]
  cases h : m.testBit i <;> simp

theorem store_channels_eq_filter (m : Nat) (chs : List Nat) :
    store_channels m chs = chs.filter (fun i => m.testBit i) := by
  unfold store_channels
  apply List.filter_congr
  intro i _
  cases h : m.testBit i
  · simp [(and_shift_eq_zero_iff m i).2 h]
  · have : ¬ (m &&& (1 <<< i) = 0) := fun e => by
      rw [and_shift_eq_zero_iff] at e
      rw [h] at e
      cases e
    simp [this]

theorem filter_range_add (P : Nat → Bool) (K d : Nat) (h : ∀ i, P i = true → i < K) :
    (List.range (K + d)).filter P = (List.range K).filter P := by
  induction d with
  | zero => rfl
  | succ d ih =>
      have hf : P (K + d) = false := by
        cases hp : P (K + d)
        · rfl
        · have := h _ hp
          omega
      rw [← Nat.add_assoc, List.range_succ, List.filter_append, ih]
      simp [hf]

theorem filter_range_eq (P : Nat → Bool) (K1 K2 : Nat) (h1 : ∀ i, P i = true → i < K1)
    (h2 : ∀ i, P i = true → i < K2) :
    (List.range K1).filter P = (List.range K2).filter P := by
  rcases Nat.le_total K1 K2 with h | h
  · obtain ⟨d, rfl⟩ := Nat.exists_eq_add_of_le h
    exact (filter_range_add P K1 d h1).symm
  · obtain ⟨d, rfl⟩ := Nat.exists_eq_add_of_le h
    exact filter_range_add P K2 d h2

theorem testBit_lt_self (m i : Nat) (h : m.testBit i = true) : i < m := by
  by_contra hc
  have h1 : m < 2 ^ i := Nat.lt_of_lt_of_le (Nat.lt_two_pow m)
    (Nat.pow_le_pow_right (by decide) (by omega))
  rw [Nat.testBit_lt_two_pow h1] at h
  cases h

theorem popcount_eq_of_lt (m N : Nat) (h : m < 2 ^ N) :
    popcount m = ((List.range N).filter (fun i => m.testBit i)).length := by
  unfold popcount
  rw [filter_range_eq (fun i => m.testBit i) m N (testBit_lt_self m)]
  intro i hi
  by_contra hc
  have h1 : m < 2 ^ i := Nat.lt_of_lt_of_le h (Nat.pow_le_pow_right (by decide) (by omega))
  rw [Nat.testBit_lt_two_pow h1] at hi
  cases hi

theorem count_odd_range' (n k : Nat) (P : Nat → Bool)
    (hP : ∀ q, n ≤ q → q < n + 2 * k → P q = decide ((q - n) % 2 = 1)) :
    ((List.range' n (2 * k)).filter P).length = k := by
  induction k with
  | zero => rfl
  | succ k ih =>
      have e : 2 * (k + 1) = 2 * k + 1 + 1 := by omega
      rw [e, List.range'_concat, List.range'_concat, List.filter_append, List.filter_append,
        List.length_append, List.length_append, ih (fun q h1 h2 => hP q h1 (by omega))]
      have p1 : P (n + 1 * (2 * k)) = false := by
        rw [hP _ (by omega) (by omega)]
        simp only [decide_eq_false_iff_not]
        omega
      have p2 : P (n + 1 * (2 * k + 1)) = true := by
        rw [hP _ (by omega) (by omega)]
        simp only [decide_eq_true_eq]
        omega
      rw [Nat.one_mul] at p1 p2
      simp [p1, p2]

/-- C14: for a store_output with N components whose write mask m has a bit for
each of its N channels and no other (m < 2 ^ N), the number of single-component
stores that `lower_store_output_to_scalar` emits is the number of set bits of m,
which is the number of channels i < N whose bit of m is set: one store per set
bit and none for a cleared bit. -/
theorem C14_stores_count_set_bits (s : io_shader) (instr : Nat)
    (intr : nir_intrinsic_instr)
    (h_op : intr.intrinsic = .store_output)
    (h_wf : ∀ p ∈ io_instrs s.functions, p < s.next)
    (h_in : instr ∈ io_instrs s.functions)
    (h_mask : intr.write_mask < 2 ^ intr.num_components) :
    io_new_stores s (lower_store_output_to_scalar s instr intr) = popcount intr.write_mask ∧
    io_new_stores s (lower_store_output_to_scalar s instr intr)
      = ((List.range intr.num_components).filter
          (fun i => intr.write_mask.testBit i)).length := by
  have ha : instr < s.next := h_wf instr h_in
  have h1 : io_new_stores s (lower_store_output_to_scalar s instr intr)
      = ((List.range intr.num_components).filter
          (fun i => intr.write_mask.testBit i)).length := by
    rw [lower_store_eq s instr intr ha, ← store_channels_eq_filter]
    generalize store_channels intr.write_mask (List.range intr.num_components) = L
    unfold io_new_stores
    simp only [Nat.add_sub_cancel_left]
    apply count_odd_range'
    intro q hq1 hq2
    unfold lowered_store_heap
    have h4 : s.next ≤ q ∧ q < s.next + 2 * L.length := ⟨hq1, hq2⟩
    rw [if_pos h4]
    by_cases h5 : (q - s.next) % 2 = 0
    · rw [if_pos h5]
      have h6 : ¬ ((q - s.next) % 2 = 1) := by omega
      simp only [is_intrinsic_op, h6, decide_False]
    · rw [if_neg h5]
      have h6 : (q - s.next) % 2 = 1 := by omega
      simp only [is_intrinsic_op, store_output_chan, h_op, h6, decide_True]
  refine ⟨?_, h1⟩
  rw [h1, popcount_eq_of_lt _ _ h_mask]

/-- Witness of C14: the store of `ex_late_shader` (3 components, write mask
0b101) gives two stores, as many as the write mask has set bits. -/
theorem C14_stores_count_set_bits_witness :
    (5 : Nat) < 2 ^ 3 ∧
    io_new_stores ex_late_shader
      (lower_store_output_to_scalar ex_late_shader 3 ⟨.store_output, 3, 0, 5, 0, 5, [2, 0]⟩)
      = popcount 5 ∧ popcount 5 = 2 :=
  ⟨by decide,
    (C14_stores_count_set_bits ex_late_shader 3 ⟨.store_output, 3, 0, 5, 0, 5, [2, 0]⟩
      rfl (by decide) (by decide) (by decide)).1, by decide⟩

/-! ## Lemmas: the loop nest of the scalarizers -/

theorem io_step_refl {σ : Type} (functions : σ → List (Option (List (List Nat))))
    (V ok : σ → Nat → Prop) (s : σ) : IoStep functions V ok s s :=
  ⟨fun _ h => h, fun _ h => h, rfl, fun _ _ _ h => Or.inr h⟩

theorem io_step_trans {σ : Type} {functions : σ → List (Option (List (List Nat)))}
    {V ok : σ → Nat → Prop} {s t u : σ} (h1 : IoStep functions V ok s t)
    (h2 : IoStep functions V ok t u) : IoStep functions V ok s u :=
  ⟨fun x h => h2.keep_V x (h1.keep_V x h), fun x h => h2.keep_ok x (h1.keep_ok x h),
    h2.shape.trans h1.shape,
    fun fi bi x h => by
      rcases h2.blocks fi bi x h with h | h
      · exact Or.inl h
      · rcases h1.blocks fi bi x h with h | h
        · exact Or.inl (h2.keep_ok x h)
        · exact Or.inr h⟩

theorem io_foreach_instr_post {σ : Type} (functions : σ → List (Option (List (List Nat))))
    (body : σ → Nat → Option σ) (Inv : σ → Prop) (V ok : σ → Nat → Prop)
    (hbody : ∀ s a, Inv s → V s a → ∃ t, body s a = some t ∧ Inv t ∧
      IoStep functions V ok s t ∧
      ∀ fi bi x, x ∈ io_block (functions t) fi bi →
        ok t x ∨ (x ∈ io_block (functions s) fi bi ∧ x ≠ a))
    (B : List Nat) :
    ∀ s, Inv s → (∀ x ∈ B, V s x) → ∃ t, io_foreach_instr body s B = some t ∧ Inv t ∧
      IoStep functions V ok s t ∧
      ∀ fi bi x, x ∈ io_block (functions t) fi bi →
        ok t x ∨ (x ∈ io_block (functions s) fi bi ∧ x ∉ B) := by
  induction B with
  | nil =>
      intro s hs _
      exact ⟨s, rfl, hs, io_step_refl _ _ _ _, fun fi bi x h => Or.inr ⟨h, List.not_mem_nil _⟩⟩
  | cons a B ih =>
      intro s hs hV
      obtain ⟨t, ht, hInv, hst, hb⟩ := hbody s a hs (hV a (List.mem_cons_self _ _))
      obtain ⟨u, hu, hInvu, htu, hb2⟩ := ih t hInv
        (fun x hx => hst.keep_V x (hV x (List.mem_cons_of_mem _ hx)))
      refine ⟨u, ?_, hInvu, io_step_trans hst htu, ?_⟩
      · unfold io_foreach_instr at hu ⊢
        rw [List.foldlM_cons, ht]
        exact hu
      · intro fi bi x hx
        rcases hb2 fi bi x hx with h | ⟨h1, h2⟩
        · exact Or.inl h
        · rcases hb fi bi x h1 with h | ⟨h3, h4⟩
          · exact Or.inl (htu.keep_ok x h)
          · refine Or.inr ⟨h3, ?_⟩
            intro hm
            rcases List.mem_cons.1 hm with e | e
            · exact h4 e
            · exact h2 e

theorem io_shape_getD (fs gs : List (Option (List (List Nat))))
    (h : io_shape gs = io_shape fs) (fi : Nat) :
    (gs.getD fi none).map List.length = (fs.getD fi none).map List.length := by
  have h1 : (io_shape gs)[fi]? = (io_shape fs)[fi]? := by rw [h]
  unfold io_shape at h1
  rw [List.getElem?_map, List.getElem?_map] at h1
  rw [List.getD_eq_getElem?_getD gs fi none, List.getD_eq_getElem?_getD fs fi none]
  cases hg : gs[fi]? with
  | none =>
      cases hf : fs[fi]? with
      | none => rfl
      | some b => rw [hg, hf] at h1; cases h1
  | some a =>
      cases hf : fs[fi]? with
      | none => rw [hg, hf] at h1; cases h1
      | some b =>
          rw [hg, hf] at h1
          simp only [Option.map_some', Option.some.injEq] at h1
          simpa using h1

theorem io_shape_length (fs gs : List (Option (List (List Nat))))
    (h : io_shape gs = io_shape fs) : gs.length = fs.length := by
  have := congrArg List.length h
  simpa [io_shape] using this

theorem io_block_nil_of_none (fs : List (Option (List (List Nat)))) (fi bi : Nat)
    (h : fs.getD fi none = none) : io_block fs fi bi = [] := by
  unfold io_block
  rw [h]
  rfl

theorem io_block_nil_of_le (fs : List (Option (List (List Nat)))) (fi bi : Nat)
    (blocks : List (List Nat)) (h : fs.getD fi none = some blocks)
    (hle : blocks.length ≤ bi) : io_block fs fi bi = [] := by
  unfold io_block
  rw [h, Option.getD_some, List.getD_eq_getElem?_getD, List.getElem?_eq_none hle]
  rfl

theorem io_block_eq (fs : List (Option (List (List Nat)))) (fi bi : Nat)
    (bs : List (List Nat)) (hfi : fi < fs.length) (hf : fs[fi] = some bs)
    (hbi : bi < bs.length) : io_block fs fi bi = bs[bi] := by
  unfold io_block
  rw [List.getD_eq_getElem?_getD fs fi none, List.getElem?_eq_getElem hfi, hf]
  simp only [Option.getD_some]
  rw [List.getD_eq_getElem?_getD bs bi [], List.getElem?_eq_getElem hbi]
  rfl

theorem getD_eq_some_getElem (fs : List (Option (List (List Nat)))) (fi : Nat)
    (bs : List (List Nat)) (h : fs.getD fi none = some bs) :
    ∃ hfi : fi < fs.length, fs[fi] = some bs := by
  rw [List.getD_eq_getElem?_getD fs fi none] at h
  by_cases hfi : fi < fs.length
  · rw [List.getElem?_eq_getElem hfi] at h
    exact ⟨hfi, h⟩
  · rw [List.getElem?_eq_none (by omega)] at h
    cases h

theorem mem_io_instrs_iff_block (fs : List (Option (List (List Nat)))) (x : Nat) :
    x ∈ io_instrs fs ↔ ∃ fi bi, fi < fs.length ∧ x ∈ io_block fs fi bi := by
  rw [mem_io_instrs]
  constructor
  · rintro ⟨bs, b, hf, hb, hx⟩
    obtain ⟨fi, hfi, e1⟩ := List.getElem_of_mem hf
    obtain ⟨bi, hbi, e2⟩ := List.getElem_of_mem hb
    refine ⟨fi, bi, hfi, ?_⟩
    rw [io_block_eq fs fi bi bs hfi e1 hbi, e2]
    exact hx
  · rintro ⟨fi, bi, hfi, hx⟩
    cases hf : fs.getD fi none with
    | none =>
        rw [io_block_nil_of_none fs fi bi hf] at hx
        cases hx
    | some bs =>
        obtain ⟨_, hf2⟩ := getD_eq_some_getElem fs fi bs hf
        by_cases hbi : bi < bs.length
        · rw [io_block_eq fs fi bi bs hfi hf2 hbi] at hx
          exact ⟨bs, bs[bi], hf2 ▸ List.getElem_mem hfi, List.getElem_mem hbi, hx⟩
        · rw [io_block_nil_of_le fs fi bi bs hf (by omega)] at hx
          cases hx

theorem io_foreach_block_post {σ : Type} (functions : σ → List (Option (List (List Nat))))
    (body : σ → Nat → Option σ) (Inv : σ → Prop) (V ok : σ → Nat → Prop)
    (hentry : ∀ s fi bi x, Inv s → x ∈ io_block (functions s) fi bi → V s x)
    (hbody : ∀ s a, Inv s → V s a → ∃ t, body s a = some t ∧ Inv t ∧
      IoStep functions V ok s t ∧
      ∀ fi bi x, x ∈ io_block (functions t) fi bi →
        ok t x ∨ (x ∈ io_block (functions s) fi bi ∧ x ≠ a))
    (s : σ) (fi : Nat) (hs : Inv s) :
    ∃ t, io_foreach_block functions body s fi = some t ∧ Inv t ∧
      IoStep functions V ok s t ∧
      ∀ bi x, x ∈ io_block (functions t) fi bi → ok t x := by
  unfold io_foreach_block
  cases hf : (functions s).getD fi none with
  | none =>
      refine ⟨s, rfl, hs, io_step_refl _ _ _ _, ?_⟩
      intro bi x hx
      rw [io_block_nil_of_none _ fi bi hf] at hx
      cases hx
  | some blocks =>
      simp only
      have key : ∀ k, ∃ t, (List.range k).foldlM
          (fun s bi => io_foreach_instr body s (io_block (functions s) fi bi)) s = some t ∧
          Inv t ∧ IoStep functions V ok s t ∧
          ∀ bi, bi < k → ∀ x, x ∈ io_block (functions t) fi bi → ok t x := by
        intro k
        induction k with
        | zero =>
            exact ⟨s, rfl, hs, io_step_refl _ _ _ _, fun bi h => absurd h (Nat.not_lt_zero _)⟩
        | succ k ih =>
            obtain ⟨t, ht, hInv, hst, hok⟩ := ih
            obtain ⟨u, hu, hInvu, htu, hb⟩ := io_foreach_instr_post functions body Inv V ok
              hbody (io_block (functions t) fi k) t hInv
              (fun x hx => hentry t fi k x hInv hx)
            refine ⟨u, ?_, hInvu, io_step_trans hst htu, ?_⟩
            · rw [List.range_succ, List.foldlM_append, ht]
              simp only [Option.bind_eq_bind, Option.some_bind, List.foldlM_cons,
                List.foldlM_nil, hu]
              rfl
            · intro bi hbi x hx
              rcases hb fi bi x hx with h | ⟨h1, h2⟩
              · exact h
              · by_cases e : bi = k
                · subst e
                  exact absurd h1 h2
                · exact htu.keep_ok x (hok bi (by omega) x h1)
      obtain ⟨t, ht, hInv, hst, hok⟩ := key blocks.length
      refine ⟨t, ht, hInv, hst, ?_⟩
      intro bi x hx
      by_cases hbi : bi < blocks.length
      · exact hok bi hbi x hx
      · have hsh := io_shape_getD _ _ hst.shape fi
        rw [hf] at hsh
        cases hg : (functions t).getD fi none with
        | none =>
            rw [io_block_nil_of_none _ fi bi hg] at hx
            cases hx
        | some bs =>
            rw [hg] at hsh
            simp only [Option.map_some', Option.some.injEq] at hsh
            rw [io_block_nil_of_le _ fi bi bs hg (by omega)] at hx
            cases hx

theorem io_foreach_function_post {σ : Type}
    (functions : σ → List (Option (List (List Nat))))
    (body : σ → Nat → Option σ) (Inv : σ → Prop) (V ok : σ → Nat → Prop)
    (hentry : ∀ s fi bi x, Inv s → x ∈ io_block (functions s) fi bi → V s x)
    (hbody : ∀ s a, Inv s → V s a → ∃ t, body s a = some t ∧ Inv t ∧
      IoStep functions V ok s t ∧
      ∀ fi bi x, x ∈ io_block (functions t) fi bi →
        ok t x ∨ (x ∈ io_block (functions s) fi bi ∧ x ≠ a))
    (s : σ) (hs : Inv s) :
    ∃ t, io_foreach_function functions body s = some t ∧ Inv t ∧
      IoStep functions V ok s t ∧
      ∀ x, x ∈ io_instrs (functions t) → ok t x := by
  unfold io_foreach_function
  have key : ∀ k, ∃ t, (List.range k).foldlM
      (fun s fi => io_foreach_block functions body s fi) s = some t ∧
      Inv t ∧ IoStep functions V ok s t ∧
      ∀ fi, fi < k → ∀ bi x, x ∈ io_block (functions t) fi bi → ok t x := by
    intro k
    induction k with
    | zero =>
        exact ⟨s, rfl, hs, io_step_refl _ _ _ _, fun fi h => absurd h (Nat.not_lt_zero _)⟩
    | succ k ih =>
        obtain ⟨t, ht, hInv, hst, hok⟩ := ih
        obtain ⟨u, hu, hInvu, htu, hb⟩ := io_foreach_block_post functions body Inv V ok
          hentry hbody t k hInv
        refine ⟨u, ?_, hInvu, io_step_trans hst htu, ?_⟩
        · rw [List.range_succ, List.foldlM_append, ht]
          simp only [Option.bind_eq_bind, Option.some_bind, List.foldlM_cons,
            List.foldlM_nil, hu]
          rfl
        · intro fi hfi bi x hx
          by_cases e : fi = k
          · subst e
            exact hb bi x hx
          · rcases htu.blocks fi bi x hx with h | h
            · exact h
            · exact htu.keep_ok x (hok fi (by omega) bi x h)
  obtain ⟨t, ht, hInv, hst, hok⟩ := key (functions s).length
  refine ⟨t, ht, hInv, hst, ?_⟩
  intro x hx
  obtain ⟨fi, bi, hfi, hxb⟩ := (mem_io_instrs_iff_block _ x).1 hx
  rw [io_shape_length _ _ hst.shape] at hfi
  exact hok fi hfi bi x hxb

/-! ## Lemmas: one round of the late scalarizer -/

theorem lower_io_instr_skip (E : IoEnv) (mask : Nat) (s : io_shader) (a : Nat)
    (h : io_matches E mask (s.heap a) = false) : lower_io_instr E mask s a = some s := by
  unfold lower_io_instr
  unfold io_matches at h
  cases hh : s.heap a with
  | intrinsic intr =>
      rw [hh] at h
      simp only
      by_cases h1 : intr.num_components = 1
      · rw [if_pos h1]
      · rw [if_neg h1]
        simp only [h1, decide_False, Bool.not_false, Bool.true_and, Bool.or_eq_false_iff,
          Bool.and_eq_false_imp, decide_eq_true_eq, Bool.not_eq_false', ne_eq] at h
        cases hop : intr.intrinsic <;> simp only []
        · have := h.1 hop
          simp only [decide_eq_true_eq] at this
          rw [if_neg (not_not.2 this)]
        · have := h.2 hop
          simp only [decide_eq_true_eq] at this
          rw [if_neg (not_not.2 this)]
  | deref d => rfl
  | vec c => rfl
  | channel v c => rfl
  | other srcs => rfl

theorem lower_io_instr_lowers (E : IoEnv) (mask : Nat) (s : io_shader) (a : Nat)
    (h : io_matches E mask (s.heap a) = true) :
    ∃ intr, s.heap a = .intrinsic intr ∧ intr.num_components ≠ 1 ∧
      ((intr.intrinsic = .load_input ∧
          lower_io_instr E mask s a = lower_load_input_to_scalar E s a intr) ∨
       (intr.intrinsic = .store_output ∧
          lower_io_instr E mask s a = some (lower_store_output_to_scalar s a intr))) := by
  unfold lower_io_instr
  unfold io_matches at h
  cases hh : s.heap a with
  | intrinsic intr =>
      rw [hh] at h
      simp only [Bool.and_eq_true, Bool.not_eq_true', decide_eq_false_iff_not,
        Bool.or_eq_true, decide_eq_true_eq] at h
      refine ⟨intr, rfl, h.1, ?_⟩
      simp only [if_neg h.1]
      rcases h.2 with ⟨h1, h2⟩ | ⟨h1, h2⟩
      · left
        refine ⟨h1, ?_⟩
        rw [h1]
        simp only [ne_eq, h2, not_false_eq_true, if_true]
      · right
        refine ⟨h1, ?_⟩
        rw [h1]
        simp only [ne_eq, h2, not_false_eq_true, if_true]
  | deref d => rw [hh] at h; cases h
  | vec c => rw [hh] at h; cases h
  | channel v c => rw [hh] at h; cases h
  | other srcs => rw [hh] at h; cases h

theorem io_matches_rewrite (E : IoEnv) (mask d v : Nat) (x : io_instr) :
    io_matches E mask (io_rewrite_src d v x) = io_matches E mask x := by
  cases x <;> rfl

theorem io_rewrite_intrinsic (d v : Nat) (x : io_instr) (i : nir_intrinsic_instr)
    (h : io_rewrite_src d v x = .intrinsic i) :
    ∃ j, x = .intrinsic j ∧ i.num_components = j.num_components ∧
      i.intrinsic = j.intrinsic := by
  cases x with
  | intrinsic j =>
      simp only [io_rewrite_src, io_instr.intrinsic.injEq] at h
      exact ⟨j, rfl, by rw [← h], by rw [← h]⟩
  | deref dr => simp [io_rewrite_src] at h
  | vec c => simp [io_rewrite_src] at h
  | channel c k => simp [io_rewrite_src] at h
  | other srcs => simp [io_rewrite_src] at h

theorem late_step_load (E : IoEnv) (mask : Nat) (s : io_shader) (a : Nat)
    (intr : nir_intrinsic_instr) (ha : a < s.next)
    (hm : io_matches E mask (s.heap a) = true)
    (hh : s.heap a = .intrinsic intr) (hop : intr.intrinsic = .load_input)
    (hmax : intr.num_components ≤ E.NIR_MAX_VEC_COMPONENTS) :
    ∃ t, lower_load_input_to_scalar E s a intr = some t ∧ LateStep E mask a s t := by
  refine ⟨_, lower_load_eq E s a intr ha hmax, ?_⟩
  have hload : is_intrinsic_op .load_input (s.heap a) = true := by
    rw [hh]
    simp [is_intrinsic_op, hop]
  have hvec : io_is_vec
      (if s.next + intr.num_components ∈ io_instrs (io_splice_all a
          (List.range' s.next (intr.num_components + 1) ++ [a]) s.functions) then
        io_rewrite_src a (s.next + intr.num_components)
          (lowered_load_heap s intr (s.next + intr.num_components))
      else lowered_load_heap s intr (s.next + intr.num_components)) = true := by
    have e : lowered_load_heap s intr (s.next + intr.num_components)
        = .vec (List.range' s.next intr.num_components) := by
      unfold lowered_load_heap
      rw [if_pos rfl]
    rw [e]
    split <;> rfl
  have hfresh : ∀ p, s.next ≤ p → p < s.next + intr.num_components + 1 →
      ∀ i, lowered_load_heap s intr p = .intrinsic i → i.num_components = 1 := by
    intro p h1 h2 i
    unfold lowered_load_heap
    by_cases e : p = s.next + intr.num_components
    · rw [if_pos e]
      intro h
      cases h
    · have h3 : s.next ≤ p ∧ p < s.next + intr.num_components := ⟨h1, by omega⟩
      rw [if_neg e, if_pos h3]
      intro h
      injection h with h
      rw [← h]
      rfl
  have hold : ∀ p, ¬ (s.next ≤ p ∧ p < s.next + intr.num_components + 1) →
      lowered_load_heap s intr p = s.heap p := by
    intro p h
    unfold lowered_load_heap
    have h3 : ¬ (s.next ≤ p ∧ p < s.next + intr.num_components) := by omega
    rw [if_neg (by omega), if_neg h3]
  refine ⟨hm, ?_, ⟨_, rfl, ?_⟩, ?_, ?_, ?_, ⟨rfl, rfl, rfl, rfl⟩⟩
  · show s.next ≤ s.next + intr.num_components + 1
    omega
  · intro x hx
    rw [List.mem_range'_1] at hx
    exact ⟨hx.1, hx.2⟩
  · intro p h1 h2 i
    simp only
    split
    · intro h
      obtain ⟨j, hj, e, _⟩ := io_rewrite_intrinsic _ _ _ _ h
      rw [e]
      exact hfresh p h1 h2 j hj
    · exact hfresh p h1 h2 i
  · intro p hp
    simp only
    rw [hold p hp]
    split
    · exact Or.inr ⟨s.next + intr.num_components, by omega,
        by show _ < s.next + intr.num_components + 1; omega, hvec, hload, rfl⟩
    · exact Or.inl rfl
  · exact Or.inr ⟨s.next + intr.num_components, by omega,
      by show _ < s.next + intr.num_components + 1; omega, rfl⟩

theorem late_step_store (E : IoEnv) (mask : Nat) (s : io_shader) (a : Nat)
    (intr : nir_intrinsic_instr) (ha : a < s.next)
    (hm : io_matches E mask (s.heap a) = true) :
    LateStep E mask a s (lower_store_output_to_scalar s a intr) := by
  rw [lower_store_eq s a intr ha]
  generalize store_channels intr.write_mask (List.range intr.num_components) = L
  refine ⟨hm, ?_, ⟨_, rfl, ?_⟩, ?_, ?_, Or.inl rfl, ⟨rfl, rfl, rfl, rfl⟩⟩
  · show s.next ≤ s.next + 2 * L.length
    omega
  · intro x hx
    rw [List.mem_range'_1] at hx
    exact ⟨hx.1, hx.2⟩
  · intro p h1 h2
    have h2' : p < s.next + 2 * L.length := h2
    have h4 : s.next ≤ p ∧ p < s.next + 2 * L.length := ⟨h1, h2'⟩
    simp only [lowered_store_heap, if_pos h4]
    intro i
    split
    · intro h
      cases h
    · intro h
      injection h with h
      rw [← h]
      rfl
  · intro p hp
    have hp' : ¬ (s.next ≤ p ∧ p < s.next + 2 * L.length) := hp
    left
    simp only [lowered_store_heap, if_neg hp']

theorem late_body (E : IoEnv) (mask : Nat) (s : io_shader) (a : Nat) (ha : a < s.next)
    (hfit : io_loads_fit E (s.heap a)) :
    ∃ t, lower_io_instr E mask s a = some t ∧
      ((t = s ∧ io_matches E mask (s.heap a) = false) ∨ LateStep E mask a s t) := by
  cases hm : io_matches E mask (s.heap a) with
  | false => exact ⟨s, lower_io_instr_skip E mask s a hm, Or.inl ⟨rfl, rfl⟩⟩
  | true =>
      obtain ⟨intr, hh, hN, h | h⟩ := lower_io_instr_lowers E mask s a hm
      · obtain ⟨t, ht, hstep⟩ := late_step_load E mask s a intr ha hm hh h.1
          (hfit intr hh h.1 hN)
        exact ⟨t, h.2.trans ht, Or.inr hstep⟩
      · exact ⟨_, h.2, Or.inr (late_step_store E mask s a intr ha hm)⟩

theorem io_shape_splice (a : Nat) (L : List Nat) (fs : List (Option (List (List Nat)))) :
    io_shape (io_splice_all a L fs) = io_shape fs := by
  unfold io_shape io_splice_all
  rw [List.map_map]
  apply List.map_congr_left
  intro f _
  cases f with
  | none => rfl
  | some bs => simp

theorem io_block_splice (a : Nat) (L : List Nat) (fs : List (Option (List (List Nat))))
    (fi bi : Nat) :
    io_block (io_splice_all a L fs) fi bi = io_splice a L (io_block fs fi bi) := by
  unfold io_block io_splice_all
  rw [List.getD_eq_getElem?_getD (List.map _ fs) fi none, List.getElem?_map,
    List.getD_eq_getElem?_getD fs fi none]
  cases h1 : fs[fi]? with
  | none => rfl
  | some f =>
      cases f with
      | none => rfl
      | some bs =>
          simp only [Option.map_some', Option.getD_some]
          rw [List.getD_eq_getElem?_getD (List.map _ bs) bi [], List.getElem?_map,
            List.getD_eq_getElem?_getD bs bi []]
          cases h2 : bs[bi]? with
          | none => rfl
          | some b => rfl

theorem io_loads_fit_rewrite (E : IoEnv) (d v : Nat) (x : io_instr)
    (h : io_loads_fit E x) : io_loads_fit E (io_rewrite_src d v x) := by
  intro i hi hop hN
  obtain ⟨j, hj, e1, e2⟩ := io_rewrite_intrinsic d v x i hi
  rw [e1]
  exact h j hj (e2 ▸ hop) (e1 ▸ hN)

theorem io_matches_of_scalar (E : IoEnv) (mask : Nat) (x : io_instr)
    (h : ∀ intr, x = .intrinsic intr → intr.num_components = 1) :
    io_matches E mask x = false := by
  cases x with
  | intrinsic intr => simp [io_matches, h intr rfl]
  | deref d => rfl
  | vec c => rfl
  | channel v c => rfl
  | other srcs => rfl

theorem late_step_io_step (E : IoEnv) (mask : Nat) (a : Nat) (s t : io_shader)
    (h : LateStep E mask a s t) :
    IoStep io_shader.functions (fun s x => x < s.next ∧ io_loads_fit E (s.heap x))
      (fun s x => io_matches E mask (s.heap x) = false) s t ∧
    ∀ fi bi x, x ∈ io_block t.functions fi bi →
      io_matches E mask (t.heap x) = false ∨ (x ∈ io_block s.functions fi bi ∧ x ≠ a) := by
  obtain ⟨L, hL, hLm⟩ := h.functions
  have hblocks : ∀ fi bi x, x ∈ io_block t.functions fi bi →
      io_matches E mask (t.heap x) = false ∨ (x ∈ io_block s.functions fi bi ∧ x ≠ a) := by
    intro fi bi x hx
    rw [hL, io_block_splice, mem_io_splice] at hx
    rcases hx with ⟨h1, h2⟩ | ⟨h1, _⟩
    · exact Or.inr ⟨h2, h1⟩
    · exact Or.inl (io_matches_of_scalar E mask _
        (h.fresh x (hLm x h1).1 (hLm x h1).2))
  refine ⟨⟨?_, ?_, ?_, ?_⟩, hblocks⟩
  · rintro x ⟨h1, h2⟩
    refine ⟨Nat.lt_of_lt_of_le h1 h.next_le, ?_⟩
    rcases h.old x (by omega) with e | ⟨v, _, _, _, _, e⟩
    · rw [e]; exact h2
    · rw [e]; exact io_loads_fit_rewrite E a v _ h2
  · intro x hx
    by_cases hr : s.next ≤ x ∧ x < t.next
    · exact io_matches_of_scalar E mask _ (h.fresh x hr.1 hr.2)
    · rcases h.old x hr with e | ⟨v, _, _, _, _, e⟩
      · rw [e]; exact hx
      · rw [e, io_matches_rewrite]; exact hx
  · rw [hL, io_shape_splice]
  · intro fi bi x hx
    rcases hblocks fi bi x hx with h1 | h1
    · exact Or.inl h1
    · exact Or.inr h1.1

theorem late_step_inv (E : IoEnv) (mask : Nat) (a : Nat) (s t : io_shader)
    (h : LateStep E mask a s t)
    (hs : ∀ p ∈ io_instrs s.functions, p < s.next ∧ io_loads_fit E (s.heap p)) :
    ∀ p ∈ io_instrs t.functions, p < t.next ∧ io_loads_fit E (t.heap p) := by
  obtain ⟨L, hL, hLm⟩ := h.functions
  intro p hp
  rw [hL] at hp
  rcases mem_io_instrs_splice_inv _ _ _ _ hp with ⟨_, h2⟩ | ⟨h1, _⟩
  · exact (late_step_io_step E mask a s t h).1.keep_V p (hs p h2)
  · refine ⟨(hLm p h1).2, ?_⟩
    intro i hi _ hN
    exact absurd (h.fresh p (hLm p h1).1 (hLm p h1).2 i hi) hN

theorem late_body_post (E : IoEnv) (mask : Nat) (s : io_shader) (a : Nat)
    (hs : ∀ p ∈ io_instrs s.functions, p < s.next ∧ io_loads_fit E (s.heap p))
    (hV : a < s.next ∧ io_loads_fit E (s.heap a)) :
    ∃ t, lower_io_instr E mask s a = some t ∧
      (∀ p ∈ io_instrs t.functions, p < t.next ∧ io_loads_fit E (t.heap p)) ∧
      IoStep io_shader.functions (fun s x => x < s.next ∧ io_loads_fit E (s.heap x))
        (fun s x => io_matches E mask (s.heap x) = false) s t ∧
      ∀ fi bi x, x ∈ io_block t.functions fi bi →
        io_matches E mask (t.heap x) = false ∨ (x ∈ io_block s.functions fi bi ∧ x ≠ a) := by
  obtain ⟨t, ht, h | h⟩ := late_body E mask s a hV.1 hV.2
  · obtain ⟨rfl, hm⟩ := h
    refine ⟨t, ht, hs, io_step_refl _ _ _ _, ?_⟩
    intro fi bi x hx
    by_cases e : x = a
    · exact Or.inl (e ▸ hm)
    · exact Or.inr ⟨hx, e⟩
  · exact ⟨t, ht, late_step_inv E mask a s t h hs, (late_step_io_step E mask a s t h).1,
      (late_step_io_step E mask a s t h).2⟩

theorem mem_io_instrs_of_block (fs : List (Option (List (List Nat)))) (fi bi x : Nat)
    (h : x ∈ io_block fs fi bi) : x ∈ io_instrs fs := by
  rw [mem_io_instrs_iff_block]
  refine ⟨fi, bi, ?_, h⟩
  by_contra hc
  have : fs.getD fi none = none := by
    rw [List.getD_eq_getElem?_getD fs fi none, List.getElem?_eq_none (by omega)]
    rfl
  rw [io_block_nil_of_none fs fi bi this] at h
  cases h

/-- C11: on a shader whose linked instructions have addresses below `next` and
whose linked load_input instructions have at most `NIR_MAX_VEC_COMPONENTS`
components, `nir_lower_io_to_scalar` with a mask that holds the input and the
output mode returns, and no load_input or store_output linked into a block of a
function body of the result has more than one component. -/
theorem C11_no_vector_io_remains (E : IoEnv) (shader : io_shader) (mask : Nat)
    (h_in : mask &&& E.nir_var_shader_in ≠ 0)
    (h_out : mask &&& E.nir_var_shader_out ≠ 0)
    (h_wf : ∀ p ∈ io_instrs shader.functions, p < shader.next)
    (h_fit : ∀ p ∈ io_instrs shader.functions, ∀ intr, shader.heap p = .intrinsic intr →
      intr.intrinsic = .load_input → intr.num_components ≤ E.NIR_MAX_VEC_COMPONENTS) :
    ∃ t, nir_lower_io_to_scalar E shader mask = some t ∧
      ∀ p ∈ io_instrs t.functions, ∀ intr, t.heap p = .intrinsic intr →
        intr.intrinsic = .load_input ∨ intr.intrinsic = .store_output →
        ¬ 1 < intr.num_components := by
  obtain ⟨t, ht, _, _, hok⟩ := io_foreach_function_post io_shader.functions
    (lower_io_instr E mask)
    (fun s => ∀ p ∈ io_instrs s.functions, p < s.next ∧ io_loads_fit E (s.heap p))
    (fun s x => x < s.next ∧ io_loads_fit E (s.heap x))
    (fun s x => io_matches E mask (s.heap x) = false)
    (fun s fi bi x hs hx => hs x (mem_io_instrs_of_block _ fi bi x hx))
    (fun s a hs hV => late_body_post E mask s a hs hV)
    shader
    (fun p hp => ⟨h_wf p hp, fun intr hi hop _ => h_fit p hp intr hi hop⟩)
  refine ⟨t, ht, ?_⟩
  intro p hp intr hi hop hN
  have hm := hok p hp
  rw [hi] at hm
  have hN1 : intr.num_components ≠ 1 := by omega
  rcases hop with hop | hop
  · simp [io_matches, hN1, hop, h_in] at hm
  · simp [io_matches, hN1, hop, h_out] at hm

/-- Witness of C11: `ex_late_shader` with the mask of both modes. -/
theorem C11_no_vector_io_remains_witness :
    ∃ t, nir_lower_io_to_scalar ex_io_env ex_late_shader 3 = some t ∧
      ∀ p ∈ io_instrs t.functions, ∀ intr, t.heap p = .intrinsic intr →
        intr.intrinsic = .load_input ∨ intr.intrinsic = .store_output →
        ¬ 1 < intr.num_components :=
  C11_no_vector_io_remains ex_io_env ex_late_shader 3 (by decide) (by decide) (by decide)
    (by
      intro p hp intr hi hop
      have hp4 : p = 0 ∨ p = 1 ∨ p = 2 ∨ p = 3 := by
        simpa [io_instrs, ex_late_shader] using hp
      rcases hp4 with rfl | rfl | rfl | rfl
      · cases hi
      · injection hi with hi
        rw [← hi]
        decide
      · cases hi
      · injection hi with hi
        rw [← hi] at hop
        cases hop)

/-! ## Lemmas: what the late scalarizer keeps -/

theorem io_rewrite_eq_map (d v : Nat) (x : io_instr) :
    io_rewrite_src d v x = io_map_srcs (io_rewrite_slot d v) x := by
  cases x <;> rfl

theorem io_map_srcs_comp (f g : Nat → Nat) (x : io_instr) :
    io_map_srcs g (io_map_srcs f x) = io_map_srcs (fun y => g (f y)) x := by
  cases x with
  | intrinsic intr => simp [io_map_srcs, Function.comp_def]
  | deref dr =>
      simp only [io_map_srcs]
      by_cases h1 : dr.deref_type = .var <;> by_cases h2 : dr.deref_type = .array <;>
        simp [h1, h2]
  | vec c => simp [io_map_srcs, Function.comp_def]
  | channel v c => simp [io_map_srcs]
  | other srcs => simp [io_map_srcs, Function.comp_def]

theorem io_map_srcs_id (x : io_instr) : io_map_srcs (fun y => y) x = x := by
  cases x with
  | intrinsic intr => simp [io_map_srcs]
  | deref dr => simp [io_map_srcs]
  | vec c => simp [io_map_srcs]
  | channel v c => simp [io_map_srcs]
  | other srcs => simp [io_map_srcs]

theorem io_matches_map_srcs (E : IoEnv) (mask : Nat) (f : Nat → Nat) (x : io_instr) :
    io_matches E mask (io_map_srcs f x) = io_matches E mask x := by
  cases x <;> rfl

theorem is_intrinsic_op_map_srcs (op : nir_intrinsic_op) (f : Nat → Nat) (x : io_instr) :
    is_intrinsic_op op (io_map_srcs f x) = is_intrinsic_op op x := by
  cases x <;> rfl

theorem io_is_vec_rewrite (d v : Nat) (x : io_instr) :
    io_is_vec (io_rewrite_src d v x) = io_is_vec x := by
  cases x <;> rfl

theorem late_step_vec (E : IoEnv) (mask : Nat) (a : Nat) (s t : io_shader)
    (h : LateStep E mask a s t) (v : Nat) (hv : v < s.next)
    (hvec : io_is_vec (s.heap v) = true) : io_is_vec (t.heap v) = true := by
  rcases h.old v (by omega) with e | ⟨w, _, _, _, _, e⟩
  · rw [e]; exact hvec
  · rw [e, io_is_vec_rewrite]; exact hvec

theorem filter_io_splice (a : Nat) (L b : List Nat) (n : Nat) (hL : ∀ x ∈ L, n ≤ x) :
    (io_splice a L b).filter (fun p => decide (p < n))
      = (b.filter (fun p => decide (p < n))).filter (fun p => decide (p ≠ a)) := by
  unfold io_splice
  induction b with
  | nil => rfl
  | cons x xs ih =>
      rw [List.flatMap_cons, List.filter_append, ih]
      by_cases hx : x = a
      · rw [if_pos hx]
        have h1 : L.filter (fun p => decide (p < n)) = [] := by
          rw [List.filter_eq_nil_iff]
          intro y hy
          have := hL y hy
          simp only [decide_eq_true_eq]
          omega
        rw [h1, List.nil_append]
        by_cases hn : x < n
        · rw [List.filter_cons_of_pos (by simpa using hn),
            List.filter_cons_of_neg (by simpa using hx)]
        · rw [List.filter_cons_of_neg (by simpa using hn)]
      · rw [if_neg hx]
        by_cases hn : x < n
        · rw [List.filter_cons_of_pos (by simpa using hn),
            List.filter_cons_of_pos (by simpa using hn),
            List.filter_cons_of_pos (by simpa using hx)]
          rfl
        · rw [List.filter_cons_of_neg (by simpa using hn),
            List.filter_cons_of_neg (by simpa using hn)]
          rfl

theorem late_inv_old (E : IoEnv) (mask : Nat) (s0 s : io_shader) (a : Nat)
    (hs : LateInv E mask s0 s) (ha : a < s.next)
    (hm : io_matches E mask (s.heap a) = true) :
    a < s0.next ∧ io_matches E mask (s0.heap a) = true ∧
      is_intrinsic_op .load_input (s0.heap a) = is_intrinsic_op .load_input (s.heap a) := by
  have h0 : a < s0.next := by
    by_contra hc
    have := hs.fresh a (by omega) ha
    rw [this] at hm
    cases hm
  obtain ⟨f, hf, _⟩ := hs.heap a h0
  refine ⟨h0, ?_, ?_⟩
  · rw [← io_matches_map_srcs E mask f, ← hf]; exact hm
  · rw [hf, is_intrinsic_op_map_srcs]

theorem late_inv_step (E : IoEnv) (mask : Nat) (s0 s t : io_shader) (a : Nat)
    (hs : LateInv E mask s0 s) (h : LateStep E mask a s t) (ha : a < s.next) :
    LateInv E mask s0 t := by
  obtain ⟨ha0, hm0, hload⟩ := late_inv_old E mask s0 s a hs ha h.lowered
  refine ⟨late_step_inv E mask a s t h hs.base, Nat.le_trans hs.next_le h.next_le, ?_, ?_, ?_⟩
  · intro p h1 h2
    by_cases hp : s.next ≤ p
    · exact io_matches_of_scalar E mask _ (h.fresh p hp h2)
    · rcases h.old p (by omega) with e | ⟨v, _, _, _, _, e⟩
      · rw [e]; exact hs.fresh p h1 (by omega)
      · rw [e, io_matches_rewrite]; exact hs.fresh p h1 (by omega)
  · intro p hp
    obtain ⟨f, hf, hfx⟩ := hs.heap p hp
    have hnext := hs.next_le
    rcases h.old p (by omega) with e | ⟨v, hv1, hv2, hvec, hld, e⟩
    · refine ⟨f, by rw [e, hf], ?_⟩
      intro x
      rcases hfx x with h1 | ⟨h1, h2, h3, h4, h5, h6⟩
      · exact Or.inl h1
      · exact Or.inr ⟨h1, h2, h3, h4, Nat.lt_of_lt_of_le h5 h.next_le,
          late_step_vec E mask a s t h _ h5 h6⟩
    · refine ⟨fun y => io_rewrite_slot a v (f y), ?_, ?_⟩
      · rw [e, hf, io_rewrite_eq_map, io_map_srcs_comp]
      · intro x
        rcases hfx x with h1 | ⟨h1, h2, h3, h4, h5, h6⟩
        · by_cases hx : x = a
          · right
            have e1 : io_rewrite_slot a v (f x) = v := by
              unfold io_rewrite_slot
              rw [h1, if_pos hx]
            simp only [e1]
            subst hx
            exact ⟨ha0, hm0, hload.trans hld, by omega, hv2, hvec⟩
          · left
            show io_rewrite_slot a v (f x) = x
            unfold io_rewrite_slot
            rw [h1, if_neg hx]
        · right
          have e1 : io_rewrite_slot a v (f x) = f x := by
            have : f x ≠ a := by omega
            unfold io_rewrite_slot
            rw [if_neg this]
          simp only [e1]
          exact ⟨h1, h2, h3, h4, Nat.lt_of_lt_of_le h5 h.next_le,
            late_step_vec E mask a s t h _ h5 h6⟩
  · obtain ⟨R, hR, hb⟩ := hs.removed
    obtain ⟨L, hL, hLm⟩ := h.functions
    refine ⟨a :: R, ?_, ?_⟩
    · intro x hx
      rcases List.mem_cons.1 hx with e | e
      · rw [e]; exact hm0
      · exact hR x e
    · intro fi bi
      have hnext := hs.next_le
      rw [hL, io_block_splice, filter_io_splice a L _ s0.next
        (fun x hx => Nat.le_trans hnext (hLm x hx).1), hb fi bi, List.filter_filter]
      apply List.filter_congr
      intro x _
      by_cases h1 : x = a <;> by_cases h2 : x ∈ R <;> simp [h1, h2]

/-- C15, counterexample: in `ex_late_shader` the instruction at address 2 is not
an intrinsic and reads the load at address 1 twice; after `nir_lower_io_to_scalar`
with the input mode in the mask it reads the new vector at address 6 instead. -/
theorem C15_consumer_rewritten :
    ∃ t, nir_lower_io_to_scalar ex_io_env ex_late_shader 1 = some t ∧
      ex_late_shader.heap 2 = .other [1, 1] ∧
      2 ∈ io_instrs t.functions ∧
      t.heap 2 = .other [6, 6] :=
  ⟨_, rfl, rfl, by decide, by decide⟩

theorem late_inv_init (E : IoEnv) (mask : Nat) (shader : io_shader)
    (h_wf : ∀ p ∈ io_instrs shader.functions, p < shader.next)
    (h_fit : ∀ p ∈ io_instrs shader.functions, ∀ intr, shader.heap p = .intrinsic intr →
      intr.intrinsic = .load_input → intr.num_components ≤ E.NIR_MAX_VEC_COMPONENTS) :
    LateInv E mask shader shader := by
  refine ⟨fun p hp => ⟨h_wf p hp, fun intr hi hop _ => h_fit p hp intr hi hop⟩,
    Nat.le_refl _, fun p h1 h2 => absurd h2 (by omega), ?_, ⟨[], ?_, ?_⟩⟩
  · intro p _
    exact ⟨fun y => y, (io_map_srcs_id _).symm, fun x => Or.inl rfl⟩
  · intro x hx
    cases hx
  · intro fi bi
    have h1 : (io_block shader.functions fi bi).filter (fun p => decide (p ∉ ([] : List Nat)))
        = io_block shader.functions fi bi := by
      rw [List.filter_eq_self]
      intro x _
      simp
    rw [h1, List.filter_eq_self]
    intro x hx
    simpa using h_wf x (mem_io_instrs_of_block _ fi bi x hx)

theorem late_inv_body (E : IoEnv) (mask : Nat) (s0 s : io_shader) (a : Nat)
    (hs : LateInv E mask s0 s) (hV : a < s.next ∧ io_loads_fit E (s.heap a)) :
    ∃ t, lower_io_instr E mask s a = some t ∧ LateInv E mask s0 t ∧
      IoStep io_shader.functions (fun s x => x < s.next ∧ io_loads_fit E (s.heap x))
        (fun s x => io_matches E mask (s.heap x) = false) s t ∧
      ∀ fi bi x, x ∈ io_block t.functions fi bi →
        io_matches E mask (t.heap x) = false ∨ (x ∈ io_block s.functions fi bi ∧ x ≠ a) := by
  obtain ⟨t, ht, h | h⟩ := late_body E mask s a hV.1 hV.2
  · obtain ⟨rfl, hm⟩ := h
    refine ⟨t, ht, hs, io_step_refl _ _ _ _, ?_⟩
    intro fi bi x hx
    by_cases e : x = a
    · exact Or.inl (e ▸ hm)
    · exact Or.inr ⟨hx, e⟩
  · exact ⟨t, ht, late_inv_step E mask s0 s t a hs h hV.1,
      (late_step_io_step E mask a s t h).1, (late_step_io_step E mask a s t h).2⟩

theorem late_run (E : IoEnv) (mask : Nat) (shader : io_shader)
    (h_wf : ∀ p ∈ io_instrs shader.functions, p < shader.next)
    (h_fit : ∀ p ∈ io_instrs shader.functions, ∀ intr, shader.heap p = .intrinsic intr →
      intr.intrinsic = .load_input → intr.num_components ≤ E.NIR_MAX_VEC_COMPONENTS) :
    ∃ t, nir_lower_io_to_scalar E shader mask = some t ∧ LateInv E mask shader t ∧
      ∀ x, x ∈ io_instrs t.functions → io_matches E mask (t.heap x) = false := by
  obtain ⟨t, ht, hInv, _, hok⟩ := io_foreach_function_post io_shader.functions
    (lower_io_instr E mask) (LateInv E mask shader)
    (fun s x => x < s.next ∧ io_loads_fit E (s.heap x))
    (fun s x => io_matches E mask (s.heap x) = false)
    (fun s fi bi x hs hx => hs.base x (mem_io_instrs_of_block _ fi bi x hx))
    (fun s a hs hV => late_inv_body E mask shader s a hs hV)
    shader (late_inv_init E mask shader h_wf h_fit)
  exact ⟨t, ht, hInv, hok⟩

theorem ex_late_shader_fit :
    ∀ p ∈ io_instrs ex_late_shader.functions, ∀ intr,
      ex_late_shader.heap p = .intrinsic intr →
      intr.intrinsic = .load_input →
      intr.num_components ≤ ex_io_env.NIR_MAX_VEC_COMPONENTS := by
  intro p hp intr hi hop
  have hp4 : p = 0 ∨ p = 1 ∨ p = 2 ∨ p = 3 := by
    simpa [io_instrs, ex_late_shader] using hp
  rcases hp4 with rfl | rfl | rfl | rfl
  · cases hi
  · injection hi with hi
    rw [← hi]
    decide
  · cases hi
  · injection hi with hi
    rw [← hi] at hop
    cases hop

/-- C15, amended: `nir_lower_io_to_scalar` returns; of the instructions of the
shader it started on, every block holds afterwards exactly those that the loop
body does not lower (`io_matches` is false: not an intrinsic, or one component,
or another opcode, or a load_input resp. store_output whose mode the mask
lacks), in their original order; and each instruction of the shader it started
on is as before except that a source that read a lowered load_input reads a new
vector instead. -/
theorem C15_non_matching_kept (E : IoEnv) (shader : io_shader) (mask : Nat)
    (h_wf : ∀ p ∈ io_instrs shader.functions, p < shader.next)
    (h_fit : ∀ p ∈ io_instrs shader.functions, ∀ intr, shader.heap p = .intrinsic intr →
      intr.intrinsic = .load_input → intr.num_components ≤ E.NIR_MAX_VEC_COMPONENTS) :
    ∃ t, nir_lower_io_to_scalar E shader mask = some t ∧
      (∀ fi bi, (io_block t.functions fi bi).filter (fun p => decide (p < shader.next))
        = (io_block shader.functions fi bi).filter
            (fun p => !io_matches E mask (shader.heap p))) ∧
      (∀ p, p < shader.next → ∃ f : Nat → Nat,
        t.heap p = io_map_srcs f (shader.heap p) ∧
        ∀ x, f x = x ∨
          (io_matches E mask (shader.heap x) = true ∧
            is_intrinsic_op .load_input (shader.heap x) = true ∧
            shader.next ≤ f x ∧ io_is_vec (t.heap (f x)) = true)) := by
  obtain ⟨t, ht, hInv, hok⟩ := late_run E mask shader h_wf h_fit
  refine ⟨t, ht, ?_, ?_⟩
  · obtain ⟨R, hR, hb⟩ := hInv.removed
    intro fi bi
    rw [hb fi bi]
    apply List.filter_congr
    intro x hx
    have hx0 : x < shader.next := h_wf x (mem_io_instrs_of_block _ fi bi x hx)
    by_cases hxR : x ∈ R
    · simp [hxR, hR x hxR]
    · have h1 : x ∈ (io_block shader.functions fi bi).filter (fun p => decide (p ∉ R)) := by
        rw [List.mem_filter]
        exact ⟨hx, by simpa using hxR⟩
      rw [← hb fi bi, List.mem_filter] at h1
      have h2 := hok x (mem_io_instrs_of_block _ fi bi x h1.1)
      obtain ⟨f, hf, _⟩ := hInv.heap x hx0
      rw [hf, io_matches_map_srcs] at h2
      simp [hxR, h2]
  · intro p hp
    obtain ⟨f, hf, hfx⟩ := hInv.heap p hp
    refine ⟨f, hf, fun x => ?_⟩
    rcases hfx x with h1 | ⟨_, h2, h3, h4, _, h6⟩
    · exact Or.inl h1
    · exact Or.inr ⟨h2, h3, h4, h6⟩

/-- Witness of C15, amended: `ex_late_shader` with the input mode in the mask. -/
theorem C15_non_matching_kept_witness :
    ∃ t, nir_lower_io_to_scalar ex_io_env ex_late_shader 1 = some t ∧
      (∀ fi bi, (io_block t.functions fi bi).filter (fun p => decide (p < ex_late_shader.next))
        = (io_block ex_late_shader.functions fi bi).filter
            (fun p => !io_matches ex_io_env 1 (ex_late_shader.heap p))) ∧
      (∀ p, p < ex_late_shader.next → ∃ f : Nat → Nat,
        t.heap p = io_map_srcs f (ex_late_shader.heap p) ∧
        ∀ x, f x = x ∨
          (io_matches ex_io_env 1 (ex_late_shader.heap x) = true ∧
            is_intrinsic_op .load_input (ex_late_shader.heap x) = true ∧
            ex_late_shader.next ≤ f x ∧ io_is_vec (t.heap (f x)) = true)) :=
  C15_non_matching_kept ex_io_env ex_late_shader 1 (by decide) ex_late_shader_fit

/-! ## Lemmas: what every returning run of a loop nest keeps -/

theorem foldlM_option_inv {σ α : Type} (f : σ → α → Option σ) (Inv : σ → Prop)
    (hf : ∀ s a t, Inv s → f s a = some t → Inv t) (l : List α) :
    ∀ s t, Inv s → l.foldlM f s = some t → Inv t := by
  induction l with
  | nil =>
      intro s t hs h
      simp only [List.foldlM_nil] at h
      cases h
      exact hs
  | cons a l ih =>
      intro s t hs h
      rw [List.foldlM_cons] at h
      cases hfa : f s a with
      | none => rw [hfa] at h; cases h
      | some u =>
          rw [hfa] at h
          exact ih u t (hf s a u hs hfa) h

theorem io_foreach_function_inv {σ : Type}
    (functions : σ → List (Option (List (List Nat))))
    (body : σ → Nat → Option σ) (Inv : σ → Prop)
    (hbody : ∀ s a t, Inv s → body s a = some t → Inv t)
    (s t : σ) (hs : Inv s) (h : io_foreach_function functions body s = some t) : Inv t := by
  unfold io_foreach_function at h
  refine foldlM_option_inv _ Inv ?_ _ s t hs h
  intro s1 fi t1 hs1 h1
  unfold io_foreach_block at h1
  cases hf : (functions s1).getD fi none with
  | none =>
      rw [hf] at h1
      cases h1
      exact hs1
  | some blocks =>
      rw [hf] at h1
      refine foldlM_option_inv _ Inv ?_ _ s1 t1 hs1 h1
      intro s2 bi t2 hs2 h2
      unfold io_foreach_instr at h2
      exact foldlM_option_inv body Inv hbody _ s2 t2 hs2 h2

/-! ## Lemmas: instructions built at the cursor -/

theorem io_emit_append (sh : io_shader) (cursor : Nat) (l : List io_instr) (x : io_instr) :
    io_emit sh cursor (l ++ [x]) = (nir_builder_instr_insert (io_emit sh cursor l) cursor x).2 := by
  unfold io_emit
  rw [List.foldl_append]
  rfl

theorem io_emit_eq (sh : io_shader) (cursor : Nat) (hc : cursor < sh.next)
    (l : List io_instr) :
    io_emit sh cursor l =
      { sh with
        heap := fun q => if sh.next ≤ q ∧ q < sh.next + l.length then
                           l.getD (q - sh.next) (.other [])
                         else sh.heap q
        next := sh.next + l.length
        functions := io_splice_all cursor (List.range' sh.next l.length ++ [cursor])
          sh.functions } := by
  induction l using List.reverseRecOn with
  | nil =>
      apply io_shader_ext <;> try rfl
      · funext q
        have h0 : ¬ (sh.next ≤ q ∧ q < sh.next + ([] : List io_instr).length) := by
          simp only [List.length_nil]; omega
        simp only [if_neg h0]
        rfl
      · simp [io_emit, io_splice_all_self]
  | append_singleton l x ih =>
      rw [io_emit_append, ih]
      apply io_shader_ext <;> try rfl
      · funext q
        simp only [nir_builder_instr_insert, List.length_append, List.length_singleton]
        by_cases h1 : q = sh.next + l.length
        · subst h1
          have h4 : sh.next ≤ sh.next + l.length ∧
              sh.next + l.length < sh.next + (l.length + 1) := by omega
          rw [if_pos rfl, if_pos h4, Nat.add_sub_cancel_left,
            List.getD_eq_getElem?_getD, List.getElem?_append_right (Nat.le_refl _)]
          simp
        · rw [if_neg h1]
          by_cases h2 : sh.next ≤ q ∧ q < sh.next + l.length
          · have h4 : sh.next ≤ q ∧ q < sh.next + (l.length + 1) := ⟨h2.1, by omega⟩
            have h5 : q - sh.next < l.length := by omega
            rw [if_pos h2, if_pos h4, List.getD_eq_getElem?_getD, List.getD_eq_getElem?_getD,
              List.getElem?_append_left h5]
          · have h4 : ¬ (sh.next ≤ q ∧ q < sh.next + (l.length + 1)) := by omega
            rw [if_neg h2, if_neg h4]
      · simp only [nir_builder_instr_insert, List.length_append, List.length_singleton]
        omega
      · simp only [insert_functions_eq]
        rw [io_splice_all_splice, io_splice_tail _ _ _ (not_mem_range' cursor _ _ hc)]
        simp [List.range'_concat]

theorem io_emit_nil (sh : io_shader) (cursor : Nat) : io_emit sh cursor [] = sh := rfl

theorem io_emit_next (sh : io_shader) (cursor : Nat) (l : List io_instr) :
    (io_emit sh cursor l).next = sh.next + l.length := by
  induction l using List.reverseRecOn with
  | nil => rfl
  | append_singleton l x ih =>
      rw [io_emit_append]
      simp only [nir_builder_instr_insert, ih, List.length_append, List.length_singleton]
      omega

theorem io_array_derefs_length (m tail : Nat) (path : List Nat) :
    (io_array_derefs m tail path).length = path.length := by
  unfold io_array_derefs
  rw [List.length_mapIdx]

theorem io_array_derefs_mode (sh : io_shader) (cursor tail : Nat) (path : List Nat)
    (hc : cursor < sh.next) (ht : tail + 1 = sh.next) :
    io_deref_mode (io_emit sh cursor (io_array_derefs (io_deref_mode sh tail) tail path))
      (tail + path.length) = io_deref_mode sh tail := by
  rw [io_emit_eq sh cursor hc]
  unfold io_deref_mode
  simp only [io_array_derefs_length]
  cases path using List.reverseRecOn with
  | nil =>
      have h0 : ¬ (sh.next ≤ tail + ([] : List Nat).length ∧
          tail + ([] : List Nat).length < sh.next + ([] : List Nat).length) := by
        simp only [List.length_nil]; omega
      rw [if_neg h0]
      rfl
  | append_singleton l x =>
      have h1 : sh.next ≤ tail + (l ++ [x]).length ∧
          tail + (l ++ [x]).length < sh.next + (l ++ [x]).length := by
        simp only [List.length_append, List.length_singleton]; omega
      have h2 : tail + (l ++ [x]).length - sh.next = l.length := by
        simp only [List.length_append, List.length_singleton]; omega
      rw [if_pos h1, h2]
      unfold io_array_derefs
      rw [List.mapIdx_append_one, List.getD_eq_getElem?_getD,
        List.getElem?_append_right (by rw [List.length_mapIdx])]
      simp [List.length_mapIdx]

theorem clone_deref_array_eq (fuel : Nat) (sh : io_shader) (cursor tail bound : Nat)
    (hc : cursor < sh.next) (ht : tail + 1 = sh.next) :
    ∀ d path, io_deref_path fuel sh bound d = some path →
      clone_deref_array fuel sh cursor tail d =
        some (tail + path.length,
          io_emit sh cursor (io_array_derefs (io_deref_mode sh tail) tail path)) := by
  induction fuel with
  | zero => intro d path h; cases h
  | succ fuel ih =>
      intro d path h
      unfold io_deref_path at h
      unfold clone_deref_array
      by_cases hb : d < bound
      · rw [if_pos hb] at h
        cases hd : sh.heap d with
        | deref dr =>
            rw [hd] at h
            simp only at h ⊢
            by_cases hv : dr.deref_type = .var
            · rw [if_pos hv] at h
              rw [if_pos hv]
              cases h
              rfl
            · rw [if_neg hv] at h
              rw [if_neg hv]
              by_cases hpb : dr.parent < bound
              · rw [if_pos hpb] at h
                cases hp : sh.heap dr.parent with
                | deref pr =>
                    rw [hp] at h
                    simp only at h ⊢
                    by_cases ha : dr.deref_type = .array
                    · rw [if_pos ha] at h
                      rw [if_pos ha]
                      cases hpath : io_deref_path fuel sh bound dr.parent with
                      | none => rw [hpath] at h; cases h
                      | some path' =>
                          rw [hpath] at h
                          simp only [Option.map_some', Option.some.injEq] at h
                          subst h
                          rw [ih dr.parent path' hpath]
                          simp only
                          congr 1
                          unfold nir_build_deref_array
                          rw [io_array_derefs_mode sh cursor tail path' hc ht]
                          refine Prod.ext ?_ ?_
                          · simp only [nir_builder_instr_insert, io_emit_next,
                              io_array_derefs_length, List.length_append, List.length_singleton]
                            omega
                          · simp only [nir_ssa_for_src]
                            rw [← io_emit_append]
                            unfold io_array_derefs
                            rw [List.mapIdx_append_one]
                    · rw [if_neg ha] at h
                      cases h
                | intrinsic i => rw [hp] at h; cases h
                | vec c => rw [hp] at h; cases h
                | channel v c => rw [hp] at h; cases h
                | other srcs => rw [hp] at h; cases h
              · rw [if_neg hpb] at h
                cases h
        | intrinsic i => rw [hd] at h; cases h
        | vec c => rw [hd] at h; cases h
        | channel v c => rw [hd] at h; cases h
        | other srcs => rw [hd] at h; cases h
      · rw [if_neg hb] at h
        cases h

theorem io_deref_path_frame (fuel : Nat) (sh sh' : io_shader) (bound : Nat)
    (hagree : ∀ q, q < bound → sh'.heap q = sh.heap q) :
    ∀ d, io_deref_path fuel sh' bound d = io_deref_path fuel sh bound d := by
  induction fuel with
  | zero => intro d; rfl
  | succ fuel ih =>
      intro d
      unfold io_deref_path
      by_cases hb : d < bound
      · rw [if_pos hb, if_pos hb, hagree d hb]
        cases hd : sh.heap d with
        | deref dr =>
            simp only
            by_cases hv : dr.deref_type = .var
            · rw [if_pos hv, if_pos hv]
            · rw [if_neg hv, if_neg hv]
              by_cases hpb : dr.parent < bound
              · rw [if_pos hpb, if_pos hpb, hagree dr.parent hpb, ih dr.parent]
              · rw [if_neg hpb, if_neg hpb]
        | intrinsic i => rfl
        | vec c => rfl
        | channel v c => rfl
        | other srcs => rfl
      · rw [if_neg hb, if_neg hb]

/-! ## Lemmas: the tables of the early scalarizer -/

theorem io_table_search_append (ht : List (Nat × List (Option Nat))) (e : Nat × List (Option Nat))
    (v : Nat) :
    io_table_search (ht ++ [e]) v
      = match io_table_search ht v with
        | some arr => some arr
        | none => if e.1 = v then some e.2 else none := by
  induction ht with
  | nil => simp [io_table_search]
  | cons x xs ih =>
      simp only [List.cons_append, io_table_search]
      by_cases h : x.1 = v
      · simp [h]
      · simp [h, ih]

theorem io_table_search_set (ht : List (Nat × List (Option Nat))) (var k cv v : Nat) :
    io_table_search (io_table_set ht var k cv) v
      = if v = var then (io_table_search ht v).map (fun arr => arr.set k (some cv))
        else io_table_search ht v := by
  unfold io_table_set
  induction ht with
  | nil => simp [io_table_search]
  | cons x xs ih =>
      simp only [List.map_cons, io_table_search]
      by_cases hx : x.1 = var
      · rw [if_pos hx]
        by_cases hv : v = var
        · simp [hx, hv]
        · have h1 : ¬ x.1 = v := fun e => hv (e ▸ hx)
          simp only [h1, if_false, hv]
          rw [ih, if_neg hv]
      · rw [if_neg hx]
        by_cases hxv : x.1 = v
        · have hv : ¬ v = var := fun e => hx (hxv.trans e)
          simp [hxv, hv]
        · simp only [hxv, if_false]
          exact ih

theorem io_table_set_keys (ht : List (Nat × List (Option Nat))) (var k cv : Nat) :
    (io_table_set ht var k cv).map Prod.fst = ht.map Prod.fst := by
  unfold io_table_set
  rw [List.map_map]
  apply List.map_congr_left
  intro e _
  by_cases h : e.1 = var <;> simp [h]

theorem io_table_search_mem_keys (ht : List (Nat × List (Option Nat))) (v : Nat) :
    (io_table_search ht v).isSome = true ↔ v ∈ ht.map Prod.fst := by
  induction ht with
  | nil => simp [io_table_search]
  | cons x xs ih =>
      simp only [io_table_search, List.map_cons, List.mem_cons]
      by_cases h : x.1 = v
      · simp [h]
      · rw [if_neg h, ih]
        constructor
        · intro h1; exact Or.inr h1
        · rintro (h1 | h1)
          · exact absurd h1.symm h
          · exact h1

theorem get_channel_variables_search (ht : List (Nat × List (Option Nat))) (var : Nat) :
    io_table_search (get_channel_variables ht var) var
      = some ((io_table_search ht var).getD [none, none, none, none]) := by
  unfold get_channel_variables
  cases h : io_table_search ht var with
  | none =>
      simp only [Option.getD_none]
      rw [io_table_search_append, h]
      simp
  | some arr => simp [h]

theorem get_channel_variables_other (ht : List (Nat × List (Option Nat))) (var v : Nat)
    (hv : v ≠ var) :
    io_table_search (get_channel_variables ht var) v = io_table_search ht v := by
  unfold get_channel_variables
  cases h : io_table_search ht var with
  | none =>
      simp only
      rw [io_table_search_append]
      cases h2 : io_table_search ht v with
      | none => simp [Ne.symm hv]
      | some arr => rfl
  | some arr => rfl

theorem chan_rel_refl (var : Nat) (a : io_shader × List (Nat × List (Option Nat))) :
    ChanRel var a a := by
  refine ⟨Nat.le_refl _, fun _ _ => rfl, ?_, rfl, fun _ _ => rfl, fun arr h => ⟨arr, h, rfl⟩,
    fun _ _ h => h, fun _ _ h => Or.inl h, fun q h1 h2 => absurd h2 (by omega)⟩
  simp

theorem chan_rel_trans (var : Nat) (a b c : io_shader × List (Nat × List (Option Nat)))
    (hvar : var < a.1.next_var) (h1 : ChanRel var a b) (h2 : ChanRel var b c) :
    ChanRel var a c := by
  have hab := h1.next_var_le
  have hbc := h2.next_var_le
  have hvv : b.1.vars var = a.1.vars var := h1.old_vars var hvar
  refine ⟨Nat.le_trans hab hbc, ?_, ?_, h2.keys.trans h1.keys, ?_, ?_, ?_, ?_, ?_⟩
  · intro q hq
    rw [h2.old_vars q (by omega), h1.old_vars q hq]
  · rw [h2.var_list, h1.var_list, List.append_assoc]
    congr 1
    have e := List.range'_append_1 a.1.next_var (b.1.next_var - a.1.next_var)
      (c.1.next_var - b.1.next_var)
    have e1 : a.1.next_var + (b.1.next_var - a.1.next_var) = b.1.next_var := by omega
    have e2 : (c.1.next_var - b.1.next_var) + (b.1.next_var - a.1.next_var)
        = c.1.next_var - a.1.next_var := by omega
    rw [e1, e2] at e
    exact e
  · intro v hv
    rw [h2.others v hv, h1.others v hv]
  · intro arr harr
    obtain ⟨arr', h3, h4⟩ := h1.lengths arr harr
    obtain ⟨arr'', h5, h6⟩ := h2.lengths arr' h3
    exact ⟨arr'', h5, h6.trans h4⟩
  · intro k cv h
    exact h2.persist k cv (h1.persist k cv h)
  · intro k cv h
    rcases h2.created k cv h with h3 | ⟨h3, h4, h5, h6⟩
    · rcases h1.created k cv h3 with h7 | ⟨h7, h8, h9, h10⟩
      · exact Or.inl h7
      · refine Or.inr ⟨h7, by omega, h9, ?_⟩
        rw [h2.old_vars cv h8, h10]
    · rw [hvv] at h5 h6
      exact Or.inr ⟨by omega, h4, h5, h6⟩
  · intro q hq1 hq2
    by_cases hq : q < b.1.next_var
    · obtain ⟨k, hk, huniq⟩ := h1.fresh_once q hq1 hq
      refine ⟨k, h2.persist k q hk, ?_⟩
      intro k' hk'
      rcases h2.created k' q hk' with h3 | ⟨h3, _, _, _⟩
      · exact huniq k' h3
      · omega
    · exact h2.fresh_once q (by omega) hq2

theorem io_slot_of_search (ht : List (Nat × List (Option Nat))) (var k : Nat)
    (arr : List (Option Nat)) (h : io_table_search ht var = some arr) :
    io_slot ht var k = arr.getD k none := by
  unfold io_slot
  rw [h]

theorem getD_set_option (arr : List (Option Nat)) (k k' : Nat) (x : Option Nat)
    (hk : k < arr.length) :
    (arr.set k x).getD k' none = if k' = k then x else arr.getD k' none := by
  rw [List.getD_eq_getElem?_getD, List.getD_eq_getElem?_getD, List.getElem?_set]
  by_cases h : k = k'
  · subst h
    simp [hk]
  · have h' : ¬ k' = k := fun e => h e.symm
    simp [h, h']

theorem io_chan_var_spec (sh : io_shader) (ht : List (Nat × List (Option Nat)))
    (var i : Nat) (arr : List (Option Nat))
    (hs : io_table_search ht var = some arr)
    (hk : (sh.vars var).location_frac + i < arr.length)
    (hvals : ∀ k cv, io_slot ht var k = some cv → cv < sh.next_var) :
    ∃ cv sh1 ht1, io_chan_var sh ht var i = some (cv, sh1, ht1) ∧
      io_slot ht1 var ((sh.vars var).location_frac + i) = some cv ∧
      sh1.heap = sh.heap ∧ sh1.next = sh.next ∧ sh1.functions = sh.functions ∧
      sh1.if_uses = sh.if_uses ∧ sh1.stage = sh.stage ∧
      ChanRel var (sh, ht) (sh1, ht1) ∧
      (∀ cv', io_slot ht var ((sh.vars var).location_frac + i) = some cv' →
        cv = cv' ∧ sh1 = sh ∧ ht1 = ht) ∧
      (∀ k cv', io_slot ht1 var k = some cv' → cv' < sh1.next_var) := by
  unfold io_chan_var
  simp only [hs]
  rw [List.getElem?_eq_getElem hk]
  have hslot : io_slot ht var ((sh.vars var).location_frac + i)
      = arr[(sh.vars var).location_frac + i] := by
    rw [io_slot_of_search ht var _ arr hs, List.getD_eq_getElem?_getD,
      List.getElem?_eq_getElem hk]
    rfl
  cases harr : arr[(sh.vars var).location_frac + i] with
  | some cv =>
      simp only
      refine ⟨cv, sh, ht, rfl, ?_, rfl, rfl, rfl, rfl, rfl, chan_rel_refl var _, ?_, hvals⟩
      · rw [hslot, harr]
      · intro cv' h
        rw [hslot, harr] at h
        injection h with h
        exact ⟨h, rfl, rfl⟩
  | none =>
      simp only
      have hsearch : io_table_search
          (io_table_set ht var ((sh.vars var).location_frac + i) sh.next_var) var
          = some (arr.set ((sh.vars var).location_frac + i) (some sh.next_var)) := by
        rw [io_table_search_set, if_pos rfl, hs]
        rfl
      have hslot1 : ∀ k, io_slot
          (io_table_set ht var ((sh.vars var).location_frac + i) sh.next_var) var k
          = if k = (sh.vars var).location_frac + i then some sh.next_var
            else io_slot ht var k := by
        intro k
        rw [io_slot_of_search _ var k _ hsearch, getD_set_option _ _ _ _ hk,
          io_slot_of_search ht var k arr hs]
      refine ⟨_, _, _, rfl, ?_, rfl, rfl, rfl, rfl, rfl, ?_, ?_, ?_⟩
      · rw [hslot1, if_pos rfl]
      · refine ⟨Nat.le_succ _, ?_, ?_, io_table_set_keys _ _ _ _, ?_, ?_, ?_, ?_, ?_⟩
        · intro q hq
          have hq' : q < sh.next_var := hq
          have : q ≠ sh.next_var := by omega
          simp only [if_neg this]
        · simp only [Nat.add_sub_cancel_left]
          rfl
        · intro v hv
          simp only
          rw [io_table_search_set, if_neg hv]
        · intro arr0 h0
          simp only at h0
          rw [hs] at h0
          injection h0 with h0
          subst h0
          exact ⟨_, hsearch, List.length_set _ _ _⟩
        · intro k cv h
          simp only at h ⊢
          rw [hslot1]
          by_cases e : k = (sh.vars var).location_frac + i
          · rw [e, hslot, harr] at h
            cases h
          · rw [if_neg e]
            exact h
        · intro k cv h
          simp only at h ⊢
          rw [hslot1] at h
          by_cases e : k = (sh.vars var).location_frac + i
          · rw [if_pos e] at h
            injection h with h
            subst h
            right
            refine ⟨Nat.le_refl _, Nat.lt_succ_self _, by omega, ?_⟩
            rw [if_pos rfl, e, Nat.add_sub_cancel_left]
            rfl
          · rw [if_neg e] at h
            exact Or.inl h
        · intro q hq1 hq2
          simp only at hq1 hq2 ⊢
          have hq : q = sh.next_var := by omega
          subst hq
          refine ⟨(sh.vars var).location_frac + i, by rw [hslot1, if_pos rfl], ?_⟩
          intro k' hk'
          rw [hslot1] at hk'
          by_cases e : k' = (sh.vars var).location_frac + i
          · exact e
          · rw [if_neg e] at hk'
            have := hvals k' _ hk'
            omega
      · intro cv' h
        rw [hslot, harr] at h
        cases h
      · intro k cv' h
        simp only at h ⊢
        rw [hslot1] at h
        by_cases e : k = (sh.vars var).location_frac + i
        · rw [if_pos e] at h
          injection h with h
          omega
        · rw [if_neg e] at h
          have := hvals k cv' h
          omega

theorem io_emit_emit (sh : io_shader) (cursor : Nat) (l1 l2 : List io_instr) :
    io_emit (io_emit sh cursor l1) cursor l2 = io_emit sh cursor (l1 ++ l2) := by
  unfold io_emit
  rw [List.foldl_append]

theorem io_emit_heap_old (sh : io_shader) (cursor : Nat) (hc : cursor < sh.next)
    (l : List io_instr) (q : Nat) (hq : q < sh.next) :
    (io_emit sh cursor l).heap q = sh.heap q := by
  rw [io_emit_eq sh cursor hc]
  have h0 : ¬ (sh.next ≤ q ∧ q < sh.next + l.length) := by omega
  simp only [if_neg h0]

theorem early_clone_eq (fuel : Nat) (sh1 : io_shader) (cursor bound cv d : Nat)
    (path : List Nat) (hc : cursor < sh1.next) (hb : bound ≤ sh1.next)
    (hpath : io_deref_path fuel sh1 bound d = some path) :
    clone_deref_array fuel (nir_build_deref_var sh1 cursor cv).2 cursor
        (nir_build_deref_var sh1 cursor cv).1 d
      = some (sh1.next + path.length,
          io_emit sh1 cursor
            (io_deref_var (sh1.vars cv).mode cv ::
              io_array_derefs (sh1.vars cv).mode sh1.next path)) := by
  have e1 : (nir_build_deref_var sh1 cursor cv).1 = sh1.next := rfl
  have e2 : (nir_build_deref_var sh1 cursor cv).2
      = io_emit sh1 cursor [io_deref_var (sh1.vars cv).mode cv] := rfl
  rw [e1, e2]
  have hnext : (io_emit sh1 cursor [io_deref_var (sh1.vars cv).mode cv]).next
      = sh1.next + 1 := by
    rw [io_emit_next]
    rfl
  have hp : io_deref_path fuel (io_emit sh1 cursor [io_deref_var (sh1.vars cv).mode cv])
      bound d = some path := by
    rw [io_deref_path_frame fuel sh1 _ bound
      (fun q hq => io_emit_heap_old sh1 cursor hc _ q (by omega))]
    exact hpath
  have hmode : io_deref_mode (io_emit sh1 cursor [io_deref_var (sh1.vars cv).mode cv])
      sh1.next = (sh1.vars cv).mode := by
    unfold io_deref_mode
    rw [io_emit_eq sh1 cursor hc]
    have h1 : sh1.next ≤ sh1.next ∧
        sh1.next < sh1.next + [io_deref_var (sh1.vars cv).mode cv].length := by
      simp
    simp only [if_pos h1, Nat.sub_self]
    rfl
  rw [clone_deref_array_eq fuel _ cursor sh1.next bound (by omega) (by omega) d path hp,
    hmode, io_emit_emit]
  rfl

theorem lower_load_early_step_eq (fuel : Nat) (intr : nir_intrinsic_instr)
    (cursor var : Nat) (loads : List Nat) (sh : io_shader)
    (ht : List (Nat × List (Option Nat))) (i bound : Nat) (path : List Nat)
    (cv : Nat) (sh1 : io_shader) (ht1 : List (Nat × List (Option Nat)))
    (hcv : io_chan_var sh ht var i = some (cv, sh1, ht1))
    (hc : cursor < sh1.next) (hb : bound ≤ sh1.next)
    (hpath : io_deref_path fuel sh1 bound (intr.src.getD 0 0) = some path) :
    lower_load_early_step fuel intr cursor var (loads, sh, ht) i
      = some (loads ++ [sh1.next + path.length + 1],
          io_emit sh1 cursor (early_load_group intr (sh1.vars cv).mode sh1.next cv path),
          ht1) := by
  unfold lower_load_early_step
  simp only [hcv]
  rw [early_clone_eq fuel sh1 cursor bound cv _ path hc hb hpath]
  simp only
  congr 1
  refine Prod.ext ?_ (Prod.ext ?_ rfl)
  · simp only [nir_builder_instr_insert, io_emit_next, List.length_cons,
      io_array_derefs_length]
    rw [Nat.add_assoc]
  · simp only
    rw [← io_emit_append]
    rfl

/-! ## Lemmas: the loops of the early lowering functions -/

theorem io_emit_vars (sh : io_shader) (cursor : Nat) (l : List io_instr) :
    (io_emit sh cursor l).vars = sh.vars ∧ (io_emit sh cursor l).next_var = sh.next_var ∧
    (io_emit sh cursor l).var_list = sh.var_list ∧ (io_emit sh cursor l).if_uses = sh.if_uses ∧
    (io_emit sh cursor l).stage = sh.stage := by
  induction l using List.reverseRecOn with
  | nil => exact ⟨rfl, rfl, rfl, rfl, rfl⟩
  | append_singleton l x ih =>
      rw [io_emit_append]
      exact ih

theorem io_emit_heap_new (sh : io_shader) (cursor : Nat) (hc : cursor < sh.next)
    (l : List io_instr) (j : Nat) (hj : j < l.length) :
    (io_emit sh cursor l).heap (sh.next + j) = l.getD j (.other []) := by
  rw [io_emit_eq sh cursor hc]
  have h0 : sh.next ≤ sh.next + j ∧ sh.next + j < sh.next + l.length := by omega
  simp only [if_pos h0, Nat.add_sub_cancel_left]

theorem io_array_derefs_getD (m tail : Nat) (path : List Nat) (j : Nat) (hj : j < path.length) :
    (io_array_derefs m tail path).getD j (.other [])
      = .deref { deref_type := .array, mode := m, var := 0, parent := tail + j,
                 index := path.getD j 0 } := by
  unfold io_array_derefs
  rw [List.getD_eq_getElem?_getD, List.getElem?_mapIdx, List.getElem?_eq_getElem hj,
    List.getD_eq_getElem?_getD, List.getElem?_eq_getElem hj]
  rfl

theorem early_chain_at_emit (sh1 : io_shader) (cursor cv : Nat) (path : List Nat)
    (rest : List io_instr) (hc : cursor < sh1.next) :
    EarlyChainAt path.length
      (io_emit sh1 cursor (io_deref_var (sh1.vars cv).mode cv ::
        (io_array_derefs (sh1.vars cv).mode sh1.next path ++ rest)))
      (sh1.next + path.length) cv := by
  have hv := (io_emit_vars sh1 cursor (io_deref_var (sh1.vars cv).mode cv ::
        (io_array_derefs (sh1.vars cv).mode sh1.next path ++ rest))).1
  refine ⟨by omega, ?_, ?_⟩
  · rw [Nat.add_sub_cancel, hv]
    have := io_emit_heap_new sh1 cursor hc (io_deref_var (sh1.vars cv).mode cv ::
        (io_array_derefs (sh1.vars cv).mode sh1.next path ++ rest)) 0 (by simp)
    rw [Nat.add_zero] at this
    rw [this]
    rfl
  · intro j hj
    refine ⟨path.getD j 0, ?_⟩
    rw [Nat.add_sub_cancel, hv]
    have := io_emit_heap_new sh1 cursor hc (io_deref_var (sh1.vars cv).mode cv ::
        (io_array_derefs (sh1.vars cv).mode sh1.next path ++ rest)) (1 + j)
        (by simp [io_array_derefs_length]; omega)
    rw [← Nat.add_assoc] at this
    rw [this, List.getD_eq_getElem?_getD, Nat.add_comm 1 j, List.getElem?_cons_succ,
      List.getElem?_append_left (by rw [io_array_derefs_length]; exact hj),
      ← List.getD_eq_getElem?_getD, io_array_derefs_getD _ _ _ _ hj]

theorem early_chain_at_frame (len : Nat) (sh sh' : io_shader) (d cv : Nat)
    (h : EarlyChainAt len sh d cv)
    (hheap : ∀ q, q ≤ d → sh'.heap q = sh.heap q) (hvars : sh'.vars cv = sh.vars cv) :
    EarlyChainAt len sh' d cv := by
  obtain ⟨h1, h2, h3⟩ := h
  refine ⟨h1, ?_, ?_⟩
  · rw [hheap _ (by omega), hvars]
    exact h2
  · intro j hj
    obtain ⟨idx, hidx⟩ := h3 j hj
    exact ⟨idx, by rw [hheap _ (by omega), hvars]; exact hidx⟩

theorem io_same_instrs_emit (a b : io_shader) (cursor : Nat) (l : List io_instr)
    (h : io_same_instrs a b) (hc : cursor < a.next) :
    io_same_instrs (io_emit a cursor l) (io_emit b cursor l) := by
  obtain ⟨h1, h2, h3, h4, h5⟩ := h
  have hc' : cursor < b.next := h2 ▸ hc
  have ha := io_emit_vars a cursor l
  have hb := io_emit_vars b cursor l
  rw [io_emit_eq a cursor hc, io_emit_eq b cursor hc'] at *
  refine ⟨?_, ?_, ?_, h4, h5⟩
  · simp only [h1, h2]
  · simp only [h2]
  · simp only [h2, h3]

theorem chan_rel_congr (var : Nat) (a b : io_shader × List (Nat × List (Option Nat)))
    (sh : io_shader) (h : ChanRel var a b) (h1 : sh.vars = b.1.vars)
    (h2 : sh.next_var = b.1.next_var) (h3 : sh.var_list = b.1.var_list) :
    ChanRel var a (sh, b.2) := by
  obtain ⟨f1, f2, f3, f4, f5, f6, f7, f8, f9⟩ := h
  refine ⟨?_, ?_, ?_, f4, f5, f6, f7, ?_, ?_⟩
  · show a.1.next_var ≤ sh.next_var
    rw [h2]; exact f1
  · intro q hq
    show sh.vars q = _
    rw [h1]; exact f2 q hq
  · show sh.var_list = _ ++ List.range' _ (sh.next_var - _)
    rw [h2, h3]; exact f3
  · intro k cv hk
    rcases f8 k cv hk with h | ⟨h4, h5, h6, h7⟩
    · exact Or.inl h
    · refine Or.inr ⟨h4, ?_, h6, ?_⟩
      · show cv < sh.next_var
        rw [h2]; exact h5
      · show sh.vars cv = _
        rw [h1]; exact h7
  · intro q hq1 hq2
    have hq2' : q < sh.next_var := hq2
    rw [h2] at hq2'
    exact f9 q hq1 hq2'

theorem early_load_group_length (intr : nir_intrinsic_instr) (m n cv : Nat) (path : List Nat) :
    (early_load_group intr m n cv path).length = path.length + 2 := by
  simp [early_load_group, io_array_derefs_length]

theorem early_load_group_last (intr : nir_intrinsic_instr) (m n cv : Nat) (path : List Nat) :
    (early_load_group intr m n cv path).getD (path.length + 1) (.other [])
      = .intrinsic (load_early_chan intr (n + path.length)) := by
  unfold early_load_group
  rw [List.getD_eq_getElem?_getD, List.getElem?_cons_succ,
    List.getElem?_append_right (by rw [io_array_derefs_length]), io_array_derefs_length,
    Nat.sub_self]
  rfl

theorem io_array_derefs_mem (m tail : Nat) (path : List Nat) (x : io_instr)
    (hx : x ∈ io_array_derefs m tail path) : ∃ d, x = .deref d := by
  unfold io_array_derefs at hx
  obtain ⟨j, hj, e⟩ := List.getElem_of_mem hx
  rw [List.getElem_mapIdx] at e
  exact ⟨_, e.symm⟩

theorem early_load_group_scalar (intr : nir_intrinsic_instr) (m n cv : Nat) (path : List Nat)
    (x : io_instr) (hx : x ∈ early_load_group intr m n cv path) (c : nir_intrinsic_instr)
    (hxc : x = .intrinsic c) : c.num_components = 1 := by
  unfold early_load_group at hx
  rcases List.mem_cons.1 hx with h | h
  · rw [h] at hxc
    cases hxc
  · rcases List.mem_append.1 h with h | h
    · obtain ⟨d, hd⟩ := io_array_derefs_mem _ _ _ _ h
      rw [hd] at hxc
      cases hxc
    · rw [List.mem_singleton] at h
      rw [h] at hxc
      injection hxc with hxc
      rw [← hxc]
      rfl

theorem load_early_loop (fuel : Nat) (intr : nir_intrinsic_instr) (cursor var : Nat)
    (sh0 : io_shader) (ht0 : List (Nat × List (Option Nat))) (path : List Nat)
    (arr0 : List (Option Nat))
    (hc : cursor < sh0.next)
    (hpath : io_deref_path fuel sh0 sh0.next (intr.src.getD 0 0) = some path)
    (hvar : var < sh0.next_var)
    (hs : io_table_search ht0 var = some arr0)
    (hvals : ∀ k cv, io_slot ht0 var k = some cv → cv < sh0.next_var) :
    ∀ k, (sh0.vars var).location_frac + k ≤ arr0.length →
      ∃ loads sh ht l,
        (List.range k).foldlM (lower_load_early_step fuel intr cursor var) ([], sh0, ht0)
          = some (loads, sh, ht) ∧
        ChanRel var (sh0, ht0) (sh, ht) ∧
        (∀ k cv, io_slot ht var k = some cv → cv < sh.next_var) ∧
        io_same_instrs sh (io_emit sh0 cursor l) ∧
        (∀ x ∈ l, ∀ c, x = .intrinsic c → c.num_components = 1) ∧
        loads.length = k ∧
        (∀ i, i < k → ∃ cv, io_slot ht var ((sh0.vars var).location_frac + i) = some cv ∧
          sh.heap (loads.getD i 0) = .intrinsic (load_early_chan intr (loads.getD i 0 - 1)) ∧
          EarlyChainAt path.length sh (loads.getD i 0 - 1) cv ∧
          sh0.next + path.length + 1 ≤ loads.getD i 0 ∧ loads.getD i 0 < sh.next) ∧
        (∀ i j, i < j → j < k → loads.getD i 0 < loads.getD j 0) := by
  intro k
  induction k with
  | zero =>
      intro _
      exact ⟨[], sh0, ht0, [], rfl, chan_rel_refl var _, hvals,
        ⟨rfl, rfl, rfl, rfl, rfl⟩, fun x hx => absurd hx (List.not_mem_nil _), rfl,
        fun i hi => absurd hi (Nat.not_lt_zero _),
        fun i j _ hj => absurd hj (Nat.not_lt_zero _)⟩
  | succ k ih =>
      intro hk
      obtain ⟨loads, sh, ht, l, hrun, hrel, hv, hsame, hscal, hlen, hch, hord⟩ := ih (by omega)
      obtain ⟨e1, e2, e3, e4, e5⟩ := hsame
      have hfrac : (sh.vars var).location_frac = (sh0.vars var).location_frac := by
        rw [hrel.old_vars var hvar]
      obtain ⟨arr, harr, harrlen⟩ := hrel.lengths arr0 hs
      have hnext0 : sh0.next ≤ sh.next := by
        rw [e2, io_emit_next]; omega
      obtain ⟨cv, sh1, ht1, hcv, hslot, g1, g2, g3, g4, g5, hrel1, _, hv1⟩ :=
        io_chan_var_spec sh ht var k arr harr (by rw [hfrac, harrlen]; omega) hv
      have hc1 : cursor < sh1.next := by rw [g2]; omega
      have hpath1 : io_deref_path fuel sh1 sh0.next (intr.src.getD 0 0) = some path := by
        rw [io_deref_path_frame fuel sh0 sh1 sh0.next
          (fun q hq => by rw [g1, e1]; exact io_emit_heap_old sh0 cursor hc l q hq)]
        exact hpath
      have hstep := lower_load_early_step_eq fuel intr cursor var loads sh ht k sh0.next path
        cv sh1 ht1 hcv hc1 (by rw [g2]; exact hnext0) hpath1
      have hvars := io_emit_vars sh1 cursor
        (early_load_group intr (sh1.vars cv).mode sh1.next cv path)
      have hrelk : ChanRel var (sh0, ht0) (sh1, ht1) :=
        chan_rel_trans var _ _ _ hvar hrel hrel1
      have hheap_old : ∀ q, q < sh.next →
          (io_emit sh1 cursor (early_load_group intr (sh1.vars cv).mode sh1.next cv path)).heap q
            = sh.heap q := by
        intro q hq
        rw [io_emit_heap_old sh1 cursor hc1 _ q (by rw [g2]; exact hq), g1]
      refine ⟨loads ++ [sh1.next + path.length + 1],
        io_emit sh1 cursor (early_load_group intr (sh1.vars cv).mode sh1.next cv path), ht1,
        l ++ early_load_group intr (sh1.vars cv).mode sh1.next cv path,
        ?_, ?_, ?_, ?_, ?_, ?_, ?_, ?_⟩
      · rw [List.range_succ, List.foldlM_append, hrun]
        simp only [Option.bind_eq_bind, Option.some_bind, List.foldlM_cons, List.foldlM_nil,
          hstep]
        rfl
      · exact chan_rel_congr var _ (sh1, ht1) _ hrelk hvars.1 hvars.2.1 hvars.2.2.1
      · intro k' cv' h
        rw [hvars.2.1]
        exact hv1 k' cv' h
      · rw [← io_emit_emit]
        exact io_same_instrs_emit sh1 (io_emit sh0 cursor l) cursor _
          ⟨g1.trans e1, g2.trans e2, g3.trans e3, g4.trans e4, g5.trans e5⟩ hc1
      · intro x hx c hxc
        rcases List.mem_append.1 hx with h | h
        · exact hscal x h c hxc
        · exact early_load_group_scalar intr _ _ _ path x h c hxc
      · rw [List.length_append, hlen]
        rfl
      · intro i hi
        by_cases hik : i < k
        · obtain ⟨cvi, hsl, hh, hchain, hlo, hhi⟩ := hch i hik
          have hget : (loads ++ [sh1.next + path.length + 1]).getD i 0 = loads.getD i 0 :=
            getD_append_left _ _ _ _ (by rw [hlen]; exact hik)
          have hcvi : cvi < sh.next_var := hv _ _ hsl
          refine ⟨cvi, ?_, ?_, ?_, ?_, ?_⟩
          · rw [← hfrac]
            rw [← hfrac] at hsl
            exact hrel1.persist _ _ hsl
          · rw [hget, hheap_old _ hhi]
            exact hh
          · rw [hget]
            refine early_chain_at_frame _ sh _ _ _ hchain
              (fun q hq => hheap_old q (by omega)) ?_
            rw [hvars.1]
            exact hrel1.old_vars cvi hcvi
          · rw [hget]; exact hlo
          · rw [hget, io_emit_next, early_load_group_length, g2]
            omega
        · have hik' : i = k := by omega
          subst hik'
          have hget : (loads ++ [sh1.next + path.length + 1]).getD i 0
              = sh1.next + path.length + 1 := by
            rw [← hlen]
            exact getD_append_length _ _ _
          refine ⟨cv, ?_, ?_, ?_, ?_, ?_⟩
          · rw [← hfrac]
            exact hslot
          · rw [hget, Nat.add_sub_cancel]
            have := io_emit_heap_new sh1 cursor hc1
              (early_load_group intr (sh1.vars cv).mode sh1.next cv path) (path.length + 1)
              (by rw [early_load_group_length]; omega)
            rw [← Nat.add_assoc] at this
            rw [this, early_load_group_last]
          · rw [hget, Nat.add_sub_cancel]
            exact early_chain_at_emit sh1 cursor cv path _ hc1
          · rw [hget, g2]
            omega
          · rw [hget, io_emit_next, early_load_group_length]
            omega
      · intro i j hij hj
        by_cases hjk : j < k
        · rw [getD_append_left _ _ _ _ (by rw [hlen]; omega),
            getD_append_left _ _ _ _ (by rw [hlen]; omega)]
          exact hord i j hij hjk
        · have hjk' : j = k := by omega
          subst hjk'
          obtain ⟨_, _, _, _, _, hhi⟩ := hch i hij
          have hget : (loads ++ [sh1.next + path.length + 1]).getD j 0
              = sh1.next + path.length + 1 := by
            rw [← hlen]
            exact getD_append_length _ _ _
          rw [getD_append_left _ _ _ _ (by rw [hlen]; exact hij), hget, g2]
          omega

theorem io_rewrite_chain (d v : Nat) (len : Nat) (sh sh' : io_shader) (e cv : Nat)
    (h : EarlyChainAt len sh e cv) (hd : d < e - len)
    (hvars : sh'.vars cv = sh.vars cv)
    (hheap : ∀ q, e - len ≤ q → q ≤ e →
      sh'.heap q = sh.heap q ∨ sh'.heap q = io_rewrite_src d v (sh.heap q)) :
    EarlyChainAt len sh' e cv := by
  obtain ⟨h1, h2, h3⟩ := h
  refine ⟨h1, ?_, ?_⟩
  · rw [hvars]
    rcases hheap (e - len) (Nat.le_refl _) (by omega) with h | h
    · rw [h]; exact h2
    · rw [h, h2]; rfl
  · intro j hj
    obtain ⟨idx, hidx⟩ := h3 j hj
    rw [hvars]
    rcases hheap (e - len + 1 + j) (by omega) (by omega) with h | h
    · exact ⟨idx, by rw [h]; exact hidx⟩
    · refine ⟨io_rewrite_slot d v idx, ?_⟩
      rw [h, hidx]
      have hp : e - len + j ≠ d := by omega
      simp [io_rewrite_src, io_rewrite_slot, hp]

theorem io_rewrite_load_chan (d v : Nat) (intr : nir_intrinsic_instr) (e : Nat)
    (x : io_instr) (hde : d ≠ e)
    (h : x = .intrinsic (load_early_chan intr e) ∨
         x = io_rewrite_src d v (.intrinsic (load_early_chan intr e))) :
    ∃ chan, x = .intrinsic chan ∧ chan.intrinsic = intr.intrinsic ∧
      chan.num_components = 1 ∧ chan.bit_size = intr.bit_size ∧ chan.src.getD 0 0 = e := by
  rcases h with h | h
  · refine ⟨_, h, rfl, rfl, rfl, ?_⟩
    unfold load_early_chan
    simp only
    split <;> rfl
  · refine ⟨_, h, rfl, rfl, rfl, ?_⟩
    have he : ¬ e = d := fun h => hde h.symm
    unfold load_early_chan
    simp only
    split <;> simp [io_rewrite_slot, he]

theorem load_early_body_spec (E : IoEnv) (fuel : Nat) (intr : nir_intrinsic_instr)
    (instr var : Nat) (sh0 : io_shader) (ht0 : List (Nat × List (Option Nat)))
    (path : List Nat) (arr0 : List (Option Nat))
    (hc : instr < sh0.next)
    (hmax : intr.num_components ≤ E.NIR_MAX_VEC_COMPONENTS)
    (hpath : io_deref_path fuel sh0 sh0.next (intr.src.getD 0 0) = some path)
    (hvar : var < sh0.next_var)
    (hs : io_table_search ht0 var = some arr0)
    (hfit : (sh0.vars var).location_frac + intr.num_components ≤ arr0.length)
    (hvals : ∀ k cv, io_slot ht0 var k = some cv → cv < sh0.next_var) :
    ∃ loads sh ht,
      lower_load_early_body E fuel sh0 ht0 instr intr var = some (sh, ht) ∧
      ChanRel var (sh0, ht0) (sh, ht) ∧
      (∀ k cv, io_slot ht var k = some cv → cv < sh.next_var) ∧
      EarlyInstrStep instr sh0 sh ∧
      loads.length = intr.num_components ∧
      sh0.next < sh.next ∧
      sh.heap (sh.next - 1) = .vec loads ∧
      (∀ i, i < intr.num_components → ∃ cv chan,
        io_slot ht var ((sh0.vars var).location_frac + i) = some cv ∧
        sh.heap (loads.getD i 0) = .intrinsic chan ∧
        chan.intrinsic = intr.intrinsic ∧ chan.num_components = 1 ∧
        chan.bit_size = intr.bit_size ∧ chan.src.getD 0 0 = loads.getD i 0 - 1 ∧
        EarlyChainAt path.length sh (loads.getD i 0 - 1) cv ∧
        sh0.next + path.length + 1 ≤ loads.getD i 0 ∧ loads.getD i 0 < sh.next - 1) ∧
      (∀ i j, i < j → j < intr.num_components → loads.getD i 0 < loads.getD j 0) ∧
      (∀ p ∈ io_instrs sh0.functions, p ≠ instr → p < sh0.next →
        sh.heap p = io_rewrite_src instr (sh.next - 1) (sh0.heap p)) ∧
      sh.if_uses = rewrite_if_uses instr (sh.next - 1) sh0.if_uses := by
  obtain ⟨loads, shN, htN, l, hrun, hrel, hv, hsame, hscal, hlen, hch, hord⟩ :=
    load_early_loop fuel intr instr var sh0 ht0 path arr0 hc hpath hvar hs hvals
      intr.num_components hfit
  obtain ⟨e1, e2, e3, e4, e5⟩ := hsame
  have hcN : instr < shN.next := by rw [e2, io_emit_next]; omega
  have hnN : shN.next = sh0.next + l.length := by rw [e2, io_emit_next]
  have hX : io_same_instrs (io_emit shN instr [.vec loads])
      (io_emit sh0 instr (l ++ [.vec loads])) := by
    rw [← io_emit_emit]
    exact io_same_instrs_emit shN _ instr _ ⟨e1, e2, e3, e4, e5⟩ hcN
  obtain ⟨x1, x2, x3, x4, x5⟩ := hX
  have hXv := io_emit_vars shN instr [.vec loads]
  have hXnext : (io_emit shN instr [.vec loads]).next = sh0.next + l.length + 1 := by
    rw [io_emit_next, hnN]; rfl
  have hXfun : (io_emit shN instr [.vec loads]).functions
      = io_splice_all instr (List.range' sh0.next (l.length + 1) ++ [instr]) sh0.functions := by
    rw [x3, io_emit_eq sh0 instr hc]
    simp
  have hXold : ∀ q, q < shN.next → (io_emit shN instr [.vec loads]).heap q = shN.heap q :=
    fun q hq => io_emit_heap_old shN instr hcN _ q hq
  have hXvec : (io_emit shN instr [.vec loads]).heap shN.next = .vec loads := by
    have := io_emit_heap_new shN instr hcN [.vec loads] 0 (by simp)
    rw [Nat.add_zero] at this
    rw [this]
    rfl
  have hbody : lower_load_early_body E fuel sh0 ht0 instr intr var
      = some (io_instr_remove (nir_ssa_def_rewrite_uses (io_emit shN instr [.vec loads])
          instr shN.next) instr, htN) := by
    unfold lower_load_early_body
    rw [if_neg (by omega), hrun]
    rfl
  have hheap : ∀ q, (io_instr_remove (nir_ssa_def_rewrite_uses
      (io_emit shN instr [.vec loads]) instr shN.next) instr).heap q
        = (io_emit shN instr [.vec loads]).heap q ∨
      (io_instr_remove (nir_ssa_def_rewrite_uses
        (io_emit shN instr [.vec loads]) instr shN.next) instr).heap q
        = io_rewrite_src instr shN.next ((io_emit shN instr [.vec loads]).heap q) := by
    intro q
    simp only [io_instr_remove, nir_ssa_def_rewrite_uses]
    split
    · exact Or.inr rfl
    · exact Or.inl rfl
  have hnext : (io_instr_remove (nir_ssa_def_rewrite_uses
      (io_emit shN instr [.vec loads]) instr shN.next) instr).next
        = sh0.next + l.length + 1 := hXnext
  have hloads : ∀ x ∈ loads, instr < x := by
    intro x hx
    obtain ⟨i, hi, e⟩ := List.getElem_of_mem hx
    rw [hlen] at hi
    obtain ⟨_, _, _, _, hlo, _⟩ := hch i hi
    have hg : loads.getD i 0 = x := by
      rw [List.getD_eq_getElem?_getD, List.getElem?_eq_getElem (by rw [hlen]; exact hi), e]
      rfl
    omega
  have hstage0 := (io_emit_vars sh0 instr l).2.2.2.2
  have hif0 := (io_emit_vars sh0 instr l).2.2.2.1
  refine ⟨loads, _, htN, hbody, ?_, ?_, ?_, hlen, ?_, ?_, ?_, hord, ?_, ?_⟩
  · exact chan_rel_congr var _ (shN, htN) _ hrel hXv.1 hXv.2.1 hXv.2.2.1
  · intro k cv h
    exact hv k cv h
  · refine ⟨by rw [hnext]; omega, ?_, ?_, ?_, (hXv.2.2.2.2.trans e5).trans hstage0⟩
    · rw [hnext]
      simp only [remove_functions_eq, nir_ssa_def_rewrite_uses]
      rw [hXfun, io_splice_all_splice, io_splice_tail _ _ _ (not_mem_range' instr _ _ hc),
        List.append_nil]
      congr 2
      omega
    · intro q hq1 hq2 i hi
      rw [hnext] at hq2
      have hcase : ∀ j, (io_emit shN instr [.vec loads]).heap q = .intrinsic j →
          j.num_components = 1 := by
        intro j hj
        by_cases hqv : q = shN.next
        · rw [hqv, hXvec] at hj
          cases hj
        · have hq3 : q < shN.next := by omega
          rw [hXold q hq3, e1] at hj
          have hq4 : q = sh0.next + (q - sh0.next) := by omega
          rw [hq4, io_emit_heap_new sh0 instr hc l (q - sh0.next) (by omega)] at hj
          have hm : l.getD (q - sh0.next) (.other []) ∈ l := by
            rw [List.getD_eq_getElem?_getD, List.getElem?_eq_getElem (by omega)]
            exact List.getElem_mem _
          exact hscal _ hm j hj
      rcases hheap q with h | h
      · rw [h] at hi
        exact hcase i hi
      · rw [h] at hi
        obtain ⟨j, hj, e, _⟩ := io_rewrite_intrinsic _ _ _ _ hi
        rw [e]
        exact hcase j hj
    · intro p hp
      have hpN : p < shN.next := by omega
      rcases hheap p with h | h
      · left
        rw [h, hXold p hpN, e1, io_emit_heap_old sh0 instr hc l p hp]
      · right
        refine ⟨shN.next, by omega, by rw [hnext]; omega, ?_⟩
        rw [h, hXold p hpN, e1, io_emit_heap_old sh0 instr hc l p hp]
  · rw [hnext]; omega
  · rw [hnext, Nat.add_sub_cancel, ← hnN]
    rcases hheap shN.next with h | h
    · rw [h, hXvec]
    · rw [h, hXvec]
      simp only [io_rewrite_src]
      rw [map_rewrite_slot_not_mem]
      intro hm
      exact absurd (hloads instr hm) (Nat.lt_irrefl _)
  · intro i hi
    obtain ⟨cv, hsl, hh, hchain, hlo, hhi⟩ := hch i hi
    have hlt : loads.getD i 0 < shN.next := hhi
    have hchan := io_rewrite_load_chan instr shN.next intr (loads.getD i 0 - 1)
      ((io_instr_remove (nir_ssa_def_rewrite_uses
        (io_emit shN instr [.vec loads]) instr shN.next) instr).heap (loads.getD i 0))
      (by omega)
      (by
        rcases hheap (loads.getD i 0) with h | h
        · left; rw [h, hXold _ hlt, hh]
        · right; rw [h, hXold _ hlt, hh])
    obtain ⟨chan, c1, c2, c3, c4, c5⟩ := hchan
    refine ⟨cv, chan, hsl, c1, c2, c3, c4, c5, ?_, hlo, ?_⟩
    · refine io_rewrite_chain instr shN.next path.length shN _ _ cv hchain
        (by have := hchain.1; omega) rfl ?_
      intro q _ hq2
      have hq : q < shN.next := by omega
      rcases hheap q with h | h
      · left; rw [h, hXold q hq]
      · right; rw [h, hXold q hq]
    · rw [hnext, Nat.add_sub_cancel, ← hnN]
      exact hlt
  · intro p hp hne hpn
    have hpN : p < shN.next := by omega
    have hlink : p ∈ io_instrs (io_emit shN instr [.vec loads]).functions := by
      rw [hXfun]
      exact mem_io_instrs_splice_old _ _ _ _ hp hne
    rw [hnext, Nat.add_sub_cancel, ← hnN]
    simp only [io_instr_remove, nir_ssa_def_rewrite_uses]
    rw [if_pos hlink, hXold p hpN, e1, io_emit_heap_old sh0 instr hc l p hpn]
  · rw [hnext, Nat.add_sub_cancel, ← hnN]
    simp only [io_instr_remove, nir_ssa_def_rewrite_uses]
    rw [hXv.2.2.2.1, e4, hif0]

theorem early_chain_get_variable (len : Nat) (sh : io_shader) (cv : Nat) :
    ∀ d, EarlyChainAt len sh d cv →
      nir_deref_instr_get_variable (len + 1) sh d = some cv := by
  induction len with
  | zero =>
      intro d h
      obtain ⟨_, h2, _⟩ := h
      rw [Nat.sub_zero] at h2
      unfold nir_deref_instr_get_variable
      rw [h2]
      rfl
  | succ len ih =>
      intro d h
      obtain ⟨h1, h2, h3⟩ := h
      obtain ⟨idx, hidx⟩ := h3 len (Nat.lt_succ_self _)
      have e : d - (len + 1) + 1 + len = d := by omega
      rw [e] at hidx
      unfold nir_deref_instr_get_variable
      rw [hidx]
      have hne1 : ¬ (nir_deref_type.array = nir_deref_type.var) := by decide
      have hne2 : ¬ (nir_deref_type.array = nir_deref_type.cast) := by decide
      simp only [hne1, hne2, if_false]
      apply ih
      refine ⟨by omega, ?_, ?_⟩
      · have e2 : d - (len + 1) + len - len = d - (len + 1) := by omega
        rw [e2]
        exact h2
      · intro j hj
        obtain ⟨idx', hidx'⟩ := h3 j (by omega)
        have e2 : d - (len + 1) + len - len = d - (len + 1) := by omega
        rw [e2]
        exact ⟨idx', hidx'⟩

theorem io_early_skips_false (E : IoEnv) (stage mode : Nat) (v : nir_variable)
    (h_patch : v.patch = false)
    (h_64 : glsl_type_is_64bit (glsl_without_array v.type) = false)
    (h_loc : (stage = E.MESA_SHADER_VERTEX ∧ mode = E.nir_var_shader_in) ∨
      v.location < 0 ∨ E.VARYING_SLOT_VAR0 ≤ v.location)
    (h_active : v.always_active_io = false)
    (h_matrix : glsl_type_is_matrix (glsl_without_array v.type) = false)
    (h_struct : glsl_type_is_struct (glsl_without_array v.type) = false) :
    io_early_skips E stage mode v = false := by
  unfold io_early_skips
  rw [h_patch, h_64, h_active, h_matrix, h_struct]
  simp only [Bool.false_or, Bool.or_false, Bool.and_eq_false_imp, Bool.and_eq_true,
    Bool.not_eq_true', decide_eq_false_iff_not, decide_eq_true_eq, not_and, ge_iff_le]
  rintro ⟨h1, h2⟩
  rcases h_loc with h | h | h
  · exact absurd h.2 (h1 h.1)
  · omega
  · omega

theorem io_early_skips_true (E : IoEnv) (stage mode : Nat) (v : nir_variable)
    (h : v.patch = true ∨ glsl_type_is_64bit (glsl_without_array v.type) = true ∨
      v.always_active_io = true ∨
      glsl_type_is_matrix (glsl_without_array v.type) = true ∨
      glsl_type_is_struct (glsl_without_array v.type) = true ∨
      (0 ≤ v.location ∧ v.location < E.VARYING_SLOT_VAR0 ∧
        ¬ (stage = E.MESA_SHADER_VERTEX ∧ mode = E.nir_var_shader_in))) :
    io_early_skips E stage mode v = true := by
  unfold io_early_skips
  rcases h with h | h | h | h | h | ⟨h1, h2, h3⟩
  · simp [h]
  · simp [h]
  · simp [h]
  · simp [h]
  · simp [h]
  · have : (decide (stage = E.MESA_SHADER_VERTEX) && decide (mode = E.nir_var_shader_in))
        = false := by
      simp only [Bool.and_eq_false_imp, decide_eq_true_eq, decide_eq_false_iff_not]
      intro e1 e2
      exact h3 ⟨e1, e2⟩
    simp [this, h1, h2]

/-! ## Lemmas: the loop body of the early scalarizer -/

theorem early_instr_var (E : IoEnv) (fuel mask : Nat) (s : early_state) (instr : Nat)
    (intr : nir_intrinsic_instr) (dr : nir_deref_instr) (var : Nat)
    (h_heap : s.shader.heap instr = .intrinsic intr)
    (hN : intr.num_components ≠ 1)
    (h_op : intr.intrinsic = .load_deref ∨ intr.intrinsic = .store_deref ∨
      intr.intrinsic = .interp_deref_at_centroid ∨ intr.intrinsic = .interp_deref_at_sample ∨
      intr.intrinsic = .interp_deref_at_offset)
    (h_deref : s.shader.heap (intr.src.getD 0 0) = .deref dr)
    (h_mask : dr.mode &&& mask ≠ 0)
    (h_var : nir_deref_instr_get_variable fuel s.shader (intr.src.getD 0 0) = some var) :
    lower_io_early_instr E fuel mask s instr =
      if io_early_skips E s.shader.stage dr.mode (s.shader.vars var) then some s
      else if intr.intrinsic = .store_deref then
        if mask &&& E.nir_var_shader_out ≠ 0 ∧ dr.mode = E.nir_var_shader_out then
          lower_store_output_to_scalar_early fuel s instr intr var
        else some s
      else
        if (mask &&& E.nir_var_shader_in ≠ 0 ∧ dr.mode = E.nir_var_shader_in) ∨
            (mask &&& E.nir_var_shader_out ≠ 0 ∧ dr.mode = E.nir_var_shader_out) then
          lower_load_to_scalar_early E fuel s instr intr var
        else some s := by
  unfold lower_io_early_instr
  rw [h_heap]
  simp only [if_neg hN]
  have hops : ¬ (intr.intrinsic ≠ .load_deref ∧ intr.intrinsic ≠ .store_deref ∧
      intr.intrinsic ≠ .interp_deref_at_centroid ∧
      intr.intrinsic ≠ .interp_deref_at_sample ∧
      intr.intrinsic ≠ .interp_deref_at_offset) := by
    rintro ⟨h1, h2, h3, h4, h5⟩
    rcases h_op with h | h | h | h | h
    · exact h1 h
    · exact h2 h
    · exact h3 h
    · exact h4 h
    · exact h5 h
  rw [if_neg hops, h_deref]
  simp only [if_neg h_mask, h_var]

theorem land_mode_ne_zero (mask mode c : Nat) (h : mask &&& c ≠ 0) (hm : mode = c) :
    mode &&& mask ≠ 0 := by
  rw [hm, Nat.land_comm]
  exact h

theorem get_channel_variables_slot (ht : List (Nat × List (Option Nat))) (var k cv : Nat)
    (h : io_slot (get_channel_variables ht var) var k = some cv) :
    io_slot ht var k = some cv := by
  unfold io_slot at h ⊢
  rw [get_channel_variables_search] at h
  cases hs : io_table_search ht var with
  | none =>
      rw [hs] at h
      simp only [Option.getD_none] at h
      have : ([none, none, none, none] : List (Option Nat)).getD k none = none := by
        rcases k with _ | _ | _ | _ | _ | k <;> rfl
      rw [this] at h
      cases h
  | some arr =>
      rw [hs] at h
      exact h

theorem get_channel_variables_length (ht : List (Nat × List (Option Nat))) (var : Nat)
    (h_tab : ∀ arr, io_table_search ht var = some arr → arr.length = 4) :
    ((io_table_search ht var).getD [none, none, none, none]).length = 4 := by
  cases hs : io_table_search ht var with
  | none => rfl
  | some arr => exact h_tab arr hs

theorem load_early_table_spec (E : IoEnv) (fuel : Nat) (intr : nir_intrinsic_instr)
    (instr var : Nat) (sh0 : io_shader) (table : List (Nat × List (Option Nat)))
    (path : List Nat)
    (hc : instr < sh0.next)
    (hmax : intr.num_components ≤ E.NIR_MAX_VEC_COMPONENTS)
    (hpath : io_deref_path fuel sh0 sh0.next (intr.src.getD 0 0) = some path)
    (hvar : var < sh0.next_var)
    (h_frac : (sh0.vars var).location_frac + intr.num_components ≤ 4)
    (h_tab : ∀ arr, io_table_search table var = some arr → arr.length = 4)
    (h_vals : ∀ k cv, io_slot table var k = some cv → cv < sh0.next_var) :
    ∃ loads sh ht,
      lower_load_early_body E fuel sh0 (get_channel_variables table var) instr intr var
        = some (sh, ht) ∧
      ChanRel var (sh0, get_channel_variables table var) (sh, ht) ∧
      (∀ k cv, io_slot ht var k = some cv → cv < sh.next_var) ∧
      EarlyInstrStep instr sh0 sh ∧
      loads.length = intr.num_components ∧
      sh0.next < sh.next ∧
      sh.heap (sh.next - 1) = .vec loads ∧
      (∀ i, i < intr.num_components → ∃ cv chan,
        io_slot ht var ((sh0.vars var).location_frac + i) = some cv ∧
        (io_slot table var ((sh0.vars var).location_frac + i) = some cv ∨
          (sh0.next_var ≤ cv ∧ cv < sh.next_var ∧
            sh.vars cv = io_chan_clone (sh0.vars var) i)) ∧
        sh.heap (loads.getD i 0) = .intrinsic chan ∧
        chan.intrinsic = intr.intrinsic ∧ chan.num_components = 1 ∧
        chan.bit_size = intr.bit_size ∧ sh0.next ≤ chan.src.getD 0 0 ∧
        nir_deref_instr_get_variable (path.length + 1) sh (chan.src.getD 0 0) = some cv) ∧
      (∀ i j, i < j → j < intr.num_components → loads.getD i 0 < loads.getD j 0) ∧
      (∀ p ∈ io_instrs sh0.functions, p ≠ instr → p < sh0.next →
        sh.heap p = io_rewrite_src instr (sh.next - 1) (sh0.heap p)) ∧
      sh.if_uses = rewrite_if_uses instr (sh.next - 1) sh0.if_uses := by
  have hlen := get_channel_variables_length table var h_tab
  obtain ⟨loads, sh, ht, hbody, hrel, hv, hstep, hl, hn, hvec, hch, hord, huse, hif⟩ :=
    load_early_body_spec E fuel intr instr var sh0 (get_channel_variables table var) path _
      hc hmax hpath hvar (get_channel_variables_search table var) (by rw [hlen]; exact h_frac)
      (fun k cv h => h_vals k cv (get_channel_variables_slot table var k cv h))
  refine ⟨loads, sh, ht, hbody, hrel, hv, hstep, hl, hn, hvec, ?_, hord, huse, hif⟩
  intro i hi
  obtain ⟨cv, chan, c1, c2, c3, c4, c5, c6, c7, c8, c9⟩ := hch i hi
  refine ⟨cv, chan, c1, ?_, c2, c3, c4, c5, ?_, ?_⟩
  · rcases hrel.created _ cv c1 with h | ⟨h1, h2, _, h4⟩
    · exact Or.inl (get_channel_variables_slot table var _ cv h)
    · refine Or.inr ⟨h1, h2, ?_⟩
      rw [h4]
      simp only [Nat.add_sub_cancel_left]
  · rw [c6]
    have := c7.1
    omega
  · rw [c6]
    exact early_chain_get_variable path.length sh cv _ c7

theorem lower_load_to_scalar_early_eq (E : IoEnv) (fuel : Nat) (s : early_state)
    (instr : Nat) (intr : nir_intrinsic_instr) (var : Nat) (sh : io_shader)
    (ht : List (Nat × List (Option Nat)))
    (hb : lower_load_early_body E fuel s.shader
      (get_channel_variables (early_load_table E s var) var) instr intr var = some (sh, ht))
    (hvv : sh.vars var = s.shader.vars var) :
    ∃ t, lower_load_to_scalar_early E fuel s instr intr var = some t ∧ t.shader = sh ∧
      early_load_table E t var = ht ∧
      t.rewritten = s.rewritten ++ [(instr, var)] ∧
      (((s.shader.vars var).mode = E.nir_var_shader_in ∧ t.split_inputs = ht ∧
          t.split_outputs = s.split_outputs) ∨
       ((s.shader.vars var).mode ≠ E.nir_var_shader_in ∧ t.split_outputs = ht ∧
          t.split_inputs = s.split_inputs)) := by
  by_cases hmode : (s.shader.vars var).mode = E.nir_var_shader_in
  · have ht0 : early_load_table E s var = s.split_inputs := by
      unfold early_load_table; rw [if_pos hmode]
    rw [ht0] at hb
    refine ⟨⟨sh, ht, s.split_outputs, s.rewritten ++ [(instr, var)]⟩, ?_, rfl, ?_, rfl,
      Or.inl ⟨hmode, rfl, rfl⟩⟩
    · unfold lower_load_to_scalar_early
      rw [if_pos hmode, hb]
    · unfold early_load_table
      simp only [hvv, if_pos hmode]
  · have ht0 : early_load_table E s var = s.split_outputs := by
      unfold early_load_table; rw [if_neg hmode]
    rw [ht0] at hb
    refine ⟨⟨sh, s.split_inputs, ht, s.rewritten ++ [(instr, var)]⟩, ?_, rfl, ?_, rfl,
      Or.inr ⟨hmode, rfl, rfl⟩⟩
    · unfold lower_load_to_scalar_early
      rw [if_neg hmode, hb]
    · unfold early_load_table
      simp only [hvv, if_neg hmode]

theorem early_store_group_length (intr : nir_intrinsic_instr) (m n cv : Nat) (path : List Nat)
    (value i : Nat) :
    (early_store_group intr m n cv path value i).length = path.length + 3 := by
  simp [early_store_group, io_array_derefs_length]

theorem early_store_group_store (intr : nir_intrinsic_instr) (m n cv : Nat) (path : List Nat)
    (value i : Nat) :
    (early_store_group intr m n cv path value i).getD (path.length + 2) (.other [])
      = .intrinsic (store_early_chan intr (n + path.length) (n + path.length + 1)) := by
  unfold early_store_group
  rw [List.getD_eq_getElem?_getD, List.getElem?_cons_succ,
    List.getElem?_append_right (by rw [io_array_derefs_length]; omega), io_array_derefs_length]
  have e : path.length + 1 - path.length = 1 := by omega
  rw [e]
  rfl

theorem early_store_group_channel (intr : nir_intrinsic_instr) (m n cv : Nat) (path : List Nat)
    (value i : Nat) :
    (early_store_group intr m n cv path value i).getD (path.length + 1) (.other [])
      = .channel value i := by
  unfold early_store_group
  rw [List.getD_eq_getElem?_getD, List.getElem?_cons_succ,
    List.getElem?_append_right (by rw [io_array_derefs_length]), io_array_derefs_length,
    Nat.sub_self]
  rfl

theorem early_store_group_cases (intr : nir_intrinsic_instr) (m n cv : Nat) (path : List Nat)
    (value i : Nat) (j : Nat) (hj : j < path.length + 3) (c : nir_intrinsic_instr)
    (h : (early_store_group intr m n cv path value i).getD j (.other []) = .intrinsic c) :
    j = path.length + 2 := by
  by_contra hne
  unfold early_store_group at h
  rcases Nat.lt_or_ge j 1 with h0 | h0
  · have : j = 0 := by omega
    subst this
    simp [io_deref_var] at h
  · obtain ⟨j', rfl⟩ : ∃ j', j = j' + 1 := ⟨j - 1, by omega⟩
    rw [List.getD_eq_getElem?_getD, List.getElem?_cons_succ] at h
    by_cases hjl : j' < path.length
    · rw [List.getElem?_append_left (by rw [io_array_derefs_length]; exact hjl),
        ← List.getD_eq_getElem?_getD, io_array_derefs_getD _ _ _ _ hjl] at h
      cases h
    · have hj' : j' = path.length := by omega
      subst hj'
      rw [List.getElem?_append_right (by rw [io_array_derefs_length]),
        io_array_derefs_length, Nat.sub_self] at h
      simp at h

theorem lower_store_early_step_eq (fuel : Nat) (intr : nir_intrinsic_instr)
    (cursor var value : Nat) (sh : io_shader)
    (ht : List (Nat × List (Option Nat))) (i bound : Nat) (path : List Nat)
    (cv : Nat) (sh1 : io_shader) (ht1 : List (Nat × List (Option Nat)))
    (hbit : ¬ intr.write_mask &&& (1 <<< i) = 0)
    (hcv : io_chan_var sh ht var i = some (cv, sh1, ht1))
    (hc : cursor < sh1.next) (hb : bound ≤ sh1.next)
    (hpath : io_deref_path fuel sh1 bound (intr.src.getD 0 0) = some path) :
    lower_store_early_step fuel intr cursor var value (sh, ht) i
      = some (io_emit sh1 cursor
          (early_store_group intr (sh1.vars cv).mode sh1.next cv path value i), ht1) := by
  unfold lower_store_early_step
  rw [if_neg hbit]
  simp only [hcv]
  rw [early_clone_eq fuel sh1 cursor bound cv _ path hc hb hpath]
  simp only
  congr 1
  refine Prod.ext ?_ rfl
  simp only [nir_channel]
  have e : early_store_group intr (sh1.vars cv).mode sh1.next cv path value i
      = ((io_deref_var (sh1.vars cv).mode cv ::
          io_array_derefs (sh1.vars cv).mode sh1.next path) ++ [.channel value i]) ++
        [.intrinsic (store_early_chan intr (sh1.next + path.length)
          (sh1.next + path.length + 1))] := by
    simp [early_store_group]
  rw [e, io_emit_append, io_emit_append]
  simp only [nir_builder_instr_insert, io_emit_next, List.length_cons, io_array_derefs_length]
  rfl

theorem early_store_group_scalar (intr : nir_intrinsic_instr) (m n cv : Nat) (path : List Nat)
    (value i : Nat) (x : io_instr) (hx : x ∈ early_store_group intr m n cv path value i)
    (c : nir_intrinsic_instr) (hxc : x = .intrinsic c) : c.num_components = 1 := by
  unfold early_store_group at hx
  rcases List.mem_cons.1 hx with h | h
  · rw [h] at hxc
    cases hxc
  · rcases List.mem_append.1 h with h | h
    · obtain ⟨d, hd⟩ := io_array_derefs_mem _ _ _ _ h
      rw [hd] at hxc
      cases hxc
    · rcases List.mem_cons.1 h with h | h
      · rw [h] at hxc
        cases hxc
      · rw [List.mem_singleton] at h
        rw [h] at hxc
        injection hxc with hxc
        rw [← hxc]
        rfl

theorem store_early_loop (fuel : Nat) (intr : nir_intrinsic_instr) (cursor var value : Nat)
    (sh0 : io_shader) (ht0 : List (Nat × List (Option Nat))) (path : List Nat)
    (arr0 : List (Option Nat))
    (hc : cursor < sh0.next)
    (hpath : io_deref_path fuel sh0 sh0.next (intr.src.getD 0 0) = some path)
    (hvar : var < sh0.next_var)
    (hs : io_table_search ht0 var = some arr0)
    (hvals : ∀ k cv, io_slot ht0 var k = some cv → cv < sh0.next_var) :
    ∀ chs : List Nat, (∀ i ∈ chs, (sh0.vars var).location_frac + i < arr0.length) →
      ∃ sh ht l,
        chs.foldlM (lower_store_early_step fuel intr cursor var value) (sh0, ht0)
          = some (sh, ht) ∧
        ChanRel var (sh0, ht0) (sh, ht) ∧
        (∀ k cv, io_slot ht var k = some cv → cv < sh.next_var) ∧
        io_same_instrs sh (io_emit sh0 cursor l) ∧
        (∀ x ∈ l, ∀ c, x = .intrinsic c → c.num_components = 1) ∧
        (∀ i ∈ chs, ¬ intr.write_mask &&& (1 <<< i) = 0 → ∃ cv a,
          io_slot ht var ((sh0.vars var).location_frac + i) = some cv ∧
          sh0.next + path.length + 2 ≤ a ∧ a < sh.next ∧
          sh.heap a = .intrinsic (store_early_chan intr (a - 2) (a - 1)) ∧
          sh.heap (a - 1) = .channel value i ∧
          EarlyChainAt path.length sh (a - 2) cv) ∧
        (∀ q, sh0.next ≤ q → q < sh.next → ∀ c, sh.heap q = .intrinsic c →
          ∃ i, i ∈ chs ∧ ¬ intr.write_mask &&& (1 <<< i) = 0 ∧
            c = store_early_chan intr (q - 2) (q - 1) ∧
            sh.heap (q - 1) = .channel value i) := by
  intro chs
  induction chs using List.reverseRecOn with
  | nil =>
      intro _
      refine ⟨sh0, ht0, [], rfl, chan_rel_refl var _, hvals, ⟨rfl, rfl, rfl, rfl, rfl⟩,
        fun x hx => absurd hx (List.not_mem_nil _), fun i hi => absurd hi (List.not_mem_nil _),
        fun q h1 h2 => absurd h2 (by omega)⟩
  | append_singleton chs i ih =>
      intro hfit
      obtain ⟨sh, ht, l, hrun, hrel, hv, hsame, hscal, hch, hnew⟩ :=
        ih (fun j hj => hfit j (List.mem_append_left _ hj))
      by_cases hbit : intr.write_mask &&& (1 <<< i) = 0
      · refine ⟨sh, ht, l, ?_, hrel, hv, hsame, hscal, ?_, ?_⟩
        · rw [List.foldlM_append, hrun]
          simp only [Option.bind_eq_bind, Option.some_bind, List.foldlM_cons, List.foldlM_nil]
          unfold lower_store_early_step
          rw [if_pos hbit]
          rfl
        · intro j hj hjb
          rcases List.mem_append.1 hj with h | h
          · exact hch j h hjb
          · rw [List.mem_singleton] at h
            rw [h] at hjb
            exact absurd hbit hjb
        · intro q h1 h2 c hq
          obtain ⟨j, hj, r⟩ := hnew q h1 h2 c hq
          exact ⟨j, List.mem_append_left _ hj, r⟩
      · obtain ⟨e1, e2, e3, e4, e5⟩ := hsame
        have hfrac : (sh.vars var).location_frac = (sh0.vars var).location_frac := by
          rw [hrel.old_vars var hvar]
        obtain ⟨arr, harr, harrlen⟩ := hrel.lengths arr0 hs
        have hnext0 : sh0.next ≤ sh.next := by
          rw [e2, io_emit_next]; omega
        have hfi := hfit i (List.mem_append_right _ (List.mem_singleton.2 rfl))
        obtain ⟨cv, sh1, ht1, hcv, hslot, g1, g2, g3, g4, g5, hrel1, _, hv1⟩ :=
          io_chan_var_spec sh ht var i arr harr (by rw [hfrac, harrlen]; exact hfi) hv
        have hc1 : cursor < sh1.next := by rw [g2]; omega
        have hpath1 : io_deref_path fuel sh1 sh0.next (intr.src.getD 0 0) = some path := by
          rw [io_deref_path_frame fuel sh0 sh1 sh0.next
            (fun q hq => by rw [g1, e1]; exact io_emit_heap_old sh0 cursor hc l q hq)]
          exact hpath
        have hstep := lower_store_early_step_eq fuel intr cursor var value sh ht i sh0.next
          path cv sh1 ht1 hbit hcv hc1 (by rw [g2]; exact hnext0) hpath1
        obtain ⟨S, hS⟩ : ∃ S, S = io_emit sh1 cursor
            (early_store_group intr (sh1.vars cv).mode sh1.next cv path value i) := ⟨_, rfl⟩
        rw [← hS] at hstep
        have hvars : S.vars = sh1.vars ∧ S.next_var = sh1.next_var ∧
            S.var_list = sh1.var_list ∧ S.if_uses = sh1.if_uses ∧ S.stage = sh1.stage := by
          rw [hS]
          exact io_emit_vars sh1 cursor _
        have hrelk : ChanRel var (sh0, ht0) (sh1, ht1) :=
          chan_rel_trans var _ _ _ hvar hrel hrel1
        have hheap_old : ∀ q, q < sh.next → S.heap q = sh.heap q := by
          intro q hq
          rw [hS, io_emit_heap_old sh1 cursor hc1 _ q (by rw [g2]; exact hq), g1]
        have hnn : S.next = sh.next + path.length + 3 := by
          rw [hS, io_emit_next, early_store_group_length, g2]
          omega
        have hS_store : S.heap (sh.next + path.length + 2)
            = .intrinsic (store_early_chan intr (sh.next + path.length)
                (sh.next + path.length + 1)) := by
          have := io_emit_heap_new sh1 cursor hc1
            (early_store_group intr (sh1.vars cv).mode sh1.next cv path value i)
            (path.length + 2) (by rw [early_store_group_length]; omega)
          rw [← Nat.add_assoc, early_store_group_store, g2] at this
          rw [hS, g2]
          exact this
        have hS_chan : S.heap (sh.next + path.length + 1) = .channel value i := by
          have := io_emit_heap_new sh1 cursor hc1
            (early_store_group intr (sh1.vars cv).mode sh1.next cv path value i)
            (path.length + 1) (by rw [early_store_group_length]; omega)
          rw [← Nat.add_assoc, early_store_group_channel, g2] at this
          rw [hS, g2]
          exact this
        have hS_chain : EarlyChainAt path.length S (sh.next + path.length) cv := by
          rw [hS, ← g2]
          exact early_chain_at_emit sh1 cursor cv path _ hc1
        have hnew_group : ∃ cv' a,
            io_slot ht1 var ((sh0.vars var).location_frac + i) = some cv' ∧
            sh0.next + path.length + 2 ≤ a ∧ a < S.next ∧
            S.heap a = .intrinsic (store_early_chan intr (a - 2) (a - 1)) ∧
            S.heap (a - 1) = .channel value i ∧
            EarlyChainAt path.length S (a - 2) cv' := by
          refine ⟨cv, sh.next + path.length + 2, by rw [← hfrac]; exact hslot,
            by omega, by rw [hnn]; omega, ?_, ?_, ?_⟩
          · have e1' : sh.next + path.length + 2 - 2 = sh.next + path.length := by omega
            have e2' : sh.next + path.length + 2 - 1 = sh.next + path.length + 1 := by omega
            rw [e1', e2']
            exact hS_store
          · have e2' : sh.next + path.length + 2 - 1 = sh.next + path.length + 1 := by omega
            rw [e2']
            exact hS_chan
          · have e1' : sh.next + path.length + 2 - 2 = sh.next + path.length := by omega
            rw [e1']
            exact hS_chain
        refine ⟨S, ht1,
          l ++ early_store_group intr (sh1.vars cv).mode sh1.next cv path value i,
          ?_, ?_, ?_, ?_, ?_, ?_, ?_⟩
        · rw [List.foldlM_append, hrun]
          simp only [Option.bind_eq_bind, Option.some_bind, List.foldlM_cons, List.foldlM_nil,
            hstep]
          rfl
        · exact chan_rel_congr var _ (sh1, ht1) _ hrelk hvars.1 hvars.2.1 hvars.2.2.1
        · intro k' cv' h
          rw [hvars.2.1]
          exact hv1 k' cv' h
        · rw [hS, ← io_emit_emit]
          exact io_same_instrs_emit sh1 (io_emit sh0 cursor l) cursor _
            ⟨g1.trans e1, g2.trans e2, g3.trans e3, g4.trans e4, g5.trans e5⟩ hc1
        · intro x hx c hxc
          rcases List.mem_append.1 hx with h | h
          · exact hscal x h c hxc
          · exact early_store_group_scalar intr _ _ _ path value i x h c hxc
        · intro j hj hjb
          by_cases hji : j = i
          · subst hji
            exact hnew_group
          · rcases List.mem_append.1 hj with h | h
            · obtain ⟨cvj, a, hsl, ha1, ha2, hh, hhc, hchain⟩ := hch j h hjb
              have hcvj : cvj < sh.next_var := hv _ _ hsl
              refine ⟨cvj, a, ?_, ha1, by rw [hnn]; omega, ?_, ?_, ?_⟩
              · rw [← hfrac]
                rw [← hfrac] at hsl
                exact hrel1.persist _ _ hsl
              · rw [hheap_old a ha2]; exact hh
              · rw [hheap_old (a - 1) (by omega)]; exact hhc
              · refine early_chain_at_frame _ sh _ _ _ hchain
                  (fun q hq => hheap_old q (by omega)) ?_
                rw [hvars.1]
                exact hrel1.old_vars cvj hcvj
            · rw [List.mem_singleton] at h
              exact absurd h hji
        · intro q h1 h2 c hq
          rw [hnn] at h2
          by_cases hqo : q < sh.next
          · rw [hheap_old q hqo] at hq
            obtain ⟨j, hj, hjb, hc', hcc⟩ := hnew q h1 hqo c hq
            refine ⟨j, List.mem_append_left _ hj, hjb, hc', ?_⟩
            rw [hheap_old (q - 1) (by omega)]
            exact hcc
          · have hqj : q = sh1.next + (q - sh1.next) := by rw [g2]; omega
            have hq' := hq
            rw [hS, hqj, io_emit_heap_new sh1 cursor hc1 _ (q - sh1.next)
              (by rw [early_store_group_length, g2]; omega)] at hq'
            have hj := early_store_group_cases intr _ _ _ path value i (q - sh1.next)
              (by rw [g2]; omega) c hq'
            have hq2 : q = sh.next + path.length + 2 := by rw [g2] at hj; omega
            rw [hq2, hS_store] at hq
            injection hq with hq
            refine ⟨i, List.mem_append_right _ (List.mem_singleton.2 rfl), hbit, ?_, ?_⟩
            · rw [← hq, hq2]
              have e1' : sh.next + path.length + 2 - 2 = sh.next + path.length := by omega
              have e2' : sh.next + path.length + 2 - 1 = sh.next + path.length + 1 := by omega
              rw [e1', e2']
            · have e2' : q - 1 = sh.next + path.length + 1 := by omega
              rw [e2']
              exact hS_chan

theorem store_early_spec (fuel : Nat) (s : early_state) (instr : Nat)
    (intr : nir_intrinsic_instr) (var : Nat) (path : List Nat)
    (hc : instr < s.shader.next)
    (h_path : io_deref_path fuel s.shader s.shader.next (intr.src.getD 0 0) = some path)
    (h_varlt : var < s.shader.next_var)
    (h_frac : (s.shader.vars var).location_frac + intr.num_components ≤ 4)
    (h_tab : ∀ arr, io_table_search s.split_outputs var = some arr → arr.length = 4)
    (h_vals : ∀ k cv, io_slot s.split_outputs var k = some cv → cv < s.shader.next_var) :
    ∃ t, lower_store_output_to_scalar_early fuel s instr intr var = some t ∧
      t.split_inputs = s.split_inputs ∧
      t.rewritten = s.rewritten ++ [(instr, var)] ∧
      ChanRel var (s.shader, get_channel_variables s.split_outputs var)
        (t.shader, t.split_outputs) ∧
      (∀ k cv, io_slot t.split_outputs var k = some cv → cv < t.shader.next_var) ∧
      EarlyInstrStep instr s.shader t.shader ∧
      t.shader.if_uses = s.shader.if_uses ∧
      (∀ p, p < s.shader.next → t.shader.heap p = s.shader.heap p) ∧
      (∀ i, i < intr.num_components → ¬ intr.write_mask &&& (1 <<< i) = 0 → ∃ cv a,
        io_slot t.split_outputs var ((s.shader.vars var).location_frac + i) = some cv ∧
        s.shader.next + path.length + 2 ≤ a ∧ a < t.shader.next ∧
        t.shader.heap a = .intrinsic (store_early_chan intr (a - 2) (a - 1)) ∧
        t.shader.heap (a - 1) = .channel (intr.src.getD 1 0) i ∧
        EarlyChainAt path.length t.shader (a - 2) cv) ∧
      (∀ q, s.shader.next ≤ q → q < t.shader.next → ∀ c, t.shader.heap q = .intrinsic c →
        ∃ i, i < intr.num_components ∧ ¬ intr.write_mask &&& (1 <<< i) = 0 ∧
          c = store_early_chan intr (q - 2) (q - 1) ∧
          t.shader.heap (q - 1) = .channel (intr.src.getD 1 0) i) := by
  have hlen := get_channel_variables_length s.split_outputs var h_tab
  obtain ⟨sh, ht, l, hrun, hrel, hv, hsame, hscal, hch, hnew⟩ :=
    store_early_loop fuel intr instr var (intr.src.getD 1 0) s.shader
      (get_channel_variables s.split_outputs var) path _ hc h_path h_varlt
      (get_channel_variables_search s.split_outputs var)
      (fun k cv h => h_vals k cv (get_channel_variables_slot s.split_outputs var k cv h))
      (List.range intr.num_components)
      (fun i hi => by rw [hlen]; have := List.mem_range.1 hi; omega)
  obtain ⟨e1, e2, e3, e4, e5⟩ := hsame
  have hn : sh.next = s.shader.next + l.length := by rw [e2, io_emit_next]
  have hvars0 := io_emit_vars s.shader instr l
  refine ⟨⟨io_instr_remove sh instr, s.split_inputs, ht, s.rewritten ++ [(instr, var)]⟩,
    ?_, rfl, rfl, ?_, hv, ?_, ?_, ?_, ?_, ?_⟩
  · unfold lower_store_output_to_scalar_early
    simp only [nir_ssa_for_src, hrun]
  · exact chan_rel_congr var _ (sh, ht) _ hrel rfl rfl rfl
  · refine ⟨by show s.shader.next ≤ sh.next; omega, ?_, ?_, ?_, ?_⟩
    · show (io_instr_remove sh instr).functions = io_splice_all instr
        (List.range' s.shader.next (sh.next - s.shader.next)) s.shader.functions
      rw [remove_functions_eq, e3, io_emit_eq s.shader instr hc]
      simp only
      rw [io_splice_all_splice, io_splice_tail _ _ _ (not_mem_range' instr _ _ hc),
        List.append_nil, hn, Nat.add_sub_cancel_left]
    · intro q hq1 hq2 c hcq
      have hq2' : q < sh.next := hq2
      have hcq' : sh.heap q = .intrinsic c := hcq
      rw [e1] at hcq'
      have hqj : q = s.shader.next + (q - s.shader.next) := by omega
      rw [hqj, io_emit_heap_new s.shader instr hc l _ (by omega)] at hcq'
      have hm : l.getD (q - s.shader.next) (.other []) ∈ l := by
        rw [List.getD_eq_getElem?_getD, List.getElem?_eq_getElem (by omega)]
        exact List.getElem_mem _
      exact hscal _ hm c hcq'
    · intro p hp
      left
      show sh.heap p = s.shader.heap p
      rw [e1, io_emit_heap_old s.shader instr hc l p hp]
    · show sh.stage = s.shader.stage
      rw [e5, hvars0.2.2.2.2]
  · show sh.if_uses = s.shader.if_uses
    rw [e4, hvars0.2.2.2.1]
  · intro p hp
    show sh.heap p = s.shader.heap p
    rw [e1, io_emit_heap_old s.shader instr hc l p hp]
  · intro i hi hb
    exact hch i (List.mem_range.2 hi) hb
  · intro q hq1 hq2 c hcq
    obtain ⟨i, hi, r⟩ := hnew q hq1 hq2 c hcq
    exact ⟨i, List.mem_range.1 hi, r⟩

/-- C18: for a store_deref with N components (any N with `location_frac + N` at
most 4), write mask m and value v to the variable `var`,
`lower_store_output_to_scalar_early` returns; the store is replaced in its block
by the new instructions and is linked nowhere; for every channel i < N whose bit
of m is set there is a new single-component store_deref with write mask 1 whose
first source is a new deref with root variable the channel variable in slot
`location_frac + i`, which was there before or is a new clone of the variable for
channel i, and whose second source is a move of lane i of v; every new intrinsic
is such a store for a channel whose bit is set, so that nothing is stored for a
channel whose bit is clear; older instructions are as they were. -/
theorem C18_store_deref_scalarized (fuel : Nat) (s : early_state) (instr : Nat)
    (intr : nir_intrinsic_instr) (var : Nat) (path : List Nat)
    (h_op : intr.intrinsic = .store_deref)
    (h_path : io_deref_path fuel s.shader s.shader.next (intr.src.getD 0 0) = some path)
    (h_wf : ∀ p ∈ io_instrs s.shader.functions, p < s.shader.next)
    (h_in : instr ∈ io_instrs s.shader.functions)
    (h_varlt : var < s.shader.next_var)
    (h_frac : (s.shader.vars var).location_frac + intr.num_components ≤ 4)
    (h_tab : ∀ arr, io_table_search s.split_outputs var = some arr → arr.length = 4)
    (h_vals : ∀ k cv, io_slot s.split_outputs var k = some cv → cv < s.shader.next_var) :
    ∃ t, lower_store_output_to_scalar_early fuel s instr intr var = some t ∧
      t.shader.functions
        = io_splice_all instr (List.range' s.shader.next (t.shader.next - s.shader.next))
            s.shader.functions ∧
      instr ∉ io_instrs t.shader.functions ∧
      (∀ i, i < intr.num_components → intr.write_mask &&& (1 <<< i) ≠ 0 → ∃ cv a chan,
        io_slot t.split_outputs var ((s.shader.vars var).location_frac + i) = some cv ∧
        (io_slot s.split_outputs var ((s.shader.vars var).location_frac + i) = some cv ∨
          (s.shader.next_var ≤ cv ∧ cv < t.shader.next_var ∧
            t.shader.vars cv = io_chan_clone (s.shader.vars var) i)) ∧
        s.shader.next ≤ a ∧ a < t.shader.next ∧
        t.shader.heap a = .intrinsic chan ∧
        chan.intrinsic = .store_deref ∧ chan.num_components = 1 ∧ chan.write_mask = 1 ∧
        s.shader.next ≤ chan.src.getD 0 0 ∧
        nir_deref_instr_get_variable (path.length + 1) t.shader (chan.src.getD 0 0)
          = some cv ∧
        t.shader.heap (chan.src.getD 1 0) = .channel (intr.src.getD 1 0) i) ∧
      (∀ q, s.shader.next ≤ q → q < t.shader.next → ∀ c, t.shader.heap q = .intrinsic c →
        ∃ i, i < intr.num_components ∧ intr.write_mask &&& (1 <<< i) ≠ 0 ∧
          c.intrinsic = .store_deref ∧
          t.shader.heap (c.src.getD 1 0) = .channel (intr.src.getD 1 0) i) ∧
      (∀ p, p < s.shader.next → t.shader.heap p = s.shader.heap p) := by
  have hc : instr < s.shader.next := h_wf instr h_in
  obtain ⟨t, ht, _, _, hrel, hv, hstep, _, hold, hch, hnew⟩ :=
    store_early_spec fuel s instr intr var path hc h_path h_varlt h_frac h_tab h_vals
  refine ⟨t, ht, hstep.functions, ?_, ?_, ?_, hold⟩
  · rw [hstep.functions]
    intro hm
    rcases mem_io_instrs_splice_inv _ _ _ _ hm with ⟨h1, _⟩ | ⟨h1, _⟩
    · exact h1 rfl
    · exact not_mem_range' instr _ _ hc h1
  · intro i hi hb
    obtain ⟨cv, a, c1, c2, c3, c4, c5, c6⟩ := hch i hi hb
    refine ⟨cv, a, store_early_chan intr (a - 2) (a - 1), c1, ?_, by omega, c3, c4, h_op,
      rfl, rfl, ?_, ?_, c5⟩
    · rcases hrel.created _ cv c1 with h | ⟨h1, h2, _, h4⟩
      · exact Or.inl (get_channel_variables_slot s.split_outputs var _ cv h)
      · refine Or.inr ⟨h1, h2, ?_⟩
        rw [h4]
        simp only [Nat.add_sub_cancel_left]
    · show s.shader.next ≤ a - 2
      have := c6.1
      omega
    · exact early_chain_get_variable path.length t.shader cv _ c6
  · intro q hq1 hq2 c hcq
    obtain ⟨i, hi, hb, hce, hcc⟩ := hnew q hq1 hq2 c hcq
    refine ⟨i, hi, hb, by rw [hce]; exact h_op, ?_⟩
    rw [hce]
    exact hcc

/-- Witness of C18: the four-component store with write mask 0b1011 at address 6
of `ex_early_shader` to the output variable 0. -/
theorem C18_store_deref_scalarized_witness :
    ∃ t, lower_store_output_to_scalar_early 4 ex_early_state 6
        ⟨.store_deref, 4, 0, 0, 0, 11, [4, 5]⟩ 0 = some t ∧
      t.shader.functions
        = io_splice_all 6 (List.range' 10 (t.shader.next - 10)) ex_early_shader.functions ∧
      6 ∉ io_instrs t.shader.functions ∧
      (∀ i, i < 4 → 11 &&& (1 <<< i) ≠ 0 → ∃ cv a chan,
        io_slot t.split_outputs 0 (0 + i) = some cv ∧
        (io_slot [] 0 (0 + i) = some cv ∨
          (3 ≤ cv ∧ cv < t.shader.next_var ∧
            t.shader.vars cv = io_chan_clone (ex_early_vars 0) i)) ∧
        10 ≤ a ∧ a < t.shader.next ∧
        t.shader.heap a = .intrinsic chan ∧
        chan.intrinsic = .store_deref ∧ chan.num_components = 1 ∧ chan.write_mask = 1 ∧
        10 ≤ chan.src.getD 0 0 ∧
        nir_deref_instr_get_variable 1 t.shader (chan.src.getD 0 0) = some cv ∧
        t.shader.heap (chan.src.getD 1 0) = .channel 5 i) ∧
      (∀ q, 10 ≤ q → q < t.shader.next → ∀ c, t.shader.heap q = .intrinsic c →
        ∃ i, i < 4 ∧ 11 &&& (1 <<< i) ≠ 0 ∧ c.intrinsic = .store_deref ∧
          t.shader.heap (c.src.getD 1 0) = .channel 5 i) ∧
      (∀ p, p < 10 → t.shader.heap p = ex_early_heap p) :=
  C18_store_deref_scalarized 4 ex_early_state 6 ⟨.store_deref, 4, 0, 0, 0, 11, [4, 5]⟩ 0 []
    rfl rfl (by decide) (by decide) (by decide) (by decide)
    (by intro arr h; simp [ex_early_state, io_table_search] at h)
    (by intro k cv h; simp [ex_early_state, io_slot, io_table_search] at h)

/-! ## Lemmas: deref chains -/

theorem io_deref_at_eq (sh : io_shader) (d : Nat) (dr : nir_deref_instr) :
    io_deref_at sh d = some dr ↔ sh.heap d = .deref dr := by
  unfold io_deref_at
  cases h : sh.heap d <;> simp

theorem io_is_deref_eq (x : io_instr) : io_is_deref x = true ↔ ∃ dr, x = .deref dr := by
  cases x <;> simp [io_is_deref]

theorem io_deref_root_path (fuel : Nat) (sh : io_shader) (bound : Nat) :
    ∀ d var, io_deref_root fuel sh bound d = some var →
      (∃ path, io_deref_path fuel sh bound d = some path) ∧
      nir_deref_instr_get_variable fuel sh d = some var ∧
      ∃ dr, sh.heap d = .deref dr := by
  induction fuel with
  | zero => intro d var h; cases h
  | succ fuel ih =>
      intro d var h
      unfold io_deref_root at h
      unfold io_deref_path nir_deref_instr_get_variable
      by_cases hb : d < bound
      · rw [if_pos hb] at h
        rw [if_pos hb]
        cases hda : io_deref_at sh d with
        | none => rw [hda] at h; cases h
        | some dr =>
            rw [hda] at h
            have hd := (io_deref_at_eq sh d dr).1 hda
            rw [hd]
            simp only at h ⊢
            by_cases hv : dr.deref_type = .var
            · rw [if_pos hv] at h
              rw [if_pos hv, if_pos hv]
              exact ⟨⟨[], rfl⟩, h, dr, rfl⟩
            · rw [if_neg hv] at h
              rw [if_neg hv, if_neg hv]
              by_cases hc : dr.parent < bound ∧ io_is_deref (sh.heap dr.parent) = true ∧
                  dr.deref_type = .array
              · rw [if_pos hc] at h
                obtain ⟨hpb, hpd, ha⟩ := hc
                obtain ⟨pr, hp⟩ := (io_is_deref_eq _).1 hpd
                rw [if_pos hpb, hp]
                simp only
                obtain ⟨⟨path, hpath⟩, hvar, _⟩ := ih dr.parent var h
                have hcast : ¬ dr.deref_type = .cast := by rw [ha]; decide
                rw [if_pos ha, if_neg hcast]
                exact ⟨⟨path ++ [dr.index], by rw [hpath]; rfl⟩, hvar, dr, rfl⟩
              · rw [if_neg hc] at h
                cases h
      · rw [if_neg hb] at h
        cases h

theorem io_deref_path_mono (fuel : Nat) (sh : io_shader) (b b' : Nat) (hbb : b ≤ b') :
    ∀ d path, io_deref_path fuel sh b d = some path →
      io_deref_path fuel sh b' d = some path := by
  induction fuel with
  | zero => intro d path h; cases h
  | succ fuel ih =>
      intro d path h
      unfold io_deref_path at h ⊢
      by_cases hb : d < b
      · rw [if_pos hb] at h
        rw [if_pos (by omega : d < b')]
        cases hd : sh.heap d with
        | deref dr =>
            rw [hd] at h
            simp only at h ⊢
            by_cases hv : dr.deref_type = .var
            · rw [if_pos hv] at h
              rw [if_pos hv]
              exact h
            · rw [if_neg hv] at h
              rw [if_neg hv]
              by_cases hpb : dr.parent < b
              · rw [if_pos hpb] at h
                rw [if_pos (by omega : dr.parent < b')]
                cases hp : sh.heap dr.parent with
                | deref pr =>
                    rw [hp] at h
                    simp only at h ⊢
                    by_cases ha : dr.deref_type = .array
                    · rw [if_pos ha] at h
                      rw [if_pos ha]
                      cases hq : io_deref_path fuel sh b dr.parent with
                      | none => rw [hq] at h; cases h
                      | some p' =>
                          rw [hq] at h
                          rw [ih dr.parent p' hq]
                          exact h
                    · rw [if_neg ha] at h
                      cases h
                | intrinsic i => rw [hp] at h; cases h
                | vec c => rw [hp] at h; cases h
                | channel v c => rw [hp] at h; cases h
                | other srcs => rw [hp] at h; cases h
              · rw [if_neg hpb] at h
                cases h
        | intrinsic i => rw [hd] at h; cases h
        | vec c => rw [hd] at h; cases h
        | channel v c => rw [hd] at h; cases h
        | other srcs => rw [hd] at h; cases h
      · rw [if_neg hb] at h
        cases h

theorem io_is_deref_rewrite (d v : Nat) (x : io_instr) :
    io_is_deref (io_rewrite_src d v x) = io_is_deref x := by
  cases x <;> rfl

theorem io_deref_at_step (instr n0 : Nat) (sh0 sh : io_shader)
    (hold : ∀ p, p < n0 → sh.heap p = sh0.heap p ∨
      ∃ v, n0 ≤ v ∧ sh.heap p = io_rewrite_src instr v (sh0.heap p))
    (p : Nat) (hp : p < n0) :
    io_is_deref (sh.heap p) = io_is_deref (sh0.heap p) ∧
    (io_deref_at sh0 p = none → io_deref_at sh p = none) ∧
    (∀ dr, io_deref_at sh0 p = some dr → ∃ dr', io_deref_at sh p = some dr' ∧
      dr'.deref_type = dr.deref_type ∧ dr'.var = dr.var ∧ dr'.mode = dr.mode ∧
      (dr'.parent = dr.parent ∨ (dr.parent = instr ∧ n0 ≤ dr'.parent))) := by
  rcases hold p hp with e | ⟨v, hv, e⟩
  · refine ⟨by rw [e], ?_, ?_⟩
    · intro h
      unfold io_deref_at at h ⊢
      rw [e]; exact h
    · intro dr h
      refine ⟨dr, ?_, rfl, rfl, rfl, Or.inl rfl⟩
      unfold io_deref_at at h ⊢
      rw [e]; exact h
  · refine ⟨by rw [e, io_is_deref_rewrite], ?_, ?_⟩
    · intro h
      unfold io_deref_at at h ⊢
      rw [e]
      cases hx : sh0.heap p <;> rw [hx] at h <;> first | rfl | cases h
    · intro dr h
      have hx := (io_deref_at_eq sh0 p dr).1 h
      unfold io_deref_at
      rw [e, hx]
      simp only [io_rewrite_src]
      refine ⟨_, rfl, rfl, rfl, rfl, ?_⟩
      simp only
      by_cases hvar : dr.deref_type = .var
      · left; rw [if_pos hvar]
      · rw [if_neg hvar]
        unfold io_rewrite_slot
        by_cases hpi : dr.parent = instr
        · right; rw [if_pos hpi]; exact ⟨hpi, hv⟩
        · left; rw [if_neg hpi]

theorem io_deref_root_step (fuel instr n0 bound : Nat) (sh0 sh : io_shader)
    (hold : ∀ p, p < n0 → sh.heap p = sh0.heap p ∨
      ∃ v, n0 ≤ v ∧ sh.heap p = io_rewrite_src instr v (sh0.heap p))
    (hb : bound ≤ n0) (hinstr : io_is_deref (sh0.heap instr) = false) :
    ∀ d, io_deref_root fuel sh bound d = io_deref_root fuel sh0 bound d := by
  induction fuel with
  | zero => intro d; rfl
  | succ fuel ih =>
      intro d
      unfold io_deref_root
      by_cases hd : d < bound
      · rw [if_pos hd, if_pos hd]
        obtain ⟨_, hnone, hsome⟩ := io_deref_at_step instr n0 sh0 sh hold d (by omega)
        cases h0 : io_deref_at sh0 d with
        | none => rw [hnone h0]
        | some dr =>
            obtain ⟨dr', h1, h2, h3, _, h5⟩ := hsome dr h0
            rw [h1]
            simp only [h2, h3]
            by_cases hvar : dr.deref_type = .var
            · rw [if_pos hvar, if_pos hvar]
            · rw [if_neg hvar, if_neg hvar]
              rcases h5 with h5 | ⟨h5, h6⟩
              · rw [h5]
                by_cases hpb : dr.parent < bound
                · rw [(io_deref_at_step instr n0 sh0 sh hold dr.parent (by omega)).1,
                    ih dr.parent]
                · have c1 : ¬ (dr.parent < bound ∧ io_is_deref (sh.heap dr.parent) = true ∧
                      dr.deref_type = .array) := fun h => hpb h.1
                  have c2 : ¬ (dr.parent < bound ∧ io_is_deref (sh0.heap dr.parent) = true ∧
                      dr.deref_type = .array) := fun h => hpb h.1
                  rw [if_neg c1, if_neg c2]
              · have c1 : ¬ (dr'.parent < bound ∧ io_is_deref (sh.heap dr'.parent) = true ∧
                    dr.deref_type = .array) := fun h => by omega
                have c2 : ¬ (dr.parent < bound ∧ io_is_deref (sh0.heap dr.parent) = true ∧
                    dr.deref_type = .array) := fun h => by
                  rw [h5, hinstr] at h
                  exact absurd h.2.1 (by decide)
                rw [if_neg c1, if_neg c2]
      · rw [if_neg hd, if_neg hd]

theorem io_deref_mode_step (instr n0 : Nat) (sh0 sh : io_shader)
    (hold : ∀ p, p < n0 → sh.heap p = sh0.heap p ∨
      ∃ v, n0 ≤ v ∧ sh.heap p = io_rewrite_src instr v (sh0.heap p))
    (d : Nat) (hd : d < n0) : io_deref_mode sh d = io_deref_mode sh0 d := by
  unfold io_deref_mode
  rcases hold d hd with e | ⟨v, _, e⟩
  · rw [e]
  · rw [e]
    cases sh0.heap d <;> rfl

/-! ## Lemmas: the tables along a run of the early scalarizer -/

theorem io_slot_congr (ht ht' : List (Nat × List (Option Nat))) (v : Nat)
    (h : io_table_search ht' v = io_table_search ht v) (k : Nat) :
    io_slot ht' v k = io_slot ht v k := by
  unfold io_slot
  rw [h]

theorem io_slot_is_key (ht : List (Nat × List (Option Nat))) (v k cv : Nat)
    (h : io_slot ht v k = some cv) : io_is_key ht v := by
  unfold io_slot at h
  unfold io_is_key
  cases hs : io_table_search ht v with
  | none => rw [hs] at h; cases h
  | some arr => rfl

theorem get_channel_variables_slot_old (ht : List (Nat × List (Option Nat))) (var k cv : Nat)
    (h : io_slot ht var k = some cv) :
    io_slot (get_channel_variables ht var) var k = some cv := by
  unfold io_slot at h ⊢
  rw [get_channel_variables_search]
  cases hs : io_table_search ht var with
  | none => rw [hs] at h; cases h
  | some arr =>
      rw [hs] at h
      exact h

theorem table_step (var nv0 : Nat) (sh sh' : io_shader)
    (ht ht' : List (Nat × List (Option Nat)))
    (hrel : ChanRel var (sh, get_channel_variables ht var) (sh', ht'))
    (hok : io_table_ok nv0 sh ht) (hvar : var < nv0) (hnv : nv0 ≤ sh.next_var) :
    io_table_ok nv0 sh' ht' ∧
    (∀ v, io_is_key ht' v ↔ (io_is_key ht v ∨ v = var)) ∧
    (∀ v k cv, io_slot ht v k = some cv → io_slot ht' v k = some cv) ∧
    (∀ v k cv, io_slot ht' v k = some cv →
      io_slot ht v k = some cv ∨
      (v = var ∧ sh.next_var ≤ cv ∧ cv < sh'.next_var ∧ (sh.vars var).location_frac ≤ k ∧
        sh'.vars cv = io_chan_clone (sh.vars var) (k - (sh.vars var).location_frac))) ∧
    (∀ q, sh.next_var ≤ q → q < sh'.next_var →
      ∃ k, io_slot ht' var k = some q ∧ ∀ k', io_slot ht' var k' = some q → k' = k) := by
  have hother : ∀ v, v ≠ var → io_table_search ht' v = io_table_search ht v := by
    intro v hv
    rw [hrel.others v hv]
    exact get_channel_variables_other ht var v hv
  have hlen4 := get_channel_variables_length ht var (fun arr h => (hok.1 var arr h).1)
  obtain ⟨arr', harr', hal⟩ := hrel.lengths _ (get_channel_variables_search ht var)
  have hnvle : sh.next_var ≤ sh'.next_var := hrel.next_var_le
  have hcreated : ∀ v k cv, io_slot ht' v k = some cv →
      io_slot ht v k = some cv ∨
      (v = var ∧ sh.next_var ≤ cv ∧ cv < sh'.next_var ∧ (sh.vars var).location_frac ≤ k ∧
        sh'.vars cv = io_chan_clone (sh.vars var) (k - (sh.vars var).location_frac)) := by
    intro v k cv h
    by_cases hv : v = var
    · subst hv
      rcases hrel.created k cv h with h1 | ⟨h1, h2, h3, h4⟩
      · exact Or.inl (get_channel_variables_slot ht v k cv h1)
      · exact Or.inr ⟨rfl, h1, h2, h3, h4⟩
    · left
      rw [← io_slot_congr ht ht' v (hother v hv) k]
      exact h
  refine ⟨⟨?_, ?_⟩, ?_, ?_, hcreated, ?_⟩
  · intro v arr h
    by_cases hv : v = var
    · subst hv
      rw [harr'] at h
      injection h with h
      subst h
      exact ⟨hal.trans hlen4, hvar⟩
    · rw [hother v hv] at h
      exact hok.1 v arr h
  · intro v k cv h
    rcases hcreated v k cv h with h1 | ⟨_, h2, h3, _, _⟩
    · have := hok.2 v k cv h1
      exact ⟨this.1, by omega⟩
    · exact ⟨by omega, h3⟩
  · intro v
    unfold io_is_key
    by_cases hv : v = var
    · subst hv
      rw [harr']
      simp
    · rw [hother v hv]
      simp [hv]
  · intro v k cv h
    by_cases hv : v = var
    · subst hv
      exact hrel.persist k cv (get_channel_variables_slot_old ht v k cv h)
    · rw [io_slot_congr ht ht' v (hother v hv) k]
      exact h
  · intro q h1 h2
    exact hrel.fresh_once q h1 h2

theorem io_access_ok_scalar (E : IoEnv) (fuel : Nat) (sh : io_shader) (bound nv : Nat)
    (x : io_instr) (h : ∀ i, x = .intrinsic i → i.num_components = 1) :
    io_access_ok E fuel sh bound nv x = true := by
  cases x with
  | intrinsic i => simp [io_access_ok, h i rfl]
  | deref d => rfl
  | vec c => rfl
  | channel v c => rfl
  | other srcs => rfl

theorem getD_map_rewrite_slot (d v : Nat) (src : List Nat) (h : src.getD 0 0 ≠ d) :
    (src.map (io_rewrite_slot d v)).getD 0 0 = src.getD 0 0 := by
  cases src with
  | nil => rfl
  | cons x xs =>
      have hx : x ≠ d := h
      simp [io_rewrite_slot, hx]

theorem io_deref_root_lt (fuel : Nat) (sh : io_shader) (bound d var : Nat)
    (h : io_deref_root fuel sh bound d = some var) : d < bound := by
  by_contra hc
  cases fuel with
  | zero => cases h
  | succ f =>
      unfold io_deref_root at h
      rw [if_neg hc] at h
      cases h

theorem io_access_ok_intrinsic (E : IoEnv) (fuel : Nat) (sh : io_shader) (bound nv : Nat)
    (i : nir_intrinsic_instr) (h1 : i.num_components ≠ 1)
    (h2 : io_is_deref_op i.intrinsic = true) :
    io_access_ok E fuel sh bound nv (.intrinsic i) = true ↔
      ∃ var, io_deref_root fuel sh bound (i.src.getD 0 0) = some var ∧ var < nv ∧
        (sh.vars var).location_frac + i.num_components ≤ 4 ∧
        i.num_components ≤ E.NIR_MAX_VEC_COMPONENTS ∧
        io_deref_mode sh (i.src.getD 0 0) = (sh.vars var).mode := by
  unfold io_access_ok
  simp only [h1, decide_False, h2, Bool.not_true, Bool.or_self, Bool.false_or]
  cases hroot : io_deref_root fuel sh bound (i.src.getD 0 0) with
  | none => simp
  | some var =>
      simp only [Bool.and_eq_true, decide_eq_true_eq, Option.some.injEq, exists_eq_left']
      constructor
      · rintro ⟨⟨⟨k1, k2⟩, k3⟩, k4⟩
        exact ⟨k1, k2, k3, k4⟩
      · rintro ⟨k1, k2, k3, k4⟩
        exact ⟨⟨⟨k1, k2⟩, k3⟩, k4⟩

theorem io_access_ok_step (E : IoEnv) (fuel instr bound nv : Nat) (sh0 sh : io_shader)
    (hold : ∀ p, p < sh0.next → sh.heap p = sh0.heap p ∨
      ∃ v, sh0.next ≤ v ∧ sh.heap p = io_rewrite_src instr v (sh0.heap p))
    (hb : bound ≤ sh0.next) (hinstr : io_is_deref (sh0.heap instr) = false)
    (hvars : ∀ q, q < nv → sh.vars q = sh0.vars q)
    (x x' : io_instr) (hx : x' = x ∨ ∃ v, x' = io_rewrite_src instr v x)
    (hok : io_access_ok E fuel sh0 bound nv x = true) :
    io_access_ok E fuel sh bound nv x' = true := by
  cases x with
  | intrinsic i =>
      by_cases h1 : i.num_components = 1
      · apply io_access_ok_scalar
        intro j hj
        rcases hx with e | ⟨v, e⟩
        · rw [e] at hj; injection hj with hj; rw [← hj]; exact h1
        · rw [e] at hj
          obtain ⟨k, hk, e1, _⟩ := io_rewrite_intrinsic _ _ _ _ hj
          injection hk with hk
          rw [e1, ← hk]; exact h1
      · by_cases h2 : io_is_deref_op i.intrinsic = true
        · obtain ⟨var, hroot, k1, k2, k3, k4⟩ :=
            (io_access_ok_intrinsic E fuel sh0 bound nv i h1 h2).1 hok
          obtain ⟨_, _, dr, hdr⟩ := io_deref_root_path fuel sh0 bound _ var hroot
          have hsrc_lt := io_deref_root_lt fuel sh0 bound _ var hroot
          have hne : i.src.getD 0 0 ≠ instr := by
            intro e
            rw [e] at hdr
            rw [hdr] at hinstr
            cases hinstr
          have hkey : ∀ i' : nir_intrinsic_instr, i'.num_components = i.num_components →
              i'.intrinsic = i.intrinsic → i'.src.getD 0 0 = i.src.getD 0 0 →
              io_access_ok E fuel sh bound nv (.intrinsic i') = true := by
            intro i' e1 e2 e3
            rw [io_access_ok_intrinsic E fuel sh bound nv i' (by rw [e1]; exact h1)
              (by rw [e2]; exact h2)]
            refine ⟨var, ?_, k1, ?_, by rw [e1]; exact k3, ?_⟩
            · rw [e3, io_deref_root_step fuel instr sh0.next bound sh0 sh hold hb hinstr]
              exact hroot
            · rw [hvars var k1, e1]; exact k2
            · rw [e3, io_deref_mode_step instr sh0.next sh0 sh hold _ (by omega), hvars var k1]
              exact k4
          rcases hx with e | ⟨v, e⟩
          · rw [e]; exact hkey i rfl rfl rfl
          · rw [e]
            exact hkey _ rfl rfl (getD_map_rewrite_slot instr v i.src hne)
        · have : ∀ x'' : io_instr, (∀ j, x'' = .intrinsic j → j.intrinsic = i.intrinsic) →
              io_access_ok E fuel sh bound nv x'' = true := by
            intro x'' hx''
            cases x'' with
            | intrinsic j =>
                have := hx'' j rfl
                simp [io_access_ok, this, h2]
            | deref d => rfl
            | vec c => rfl
            | channel v c => rfl
            | other srcs => rfl
          apply this
          intro j hj
          rcases hx with e | ⟨v, e⟩
          · rw [e] at hj; injection hj with hj; rw [← hj]
          · rw [e] at hj
            obtain ⟨k, hk, _, e2⟩ := io_rewrite_intrinsic _ _ _ _ hj
            injection hk with hk
            rw [e2, ← hk]
  | deref d =>
      rcases hx with e | ⟨v, e⟩ <;> rw [e] <;> rfl
  | vec c =>
      rcases hx with e | ⟨v, e⟩ <;> rw [e] <;> rfl
  | channel v c =>
      rcases hx with e | ⟨v', e⟩ <;> rw [e] <;> rfl
  | other srcs =>
      rcases hx with e | ⟨v, e⟩ <;> rw [e] <;> rfl

theorem io_table_ok_mono (nv0 : Nat) (sh sh' : io_shader)
    (ht : List (Nat × List (Option Nat))) (h : io_table_ok nv0 sh ht)
    (hle : sh.next_var ≤ sh'.next_var) : io_table_ok nv0 sh' ht :=
  ⟨h.1, fun v k cv hs => ⟨(h.2 v k cv hs).1, Nat.lt_of_lt_of_le (h.2 v k cv hs).2 hle⟩⟩

theorem shadows_step (var nv0 : Nat) (vars0 : Nat → nir_variable) (sh sh' : io_shader)
    (T T' U : List (Nat × List (Option Nat)))
    (hrel : ChanRel var (sh, get_channel_variables T var) (sh', T'))
    (hokT : io_table_ok nv0 sh T) (hokU : io_table_ok nv0 sh U)
    (hvar : var < nv0) (hnv : nv0 ≤ sh.next_var)
    (hvars0 : sh.vars var = vars0 var)
    (ih : ∀ q, nv0 ≤ q → q < sh.next_var →
      ∃ v k, (io_slot T v k = some q ∨ io_slot U v k = some q) ∧
        (vars0 v).location_frac ≤ k ∧
        sh.vars q = io_chan_clone (vars0 v) (k - (vars0 v).location_frac) ∧
        ∀ v' k', (io_slot T v' k' = some q ∨ io_slot U v' k' = some q) → v' = v ∧ k' = k) :
    ∀ q, nv0 ≤ q → q < sh'.next_var →
      ∃ v k, (io_slot T' v k = some q ∨ io_slot U v k = some q) ∧
        (vars0 v).location_frac ≤ k ∧
        sh'.vars q = io_chan_clone (vars0 v) (k - (vars0 v).location_frac) ∧
        ∀ v' k', (io_slot T' v' k' = some q ∨ io_slot U v' k' = some q) →
          v' = v ∧ k' = k := by
  obtain ⟨_, _, hpersist, hcreated, hfresh⟩ := table_step var nv0 sh sh' T T' hrel hokT hvar hnv
  intro q hq1 hq2
  by_cases hq : q < sh.next_var
  · obtain ⟨v, k, hslot, hfr, hcl, huniq⟩ := ih q hq1 hq
    refine ⟨v, k, ?_, hfr, ?_, ?_⟩
    · rcases hslot with h | h
      · exact Or.inl (hpersist v k q h)
      · exact Or.inr h
    · rw [hrel.old_vars q hq]
      exact hcl
    · intro v' k' h'
      rcases h' with h' | h'
      · rcases hcreated v' k' q h' with h1 | ⟨_, h2, _⟩
        · exact huniq v' k' (Or.inl h1)
        · omega
      · exact huniq v' k' (Or.inr h')
  · obtain ⟨k, hk, hkuniq⟩ := hfresh q (by omega) hq2
    rcases hcreated var k q hk with h1 | ⟨_, _, _, h4, h5⟩
    · have := (hokT.2 var k q h1).2
      omega
    · refine ⟨var, k, Or.inl hk, by rw [← hvars0]; exact h4, by rw [← hvars0]; exact h5, ?_⟩
      intro v' k' h'
      rcases h' with h' | h'
      · rcases hcreated v' k' q h' with h1 | ⟨h2, _⟩
        · have := (hokT.2 v' k' q h1).2
          omega
        · subst h2
          exact ⟨rfl, hkuniq k' h'⟩
      · have := (hokU.2 v' k' q h').2
        omega

theorem early_inv_linked (E : IoEnv) (fuel : Nat) (s0 : io_shader) (s t : early_state)
    (instr : Nat) (hs : EarlyInv E fuel s0 s)
    (hi : EarlyInstrStep instr s.shader t.shader)
    (hvars : ∀ q, q < s0.next_var → t.shader.vars q = s.shader.vars q)
    (hinstr : io_is_deref (s.shader.heap instr) = false) :
    ∀ p ∈ io_instrs t.shader.functions, p < t.shader.next ∧
      io_access_ok E fuel t.shader s0.next s0.next_var (t.shader.heap p) = true := by
  intro p hp
  rw [hi.functions] at hp
  have hle := hi.next_le
  have hold : ∀ p, p < s.shader.next → t.shader.heap p = s.shader.heap p ∨
      ∃ v, s.shader.next ≤ v ∧ t.shader.heap p = io_rewrite_src instr v (s.shader.heap p) := by
    intro p hp
    rcases hi.old p hp with h | ⟨v, h1, _, h3⟩
    · exact Or.inl h
    · exact Or.inr ⟨v, h1, h3⟩
  rcases mem_io_instrs_splice_inv _ _ _ _ hp with ⟨_, h⟩ | ⟨h, _⟩
  · obtain ⟨h1, h2⟩ := hs.linked p h
    refine ⟨by omega, ?_⟩
    refine io_access_ok_step E fuel instr s0.next s0.next_var s.shader t.shader hold
      hs.next_le hinstr hvars (s.shader.heap p) (t.shader.heap p) ?_ h2
    rcases hold p h1 with h | ⟨v, _, h⟩
    · exact Or.inl h
    · exact Or.inr ⟨v, h⟩
  · rw [List.mem_range'_1] at h
    refine ⟨by omega, ?_⟩
    exact io_access_ok_scalar E fuel t.shader s0.next s0.next_var _
      (fun i hi' => hi.fresh p h.1 (by omega) i hi')

theorem var_list_step (l0 : List Nat) (n0 n1 n2 : Nat) (l1 l2 : List Nat)
    (h01 : n0 ≤ n1) (h12 : n1 ≤ n2)
    (h1 : l1 = l0 ++ List.range' n0 (n1 - n0))
    (h2 : l2 = l1 ++ List.range' n1 (n2 - n1)) :
    l2 = l0 ++ List.range' n0 (n2 - n0) := by
  rw [h2, h1, List.append_assoc]
  congr 1
  have e1 : n1 = n0 + 1 * (n1 - n0) := by omega
  have e2 : n2 - n0 = (n2 - n1) + (n1 - n0) := by omega
  rw [e2]
  nth_rewrite 2 [e1]
  exact List.range'_append n0 (n1 - n0) (n2 - n1) 1

theorem early_inv_step_in (E : IoEnv) (fuel : Nat) (s0 : io_shader) (s t : early_state)
    (instr var : Nat) (hs : EarlyInv E fuel s0 s)
    (hi : EarlyInstrStep instr s.shader t.shader)
    (hlog : t.rewritten = s.rewritten ++ [(instr, var)])
    (hother : t.split_outputs = s.split_outputs)
    (hrel : ChanRel var (s.shader, get_channel_variables s.split_inputs var)
      (t.shader, t.split_inputs))
    (hinstr : io_is_deref (s.shader.heap instr) = false)
    (hvar : var < s0.next_var)
    (helig : io_var_eligible (s0.vars var))
    (hmode : (s0.vars var).mode = E.nir_var_shader_in) :
    EarlyInv E fuel s0 t := by
  have hnv : s.shader.next_var ≤ t.shader.next_var := hrel.next_var_le
  have hov : ∀ q, q < s.shader.next_var → t.shader.vars q = s.shader.vars q := hrel.old_vars
  have hvl : t.shader.var_list = s.shader.var_list ++
      List.range' s.shader.next_var (t.shader.next_var - s.shader.next_var) := hrel.var_list
  have hnv0 := hs.next_var_le
  obtain ⟨hok, hkeys, _, _, _⟩ := table_step var s0.next_var s.shader t.shader
    s.split_inputs t.split_inputs hrel hs.inputs_ok hvar hnv0
  have hkl : ∀ v, (io_is_key t.split_inputs v ∨ io_is_key t.split_outputs v) ↔
      ((io_is_key s.split_inputs v ∨ io_is_key s.split_outputs v) ∨ v = var) := by
    intro v
    rw [hother, hkeys v]
    tauto
  refine ⟨early_inv_linked E fuel s0 s t instr hs hi (fun q hq => hov q (by omega)) hinstr,
    Nat.le_trans hs.next_le hi.next_le, by omega,
    fun q hq => (hov q (by omega)).trans (hs.old_vars q hq), hi.stage.trans hs.stage,
    var_list_step _ _ _ _ _ _ hnv0 hnv hs.var_list hvl, hok, ?_, ?_, ?_, ?_, ?_, ?_⟩
  · rw [hother]
    exact io_table_ok_mono _ _ _ _ hs.outputs_ok hnv
  · intro v hv
    rcases (hkeys v).1 hv with h | h
    · exact hs.in_mode v h
    · rw [h]
      exact hmode
  · rw [hother]
    exact hs.out_mode
  · intro v
    rw [hkl v, hs.keys_log v, hlog]
    constructor
    · rintro (⟨a, ha⟩ | h)
      · exact ⟨a, List.mem_append_left _ ha⟩
      · exact ⟨instr, by rw [h]; simp⟩
    · rintro ⟨a, ha⟩
      rcases List.mem_append.1 ha with h | h
      · exact Or.inl ⟨a, h⟩
      · simp only [List.mem_singleton, Prod.mk.injEq] at h
        exact Or.inr h.2
  · intro v hv
    rcases (hkl v).1 hv with h | h
    · exact hs.eligible v h
    · rw [h]
      exact helig
  · rw [hother]
    exact shadows_step var s0.next_var s0.vars s.shader t.shader s.split_inputs t.split_inputs
      s.split_outputs hrel hs.inputs_ok hs.outputs_ok hvar hnv0 (hs.old_vars var hvar) hs.shadows

theorem early_inv_step_out (E : IoEnv) (fuel : Nat) (s0 : io_shader) (s t : early_state)
    (instr var : Nat) (hs : EarlyInv E fuel s0 s)
    (hi : EarlyInstrStep instr s.shader t.shader)
    (hlog : t.rewritten = s.rewritten ++ [(instr, var)])
    (hother : t.split_inputs = s.split_inputs)
    (hrel : ChanRel var (s.shader, get_channel_variables s.split_outputs var)
      (t.shader, t.split_outputs))
    (hinstr : io_is_deref (s.shader.heap instr) = false)
    (hvar : var < s0.next_var)
    (helig : io_var_eligible (s0.vars var))
    (hmode : (s0.vars var).mode ≠ E.nir_var_shader_in) :
    EarlyInv E fuel s0 t := by
  have hnv : s.shader.next_var ≤ t.shader.next_var := hrel.next_var_le
  have hov : ∀ q, q < s.shader.next_var → t.shader.vars q = s.shader.vars q := hrel.old_vars
  have hvl : t.shader.var_list = s.shader.var_list ++
      List.range' s.shader.next_var (t.shader.next_var - s.shader.next_var) := hrel.var_list
  have hnv0 := hs.next_var_le
  obtain ⟨hok, hkeys, _, _, _⟩ := table_step var s0.next_var s.shader t.shader
    s.split_outputs t.split_outputs hrel hs.outputs_ok hvar hnv0
  have hkl : ∀ v, (io_is_key t.split_inputs v ∨ io_is_key t.split_outputs v) ↔
      ((io_is_key s.split_inputs v ∨ io_is_key s.split_outputs v) ∨ v = var) := by
    intro v
    rw [hother, hkeys v]
    tauto
  refine ⟨early_inv_linked E fuel s0 s t instr hs hi (fun q hq => hov q (by omega)) hinstr,
    Nat.le_trans hs.next_le hi.next_le, by omega,
    fun q hq => (hov q (by omega)).trans (hs.old_vars q hq), hi.stage.trans hs.stage,
    var_list_step _ _ _ _ _ _ hnv0 hnv hs.var_list hvl, ?_, hok, ?_, ?_, ?_, ?_, ?_⟩
  · rw [hother]
    exact io_table_ok_mono _ _ _ _ hs.inputs_ok hnv
  · rw [hother]
    exact hs.in_mode
  · intro v hv
    rcases (hkeys v).1 hv with h | h
    · exact hs.out_mode v h
    · rw [h]
      exact hmode
  · intro v
    rw [hkl v, hs.keys_log v, hlog]
    constructor
    · rintro (⟨a, ha⟩ | h)
      · exact ⟨a, List.mem_append_left _ ha⟩
      · exact ⟨instr, by rw [h]; simp⟩
    · rintro ⟨a, ha⟩
      rcases List.mem_append.1 ha with h | h
      · exact Or.inl ⟨a, h⟩
      · simp only [List.mem_singleton, Prod.mk.injEq] at h
        exact Or.inr h.2
  · intro v hv
    rcases (hkl v).1 hv with h | h
    · exact hs.eligible v h
    · rw [h]
      exact helig
  · rw [hother]
    have ih : ∀ q, s0.next_var ≤ q → q < s.shader.next_var →
        ∃ v k, (io_slot s.split_outputs v k = some q ∨ io_slot s.split_inputs v k = some q) ∧
          (s0.vars v).location_frac ≤ k ∧
          s.shader.vars q = io_chan_clone (s0.vars v) (k - (s0.vars v).location_frac) ∧
          ∀ v' k', (io_slot s.split_outputs v' k' = some q ∨
            io_slot s.split_inputs v' k' = some q) → v' = v ∧ k' = k := by
      intro q h1 h2
      obtain ⟨v, k, a, b, c, d⟩ := hs.shadows q h1 h2
      exact ⟨v, k, a.symm, b, c, fun v' k' h => d v' k' h.symm⟩
    intro q h1 h2
    obtain ⟨v, k, a, b, c, d⟩ := shadows_step var s0.next_var s0.vars s.shader t.shader
      s.split_outputs t.split_outputs s.split_inputs hrel hs.outputs_ok hs.inputs_ok hvar hnv0
      (hs.old_vars var hvar) ih q h1 h2
    exact ⟨v, k, a.symm, b, c, fun v' k' h => d v' k' h.symm⟩

theorem early_inv_init (E : IoEnv) (fuel : Nat) (sh : io_shader)
    (hl : ∀ p ∈ io_instrs sh.functions, p < sh.next ∧
      io_access_ok E fuel sh sh.next sh.next_var (sh.heap p) = true) :
    EarlyInv E fuel sh ⟨sh, [], [], []⟩ := by
  refine ⟨hl, Nat.le_refl _, Nat.le_refl _, fun _ _ => rfl, rfl, by simp, ?_, ?_, ?_, ?_, ?_, ?_, ?_⟩
  · exact ⟨fun v arr h => by simp [io_table_search] at h, fun v k cv h => by
      simp [io_slot, io_table_search] at h⟩
  · exact ⟨fun v arr h => by simp [io_table_search] at h, fun v k cv h => by
      simp [io_slot, io_table_search] at h⟩
  · intro v h
    simp [io_is_key, io_table_search] at h
  · intro v h
    simp [io_is_key, io_table_search] at h
  · intro v
    simp [io_is_key, io_table_search]
  · intro v h
    simp [io_is_key, io_table_search] at h
  · intro q h1 h2
    simp only at h2
    omega

theorem io_early_skips_eligible (E : IoEnv) (stage mode : Nat) (v : nir_variable)
    (h : io_early_skips E stage mode v = false) : io_var_eligible v := by
  unfold io_early_skips at h
  simp only [Bool.or_eq_false_iff] at h
  obtain ⟨⟨⟨⟨h1, h2⟩, _⟩, h4⟩, h5, h6⟩ := h
  exact ⟨h1, h4, h2, h5, h6⟩

theorem early_keep_V (E : IoEnv) (fuel : Nat) (s0 : io_shader) (s t : early_state)
    (instr : Nat) (hb : s0.next ≤ s.shader.next)
    (hi : EarlyInstrStep instr s.shader t.shader)
    (hvars : ∀ q, q < s0.next_var → t.shader.vars q = s.shader.vars q)
    (hinstr : io_is_deref (s.shader.heap instr) = false) (x : Nat)
    (hx : x < s.shader.next ∧
      io_access_ok E fuel s.shader s0.next s0.next_var (s.shader.heap x) = true) :
    x < t.shader.next ∧
      io_access_ok E fuel t.shader s0.next s0.next_var (t.shader.heap x) = true := by
  have hle := hi.next_le
  have hold : ∀ p, p < s.shader.next → t.shader.heap p = s.shader.heap p ∨
      ∃ v, s.shader.next ≤ v ∧ t.shader.heap p = io_rewrite_src instr v (s.shader.heap p) := by
    intro p hp
    rcases hi.old p hp with h | ⟨v, h1, _, h3⟩
    · exact Or.inl h
    · exact Or.inr ⟨v, h1, h3⟩
  refine ⟨by omega, ?_⟩
  refine io_access_ok_step E fuel instr s0.next s0.next_var s.shader t.shader hold
    hb hinstr hvars (s.shader.heap x) (t.shader.heap x) ?_ hx.2
  rcases hold x hx.1 with h | ⟨v, _, h⟩
  · exact Or.inl h
  · exact Or.inr ⟨v, h⟩

theorem early_body_load (E : IoEnv) (fuel : Nat) (s0 : io_shader) (s : early_state)
    (instr : Nat) (intr : nir_intrinsic_instr) (var : Nat)
    (hs : EarlyInv E fuel s0 s) (hc : instr < s.shader.next)
    (hheap : s.shader.heap instr = .intrinsic intr)
    (hroot : io_deref_root fuel s.shader s0.next (intr.src.getD 0 0) = some var)
    (hvar : var < s0.next_var)
    (hfrac : (s.shader.vars var).location_frac + intr.num_components ≤ 4)
    (hmax : intr.num_components ≤ E.NIR_MAX_VEC_COMPONENTS)
    (helig : io_var_eligible (s0.vars var)) :
    ∃ t, lower_load_to_scalar_early E fuel s instr intr var = some t ∧
      EarlyInv E fuel s0 t ∧ EarlyInstrStep instr s.shader t.shader ∧
      (∀ q, q < s0.next_var → t.shader.vars q = s.shader.vars q) ∧
      t.rewritten = s.rewritten ++ [(instr, var)] := by
  obtain ⟨⟨path, hpath⟩, _, _⟩ := io_deref_root_path fuel s.shader s0.next _ var hroot
  have hpath' := io_deref_path_mono fuel s.shader s0.next s.shader.next hs.next_le _ path hpath
  have hnv0 := hs.next_var_le
  have hinstr : io_is_deref (s.shader.heap instr) = false := by
    rw [hheap]
    rfl
  have htab : io_table_ok s0.next_var s.shader (early_load_table E s var) := by
    unfold early_load_table
    split
    · exact hs.inputs_ok
    · exact hs.outputs_ok
  obtain ⟨loads, sh, ht, hbody, hrel, _, hstep, _⟩ :=
    load_early_table_spec E fuel intr instr var s.shader (early_load_table E s var) path hc hmax
      hpath' (by omega) hfrac (fun arr h => (htab.1 var arr h).1)
      (fun k cv h => (htab.2 var k cv h).2)
  have hov : ∀ q, q < s.shader.next_var → sh.vars q = s.shader.vars q := hrel.old_vars
  obtain ⟨t, ht1, ht2, _, ht4, ht5⟩ :=
    lower_load_to_scalar_early_eq E fuel s instr intr var sh ht hbody (hov var (by omega))
  have hstep' : EarlyInstrStep instr s.shader t.shader := by
    rw [ht2]
    exact hstep
  have hvv : ∀ q, q < s0.next_var → t.shader.vars q = s.shader.vars q := by
    intro q hq
    rw [ht2]
    exact hov q (by omega)
  refine ⟨t, ht1, ?_, hstep', hvv, ht4⟩
  rcases ht5 with ⟨hm, h1, h2⟩ | ⟨hm, h1, h2⟩
  · refine early_inv_step_in E fuel s0 s t instr var hs hstep' ht4 h2 ?_ hinstr hvar helig ?_
    · rw [ht2, h1]
      have e : early_load_table E s var = s.split_inputs := by
        unfold early_load_table
        rw [if_pos hm]
      rw [← e]
      exact hrel
    · rw [← hs.old_vars var hvar]
      exact hm
  · refine early_inv_step_out E fuel s0 s t instr var hs hstep' ht4 h2 ?_ hinstr hvar helig ?_
    · rw [ht2, h1]
      have e : early_load_table E s var = s.split_outputs := by
        unfold early_load_table
        rw [if_neg hm]
      rw [← e]
      exact hrel
    · rw [← hs.old_vars var hvar]
      exact hm

theorem early_body_store (E : IoEnv) (fuel : Nat) (s0 : io_shader) (s : early_state)
    (instr : Nat) (intr : nir_intrinsic_instr) (var : Nat)
    (hs : EarlyInv E fuel s0 s) (hc : instr < s.shader.next)
    (hheap : s.shader.heap instr = .intrinsic intr)
    (hroot : io_deref_root fuel s.shader s0.next (intr.src.getD 0 0) = some var)
    (hvar : var < s0.next_var)
    (hfrac : (s.shader.vars var).location_frac + intr.num_components ≤ 4)
    (hmode : (s.shader.vars var).mode ≠ E.nir_var_shader_in)
    (helig : io_var_eligible (s0.vars var)) :
    ∃ t, lower_store_output_to_scalar_early fuel s instr intr var = some t ∧
      EarlyInv E fuel s0 t ∧ EarlyInstrStep instr s.shader t.shader ∧
      (∀ q, q < s0.next_var → t.shader.vars q = s.shader.vars q) ∧
      t.rewritten = s.rewritten ++ [(instr, var)] := by
  obtain ⟨⟨path, hpath⟩, _, _⟩ := io_deref_root_path fuel s.shader s0.next _ var hroot
  have hpath' := io_deref_path_mono fuel s.shader s0.next s.shader.next hs.next_le _ path hpath
  have hnv0 := hs.next_var_le
  have hinstr : io_is_deref (s.shader.heap instr) = false := by
    rw [hheap]
    rfl
  have htab := hs.outputs_ok
  obtain ⟨t, ht1, ht2, ht3, hrel, _, hstep, _⟩ :=
    store_early_spec fuel s instr intr var path hc hpath' (by omega) hfrac
      (fun arr h => (htab.1 var arr h).1) (fun k cv h => (htab.2 var k cv h).2)
  have hov : ∀ q, q < s.shader.next_var → t.shader.vars q = s.shader.vars q := hrel.old_vars
  refine ⟨t, ht1, ?_, hstep, fun q hq => hov q (by omega), ht3⟩
  refine early_inv_step_out E fuel s0 s t instr var hs hstep ht3 ht2 hrel hinstr hvar helig ?_
  rw [← hs.old_vars var hvar]
  exact hmode

theorem io_is_deref_op_false (op : nir_intrinsic_op) (h : io_is_deref_op op = false) :
    op ≠ .load_deref ∧ op ≠ .store_deref ∧ op ≠ .interp_deref_at_centroid ∧
      op ≠ .interp_deref_at_sample ∧ op ≠ .interp_deref_at_offset := by
  unfold io_is_deref_op at h
  simp only [Bool.or_eq_false_iff, decide_eq_false_iff_not] at h
  obtain ⟨⟨⟨⟨h1, h2⟩, h3⟩, h4⟩, h5⟩ := h
  exact ⟨h1, h2, h3, h4, h5⟩

theorem io_is_deref_op_true (op : nir_intrinsic_op) (h : io_is_deref_op op = true) :
    op = .load_deref ∨ op = .store_deref ∨ op = .interp_deref_at_centroid ∨
      op = .interp_deref_at_sample ∨ op = .interp_deref_at_offset := by
  unfold io_is_deref_op at h
  simp only [Bool.or_eq_true, decide_eq_true_eq] at h
  tauto

theorem lower_io_early_instr_other (E : IoEnv) (fuel mask : Nat) (s : early_state) (a : Nat)
    (h : ∀ intr, s.shader.heap a = .intrinsic intr →
      intr.num_components = 1 ∨ io_is_deref_op intr.intrinsic = false) :
    lower_io_early_instr E fuel mask s a = some s := by
  unfold lower_io_early_instr
  cases hh : s.shader.heap a with
  | intrinsic intr =>
      simp only
      rcases h intr hh with h1 | h1
      · rw [if_pos h1]
      · by_cases hN : intr.num_components = 1
        · rw [if_pos hN]
        · rw [if_neg hN, if_pos (io_is_deref_op_false _ h1)]
  | deref _ => rfl
  | vec _ => rfl
  | channel _ _ => rfl
  | other _ => rfl

theorem lower_io_early_instr_mask (E : IoEnv) (fuel mask : Nat) (s : early_state) (a : Nat)
    (intr : nir_intrinsic_instr) (dr : nir_deref_instr)
    (hh : s.shader.heap a = .intrinsic intr)
    (hd : s.shader.heap (intr.src.getD 0 0) = .deref dr)
    (hm : dr.mode &&& mask = 0) :
    lower_io_early_instr E fuel mask s a = some s := by
  unfold lower_io_early_instr
  rw [hh]
  simp only
  rw [hd]
  simp only
  rw [if_pos hm]
  split
  · rfl
  · split <;> rfl

theorem early_body (E : IoEnv) (fuel mask : Nat) (s0 : io_shader) (s : early_state) (a : Nat)
    (hE : E.nir_var_shader_in ≠ E.nir_var_shader_out)
    (hs : EarlyInv E fuel s0 s) (ha : a < s.shader.next)
    (hok : io_access_ok E fuel s.shader s0.next s0.next_var (s.shader.heap a) = true) :
    ∃ t, lower_io_early_instr E fuel mask s a = some t ∧ EarlyInv E fuel s0 t ∧
      (t = s ∨ (EarlyInstrStep a s.shader t.shader ∧
        (∀ q, q < s0.next_var → t.shader.vars q = s.shader.vars q) ∧
        io_is_deref (s.shader.heap a) = false)) := by
  by_cases hsk : ∀ intr, s.shader.heap a = .intrinsic intr →
      intr.num_components = 1 ∨ io_is_deref_op intr.intrinsic = false
  · exact ⟨s, lower_io_early_instr_other E fuel mask s a hsk, hs, Or.inl rfl⟩
  · push_neg at hsk
    obtain ⟨intr, hh, hN, hop⟩ := hsk
    have hop' : io_is_deref_op intr.intrinsic = true := by
      cases h : io_is_deref_op intr.intrinsic
      · exact absurd h hop
      · rfl
    rw [hh] at hok
    obtain ⟨var, hroot, hvar, hfrac, hmax, hmode⟩ :=
      (io_access_ok_intrinsic E fuel s.shader s0.next s0.next_var intr hN hop').1 hok
    obtain ⟨_, hgv, dr, hd⟩ := io_deref_root_path fuel s.shader s0.next _ var hroot
    have hdm : dr.mode = (s.shader.vars var).mode := by
      rw [← hmode]
      unfold io_deref_mode
      rw [hd]
    have hinstr : io_is_deref (s.shader.heap a) = false := by
      rw [hh]
      rfl
    by_cases hm : dr.mode &&& mask = 0
    · exact ⟨s, lower_io_early_instr_mask E fuel mask s a intr dr hh hd hm, hs, Or.inl rfl⟩
    · rw [early_instr_var E fuel mask s a intr dr var hh hN (io_is_deref_op_true _ hop') hd hm hgv]
      cases hskip : io_early_skips E s.shader.stage dr.mode (s.shader.vars var)
      · have helig : io_var_eligible (s0.vars var) := by
          rw [← hs.old_vars var hvar]
          exact io_early_skips_eligible E _ _ _ hskip
        simp only [Bool.false_eq_true, if_false]
        by_cases hst : intr.intrinsic = .store_deref
        · rw [if_pos hst]
          by_cases hc : mask &&& E.nir_var_shader_out ≠ 0 ∧ dr.mode = E.nir_var_shader_out
          · rw [if_pos hc]
            have hne : (s.shader.vars var).mode ≠ E.nir_var_shader_in := by
              rw [← hdm, hc.2]
              exact fun h => hE h.symm
            obtain ⟨t, h1, h2, h3, h4, _⟩ := early_body_store E fuel s0 s a intr var hs ha hh
              hroot hvar hfrac hne helig
            exact ⟨t, h1, h2, Or.inr ⟨h3, h4, hinstr⟩⟩
          · rw [if_neg hc]
            exact ⟨s, rfl, hs, Or.inl rfl⟩
        · rw [if_neg hst]
          split
          · obtain ⟨t, h1, h2, h3, h4, _⟩ := early_body_load E fuel s0 s a intr var hs ha hh
              hroot hvar hfrac hmax helig
            exact ⟨t, h1, h2, Or.inr ⟨h3, h4, hinstr⟩⟩
          · exact ⟨s, rfl, hs, Or.inl rfl⟩
      · simp only [if_true]
        exact ⟨s, rfl, hs, Or.inl rfl⟩

theorem early_run_inv (E : IoEnv) (fuel mask : Nat) (sh : io_shader)
    (hE : E.nir_var_shader_in ≠ E.nir_var_shader_out)
    (hl : ∀ p ∈ io_instrs sh.functions, p < sh.next ∧
      io_access_ok E fuel sh sh.next sh.next_var (sh.heap p) = true) :
    ∃ s, early_run E fuel sh mask = some s ∧ EarlyInv E fuel sh s := by
  obtain ⟨t, h1, h2, _⟩ := io_foreach_function_post
    (fun s : early_state => s.shader.functions) (lower_io_early_instr E fuel mask)
    (EarlyInv E fuel sh)
    (fun s x => x < s.shader.next ∧
      io_access_ok E fuel s.shader sh.next sh.next_var (s.shader.heap x) = true)
    (fun _ _ => True)
    (fun s fi bi x hs hx => hs.linked x (mem_io_instrs_of_block _ fi bi x hx))
    (by
      intro s a hs hV
      obtain ⟨t, h1, h2, h3⟩ := early_body E fuel mask sh s a hE hs hV.1 hV.2
      refine ⟨t, h1, h2, ?_, fun _ _ _ _ => Or.inl trivial⟩
      rcases h3 with h3 | ⟨h3, h4, h5⟩
      · rw [h3]
        exact io_step_refl _ _ _ s
      · refine ⟨early_keep_V E fuel sh s t a hs.next_le h3 h4 h5, fun _ _ => trivial, ?_,
          fun _ _ _ _ => Or.inl trivial⟩
        show io_shape t.shader.functions = io_shape s.shader.functions
        rw [h3.functions, io_shape_splice])
    ⟨sh, [], [], []⟩ (early_inv_init E fuel sh hl)
  exact ⟨t, h1, h2⟩

theorem remove_if_unused_vars (fuel : Nat) :
    ∀ (sh : io_shader) (d : Nat),
      (nir_deref_instr_remove_if_unused fuel sh d).var_list = sh.var_list ∧
      (nir_deref_instr_remove_if_unused fuel sh d).vars = sh.vars ∧
      (nir_deref_instr_remove_if_unused fuel sh d).next_var = sh.next_var := by
  induction fuel with
  | zero => intro sh d; exact ⟨rfl, rfl, rfl⟩
  | succ n ih =>
      intro sh d
      unfold nir_deref_instr_remove_if_unused
      cases sh.heap d with
      | deref dr =>
          simp only
          split
          · exact ⟨rfl, rfl, rfl⟩
          · split
            · exact ⟨rfl, rfl, rfl⟩
            · exact ih (io_instr_remove sh d) dr.parent
      | intrinsic _ => exact ⟨rfl, rfl, rfl⟩
      | vec _ => exact ⟨rfl, rfl, rfl⟩
      | channel _ _ => exact ⟨rfl, rfl, rfl⟩
      | other _ => exact ⟨rfl, rfl, rfl⟩

theorem remove_dead_derefs_vars (fuel : Nat) (sh : io_shader) :
    (nir_remove_dead_derefs fuel sh).var_list = sh.var_list ∧
    (nir_remove_dead_derefs fuel sh).vars = sh.vars ∧
    (nir_remove_dead_derefs fuel sh).next_var = sh.next_var := by
  unfold nir_remove_dead_derefs
  cases h : io_foreach_function io_shader.functions (remove_dead_deref_instr fuel) sh with
  | none => exact ⟨rfl, rfl, rfl⟩
  | some t =>
      refine io_foreach_function_inv io_shader.functions (remove_dead_deref_instr fuel)
        (fun u => u.var_list = sh.var_list ∧ u.vars = sh.vars ∧ u.next_var = sh.next_var)
        ?_ sh t ⟨rfl, rfl, rfl⟩ h
      intro s a t hs hb
      unfold remove_dead_deref_instr at hb
      have key := remove_if_unused_vars fuel s a
      cases hh : s.heap a with
      | deref dr =>
          rw [hh] at hb
          simp only [Option.some.injEq] at hb
          rw [← hb]
          exact ⟨key.1.trans hs.1, key.2.1.trans hs.2.1, key.2.2.trans hs.2.2⟩
      | intrinsic _ => rw [hh] at hb; simp only [Option.some.injEq] at hb; rw [← hb]; exact hs
      | vec _ => rw [hh] at hb; simp only [Option.some.injEq] at hb; rw [← hb]; exact hs
      | channel _ _ => rw [hh] at hb; simp only [Option.some.injEq] at hb; rw [← hb]; exact hs
      | other _ => rw [hh] at hb; simp only [Option.some.injEq] at hb; rw [← hb]; exact hs

theorem count_io_remove_split (ht : List (Nat × List (Option Nat))) :
    ∀ (l : List Nat) (v : Nat),
      (io_remove_split ht l).count v = if v ∈ ht.map Prod.fst then 0 else l.count v := by
  induction ht with
  | nil => intro l v; simp [io_remove_split]
  | cons e rest ih =>
      intro l v
      have hstep : io_remove_split (e :: rest) l
          = io_remove_split rest (l.filter (fun x => x != e.1)) := rfl
      rw [hstep, ih]
      by_cases hv : v ∈ rest.map Prod.fst
      · rw [if_pos hv, if_pos (by simp only [List.map_cons, List.mem_cons]; exact Or.inr hv)]
      · rw [if_neg hv]
        by_cases he : v = e.1
        · rw [if_pos (by simp only [List.map_cons, List.mem_cons]; exact Or.inl he)]
          apply List.count_eq_zero_of_not_mem
          intro hm
          rw [List.mem_filter] at hm
          simp [he] at hm
        · rw [if_neg (by
            simp only [List.map_cons, List.mem_cons]
            rintro (h | h)
            · exact he h
            · exact hv h)]
          exact List.count_filter (by simpa using he)

theorem early_cleanup_count (fuel : Nat) (s : early_state) (v : Nat) :
    (early_cleanup fuel s).var_list.count v
      = if v ∈ s.split_outputs.map Prod.fst then 0
        else if v ∈ s.split_inputs.map Prod.fst then 0 else s.shader.var_list.count v := by
  unfold early_cleanup
  rw [(remove_dead_derefs_vars fuel _).1]
  simp only
  rw [count_io_remove_split, count_io_remove_split]

theorem early_cleanup_count_key (fuel : Nat) (s : early_state) (v : Nat)
    (h : io_is_key s.split_inputs v ∨ io_is_key s.split_outputs v) :
    (early_cleanup fuel s).var_list.count v = 0 := by
  rw [early_cleanup_count]
  unfold io_is_key at h
  rw [io_table_search_mem_keys, io_table_search_mem_keys] at h
  by_cases h1 : v ∈ s.split_outputs.map Prod.fst
  · rw [if_pos h1]
  · rw [if_neg h1, if_pos (h.resolve_right h1)]

theorem early_cleanup_count_other (fuel : Nat) (s : early_state) (v : Nat)
    (h : ¬ (io_is_key s.split_inputs v ∨ io_is_key s.split_outputs v)) :
    (early_cleanup fuel s).var_list.count v = s.shader.var_list.count v := by
  rw [early_cleanup_count]
  unfold io_is_key at h
  rw [io_table_search_mem_keys, io_table_search_mem_keys] at h
  rw [if_neg (fun h1 => h (Or.inr h1)), if_neg (fun h1 => h (Or.inl h1))]

theorem early_cleanup_vars (fuel : Nat) (s : early_state) :
    (early_cleanup fuel s).vars = s.shader.vars ∧
    (early_cleanup fuel s).next_var = s.shader.next_var := by
  unfold early_cleanup
  exact ⟨(remove_dead_derefs_vars fuel _).2.1, (remove_dead_derefs_vars fuel _).2.2⟩

theorem io_is_key_lt (nv0 : Nat) (sh : io_shader) (ht : List (Nat × List (Option Nat)))
    (h : io_table_ok nv0 sh ht) (v : Nat) (hk : io_is_key ht v) : v < nv0 := by
  unfold io_is_key at hk
  cases hs : io_table_search ht v with
  | none => rw [hs] at hk; cases hk
  | some arr => exact (h.1 v arr hs).2

theorem early_inv_key_lt (E : IoEnv) (fuel : Nat) (s0 : io_shader) (s : early_state)
    (hs : EarlyInv E fuel s0 s) (v : Nat)
    (hk : io_is_key s.split_inputs v ∨ io_is_key s.split_outputs v) : v < s0.next_var := by
  rcases hk with h | h
  · exact io_is_key_lt _ _ _ hs.inputs_ok v h
  · exact io_is_key_lt _ _ _ hs.outputs_ok v h

theorem early_inv_count_created (E : IoEnv) (fuel : Nat) (s0 : io_shader) (s : early_state)
    (hs : EarlyInv E fuel s0 s) (hvl : ∀ v ∈ s0.var_list, v < s0.next_var) (q : Nat)
    (h1 : s0.next_var ≤ q) (h2 : q < s.shader.next_var) :
    (early_cleanup fuel s).var_list.count q = 1 := by
  rw [early_cleanup_count_other fuel s q
    (fun hk => by have := early_inv_key_lt E fuel s0 s hs q hk; omega), hs.var_list,
    List.count_append, List.count_eq_zero_of_not_mem (fun hm => by have := hvl q hm; omega)]
  rw [Nat.zero_add]
  exact List.count_eq_one_of_mem (List.nodup_range' _ _ 1 Nat.one_pos)
    (List.mem_range'_1.2 ⟨h1, by omega⟩)

theorem early_inv_mem_kept (E : IoEnv) (fuel : Nat) (s0 : io_shader) (s : early_state)
    (hs : EarlyInv E fuel s0 s) (v : Nat) (hv : v ∈ s0.var_list)
    (hk : ¬ (io_is_key s.split_inputs v ∨ io_is_key s.split_outputs v)) :
    v ∈ (early_cleanup fuel s).var_list := by
  rw [← List.count_pos_iff, early_cleanup_count_other fuel s v hk, List.count_pos_iff,
    hs.var_list]
  exact List.mem_append_left _ hv

/-- C20: on a shader whose linked instructions are well-formed accesses
(`io_access_ok`: addresses below `next`, every deref access with more than one
component goes through array steps to a variable, fits the four slots and the
component limit), whose listed variables are below `next_var`, and with distinct
input and output modes, `nir_lower_io_to_scalar_early` returns; in its result no
variable that a lowering call was made for (a pair of the log `rewritten`) is in
the variable list, every channel variable held by a slot of the two tables, which
are all variables created by the run, is in the list exactly once, and every
listed variable that no lowering call was made for is still in the list. -/
theorem C20_split_variables_leave_list (E : IoEnv) (fuel mask : Nat) (shader : io_shader)
    (hE : E.nir_var_shader_in ≠ E.nir_var_shader_out)
    (hl : ∀ p ∈ io_instrs shader.functions, p < shader.next ∧
      io_access_ok E fuel shader shader.next shader.next_var (shader.heap p) = true)
    (hvl : ∀ v ∈ shader.var_list, v < shader.next_var) :
    ∃ s t, early_run E fuel shader mask = some s ∧
      nir_lower_io_to_scalar_early E fuel shader mask = some t ∧
      (∀ a v, (a, v) ∈ s.rewritten → v ∉ t.var_list) ∧
      (∀ v k q, io_slot s.split_inputs v k = some q ∨ io_slot s.split_outputs v k = some q →
        t.var_list.count q = 1) ∧
      (∀ q, shader.next_var ≤ q → q < t.next_var → t.var_list.count q = 1) ∧
      (∀ v ∈ shader.var_list, (∀ a, (a, v) ∉ s.rewritten) → v ∈ t.var_list) := by
  obtain ⟨s, hrun, hs⟩ := early_run_inv E fuel mask shader hE hl
  refine ⟨s, early_cleanup fuel s, hrun, ?_, ?_, ?_, ?_, ?_⟩
  · unfold nir_lower_io_to_scalar_early
    rw [hrun]
    rfl
  · intro a v hav
    have hk := (hs.keys_log v).2 ⟨a, hav⟩
    have := early_cleanup_count_key fuel s v hk
    exact List.count_eq_zero.1 this
  · intro v k q hq
    have hb : shader.next_var ≤ q ∧ q < s.shader.next_var := by
      rcases hq with h | h
      · exact hs.inputs_ok.2 v k q h
      · exact hs.outputs_ok.2 v k q h
    exact early_inv_count_created E fuel shader s hs hvl q hb.1 hb.2
  · intro q h1 h2
    rw [(early_cleanup_vars fuel s).2] at h2
    exact early_inv_count_created E fuel shader s hs hvl q h1 h2
  · intro v hv hnot
    refine early_inv_mem_kept E fuel shader s hs v hv ?_
    intro hk
    obtain ⟨a, ha⟩ := (hs.keys_log v).1 hk
    exact hnot a ha

theorem ex_early_shader_ok : ∀ p ∈ io_instrs ex_early_shader.functions,
    p < ex_early_shader.next ∧
    io_access_ok ex_io_env 4 ex_early_shader ex_early_shader.next ex_early_shader.next_var
      (ex_early_shader.heap p) = true := by
  decide

/-- Witness of C20: the run on `ex_early_shader` with both modes in the mask
splits the variables 0 and 2 and keeps the always-live variable 1. -/
theorem C20_split_variables_leave_list_witness :
    ex_io_env.nir_var_shader_in ≠ ex_io_env.nir_var_shader_out ∧
    (∀ v ∈ ex_early_shader.var_list, v < ex_early_shader.next_var) ∧
    ∃ s t, early_run ex_io_env 4 ex_early_shader 3 = some s ∧
      nir_lower_io_to_scalar_early ex_io_env 4 ex_early_shader 3 = some t ∧
      (∀ a v, (a, v) ∈ s.rewritten → v ∉ t.var_list) ∧
      (∀ v k q, io_slot s.split_inputs v k = some q ∨ io_slot s.split_outputs v k = some q →
        t.var_list.count q = 1) ∧
      (∀ q, ex_early_shader.next_var ≤ q → q < t.next_var → t.var_list.count q = 1) ∧
      (∀ v ∈ ex_early_shader.var_list, (∀ a, (a, v) ∉ s.rewritten) → v ∈ t.var_list) :=
  ⟨by decide, by decide,
    C20_split_variables_leave_list ex_io_env 4 3 ex_early_shader (by decide)
      ex_early_shader_ok (by decide)⟩

theorem early_skip_body (E : IoEnv) (fuel mask : Nat) (s : early_state) (instr : Nat)
    (intr : nir_intrinsic_instr) (dr : nir_deref_instr) (var : Nat)
    (h_heap : s.shader.heap instr = .intrinsic intr)
    (h_deref : s.shader.heap (intr.src.getD 0 0) = .deref dr)
    (h_var : nir_deref_instr_get_variable fuel s.shader (intr.src.getD 0 0) = some var)
    (h_skip : io_early_skips E s.shader.stage dr.mode (s.shader.vars var) = true) :
    lower_io_early_instr E fuel mask s instr = some s := by
  by_cases hN : intr.num_components = 1
  · refine lower_io_early_instr_other E fuel mask s instr ?_
    intro i hi
    rw [h_heap] at hi
    injection hi with hi
    rw [← hi]
    exact Or.inl hN
  · cases hop : io_is_deref_op intr.intrinsic
    · refine lower_io_early_instr_other E fuel mask s instr ?_
      intro i hi
      rw [h_heap] at hi
      injection hi with hi
      rw [← hi]
      exact Or.inr hop
    · by_cases hm : dr.mode &&& mask = 0
      · exact lower_io_early_instr_mask E fuel mask s instr intr dr h_heap h_deref hm
      · rw [early_instr_var E fuel mask s instr intr dr var h_heap hN
          (io_is_deref_op_true _ hop) h_deref hm h_var, h_skip]
        rfl

theorem not_eligible_of_flag (v : nir_variable)
    (h : v.patch = true ∨ glsl_type_is_64bit (glsl_without_array v.type) = true ∨
      v.always_active_io = true ∨ glsl_type_is_matrix (glsl_without_array v.type) = true ∨
      glsl_type_is_struct (glsl_without_array v.type) = true) : ¬ io_var_eligible v := by
  rintro ⟨h1, h2, h3, h4, h5⟩
  rcases h with h | h | h | h | h
  · rw [h1] at h; cases h
  · rw [h3] at h; cases h
  · rw [h2] at h; cases h
  · rw [h4] at h; cases h
  · rw [h5] at h; cases h

/-- C16: in any state of `nir_lower_io_to_scalar_early`, for an intrinsic whose
first source is a deref with root variable `var`, if the variable is per-patch,
or has a 64-bit, matrix or struct type without its array dimensions, or is
always-live, or has a built-in location (0 ≤ location < VARYING_SLOT_VAR0) while
the access is not a vertex-shader input access, the loop body returns the state
as it was: no instruction, table or variable changes. And a run of the pass on a
well-formed shader (`io_access_ok`, distinct input and output modes) returns,
whatever the mask, and a variable that is per-patch, 64-bit, always-live, matrix
or struct is then the root of no lowering call (no pair of the log `rewritten`),
has no entry in either table, keeps its data, and stays in the variable list if
it was there. -/
theorem C16_ineligible_access_skipped (E : IoEnv) (fuel mask : Nat) (s : early_state)
    (instr : Nat) (intr : nir_intrinsic_instr) (dr : nir_deref_instr) (var : Nat)
    (shader : io_shader)
    (h_heap : s.shader.heap instr = .intrinsic intr)
    (h_deref : s.shader.heap (intr.src.getD 0 0) = .deref dr)
    (h_var : nir_deref_instr_get_variable fuel s.shader (intr.src.getD 0 0) = some var)
    (h_flag : (s.shader.vars var).patch = true ∨
      glsl_type_is_64bit (glsl_without_array (s.shader.vars var).type) = true ∨
      (s.shader.vars var).always_active_io = true ∨
      glsl_type_is_matrix (glsl_without_array (s.shader.vars var).type) = true ∨
      glsl_type_is_struct (glsl_without_array (s.shader.vars var).type) = true ∨
      (0 ≤ (s.shader.vars var).location ∧
        (s.shader.vars var).location < E.VARYING_SLOT_VAR0 ∧
        ¬ (s.shader.stage = E.MESA_SHADER_VERTEX ∧ dr.mode = E.nir_var_shader_in)))
    (hE : E.nir_var_shader_in ≠ E.nir_var_shader_out)
    (hl : ∀ p ∈ io_instrs shader.functions, p < shader.next ∧
      io_access_ok E fuel shader shader.next shader.next_var (shader.heap p) = true) :
    lower_io_early_instr E fuel mask s instr = some s ∧
    ∃ r t, early_run E fuel shader mask = some r ∧
      nir_lower_io_to_scalar_early E fuel shader mask = some t ∧
      ∀ v, v < shader.next_var →
        ((shader.vars v).patch = true ∨
          glsl_type_is_64bit (glsl_without_array (shader.vars v).type) = true ∨
          (shader.vars v).always_active_io = true ∨
          glsl_type_is_matrix (glsl_without_array (shader.vars v).type) = true ∨
          glsl_type_is_struct (glsl_without_array (shader.vars v).type) = true) →
        (∀ a, (a, v) ∉ r.rewritten) ∧
        io_table_search r.split_inputs v = none ∧
        io_table_search r.split_outputs v = none ∧
        t.vars v = shader.vars v ∧
        (v ∈ shader.var_list → v ∈ t.var_list) := by
  refine ⟨early_skip_body E fuel mask s instr intr dr var h_heap h_deref h_var
    (io_early_skips_true E _ _ _ h_flag), ?_⟩
  obtain ⟨r, hrun, hr⟩ := early_run_inv E fuel mask shader hE hl
  refine ⟨r, early_cleanup fuel r, hrun, ?_, ?_⟩
  · unfold nir_lower_io_to_scalar_early
    rw [hrun]
    rfl
  · intro v hv hflag
    have hnk : ¬ (io_is_key r.split_inputs v ∨ io_is_key r.split_outputs v) :=
      fun hk => not_eligible_of_flag _ hflag (hr.eligible v hk)
    refine ⟨?_, ?_, ?_, ?_, ?_⟩
    · intro a ha
      exact hnk ((hr.keys_log v).2 ⟨a, ha⟩)
    · cases h : io_table_search r.split_inputs v with
      | none => rfl
      | some arr =>
          exfalso
          apply hnk
          left
          unfold io_is_key
          rw [h]
          rfl
    · cases h : io_table_search r.split_outputs v with
      | none => rfl
      | some arr =>
          exfalso
          apply hnk
          right
          unfold io_is_key
          rw [h]
          rfl
    · rw [(early_cleanup_vars fuel r).1]
      exact hr.old_vars v hv
    · intro hm
      exact early_inv_mem_kept E fuel shader r hr v hm hnk

/-- Witness of C16: the two-component load at address 8 of `ex_early_shader`
reads the always-live input 1; the body leaves the state as it is although the
input mode is in the mask, and the run never splits variable 1. -/
theorem C16_ineligible_access_skipped_witness :
    lower_io_early_instr ex_io_env 4 3 ex_early_state 8 = some ex_early_state ∧
    ∃ r t, early_run ex_io_env 4 ex_early_shader 3 = some r ∧
      nir_lower_io_to_scalar_early ex_io_env 4 ex_early_shader 3 = some t ∧
      ∀ v, v < ex_early_shader.next_var →
        ((ex_early_shader.vars v).patch = true ∨
          glsl_type_is_64bit (glsl_without_array (ex_early_shader.vars v).type) = true ∨
          (ex_early_shader.vars v).always_active_io = true ∨
          glsl_type_is_matrix (glsl_without_array (ex_early_shader.vars v).type) = true ∨
          glsl_type_is_struct (glsl_without_array (ex_early_shader.vars v).type) = true) →
        (∀ a, (a, v) ∉ r.rewritten) ∧
        io_table_search r.split_inputs v = none ∧
        io_table_search r.split_outputs v = none ∧
        t.vars v = ex_early_shader.vars v ∧
        (v ∈ ex_early_shader.var_list → v ∈ t.var_list) :=
  C16_ineligible_access_skipped ex_io_env 4 3 ex_early_state 8
    ⟨.load_deref, 2, 32, 0, 0, 0, [7]⟩ ⟨.var, 1, 1, 0, 0⟩ 1 ex_early_shader rfl rfl rfl
    (Or.inr (Or.inr (Or.inl rfl))) (by decide) ex_early_shader_ok

theorem early_load_reuse (E : IoEnv) (fuel : Nat) (st : early_state) (instr : Nat)
    (intr : nir_intrinsic_instr) (var : Nat) (path : List Nat) (i cv : Nat)
    (hc : instr < st.shader.next)
    (hmax : intr.num_components ≤ E.NIR_MAX_VEC_COMPONENTS)
    (hpath : io_deref_path fuel st.shader st.shader.next (intr.src.getD 0 0) = some path)
    (hvar : var < st.shader.next_var)
    (h_frac : (st.shader.vars var).location_frac + intr.num_components ≤ 4)
    (h_tab : ∀ arr, io_table_search (early_load_table E st var) var = some arr →
      arr.length = 4)
    (h_vals : ∀ k cv, io_slot (early_load_table E st var) var k = some cv →
      cv < st.shader.next_var)
    (hi : i < intr.num_components)
    (hslot : io_slot (early_load_table E st var) var
      ((st.shader.vars var).location_frac + i) = some cv) :
    ∃ t loads chan, lower_load_to_scalar_early E fuel st instr intr var = some t ∧
      t.shader.heap (t.shader.next - 1) = .vec loads ∧
      t.shader.heap (loads.getD i 0) = .intrinsic chan ∧
      chan.intrinsic = intr.intrinsic ∧ chan.num_components = 1 ∧
      st.shader.next ≤ chan.src.getD 0 0 ∧
      nir_deref_instr_get_variable (path.length + 1) t.shader (chan.src.getD 0 0) = some cv ∧
      io_slot (early_load_table E t var) var ((st.shader.vars var).location_frac + i)
        = some cv := by
  obtain ⟨loads, sh, ht, hbody, hrel, _, _, _, _, hvec, hch, _⟩ :=
    load_early_table_spec E fuel intr instr var st.shader (early_load_table E st var) path hc
      hmax hpath hvar h_frac h_tab h_vals
  obtain ⟨t, ht1, ht2, ht3, _, _⟩ :=
    lower_load_to_scalar_early_eq E fuel st instr intr var sh ht hbody
      (hrel.old_vars var hvar)
  obtain ⟨cv', chan, c1, _, c3, c4, c5, _, c7, c8⟩ := hch i hi
  have hp := hrel.persist _ cv (get_channel_variables_slot_old _ var _ cv hslot)
  have hp' : io_slot ht var ((st.shader.vars var).location_frac + i) = some cv := hp
  have e : cv' = cv := by
    rw [c1] at hp'
    injection hp'
  rw [e] at c8
  refine ⟨t, loads, chan, ht1, ?_, ?_, c4, c5, c7, ?_, ?_⟩
  · rw [ht2]; exact hvec
  · rw [ht2]; exact c3
  · rw [ht2]; exact c8
  · rw [ht3]; exact hp'

theorem early_store_reuse (fuel : Nat) (st : early_state) (instr : Nat)
    (intr : nir_intrinsic_instr) (var : Nat) (path : List Nat) (i cv : Nat)
    (hc : instr < st.shader.next)
    (hpath : io_deref_path fuel st.shader st.shader.next (intr.src.getD 0 0) = some path)
    (hvar : var < st.shader.next_var)
    (h_frac : (st.shader.vars var).location_frac + intr.num_components ≤ 4)
    (h_tab : ∀ arr, io_table_search st.split_outputs var = some arr → arr.length = 4)
    (h_vals : ∀ k cv, io_slot st.split_outputs var k = some cv → cv < st.shader.next_var)
    (hi : i < intr.num_components) (hbit : ¬ intr.write_mask &&& (1 <<< i) = 0)
    (hslot : io_slot st.split_outputs var ((st.shader.vars var).location_frac + i) = some cv) :
    ∃ t a, lower_store_output_to_scalar_early fuel st instr intr var = some t ∧
      st.shader.next ≤ a - 2 ∧ a < t.shader.next ∧
      t.shader.heap a = .intrinsic (store_early_chan intr (a - 2) (a - 1)) ∧
      t.shader.heap (a - 1) = .channel (intr.src.getD 1 0) i ∧
      nir_deref_instr_get_variable (path.length + 1) t.shader (a - 2) = some cv ∧
      io_slot t.split_outputs var ((st.shader.vars var).location_frac + i) = some cv := by
  obtain ⟨t, ht1, _, _, hrel, _, _, _, _, hch, _⟩ :=
    store_early_spec fuel st instr intr var path hc hpath hvar h_frac h_tab h_vals
  obtain ⟨cv', a, c1, c2, c3, c4, c5, c6⟩ := hch i hi hbit
  have hp := hrel.persist _ cv (get_channel_variables_slot_old _ var _ cv hslot)
  have hp' : io_slot t.split_outputs var ((st.shader.vars var).location_frac + i) = some cv :=
    hp
  have e : cv' = cv := by
    rw [c1] at hp'
    injection hp'
  rw [e] at c6
  exact ⟨t, a, ht1, by omega, c3, c4, c5, early_chain_get_variable path.length t.shader cv _ c6,
    hp'⟩

theorem io_chan_var_filled (sh : io_shader) (ht : List (Nat × List (Option Nat)))
    (var i cv : Nat)
    (h : io_slot ht var ((sh.vars var).location_frac + i) = some cv) :
    io_chan_var sh ht var i = some (cv, sh, ht) := by
  unfold io_slot at h
  unfold io_chan_var
  cases hs : io_table_search ht var with
  | none => rw [hs] at h; cases h
  | some arr =>
      rw [hs] at h
      simp only at h ⊢
      rw [List.getD_eq_getElem?_getD] at h
      cases hk : arr[(sh.vars var).location_frac + i]? with
      | none => rw [hk] at h; cases h
      | some x =>
          rw [hk] at h
          simp only [Option.getD_some] at h
          rw [h]

theorem io_slot_lt (nv0 : Nat) (sh : io_shader) (ht : List (Nat × List (Option Nat)))
    (h : io_table_ok nv0 sh ht) (v k q : Nat) (hq : io_slot ht v k = some q) :
    k < 4 ∧ v < nv0 := by
  unfold io_slot at hq
  cases hs : io_table_search ht v with
  | none => rw [hs] at hq; cases hq
  | some arr =>
      rw [hs] at hq
      simp only at hq
      obtain ⟨h1, h2⟩ := h.1 v arr hs
      refine ⟨?_, h2⟩
      by_contra hk
      rw [List.getD_eq_getElem?_getD, List.getElem?_eq_none (by omega)] at hq
      cases hq

theorem early_inv_slot_unique (E : IoEnv) (fuel : Nat) (s0 : io_shader) (s : early_state)
    (hs : EarlyInv E fuel s0 s) (v k q q' : Nat)
    (h1 : io_slot s.split_inputs v k = some q ∨ io_slot s.split_outputs v k = some q)
    (h2 : io_slot s.split_inputs v k = some q' ∨ io_slot s.split_outputs v k = some q') :
    q = q' := by
  rcases h1 with h1 | h1 <;> rcases h2 with h2 | h2
  · rw [h1] at h2
    injection h2
  · exact absurd (hs.in_mode v (io_slot_is_key _ v k q h1))
      (hs.out_mode v (io_slot_is_key _ v k q' h2))
  · exact absurd (hs.in_mode v (io_slot_is_key _ v k q' h2))
      (hs.out_mode v (io_slot_is_key _ v k q h1))
  · rw [h1] at h2
    injection h2

theorem early_inv_at_most_four (E : IoEnv) (fuel : Nat) (s0 : io_shader) (s : early_state)
    (hs : EarlyInv E fuel s0 s) (v : Nat) (L : List Nat) (hnd : L.Nodup)
    (hall : ∀ q ∈ L, ∃ k, io_slot s.split_inputs v k = some q ∨
      io_slot s.split_outputs v k = some q) : L.length ≤ 4 := by
  have hsub : L ⊆ (List.range 4).filterMap (fun k =>
      match io_slot s.split_inputs v k with
      | some q => some q
      | none => io_slot s.split_outputs v k) := by
    intro q hq
    obtain ⟨k, hk⟩ := hall q hq
    rw [List.mem_filterMap]
    refine ⟨k, ?_, ?_⟩
    · rw [List.mem_range]
      rcases hk with h | h
      · exact (io_slot_lt _ _ _ hs.inputs_ok v k q h).1
      · exact (io_slot_lt _ _ _ hs.outputs_ok v k q h).1
    · rcases hk with h | h
      · simp only [h]
      · cases hin : io_slot s.split_inputs v k with
        | none => simp only [h]
        | some q' =>
            exact absurd (hs.in_mode v (io_slot_is_key _ v k q' hin))
              (hs.out_mode v (io_slot_is_key _ v k q h))
  have h1 := (List.subperm_of_subset hnd hsub).length_le
  have h2 := List.length_filterMap_le (fun k =>
      match io_slot s.split_inputs v k with
      | some q => some q
      | none => io_slot s.split_outputs v k) (List.range 4)
  rw [List.length_range] at h2
  omega

/-- C19: a run of `nir_lower_io_to_scalar_early` on a well-formed shader
(`io_access_ok`, distinct input and output modes) returns, and in its last state
every variable created by the run is the channel variable of exactly one pair of
an original variable and a slot below 4 (the clone for channel `slot -
location_frac`), a slot of a variable holds at most one channel variable over
both tables, and no original variable has more than four channel variables.
Whenever the slot `location_frac + i` of a variable is filled, `io_chan_var`
returns the variable in it and changes neither shader nor table; a lowered load
and a lowered store then build their access for channel `i` on that variable and
leave it in the slot; and a load of a variable that is no input uses the table
`split_outputs` of the stores. -/
theorem C19_one_shadow_per_slot (E : IoEnv) (fuel mask : Nat) (shader : io_shader)
    (hE : E.nir_var_shader_in ≠ E.nir_var_shader_out)
    (hl : ∀ p ∈ io_instrs shader.functions, p < shader.next ∧
      io_access_ok E fuel shader shader.next shader.next_var (shader.heap p) = true) :
    (∃ s, early_run E fuel shader mask = some s ∧
      (∀ q, shader.next_var ≤ q → q < s.shader.next_var →
        ∃ v k, v < shader.next_var ∧ k < 4 ∧
          (io_slot s.split_inputs v k = some q ∨ io_slot s.split_outputs v k = some q) ∧
          (shader.vars v).location_frac ≤ k ∧
          s.shader.vars q
            = io_chan_clone (shader.vars v) (k - (shader.vars v).location_frac) ∧
          ∀ v' k', (io_slot s.split_inputs v' k' = some q ∨
              io_slot s.split_outputs v' k' = some q) → v' = v ∧ k' = k) ∧
      (∀ v k q, (io_slot s.split_inputs v k = some q ∨ io_slot s.split_outputs v k = some q) →
        shader.next_var ≤ q ∧ q < s.shader.next_var) ∧
      (∀ v k q q',
        (io_slot s.split_inputs v k = some q ∨ io_slot s.split_outputs v k = some q) →
        (io_slot s.split_inputs v k = some q' ∨ io_slot s.split_outputs v k = some q') →
        q = q') ∧
      (∀ v (L : List Nat), L.Nodup →
        (∀ q ∈ L, ∃ k, io_slot s.split_inputs v k = some q ∨
          io_slot s.split_outputs v k = some q) → L.length ≤ 4)) ∧
    (∀ sh ht var i cv, io_slot ht var ((sh.vars var).location_frac + i) = some cv →
      io_chan_var sh ht var i = some (cv, sh, ht)) ∧
    (∀ st instr intr var path i cv,
      instr < st.shader.next →
      intr.num_components ≤ E.NIR_MAX_VEC_COMPONENTS →
      io_deref_path fuel st.shader st.shader.next (intr.src.getD 0 0) = some path →
      var < st.shader.next_var →
      (st.shader.vars var).location_frac + intr.num_components ≤ 4 →
      (∀ arr, io_table_search (early_load_table E st var) var = some arr → arr.length = 4) →
      (∀ k cv, io_slot (early_load_table E st var) var k = some cv →
        cv < st.shader.next_var) →
      i < intr.num_components →
      io_slot (early_load_table E st var) var ((st.shader.vars var).location_frac + i)
        = some cv →
      ∃ t loads chan, lower_load_to_scalar_early E fuel st instr intr var = some t ∧
        t.shader.heap (t.shader.next - 1) = .vec loads ∧
        t.shader.heap (loads.getD i 0) = .intrinsic chan ∧
        chan.intrinsic = intr.intrinsic ∧ chan.num_components = 1 ∧
        st.shader.next ≤ chan.src.getD 0 0 ∧
        nir_deref_instr_get_variable (path.length + 1) t.shader (chan.src.getD 0 0)
          = some cv ∧
        io_slot (early_load_table E t var) var ((st.shader.vars var).location_frac + i)
          = some cv) ∧
    (∀ st instr intr var path i cv,
      instr < st.shader.next →
      io_deref_path fuel st.shader st.shader.next (intr.src.getD 0 0) = some path →
      var < st.shader.next_var →
      (st.shader.vars var).location_frac + intr.num_components ≤ 4 →
      (∀ arr, io_table_search st.split_outputs var = some arr → arr.length = 4) →
      (∀ k cv, io_slot st.split_outputs var k = some cv → cv < st.shader.next_var) →
      i < intr.num_components → ¬ intr.write_mask &&& (1 <<< i) = 0 →
      io_slot st.split_outputs var ((st.shader.vars var).location_frac + i) = some cv →
      ∃ t a, lower_store_output_to_scalar_early fuel st instr intr var = some t ∧
        st.shader.next ≤ a - 2 ∧ a < t.shader.next ∧
        t.shader.heap a = .intrinsic (store_early_chan intr (a - 2) (a - 1)) ∧
        t.shader.heap (a - 1) = .channel (intr.src.getD 1 0) i ∧
        nir_deref_instr_get_variable (path.length + 1) t.shader (a - 2) = some cv ∧
        io_slot t.split_outputs var ((st.shader.vars var).location_frac + i) = some cv) ∧
    (∀ (st : early_state) var, (st.shader.vars var).mode ≠ E.nir_var_shader_in →
      early_load_table E st var = st.split_outputs) := by
  refine ⟨?_, fun sh ht var i cv h => io_chan_var_filled sh ht var i cv h,
    fun st instr intr var path i cv h1 h2 h3 h4 h5 h6 h7 h8 h9 =>
      early_load_reuse E fuel st instr intr var path i cv h1 h2 h3 h4 h5 h6 h7 h8 h9,
    fun st instr intr var path i cv h1 h2 h3 h4 h5 h6 h7 h8 h9 =>
      early_store_reuse fuel st instr intr var path i cv h1 h2 h3 h4 h5 h6 h7 h8 h9, ?_⟩
  · obtain ⟨s, hrun, hs⟩ := early_run_inv E fuel mask shader hE hl
    refine ⟨s, hrun, ?_, ?_, ?_, ?_⟩
    · intro q h1 h2
      obtain ⟨v, k, a, b, c, d⟩ := hs.shadows q h1 h2
      have hlt : k < 4 ∧ v < shader.next_var := by
        rcases a with a | a
        · exact io_slot_lt _ _ _ hs.inputs_ok v k q a
        · exact io_slot_lt _ _ _ hs.outputs_ok v k q a
      exact ⟨v, k, hlt.2, hlt.1, a, b, c, d⟩
    · intro v k q h
      rcases h with h | h
      · exact hs.inputs_ok.2 v k q h
      · exact hs.outputs_ok.2 v k q h
    · exact early_inv_slot_unique E fuel shader s hs
    · exact early_inv_at_most_four E fuel shader s hs
  · intro st var h
    unfold early_load_table
    rw [if_neg h]

/-- Witness of C19: the run on `ex_early_shader` with both modes in the mask,
in which the store at address 6 and the load at address 9 share the channel
variables of the output 0. -/
theorem C19_one_shadow_per_slot_witness :
    ex_io_env.nir_var_shader_in ≠ ex_io_env.nir_var_shader_out ∧
    ∃ s, early_run ex_io_env 4 ex_early_shader 3 = some s ∧
      (∀ q, ex_early_shader.next_var ≤ q → q < s.shader.next_var →
        ∃ v k, v < ex_early_shader.next_var ∧ k < 4 ∧
          (io_slot s.split_inputs v k = some q ∨ io_slot s.split_outputs v k = some q) ∧
          (ex_early_shader.vars v).location_frac ≤ k ∧
          s.shader.vars q = io_chan_clone (ex_early_shader.vars v)
            (k - (ex_early_shader.vars v).location_frac) ∧
          ∀ v' k', (io_slot s.split_inputs v' k' = some q ∨
              io_slot s.split_outputs v' k' = some q) → v' = v ∧ k' = k) ∧
      (∀ v k q, (io_slot s.split_inputs v k = some q ∨ io_slot s.split_outputs v k = some q) →
        ex_early_shader.next_var ≤ q ∧ q < s.shader.next_var) ∧
      (∀ v k q q',
        (io_slot s.split_inputs v k = some q ∨ io_slot s.split_outputs v k = some q) →
        (io_slot s.split_inputs v k = some q' ∨ io_slot s.split_outputs v k = some q') →
        q = q') ∧
      (∀ v (L : List Nat), L.Nodup →
        (∀ q ∈ L, ∃ k, io_slot s.split_inputs v k = some q ∨
          io_slot s.split_outputs v k = some q) → L.length ≤ 4) :=
  ⟨by decide,
    (C19_one_shadow_per_slot ex_io_env 4 3 ex_early_shader (by decide) ex_early_shader_ok).1⟩

theorem hash_alu_congr (E : Env) (h0 : Nat) (a b : nir_alu_instr)
    (hop : a.op = b.op) (hbits : a.bit_size = b.bit_size)
    (hsrc : ∀ i, i < (E.nir_op_infos a.op).num_inputs →
      (a.src.getD i default).ssa = (b.src.getD i default).ssa) :
    hash_alu E h0 a = hash_alu E h0 b := by
  unfold hash_alu
  rw [← hop, ← hbits]
  simp only
  generalize E.fnv32_1a_accumulate (E.fnv32_1a_accumulate h0 4 a.op) 1 a.bit_size = h2
  generalize (E.nir_op_infos a.op).num_inputs = n at hsrc
  induction n generalizing h2 with
  | zero => rfl
  | succ n ih =>
    rw [List.range_succ, List.foldl_append, List.foldl_append,
      ih h2 (fun i hi => hsrc i (Nat.lt_succ_of_lt hi))]
    simp only [List.foldl_cons, List.foldl_nil, hash_alu_src, hsrc n (Nat.lt_succ_self n)]

theorem map_srcs_swizzle_ssa (w : Nat → List Nat) (l : List nir_alu_src) (i : Nat) :
    ((map_srcs (fun k s => { s with swizzle := w k }) 0 l).getD i default).ssa
      = (l.getD i default).ssa := by
  have key : ∀ (l : List nir_alu_src) (start i : Nat),
      ((map_srcs (fun k s => { s with swizzle := w k }) start l).getD i default).ssa
        = (l.getD i default).ssa := by
    intro l
    induction l with
    | nil => intro start i; rfl
    | cons x xs ih =>
      intro start i
      cases i with
      | zero => rfl
      | succ i =>
        simp only [map_srcs, List.getD_cons_succ]
        exact ih (start + 1) i
  exact key l 0 i

/-- C28: for ALU instructions `a` and `b`, `instrs_equal` implies equal
`hash_instr`; the hash of an ALU instruction is the same as that of any ALU
instruction with the same opcode, the same bit size and the same source value in
every operand slot below the opcode's number of inputs; replacing the swizzles of
all operands by arbitrary ones leaves the hash unchanged. -/
theorem C28_hash_compatible (E : Env) (a b : nir_alu_instr) (w : Nat → List Nat) :
    (instrs_equal E (.alu a) (.alu b) = true →
      hash_instr E (.alu a) = hash_instr E (.alu b)) ∧
    (a.op = b.op → a.bit_size = b.bit_size →
      (∀ i, i < (E.nir_op_infos a.op).num_inputs →
        (a.src.getD i default).ssa = (b.src.getD i default).ssa) →
      hash_instr E (.alu a) = hash_instr E (.alu b)) ∧
    hash_instr E
        (.alu { a with src := map_srcs (fun k s => { s with swizzle := w k }) 0 a.src }) =
      hash_instr E (.alu a) := by
  refine ⟨?_, ?_, ?_⟩
  · intro h
    have h' : alu_instrs_equal E a b = true := h
    obtain ⟨h1, h2, h3⟩ := (alu_instrs_equal_iff E a b).1 h'
    exact hash_alu_congr E _ a b h1 h2 h3
  · intro h1 h2 h3
    exact hash_alu_congr E _ a b h1 h2 h3
  · exact hash_alu_congr E _ _ a rfl rfl (fun i _ => map_srcs_swizzle_ssa w a.src i)

/-- C28 at the two additions of the first example, which read the same two values
with different swizzles: they are `instrs_equal` and have the same hash. -/
theorem C28_hash_compatible_witness :
    instrs_equal ex_env
      (.alu ⟨1, 1, 32, 1, [⟨100, [0, 0, 0, 0]⟩, ⟨101, [0, 0, 0, 0]⟩]⟩)
      (.alu ⟨1, 1, 32, 1, [⟨100, [1, 0, 0, 0]⟩, ⟨101, [1, 0, 0, 0]⟩]⟩) = true ∧
    hash_instr ex_env (.alu ⟨1, 1, 32, 1, [⟨100, [0, 0, 0, 0]⟩, ⟨101, [0, 0, 0, 0]⟩]⟩) =
      hash_instr ex_env (.alu ⟨1, 1, 32, 1, [⟨100, [1, 0, 0, 0]⟩, ⟨101, [1, 0, 0, 0]⟩]⟩) :=
  ⟨by decide,
    (C28_hash_compatible ex_env ⟨1, 1, 32, 1, [⟨100, [0, 0, 0, 0]⟩, ⟨101, [0, 0, 0, 0]⟩]⟩
      ⟨1, 1, 32, 1, [⟨100, [1, 0, 0, 0]⟩, ⟨101, [1, 0, 0, 0]⟩]⟩ (fun _ => [])).1 (by decide)⟩

theorem instr_can_rewrite_iff (E : Env) (alu : nir_alu_instr) :
    instr_can_rewrite E (.alu alu) = true ↔
      alu.op ≠ E.nir_op_imov ∧ alu.op ≠ E.nir_op_fmov ∧
      (E.nir_op_infos alu.op).output_size = 0 ∧
      ∀ i, i < (E.nir_op_infos alu.op).num_inputs →
        (E.nir_op_infos alu.op).input_sizes.getD i 0 = 0 := by
  unfold instr_can_rewrite
  by_cases h1 : alu.op = E.nir_op_imov
  · simp [h1]
  · by_cases h2 : alu.op = E.nir_op_fmov
    · simp [h2]
    · by_cases h3 : (E.nir_op_infos alu.op).output_size = 0
      · simp [h1, h2, h3, List.all_eq_true]
      · simp [h1, h2, h3]

theorem instr_can_rewrite_op (E : Env) (a b : nir_alu_instr) (h : a.op = b.op) :
    instr_can_rewrite E (.alu a) = instr_can_rewrite E (.alu b) := by
  unfold instr_can_rewrite
  simp only [h]

theorem instr_can_rewrite_rewrite_both (E : Env) (instr1 instr2 new_alu n1 : Nat)
    (x : nir_instr) :
    instr_can_rewrite E (rewrite_both E instr1 instr2 new_alu n1 x)
      = instr_can_rewrite E x := by
  cases x with
  | alu u => exact instr_can_rewrite_op E _ _ rfl
  | other srcs => rfl

theorem add_or_rewrite_ineligible (E : Env) (instr : Nat) (s : vec_state)
    (h : instr_can_rewrite E (s.heap instr) = false) :
    vec_instr_set_add_or_rewrite E instr s = (false, s) ∧
    vec_instr_set_remove E instr s = s := by
  unfold vec_instr_set_add_or_rewrite vec_instr_set_remove
  simp [h]

theorem walk_instrs_with (E : Env) (hE : (E.nir_op_infos E.nir_op_imov).num_inputs = 1)
    (P : vec_state → Prop)
    (hadd : ∀ s U instr rest, walk_inv E s → walk_pend s U (instr :: rest) → P s →
      P (vec_instr_set_add_or_rewrite E instr s).2)
    (U : List Nat) (l : List Nat) :
    ∀ s, walk_inv E s → walk_pend s U l → P s → P (vectorize_instrs E l s).2 := by
  induction l with
  | nil => intro s _ _ hP; exact hP
  | cons instr rest ih =>
    intro s hinv hpend hP
    obtain ⟨h1, h2⟩ := walk_inv_add_or_rewrite E s U instr rest hE hinv hpend
    exact ih _ h1 h2 (hadd s U instr rest hinv hpend hP)

theorem walk_remove_with (E : Env) (P : vec_state → Prop)
    (hrem : ∀ s instr, walk_inv E s → P s → P (vec_instr_set_remove E instr s))
    (U : List Nat) (l : List Nat) :
    ∀ s, walk_inv E s → walk_pend s U [] → P s → P (remove_instrs E l s) := by
  induction l with
  | nil => intro s _ _ hP; exact hP
  | cons instr rest ih =>
    intro s hinv hpend hP
    obtain ⟨h1, h2⟩ := walk_inv_remove E instr s U [] hinv hpend
    exact ih _ h1 h2 (hrem s instr hinv hP)

theorem walk_block_with (E : Env) (hE : (E.nir_op_infos E.nir_op_imov).num_inputs = 1)
    (P : vec_state → Prop)
    (hadd : ∀ s U instr rest, walk_inv E s → walk_pend s U (instr :: rest) → P s →
      P (vec_instr_set_add_or_rewrite E instr s).2)
    (hrem : ∀ s instr, walk_inv E s → P s → P (vec_instr_set_remove E instr s))
    (t : DomTree) :
    ∀ s U, (tree_blocks t ++ U).Nodup → walk_inv E s → walk_pend s (tree_blocks t ++ U) [] →
      P s → walk_inv E (vectorize_block E t s).2 ∧ walk_pend (vectorize_block E t s).2 U [] ∧
        P (vectorize_block E t s).2 := by
  induction t using DomTree.rec
    (motive_2 := fun cs => ∀ s U, (forest_blocks cs ++ U).Nodup → walk_inv E s →
      walk_pend s (forest_blocks cs ++ U) [] → P s →
      walk_inv E (vectorize_children E cs s).2 ∧
        walk_pend (vectorize_children E cs s).2 U [] ∧
        P (vectorize_children E cs s).2) with
  | node block dom_children ih =>
    intro s U hU hinv hpend hP
    simp only [tree_blocks, List.cons_append] at hU hpend
    have h0 := walk_pend_enter E s block _ hinv hpend hU
    obtain ⟨h1, h2⟩ := walk_inv_instrs E hE _ _ s hinv h0
    have hP1 := walk_instrs_with E hE P hadd _ _ s hinv h0 hP
    obtain ⟨h3, h4, hP2⟩ := ih _ U (List.nodup_cons.1 hU).2 h1 h2 hP1
    simp only [vectorize_block]
    obtain ⟨h5, h6⟩ := walk_inv_remove_instrs E U _ _ h3 h4
    exact ⟨h5, h6, walk_remove_with E P hrem U _ _ h3 h4 hP2⟩
  | nil =>
    rename_i s U hU hinv hpend hP
    exact ⟨hinv, hpend, hP⟩
  | cons child rest ih1 ih2 =>
    rename_i s U hU hinv hpend hP
    simp only [forest_blocks, List.append_assoc] at hU hpend
    obtain ⟨h1, h2, hP1⟩ := ih1 s _ hU hinv hpend hP
    simp only [vectorize_children]
    exact ih2 _ U (List.nodup_append.1 hU).2.1 h1 h2 hP1

theorem mem_functions_instrs (fs : List (Option nir_function_impl)) (impl : nir_function_impl)
    (hi : some impl ∈ fs) (p : Nat) (hp : p ∈ impl.blocks.flatten) :
    p ∈ functions_instrs fs := by
  induction fs with
  | nil => simp at hi
  | cons g rest ih =>
    simp only [List.mem_cons] at hi
    rcases hi with hh | hh
    · subst hh
      simp only [functions_instrs, List.mem_append]
      exact Or.inl hp
    · cases g with
      | none => exact ih hh
      | some impl3 =>
        simp only [functions_instrs, List.mem_append]
        exact Or.inr (ih hh)

theorem vectorize_functions_log (E : Env)
    (hE : (E.nir_op_infos E.nir_op_imov).num_inputs = 1) (M : merge_record → Prop)
    (himpl : ∀ (sh : nir_shader) (impl : nir_function_impl), impl.blocks.flatten.Nodup →
      (tree_blocks impl.dom_tree).Nodup →
      (∀ p, p ∈ impl.blocks.flatten → p < sh.next ∧ arity_ok E (sh.heap p)) →
      (∀ m, m ∈ sh.merges → alu_instrs_equal E m.alu1 m.alu2 = true) →
      (∀ m, m ∈ sh.merges → M m) →
      ∀ m, m ∈ (nir_opt_vectorize_impl E sh impl).2.1.merges → M m)
    (fs : List (Option nir_function_impl)) :
    ∀ sh : nir_shader, (functions_instrs fs).Nodup →
      (∀ impl, some impl ∈ fs → (tree_blocks impl.dom_tree).Nodup ∧
        ∀ p, p ∈ impl.blocks.flatten → p < sh.next ∧ arity_ok E (sh.heap p)) →
      (∀ m, m ∈ sh.merges → alu_instrs_equal E m.alu1 m.alu2 = true) →
      (∀ m, m ∈ sh.merges → M m) →
      ∀ m, m ∈ (vectorize_functions E fs sh).2.merges → M m := by
  induction fs with
  | nil =>
    intro sh _ _ _ hM
    exact hM
  | cons f rest ih =>
    intro sh hnd hwf hlog hM
    cases f with
    | none =>
      simp only [vectorize_functions]
      exact ih _ hnd (fun impl hi => hwf impl (List.mem_cons_of_mem _ hi)) hlog hM
    | some impl =>
      simp only [vectorize_functions]
      simp only [functions_instrs] at hnd
      have hnd2 := List.nodup_append.1 hnd
      have hi := hwf impl (List.mem_cons_self _ _)
      have hm := walk_inv_impl E hE sh impl hnd2.1 hi.1 hi.2 hlog
      have hM2 := himpl sh impl hnd2.1 hi.1 hi.2 hlog hM
      obtain ⟨hn, hf, _⟩ := vectorize_block_rel E frame_rel (frame_rel_walk E)
        impl.dom_tree (impl_state sh impl)
      refine ih { (nir_opt_vectorize_impl E sh impl).2.1 with
                  functions := (nir_opt_vectorize_impl E sh impl).2.1.functions ++
                    [some (nir_opt_vectorize_impl E sh impl).2.2] } hnd2.2.1 ?_ hm hM2
      intro impl2 hi2
      have h2 := hwf impl2 (List.mem_cons_of_mem _ hi2)
      refine ⟨h2.1, ?_⟩
      intro p hp
      have hp2 : p ∈ functions_instrs rest := mem_functions_instrs rest impl2 hi2 p hp
      have hnot : p ∉ impl.blocks.flatten := fun h => hnd2.2.2 h hp2
      have hlt := (h2.2 p hp).1
      constructor
      · exact lt_of_lt_of_le hlt hn
      · have : (nir_opt_vectorize_impl E sh impl).2.1.heap p = sh.heap p := hf p hnot hlt
        show arity_ok E ((nir_opt_vectorize_impl E sh impl).2.1.heap p)
        rw [this]
        exact (h2.2 p hp).2

theorem walk_impl_with (E : Env) (hE : (E.nir_op_infos E.nir_op_imov).num_inputs = 1)
    (P : vec_state → Prop)
    (hadd : ∀ s U instr rest, walk_inv E s → walk_pend s U (instr :: rest) → P s →
      P (vec_instr_set_add_or_rewrite E instr s).2)
    (hrem : ∀ s instr, walk_inv E s → P s → P (vec_instr_set_remove E instr s))
    (sh : nir_shader) (impl : nir_function_impl)
    (hnd : impl.blocks.flatten.Nodup) (htree : (tree_blocks impl.dom_tree).Nodup)
    (hlive : ∀ p, p ∈ impl.blocks.flatten → p < sh.next ∧ arity_ok E (sh.heap p))
    (hlog : ∀ m, m ∈ sh.merges → alu_instrs_equal E m.alu1 m.alu2 = true)
    (hP : P (impl_state sh impl)) :
    P (vectorize_block E impl.dom_tree (impl_state sh impl)).2 := by
  have hinv : walk_inv E (impl_state sh impl) :=
    ⟨hnd, fun p hp => (hlive p hp).1, fun e he => by simp [impl_state, entries] at he,
      by simp [impl_state, entries], fun p hp => (hlive p hp).2,
      fun st hst => by simp [impl_state] at hst, hlog⟩
  have hpend : walk_pend (impl_state sh impl) (tree_blocks impl.dom_tree ++ []) [] :=
    ⟨fun p hp => by simp at hp, List.nodup_nil, fun p hp => by simp at hp,
      fun c _ p _ => ⟨by simp [impl_state, entries], by simp⟩⟩
  exact (walk_block_with E hE P hadd hrem impl.dom_tree (impl_state sh impl) []
    (by simpa using htree) hinv hpend hP).2.2

theorem elig_add (E : Env) (s : vec_state) (U : List Nat) (instr : Nat) (rest : List Nat)
    (hinv : walk_inv E s) (_hpend : walk_pend s U (instr :: rest))
    (hP : (∀ e, e ∈ entries s.instr_set → instr_can_rewrite E (s.heap e) = true) ∧
      ∀ m, m ∈ s.merges → instr_can_rewrite E (.alu m.alu1) = true ∧
        instr_can_rewrite E (.alu m.alu2) = true) :
    (∀ e, e ∈ entries (vec_instr_set_add_or_rewrite E instr s).2.instr_set →
      instr_can_rewrite E ((vec_instr_set_add_or_rewrite E instr s).2.heap e) = true) ∧
    ∀ m, m ∈ (vec_instr_set_add_or_rewrite E instr s).2.merges →
      instr_can_rewrite E (.alu m.alu1) = true ∧ instr_can_rewrite E (.alu m.alu2) = true := by
  rcases vec_instr_set_add_or_rewrite_cases E instr s with
    h | ⟨hr, h⟩ | ⟨hr, L1, hh, stack, L2, hset, hcmp, h⟩ |
    ⟨hr, L1, hh, pre, si, post, L2, alu1, alu2, hset, hcmp, h1, h2, _, h⟩
  · rw [h]
    exact hP
  · rw [h]
    refine ⟨?_, hP.2⟩
    intro e he
    simp only [entries_append, entries_cons, List.mem_append] at he
    rcases he with he | he | he
    · exact hP.1 e he
    · simp only [List.mem_singleton] at he
      rw [he]
      exact hr
    · simp [entries] at he
  · rw [h]
    refine ⟨?_, hP.2⟩
    intro e he
    simp only [entries_mid, List.mem_append] at he
    have hold : ∀ x, x ∈ entries s.instr_set → instr_can_rewrite E (s.heap x) = true := hP.1
    rw [hset] at hold
    simp only [entries_mid, List.mem_append] at hold
    rcases he with he | (he | he) | he
    · exact hold e (Or.inl he)
    · exact hold e (Or.inr (Or.inl he))
    · simp only [List.mem_singleton] at he
      rw [he]
      exact hr
    · exact hold e (Or.inr (Or.inr he))
  · rw [h]
    have hold : ∀ x, x ∈ entries s.instr_set → instr_can_rewrite E (s.heap x) = true := hP.1
    have hlive : ∀ x, x ∈ entries s.instr_set → x ∈ s.blocks.flatten := hinv.entries_live
    rw [hset] at hold hlive
    simp only [entries_mid, List.mem_append, List.mem_cons] at hold hlive
    have hsi := hold si (Or.inr (Or.inl (Or.inr (Or.inl rfl))))
    have hsil := hlive si (Or.inr (Or.inl (Or.inr (Or.inl rfl))))
    have hkeep : ∀ x, x ∈ s.blocks.flatten → instr_can_rewrite E (s.heap x) = true →
        instr_can_rewrite E ((combine_alu E s si instr alu1 alu2).heap x) = true := by
      intro x hx hc
      rw [combine_heap_live E s si instr alu1 alu2 x hx (hinv.lt_next x hx),
        instr_can_rewrite_rewrite_both]
      exact hc
    refine ⟨?_, ?_⟩
    · intro e he
      simp only [entries_mid, List.mem_append, List.mem_cons] at he
      show instr_can_rewrite E ((combine_alu E s si instr alu1 alu2).heap e) = true
      rcases he with he | (he | he | he) | he
      · exact hkeep e (hlive e (Or.inl he)) (hold e (Or.inl he))
      · exact hkeep e (hlive e (Or.inr (Or.inl (Or.inl he)))) (hold e (Or.inr (Or.inl (Or.inl he))))
      · rw [he, combine_heap_new E s si instr alu1 alu2 hsil, instr_can_rewrite_rewrite_both,
          instr_can_rewrite_op E (combined_alu E alu1 alu2) alu1 rfl, ← h1]
        exact hsi
      · exact hkeep e (hlive e (Or.inr (Or.inl (Or.inr (Or.inr he)))))
          (hold e (Or.inr (Or.inl (Or.inr (Or.inr he)))))
      · exact hkeep e (hlive e (Or.inr (Or.inr he))) (hold e (Or.inr (Or.inr he)))
    · intro m hm
      have hm' : m ∈ s.merges ++ [⟨si, instr, alu1, alu2, s.blocks, s.next⟩] := hm
      rcases List.mem_append.1 hm' with hm' | hm'
      · exact hP.2 m hm'
      · simp only [List.mem_singleton] at hm'
        rw [hm']
        simp only
        rw [← h1, ← h2]
        exact ⟨hsi, hr⟩

theorem elig_remove (E : Env) (s : vec_state) (instr : Nat)
    (hP : (∀ e, e ∈ entries s.instr_set → instr_can_rewrite E (s.heap e) = true) ∧
      ∀ m, m ∈ s.merges → instr_can_rewrite E (.alu m.alu1) = true ∧
        instr_can_rewrite E (.alu m.alu2) = true) :
    (∀ e, e ∈ entries (vec_instr_set_remove E instr s).instr_set →
      instr_can_rewrite E ((vec_instr_set_remove E instr s).heap e) = true) ∧
    ∀ m, m ∈ (vec_instr_set_remove E instr s).merges →
      instr_can_rewrite E (.alu m.alu1) = true ∧ instr_can_rewrite E (.alu m.alu2) = true := by
  rcases vec_instr_set_remove_cases E instr s with h | ⟨L1, e, L2, hl, h⟩ | ⟨L1, e, L2, hl, h⟩
  · rw [h]
    exact hP
  · rw [h]
    refine ⟨?_, hP.2⟩
    intro x hx
    apply hP.1 x
    rw [hl]
    simp only [entries_append, entries_cons, List.mem_append] at hx ⊢
    rcases hx with hx | hx | hx
    · exact Or.inl hx
    · exact Or.inr (Or.inl (List.dropLast_subset _ hx))
    · exact Or.inr (Or.inr hx)
  · rw [h]
    refine ⟨?_, hP.2⟩
    intro x hx
    apply hP.1 x
    rw [hl]
    simp only [entries_append, entries_cons, List.mem_append] at hx ⊢
    rcases hx with hx | hx
    · exact Or.inl hx
    · exact Or.inr (Or.inr hx)

theorem elig_impl (E : Env) (hE : (E.nir_op_infos E.nir_op_imov).num_inputs = 1)
    (sh : nir_shader) (impl : nir_function_impl) (hnd : impl.blocks.flatten.Nodup)
    (htree : (tree_blocks impl.dom_tree).Nodup)
    (hlive : ∀ p, p ∈ impl.blocks.flatten → p < sh.next ∧ arity_ok E (sh.heap p))
    (hlog : ∀ m, m ∈ sh.merges → alu_instrs_equal E m.alu1 m.alu2 = true)
    (hM : ∀ m, m ∈ sh.merges → instr_can_rewrite E (.alu m.alu1) = true ∧
      instr_can_rewrite E (.alu m.alu2) = true) :
    ∀ m, m ∈ (nir_opt_vectorize_impl E sh impl).2.1.merges →
      instr_can_rewrite E (.alu m.alu1) = true ∧ instr_can_rewrite E (.alu m.alu2) = true :=
  (walk_impl_with E hE
    (fun s => (∀ e, e ∈ entries s.instr_set → instr_can_rewrite E (s.heap e) = true) ∧
      ∀ m, m ∈ s.merges → instr_can_rewrite E (.alu m.alu1) = true ∧
        instr_can_rewrite E (.alu m.alu2) = true)
    (fun s U instr rest hinv hpend hP => elig_add E s U instr rest hinv hpend hP)
    (fun s instr _ hP => elig_remove E s instr hP)
    sh impl hnd htree hlive hlog
    ⟨fun e he => by simp [impl_state, entries] at he, hM⟩).2

theorem ex_stack_shader_wf : ∀ impl, some impl ∈ ex_stack_shader.functions →
    (tree_blocks impl.dom_tree).Nodup ∧
    ∀ p, p ∈ impl.blocks.flatten → p < ex_stack_shader.next ∧
      arity_ok ex_env (ex_stack_shader.heap p) := by
  intro impl himpl
  simp only [ex_stack_shader, List.mem_singleton, Option.some.injEq] at himpl
  subst himpl
  refine ⟨by decide, ?_⟩
  intro p hp
  simp only [List.flatten_cons, List.flatten_nil, List.append_nil, List.mem_cons,
    List.not_mem_nil, or_false] at hp
  have hheap : ex_stack_shader.heap p = ex_stack_heap p := rfl
  rw [hheap]
  rcases hp with rfl | rfl | rfl | rfl | rfl
  all_goals
    refine ⟨by decide, ?_⟩
    intro a ha
    simp [ex_stack_heap, ex_alu] at ha
    try (subst ha; decide)

/-- C22: `instr_can_rewrite` is true for an ALU instruction exactly when its opcode
is neither `imov` nor `fmov`, has `output_size` 0 and has `input_sizes[i]` 0 for
every input `i`; it is false for every instruction of another type (phi nodes
among them). For an instruction on which it is false, `vec_instr_set_add_or_rewrite`
returns false and `vec_instr_set_remove` returns, both with the state they were
given: nothing is pushed, combined or removed. And in a run of `nir_opt_vectorize`
on a shader whose linked instructions have distinct addresses below the allocation
pointer and the operand count of their opcode, and whose dominator trees name every
block once, both instructions of every combine are accepted by `instr_can_rewrite`
when they are combined. -/
theorem C22_can_rewrite_exactly (E : Env) (shader : nir_shader)
    (hE : (E.nir_op_infos E.nir_op_imov).num_inputs = 1)
    (hnd : (functions_instrs shader.functions).Nodup)
    (hwf : ∀ impl, some impl ∈ shader.functions → (tree_blocks impl.dom_tree).Nodup ∧
      ∀ p, p ∈ impl.blocks.flatten → p < shader.next ∧ arity_ok E (shader.heap p))
    (hlog : shader.merges = []) :
    (∀ alu : nir_alu_instr, instr_can_rewrite E (.alu alu) = true ↔
      alu.op ≠ E.nir_op_imov ∧ alu.op ≠ E.nir_op_fmov ∧
      (E.nir_op_infos alu.op).output_size = 0 ∧
      ∀ i, i < (E.nir_op_infos alu.op).num_inputs →
        (E.nir_op_infos alu.op).input_sizes.getD i 0 = 0) ∧
    (∀ srcs, instr_can_rewrite E (.other srcs) = false) ∧
    (∀ (s : vec_state) instr, instr_can_rewrite E (s.heap instr) = false →
      vec_instr_set_add_or_rewrite E instr s = (false, s) ∧
      vec_instr_set_remove E instr s = s) ∧
    (∀ m, m ∈ (nir_opt_vectorize E shader).2.merges →
      instr_can_rewrite E (.alu m.alu1) = true ∧
      instr_can_rewrite E (.alu m.alu2) = true) := by
  refine ⟨instr_can_rewrite_iff E, fun _ => rfl,
    fun s instr h => add_or_rewrite_ineligible E instr s h, ?_⟩
  exact vectorize_functions_log E hE
    (fun m => instr_can_rewrite E (.alu m.alu1) = true ∧
      instr_can_rewrite E (.alu m.alu2) = true)
    (fun sh impl h1 h2 h3 h4 h5 => elig_impl E hE sh impl h1 h2 h3 h4 h5)
    shader.functions { shader with functions := [] } hnd hwf
    (by intro m hm; rw [hlog] at hm; simp at hm)
    (by intro m hm; rw [hlog] at hm; simp at hm)

/-- C22 at the third example: the run combines `104` and `105`, both accepted by
`instr_can_rewrite`; the two values `100` and `101` are no ALU instructions and
are part of no combine. -/
theorem C22_can_rewrite_exactly_witness :
    (ex_env.nir_op_infos ex_env.nir_op_imov).num_inputs = 1 ∧
    (functions_instrs ex_stack_shader.functions).Nodup ∧
    ex_stack_shader.merges = [] ∧
    instr_can_rewrite ex_env (ex_stack_shader.heap 100) = false ∧
    (nir_opt_vectorize ex_env ex_stack_shader).2.merges.map
      (fun m => (m.instr1, m.instr2)) = [(104, 105)] ∧
    ∀ m, m ∈ (nir_opt_vectorize ex_env ex_stack_shader).2.merges →
      instr_can_rewrite ex_env (.alu m.alu1) = true ∧
      instr_can_rewrite ex_env (.alu m.alu2) = true :=
  ⟨by decide, by decide, rfl, by decide, by decide,
    (C22_can_rewrite_exactly ex_env ex_stack_shader (by decide) (by decide)
      ex_stack_shader_wf rfl).2.2.2⟩

theorem instr_try_combine_none (E : Env) (s : vec_state) (a b : Nat)
    (h : (instr_try_combine E s a b).1 = none) : instr_try_combine E s a b = (none, s) := by
  rcases instr_try_combine_cases E s a b with h1 | ⟨alu1, alu2, _, _, _, h1⟩
  · exact h1
  · rw [h1] at h
    cases h

theorem instr_try_combine_some (E : Env) (s : vec_state) (a b : Nat)
    (h : (instr_try_combine E s a b).1 ≠ none) :
    (instr_try_combine E s a b).1 = some s.next ∧
    ∃ alu1 alu2, s.heap a = .alu alu1 ∧ s.heap b = .alu alu2 ∧
      alu1.num_components + alu2.num_components ≤ 4 ∧
      (instr_try_combine E s a b).2 = combine_alu E s a b alu1 alu2 := by
  rcases instr_try_combine_cases E s a b with h1 | ⟨alu1, alu2, h2, h3, h4, h1⟩
  · rw [h1] at h
    exact absurd rfl h
  · rw [h1]
    exact ⟨rfl, alu1, alu2, h2, h3, h4, rfl⟩

theorem stack_scan_none (E : Env) (instr : Nat) (l : List Nat) (s : vec_state)
    (h : ∀ x, x ∈ l → (instr_try_combine E s x instr).1 = none) :
    vec_instr_stack_scan E instr l s = (none, s) := by
  induction l with
  | nil => rfl
  | cons x rest ih =>
    unfold vec_instr_stack_scan
    rw [instr_try_combine_none E s x instr (h x (List.mem_cons_self _ _))]
    simp only
    rw [ih (fun y hy => h y (List.mem_cons_of_mem _ hy))]

theorem stack_scan_first (E : Env) (instr : Nat) (pre : List Nat) (e : Nat) (post : List Nat)
    (s : vec_state)
    (hpre : ∀ x, x ∈ pre → (instr_try_combine E s x instr).1 = none)
    (he : (instr_try_combine E s e instr).1 ≠ none) :
    vec_instr_stack_scan E instr (pre ++ e :: post) s =
      (some (pre ++ s.next :: post), (instr_try_combine E s e instr).2) := by
  induction pre with
  | nil =>
    simp only [List.nil_append]
    unfold vec_instr_stack_scan
    have h1 := (instr_try_combine_some E s e instr he).1
    have : instr_try_combine E s e instr = (some s.next, (instr_try_combine E s e instr).2) :=
      Prod.ext h1 rfl
    rw [this]
  | cons x rest ih =>
    simp only [List.cons_append]
    unfold vec_instr_stack_scan
    rw [instr_try_combine_none E s x instr (hpre x (List.mem_cons_self _ _))]
    simp only
    rw [ih (fun y hy => hpre y (List.mem_cons_of_mem _ hy))]

theorem stack_push_none (E : Env) (stack : List Nat) (instr : Nat) (s : vec_state)
    (h : ∀ x, x ∈ stack → (instr_try_combine E s x instr).1 = none) :
    vec_instr_stack_push E stack instr s = (false, stack ++ [instr], s) := by
  unfold vec_instr_stack_push
  rw [stack_scan_none E instr stack.reverse s (fun x hx => h x (List.mem_reverse.1 hx))]

theorem stack_push_first (E : Env) (below : List Nat) (e : Nat) (above : List Nat)
    (instr : Nat) (s : vec_state)
    (habove : ∀ x, x ∈ above → (instr_try_combine E s x instr).1 = none)
    (he : (instr_try_combine E s e instr).1 ≠ none) :
    vec_instr_stack_push E (below ++ e :: above) instr s =
      (true, below ++ s.next :: above, (instr_try_combine E s e instr).2) := by
  unfold vec_instr_stack_push
  have hrev : (below ++ e :: above).reverse = above.reverse ++ e :: below.reverse := by
    simp
  rw [hrev, stack_scan_first E instr above.reverse e below.reverse s
    (fun x hx => habove x (List.mem_reverse.1 hx)) he]
  simp

theorem stack_split_first (E : Env) (instr : Nat) (s : vec_state) (stack : List Nat) :
    (∀ x, x ∈ stack → (instr_try_combine E s x instr).1 = none) ∨
    ∃ below e above, stack = below ++ e :: above ∧
      (∀ x, x ∈ above → (instr_try_combine E s x instr).1 = none) ∧
      (instr_try_combine E s e instr).1 ≠ none := by
  induction stack with
  | nil => exact Or.inl (fun x hx => by cases hx)
  | cons y rest ih =>
    rcases ih with h | ⟨below, e, above, h1, h2, h3⟩
    · by_cases hy : (instr_try_combine E s y instr).1 = none
      · left
        intro x hx
        rcases List.mem_cons.1 hx with hx | hx
        · rw [hx]; exact hy
        · exact h x hx
      · exact Or.inr ⟨[], y, rest, rfl, h, hy⟩
    · exact Or.inr ⟨y :: below, e, above, by rw [h1]; rfl, h2, h3⟩

/-- C25: `vec_instr_stack_push` goes through the entries of the stack from the
top down. If the combine of `instr` with the entry `e` returns an instruction and
the combine with every entry above `e` returns none, the push returns true, the
stack holds the combined instruction in the place of `e` and is otherwise as
before, with the same length, and the state is the one that combine returned. If
the combine with every entry returns none, the push returns false, the stack is
the old one with `instr` appended as the new top, one entry longer, and the state
is unchanged. One of the two cases always applies. -/
theorem C25_push_scans_from_top (E : Env) (stack : List Nat) (instr : Nat) (s : vec_state) :
    (∀ below e above, stack = below ++ e :: above →
      (∀ x, x ∈ above → (instr_try_combine E s x instr).1 = none) →
      (instr_try_combine E s e instr).1 ≠ none →
      (instr_try_combine E s e instr).1 = some s.next ∧
      vec_instr_stack_push E stack instr s =
        (true, below ++ s.next :: above, (instr_try_combine E s e instr).2) ∧
      (vec_instr_stack_push E stack instr s).2.1.length = stack.length) ∧
    ((∀ x, x ∈ stack → (instr_try_combine E s x instr).1 = none) →
      vec_instr_stack_push E stack instr s = (false, stack ++ [instr], s) ∧
      (vec_instr_stack_push E stack instr s).2.1.length = stack.length + 1) ∧
    ((∀ x, x ∈ stack → (instr_try_combine E s x instr).1 = none) ∨
      ∃ below e above, stack = below ++ e :: above ∧
        (∀ x, x ∈ above → (instr_try_combine E s x instr).1 = none) ∧
        (instr_try_combine E s e instr).1 ≠ none) := by
  refine ⟨?_, ?_, stack_split_first E instr s stack⟩
  · intro below e above hst habove he
    subst hst
    have hp := stack_push_first E below e above instr s habove he
    refine ⟨(instr_try_combine_some E s e instr he).1, hp, ?_⟩
    rw [hp]
    simp
  · intro h
    have hp := stack_push_none E stack instr s h
    refine ⟨hp, ?_⟩
    rw [hp]
    simp

/-- C25 at the fifth example: the stack holds `102` (two components) below `104`
(three components) and `105` (two components) is pushed; the combine with the top
`104` returns none, the combine with `102` returns the new instruction `200`, which
takes the place of `102`. -/
theorem C25_push_scans_from_top_witness :
    (instr_try_combine ex_env ex_deep_state 104 105).1 = none ∧
    (instr_try_combine ex_env ex_deep_state 102 105).1 = some 200 ∧
    (vec_instr_stack_push ex_env [102, 104] 105 ex_deep_state).1 = true ∧
    (vec_instr_stack_push ex_env [102, 104] 105 ex_deep_state).2.1 = [200, 104] ∧
    (vec_instr_stack_push ex_env [102, 104] 105 ex_deep_state).2.1.length = 2 := by
  have h := (C25_push_scans_from_top ex_env [102, 104] 105 ex_deep_state).1 [] 102 [104] rfl
    (by intro x hx; rw [List.mem_singleton.1 hx]; decide) (by decide)
  refine ⟨by decide, h.1, ?_, ?_, h.2.2⟩
  · rw [h.2.1]
  · rw [h.2.1]
    rfl

theorem instr_try_combine_set (E : Env) (s : vec_state) (a b : Nat) :
    (instr_try_combine E s a b).2.instr_set = s.instr_set := by
  rcases instr_try_combine_cases E s a b with h1 | ⟨alu1, alu2, _, _, _, h1⟩
  · rw [h1]
  · rw [h1]
    rfl

theorem add_or_rewrite_found (E : Env) (instr : Nat) (s : vec_state) (entry : Nat)
    (hr : instr_can_rewrite E (s.heap instr) = true)
    (hentry : _mesa_set_search E s [instr] = some entry) :
    vec_instr_set_add_or_rewrite E instr s =
      ((vec_instr_stack_push E (s.instr_set.getD entry (0, [])).2 instr s).1,
        { (vec_instr_stack_push E (s.instr_set.getD entry (0, [])).2 instr s).2.2 with
          instr_set := set_stack
            (vec_instr_stack_push E (s.instr_set.getD entry (0, [])).2 instr s).2.2.instr_set
            entry (vec_instr_stack_push E (s.instr_set.getD entry (0, [])).2 instr s).2.1 }) := by
  unfold vec_instr_set_add_or_rewrite
  rw [hr]
  have hp : vec_instr_stack_push E [] instr s = (false, [instr], s) := rfl
  simp only [Bool.not_true, Bool.false_eq_true, if_false, hp, hentry]

/-- C24, counterexample: in the walk of the fifth example the set holds the stack
of `102` (bottom) and `104` (top) when `105` arrives, and `_mesa_set_search` finds
it. The combine of the top `104` with `105` returns none (3 + 2 components); the
pass then combines `105` with `102`: it returns true, the stack is `200`, `104`,
so the top is as before, `105` is not pushed, and the one combine of the run is
that of `102` and `105`. -/
theorem C24_lower_entry_combined :
    (vectorize_instrs ex_env [100, 101, 102, 104]
      (impl_state ex_deep_shader ⟨[[100, 101, 102, 104, 105]], [], .node 0 []⟩)).2.instr_set
      = ex_deep_state.instr_set ∧
    _mesa_set_search ex_env ex_deep_state [105] = some 0 ∧
    (instr_try_combine ex_env ex_deep_state 104 105).1 = none ∧
    (vec_instr_set_add_or_rewrite ex_env 105 ex_deep_state).1 = true ∧
    (vec_instr_set_add_or_rewrite ex_env 105 ex_deep_state).2.instr_set.map Prod.snd
      = [[200, 104]] ∧
    (nir_opt_vectorize ex_env ex_deep_shader).2.merges.map
      (fun m => (m.instr1, m.instr2, m.new_instr)) = [(102, 105, 200)] := by
  decide

/-- C24, amended: when `instr_can_rewrite` accepts the instruction and
`_mesa_set_search` finds a stack for it, `vec_instr_set_add_or_rewrite` goes
through the entries of that stack from the top down. If the combine with the
entry `e` returns an instruction and the combine with every entry above `e`
returns none, the pass returns true and the stack holds the combined instruction
in the place of `e`, all other entries as before. If the combine with every entry
returns none, the pass returns false, the state is unchanged but for the stack,
which has the instruction as its new top entry. -/
theorem C24_combines_first_from_top (E : Env) (instr : Nat) (s : vec_state) (entry : Nat)
    (hr : instr_can_rewrite E (s.heap instr) = true)
    (hentry : _mesa_set_search E s [instr] = some entry) :
    (∀ below e above, (s.instr_set.getD entry (0, [])).2 = below ++ e :: above →
      (∀ x, x ∈ above → (instr_try_combine E s x instr).1 = none) →
      (instr_try_combine E s e instr).1 ≠ none →
      vec_instr_set_add_or_rewrite E instr s =
        (true, { (instr_try_combine E s e instr).2 with
                 instr_set := set_stack s.instr_set entry (below ++ s.next :: above) })) ∧
    ((∀ x, x ∈ (s.instr_set.getD entry (0, [])).2 →
        (instr_try_combine E s x instr).1 = none) →
      vec_instr_set_add_or_rewrite E instr s =
        (false, { s with
                  instr_set := set_stack s.instr_set entry
                    ((s.instr_set.getD entry (0, [])).2 ++ [instr]) })) := by
  have hf := add_or_rewrite_found E instr s entry hr hentry
  refine ⟨?_, ?_⟩
  · intro below e above hst habove he
    rw [hf, hst, stack_push_first E below e above instr s habove he]
    simp only [instr_try_combine_set]
  · intro h
    rw [hf, stack_push_none E _ instr s h]

/-- C24, amended, at the fifth example: `105` finds the stack of `102` and `104`;
the combine with the top returns none and the one with `102` succeeds, so `102` is
replaced by the new instruction `200`. -/
theorem C24_combines_first_from_top_witness :
    instr_can_rewrite ex_env (ex_deep_state.heap 105) = true ∧
    _mesa_set_search ex_env ex_deep_state [105] = some 0 ∧
    vec_instr_set_add_or_rewrite ex_env 105 ex_deep_state =
      (true, { (instr_try_combine ex_env ex_deep_state 102 105).2 with
               instr_set := set_stack ex_deep_state.instr_set 0 ([] ++ 200 :: [104]) }) :=
  ⟨by decide, by decide,
    (C24_combines_first_from_top ex_env 105 ex_deep_state 0 (by decide) (by decide)).1
      [] 102 [104] rfl (by intro x hx; rw [List.mem_singleton.1 hx]; decide) (by decide)⟩

/-- C27: for two ALU instructions `A` (accepted by `instr_can_rewrite`) and `B`
that are `instrs_equal`, have at most 4 components together, and of which `A`
reads neither `A` nor `B`, the combine returns the new instruction, and in the
state it returns that instruction is accepted by `instr_can_rewrite`, is
`instrs_equal` to `A` and to `B` as they were, and has the `hash_instr` of `A`; a
stack with it as first entry has the `hash_stack` of the stack with `A` as first
entry; and a combine of it with a further ALU instruction returns an instruction
whenever the component counts add up to at most 4. -/
theorem C27_combined_in_class (E : Env) (s : vec_state) (instr1 instr2 : Nat)
    (alu1 alu2 : nir_alu_instr) (h1 : s.heap instr1 = .alu alu1)
    (h2 : s.heap instr2 = .alu alu2)
    (hw : alu1.num_components + alu2.num_components ≤ 4)
    (hr : instr_can_rewrite E (.alu alu1) = true)
    (heq : instrs_equal E (.alu alu1) (.alu alu2) = true)
    (hsrc : ∀ i, i < (E.nir_op_infos alu1.op).num_inputs →
      (alu1.src.getD i default).ssa ≠ instr1 ∧ (alu1.src.getD i default).ssa ≠ instr2) :
    (instr_try_combine E s instr1 instr2).1 = some s.next ∧
    ∃ c, (instr_try_combine E s instr1 instr2).2.heap s.next = .alu c ∧
      c.num_components = alu1.num_components + alu2.num_components ∧
      instr_can_rewrite E (.alu c) = true ∧
      instrs_equal E (.alu c) (.alu alu1) = true ∧
      instrs_equal E (.alu c) (.alu alu2) = true ∧
      hash_instr E (.alu c) = hash_instr E (.alu alu1) ∧
      (∀ rest, hash_stack E (instr_try_combine E s instr1 instr2).2.heap (s.next :: rest)
        = hash_stack E s.heap (instr1 :: rest)) ∧
      ∀ instr3 alu3, (instr_try_combine E s instr1 instr2).2.heap instr3 = .alu alu3 →
        c.num_components + alu3.num_components ≤ 4 →
        (instr_try_combine E (instr_try_combine E s instr1 instr2).2 s.next instr3).1
          = some (s.next + 3) := by
  rw [instr_try_combine_alu E s instr1 instr2 alu1 alu2 h1 h2, if_neg (by omega)]
  have hnew := combine_alu_heap_new E s instr1 instr2 alu1 alu2 hsrc
  have hc1 := combined_alu_equal E alu1 alu2
  have hhash : hash_instr E (.alu (combined_alu E alu1 alu2)) = hash_instr E (.alu alu1) := by
    obtain ⟨e1, e2, e3⟩ := (alu_instrs_equal_iff E _ _).1 hc1
    exact hash_alu_congr E _ _ _ e1 e2 e3
  refine ⟨rfl, combined_alu E alu1 alu2, hnew, rfl, ?_, hc1,
    instrs_equal_trans E _ _ _ hc1 heq, hhash, ?_, ?_⟩
  · rw [instr_can_rewrite_op E (combined_alu E alu1 alu2) alu1 rfl]
    exact hr
  · intro rest
    simp only [hash_stack, List.headD_cons]
    rw [hnew, h1]
    exact hhash
  · intro instr3 alu3 h3 hw3
    rw [instr_try_combine_alu E _ s.next instr3 _ alu3 hnew h3, if_neg (by omega)]
    rfl

/-- C27 at `A = a.x + b.x` and `B = a.y + b.y` of the first example, combined into
the instruction `200`. -/
theorem C27_combined_in_class_witness :
    (instr_try_combine ex_env ex_state 102 104).1 = some 200 ∧
    ∃ c, (instr_try_combine ex_env ex_state 102 104).2.heap 200 = .alu c ∧
      c.num_components = 1 + 1 ∧
      instr_can_rewrite ex_env (.alu c) = true ∧
      instrs_equal ex_env (.alu c)
        (.alu ⟨1, 1, 32, 1, [⟨100, [0, 0, 0, 0]⟩, ⟨101, [0, 0, 0, 0]⟩]⟩) = true ∧
      instrs_equal ex_env (.alu c)
        (.alu ⟨1, 1, 32, 1, [⟨100, [1, 0, 0, 0]⟩, ⟨101, [1, 0, 0, 0]⟩]⟩) = true ∧
      hash_instr ex_env (.alu c) = hash_instr ex_env
        (.alu ⟨1, 1, 32, 1, [⟨100, [0, 0, 0, 0]⟩, ⟨101, [0, 0, 0, 0]⟩]⟩) ∧
      (∀ rest, hash_stack ex_env (instr_try_combine ex_env ex_state 102 104).2.heap
          (200 :: rest) = hash_stack ex_env ex_state.heap (102 :: rest)) ∧
      ∀ instr3 alu3, (instr_try_combine ex_env ex_state 102 104).2.heap instr3 = .alu alu3 →
        c.num_components + alu3.num_components ≤ 4 →
        (instr_try_combine ex_env (instr_try_combine ex_env ex_state 102 104).2 200 instr3).1
          = some (200 + 3) :=
  C27_combined_in_class ex_env ex_state 102 104
    ⟨1, 1, 32, 1, [⟨100, [0, 0, 0, 0]⟩, ⟨101, [0, 0, 0, 0]⟩]⟩
    ⟨1, 1, 32, 1, [⟨100, [1, 0, 0, 0]⟩, ⟨101, [1, 0, 0, 0]⟩]⟩
    rfl rfl (by decide) (by decide) (by decide) (by decide)

theorem mem_take_map_srcs (f : Nat → nir_alu_src → nir_alu_src) (l : List nir_alu_src)
    (n : Nat) (x : nir_alu_src) (h : x ∈ (map_srcs f 0 l).take n) :
    ∃ k s, k < n ∧ s ∈ l.take n ∧ x = f k s := by
  obtain ⟨k, hk⟩ := List.mem_iff_getElem?.1 h
  rw [List.getElem?_take] at hk
  by_cases hkn : k < n
  · rw [if_pos hkn, map_srcs_getElem?] at hk
    cases hl : l[k]? with
    | none => rw [hl] at hk; cases hk
    | some s =>
      rw [hl] at hk
      simp only [Option.map_some', Option.some.injEq, Nat.zero_add] at hk
      refine ⟨k, s, hkn, ?_, hk.symm⟩
      apply List.mem_iff_getElem?.2
      exact ⟨k, by rw [List.getElem?_take, if_pos hkn]; exact hl⟩
  · rw [if_neg hkn] at hk
    cases hk

theorem uses_rewrite_use1 (E : Env) (d n n1 : Nat) (x : nir_instr) (y : Nat)
    (h : y ∈ instr_uses E (rewrite_use1 E d n n1 x)) :
    (y ∈ instr_uses E x ∧ y ≠ d) ∨ y = n ∨ y = n1 := by
  cases x with
  | alu u =>
    simp only [rewrite_use1, instr_uses, List.mem_map] at h ⊢
    obtain ⟨x, hx, hxy⟩ := h
    obtain ⟨k, s, hk, hs, hf⟩ := mem_take_map_srcs _ _ _ _ hx
    subst hf
    by_cases hc : k < (E.nir_op_infos u.op).num_inputs ∧ s.ssa = d
    · rw [if_pos hc] at hxy
      exact Or.inr (Or.inl hxy.symm)
    · rw [if_neg hc] at hxy
      refine Or.inl ⟨⟨s, hs, hxy⟩, ?_⟩
      intro hyd
      exact hc ⟨hk, by rw [hxy, hyd]⟩
  | other srcs =>
    simp only [rewrite_use1, instr_uses, List.mem_map] at h ⊢
    obtain ⟨x, hx, hxy⟩ := h
    by_cases hc : x = d
    · rw [if_pos hc] at hxy
      exact Or.inr (Or.inr hxy.symm)
    · rw [if_neg hc] at hxy
      exact Or.inl ⟨by rw [← hxy]; exact hx, by rw [← hxy]; exact hc⟩

theorem uses_rewrite_use2 (E : Env) (d n n2 k1 : Nat) (x : nir_instr) (y : Nat)
    (h : y ∈ instr_uses E (rewrite_use2 E d n n2 k1 x)) :
    (y ∈ instr_uses E x ∧ y ≠ d) ∨ y = n ∨ y = n2 := by
  cases x with
  | alu u =>
    simp only [rewrite_use2, instr_uses, List.mem_map] at h ⊢
    obtain ⟨x, hx, hxy⟩ := h
    obtain ⟨k, s, hk, hs, hf⟩ := mem_take_map_srcs _ _ _ _ hx
    subst hf
    by_cases hc : k < (E.nir_op_infos u.op).num_inputs ∧ s.ssa = d
    · rw [if_pos hc] at hxy
      exact Or.inr (Or.inl hxy.symm)
    · rw [if_neg hc] at hxy
      refine Or.inl ⟨⟨s, hs, hxy⟩, ?_⟩
      intro hyd
      exact hc ⟨hk, by rw [hxy, hyd]⟩
  | other srcs =>
    simp only [rewrite_use2, instr_uses, List.mem_map] at h ⊢
    obtain ⟨x, hx, hxy⟩ := h
    by_cases hc : x = d
    · rw [if_pos hc] at hxy
      exact Or.inr (Or.inr hxy.symm)
    · rw [if_neg hc] at hxy
      exact Or.inl ⟨by rw [← hxy]; exact hx, by rw [← hxy]; exact hc⟩

theorem not_mem_rewrite_if_uses (d n : Nat) (l : List Nat) (y : Nat)
    (h : y ∈ rewrite_if_uses d n l) : (y ∈ l ∧ y ≠ d) ∨ y = n := by
  simp only [rewrite_if_uses, List.mem_map] at h
  obtain ⟨x, hx, hxy⟩ := h
  by_cases hc : x = d
  · rw [if_pos hc] at hxy
    exact Or.inr hxy.symm
  · rw [if_neg hc] at hxy
    exact Or.inl ⟨by rw [← hxy]; exact hx, by rw [← hxy]; exact hc⟩

/-- C30: a combine of two ALU instructions `instr1` and `instr2` below the
allocation pointer with at most 4 components together returns the new
instruction, and: after the first rewriting loop no linked instruction uses
`instr1` and no if has it as condition (the assertions of lines 228-229); after
the second loop no linked instruction uses `instr2` and no if has it as condition
(lines 265-266); in the state returned no linked instruction uses `instr1` or
`instr2`, no if has one of them as condition, and neither is in a block. -/
theorem C30_no_dangling_use (E : Env) (s : vec_state) (instr1 instr2 : Nat)
    (alu1 alu2 : nir_alu_instr) (h1 : s.heap instr1 = .alu alu1)
    (h2 : s.heap instr2 = .alu alu2)
    (hw : alu1.num_components + alu2.num_components ≤ 4)
    (hf1 : instr1 < s.next) (hf2 : instr2 < s.next) :
    (instr_try_combine E s instr1 instr2).1 = some s.next ∧
    (∀ p, p ∈ (combine_blocks3 s instr1).flatten →
      instr1 ∉ instr_uses E (rewrite_uses (combine_blocks3 s instr1)
        (rewrite_use1 E instr1 s.next (s.next + 1)) (combine_heap3 E s alu1 alu2) p)) ∧
    instr1 ∉ rewrite_if_uses instr1 (s.next + 1) s.if_uses ∧
    (∀ p, p ∈ (combine_blocks3 s instr1).flatten →
      instr2 ∉ instr_uses E ((instr_try_combine E s instr1 instr2).2.heap p)) ∧
    instr2 ∉ (instr_try_combine E s instr1 instr2).2.if_uses ∧
    (∀ p, p ∈ (instr_try_combine E s instr1 instr2).2.blocks.flatten →
      instr1 ∉ instr_uses E ((instr_try_combine E s instr1 instr2).2.heap p) ∧
      instr2 ∉ instr_uses E ((instr_try_combine E s instr1 instr2).2.heap p)) ∧
    instr1 ∉ (instr_try_combine E s instr1 instr2).2.if_uses ∧
    instr1 ∉ (instr_try_combine E s instr1 instr2).2.blocks.flatten ∧
    instr2 ∉ (instr_try_combine E s instr1 instr2).2.blocks.flatten := by
  rw [instr_try_combine_alu E s instr1 instr2 alu1 alu2 h1 h2, if_neg (by omega)]
  simp only
  have hA : ∀ p, p ∈ (combine_blocks3 s instr1).flatten →
      instr1 ∉ instr_uses E (rewrite_uses (combine_blocks3 s instr1)
        (rewrite_use1 E instr1 s.next (s.next + 1)) (combine_heap3 E s alu1 alu2) p) := by
    intro p hp hm
    simp only [rewrite_uses, if_pos hp] at hm
    rcases uses_rewrite_use1 E _ _ _ _ _ hm with h | h | h
    · exact h.2 rfl
    · omega
    · omega
  have hB : ∀ p, p ∈ (combine_blocks3 s instr1).flatten →
      instr1 ∉ instr_uses E ((combine_alu E s instr1 instr2 alu1 alu2).heap p) ∧
      instr2 ∉ instr_uses E ((combine_alu E s instr1 instr2 alu1 alu2).heap p) := by
    intro p hp
    rw [combine_alu_heap_eq]
    have e : rewrite_uses (combine_blocks3 s instr1)
        (rewrite_use2 E instr2 s.next (s.next + 2) alu1.num_components)
        (rewrite_uses (combine_blocks3 s instr1) (rewrite_use1 E instr1 s.next (s.next + 1))
          (combine_heap3 E s alu1 alu2)) p
        = rewrite_use2 E instr2 s.next (s.next + 2) alu1.num_components
          (rewrite_uses (combine_blocks3 s instr1) (rewrite_use1 E instr1 s.next (s.next + 1))
            (combine_heap3 E s alu1 alu2) p) := by
      simp only [rewrite_uses, if_pos hp]
    rw [e]
    constructor
    · intro hm
      rcases uses_rewrite_use2 E _ _ _ _ _ _ hm with h | h | h
      · exact hA p hp h.1
      · omega
      · omega
    · intro hm
      rcases uses_rewrite_use2 E _ _ _ _ _ _ hm with h | h | h
      · exact h.2 rfl
      · omega
      · omega
  have hI1 : instr1 ∉ rewrite_if_uses instr1 (s.next + 1) s.if_uses := by
    intro hm
    rcases not_mem_rewrite_if_uses _ _ _ _ hm with h | h
    · exact h.2 rfl
    · omega
  have hif : (combine_alu E s instr1 instr2 alu1 alu2).if_uses
      = rewrite_if_uses instr2 (s.next + 2) (rewrite_if_uses instr1 (s.next + 1) s.if_uses) :=
    rfl
  have hI2 : instr2 ∉ (combine_alu E s instr1 instr2 alu1 alu2).if_uses := by
    rw [hif]
    intro hm
    rcases not_mem_rewrite_if_uses _ _ _ _ hm with h | h
    · exact h.2 rfl
    · omega
  have hI3 : instr1 ∉ (combine_alu E s instr1 instr2 alu1 alu2).if_uses := by
    rw [hif]
    intro hm
    rcases not_mem_rewrite_if_uses _ _ _ _ hm with h | h
    · exact hI1 h.1
    · omega
  have hsub : ∀ p, p ∈ (combine_alu E s instr1 instr2 alu1 alu2).blocks.flatten →
      p ∈ (combine_blocks3 s instr1).flatten ∧ p ≠ instr1 ∧ p ≠ instr2 := by
    intro p hp
    rw [combine_alu_blocks_eq, mem_remove, mem_remove] at hp
    exact ⟨hp.1.1, hp.1.2, hp.2⟩
  exact ⟨trivial, hA, hI1, fun p hp => (hB p hp).2, hI2, fun p hp => hB p (hsub p hp).1, hI3,
    fun hm => (hsub _ hm).2.1 rfl, fun hm => (hsub _ hm).2.2 rfl⟩

/-- C30 at the first example: after the combine of `A` (102) and `B` (104), its
consumers `P` (103), `Q` (105) and the store (106) and the if on `B` read new
instructions, and `A` and `B` are in no block. -/
theorem C30_no_dangling_use_witness :
    (instr_try_combine ex_env ex_state 102 104).1 = some ex_state.next ∧
    (∀ p, p ∈ (instr_try_combine ex_env ex_state 102 104).2.blocks.flatten →
      102 ∉ instr_uses ex_env ((instr_try_combine ex_env ex_state 102 104).2.heap p) ∧
      104 ∉ instr_uses ex_env ((instr_try_combine ex_env ex_state 102 104).2.heap p)) ∧
    102 ∉ (instr_try_combine ex_env ex_state 102 104).2.if_uses ∧
    104 ∉ (instr_try_combine ex_env ex_state 102 104).2.if_uses ∧
    102 ∉ (instr_try_combine ex_env ex_state 102 104).2.blocks.flatten ∧
    104 ∉ (instr_try_combine ex_env ex_state 102 104).2.blocks.flatten ∧
    (instr_try_combine ex_env ex_state 102 104).2.heap 106 = .other [103, 105, 201] ∧
    (instr_try_combine ex_env ex_state 102 104).2.if_uses = [202] := by
  have h := C30_no_dangling_use ex_env ex_state 102 104
    ⟨1, 1, 32, 1, [⟨100, [0, 0, 0, 0]⟩, ⟨101, [0, 0, 0, 0]⟩]⟩
    ⟨1, 1, 32, 1, [⟨100, [1, 0, 0, 0]⟩, ⟨101, [1, 0, 0, 0]⟩]⟩
    rfl rfl (by decide) (by decide) (by decide)
  exact ⟨h.1, h.2.2.2.2.2.1, h.2.2.2.2.2.2.1, h.2.2.2.2.1, h.2.2.2.2.2.2.2.1,
    h.2.2.2.2.2.2.2.2, by decide, by decide⟩

/-- C26 fails on the fourth example. When the walk enters block 1 the set holds the
stack of `A`. In block 1 `P` (103) gets a stack of its own, stored with the hash
`P` has then; the combine of `A` and `B` rewrites the source of `P`, so the hash of
`P` is another when block 1 is left and `vec_instr_set_remove` does not find the
stack. When `vectorize_block` returns for block 1, which has no children, the set
still holds the stack of `P`, an instruction of block 1. -/
theorem C26_entry_survives_block :
    ex_sibling_enter.instr_set.map Prod.snd = [[94374466540880]] ∧
    ex_sibling_enter.blocks.getD 1 [] = [103, 104] ∧
    (vectorize_block ex_env (.node 1 []) ex_sibling_enter).2.instr_set
      = [(2726622285, [94375660088861]), (285536177, [103])] ∧
    (vectorize_block ex_env (.node 1 []) ex_sibling_enter).2.blocks.getD 1 [] = [103] ∧
    hash_instr ex_env (ex_sibling_enter.heap 103) = 285536177 ∧
    hash_instr ex_env ((vectorize_block ex_env (.node 1 []) ex_sibling_enter).2.heap 103)
      ≠ 285536177 := by
  decide

/-- C29 fails on the sixth example. As in the fourth example the stack of `P`
(103, block 1) stays in the set when block 1 is left, and in block 2 the hash of
`Q` (106) equals the hash that stack is stored with. `P` has three components and
`Q` two, so they are not combined: `Q` is pushed, and the stack holds `P` of block
1 below `Q` of block 2, of which neither dominates the other. -/
theorem C29_stack_of_sibling_blocks :
    (functions_instrs ex_chain_shader.functions).Nodup ∧
    ex_chain_walk.instr_set.map Prod.snd = [[94375660088864], [103, 106]] ∧
    block_of ex_chain_walk.blocks 103 = some 1 ∧
    block_of ex_chain_walk.blocks 106 = some 2 ∧
    instr_dominates ex_sibling_tree ex_chain_walk.blocks 103 106 = false ∧
    instr_dominates ex_sibling_tree ex_chain_walk.blocks 106 103 = false ∧
    instrs_equal ex_env (ex_chain_walk.heap 103) (ex_chain_walk.heap 106) = true := by
  decide

theorem io_chain_derefs_length (m tail base : Nat) (path : List Nat) :
    (io_chain_derefs m tail base path).length = path.length := by
  unfold io_chain_derefs
  rw [List.length_mapIdx]

theorem io_chain_derefs_getD (m tail base : Nat) (path : List Nat) (j : Nat)
    (hj : j < path.length) :
    (io_chain_derefs m tail base path).getD j (.other [])
      = .deref { deref_type := .array, mode := m, var := 0,
                 parent := if j = 0 then tail else base + j - 1,
                 index := path.getD j 0 } := by
  unfold io_chain_derefs
  rw [List.getD_eq_getElem?_getD, List.getElem?_mapIdx, List.getElem?_eq_getElem hj,
    List.getD_eq_getElem?_getD, List.getElem?_eq_getElem hj]
  rfl

theorem io_chain_derefs_mode (sh : io_shader) (cursor tail : Nat) (path : List Nat)
    (hc : cursor < sh.next) :
    io_deref_mode (io_emit sh cursor (io_chain_derefs (io_deref_mode sh tail) tail sh.next path))
      (if path = [] then tail else sh.next + path.length - 1) = io_deref_mode sh tail := by
  by_cases hp : path = []
  · rw [if_pos hp, hp]
    rfl
  · rw [if_neg hp]
    have hl : 0 < path.length := List.length_pos.2 hp
    have e : sh.next + path.length - 1 = sh.next + (path.length - 1) := by omega
    unfold io_deref_mode
    rw [e, io_emit_heap_new sh cursor hc _ (path.length - 1)
      (by rw [io_chain_derefs_length]; omega),
      io_chain_derefs_getD _ _ _ _ _ (by omega)]

theorem clone_deref_array_chain (fuel : Nat) (sh : io_shader) (cursor tail bound : Nat)
    (hc : cursor < sh.next) :
    ∀ d path, io_deref_path fuel sh bound d = some path →
      clone_deref_array fuel sh cursor tail d =
        some (if path = [] then tail else sh.next + path.length - 1,
          io_emit sh cursor (io_chain_derefs (io_deref_mode sh tail) tail sh.next path)) := by
  induction fuel with
  | zero => intro d path h; cases h
  | succ fuel ih =>
      intro d path h
      unfold io_deref_path at h
      unfold clone_deref_array
      by_cases hb : d < bound
      · rw [if_pos hb] at h
        cases hd : sh.heap d with
        | deref dr =>
            rw [hd] at h
            simp only at h ⊢
            by_cases hv : dr.deref_type = .var
            · rw [if_pos hv] at h
              rw [if_pos hv]
              cases h
              rfl
            · rw [if_neg hv] at h
              rw [if_neg hv]
              by_cases hpb : dr.parent < bound
              · rw [if_pos hpb] at h
                cases hp : sh.heap dr.parent with
                | deref pr =>
                    rw [hp] at h
                    simp only at h ⊢
                    by_cases ha : dr.deref_type = .array
                    · rw [if_pos ha] at h
                      rw [if_pos ha]
                      cases hpath : io_deref_path fuel sh bound dr.parent with
                      | none => rw [hpath] at h; cases h
                      | some path' =>
                          rw [hpath] at h
                          simp only [Option.map_some', Option.some.injEq] at h
                          subst h
                          rw [ih dr.parent path' hpath]
                          simp only
                          congr 1
                          unfold nir_build_deref_array
                          rw [io_chain_derefs_mode sh cursor tail path' hc]
                          have hne : path' ++ [dr.index] ≠ [] := by simp
                          rw [if_neg hne]
                          refine Prod.ext ?_ ?_
                          · simp only [nir_builder_instr_insert, io_emit_next,
                              io_chain_derefs_length, List.length_append, List.length_singleton]
                            omega
                          · simp only [nir_ssa_for_src]
                            rw [← io_emit_append]
                            unfold io_chain_derefs
                            rw [List.mapIdx_append_one]
                            congr 3
                            by_cases hp0 : path' = []
                            · rw [if_pos hp0, hp0]
                              rfl
                            · rw [if_neg hp0]
                              have : path'.length ≠ 0 := fun h0 => hp0 (List.length_eq_zero.1 h0)
                              rw [if_neg this]
                    · rw [if_neg ha] at h
                      cases h
                | intrinsic i => rw [hp] at h; cases h
                | vec c => rw [hp] at h; cases h
                | channel v c => rw [hp] at h; cases h
                | other srcs => rw [hp] at h; cases h
              · rw [if_neg hpb] at h
                cases h
        | intrinsic i => rw [hd] at h; cases h
        | vec c => rw [hd] at h; cases h
        | channel v c => rw [hd] at h; cases h
        | other srcs => rw [hd] at h; cases h
      · rw [if_neg hb] at h
        cases h

theorem io_deref_path_fuel (f0 : Nat) (sh : io_shader) (bound : Nat) :
    ∀ d path, io_deref_path f0 sh bound d = some path →
      ∀ fuel, path.length < fuel → io_deref_path fuel sh bound d = some path := by
  induction f0 with
  | zero => intro d path h; cases h
  | succ f0 ih =>
      intro d path h fuel hf
      cases fuel with
      | zero => omega
      | succ fuel =>
        unfold io_deref_path at h ⊢
        by_cases hb : d < bound
        · rw [if_pos hb] at h ⊢
          cases hd : sh.heap d with
          | deref dr =>
              rw [hd] at h
              simp only at h ⊢
              by_cases hv : dr.deref_type = .var
              · rw [if_pos hv] at h ⊢
                exact h
              · rw [if_neg hv] at h ⊢
                by_cases hpb : dr.parent < bound
                · rw [if_pos hpb] at h ⊢
                  cases hp : sh.heap dr.parent with
                  | deref pr =>
                      rw [hp] at h
                      simp only at h ⊢
                      by_cases ha : dr.deref_type = .array
                      · rw [if_pos ha] at h ⊢
                        cases hpath : io_deref_path f0 sh bound dr.parent with
                        | none => rw [hpath] at h; cases h
                        | some path' =>
                            rw [hpath] at h
                            simp only [Option.map_some', Option.some.injEq] at h
                            subst h
                            rw [ih dr.parent path' hpath fuel (by
                              simp only [List.length_append, List.length_singleton] at hf
                              omega)]
                            rfl
                      · rw [if_neg ha] at h
                        cases h
                  | intrinsic i => rw [hp] at h; cases h
                  | vec c => rw [hp] at h; cases h
                  | channel v c => rw [hp] at h; cases h
                  | other srcs => rw [hp] at h; cases h
                · rw [if_neg hpb] at h
                  cases h
          | intrinsic i => rw [hd] at h; cases h
          | vec c => rw [hd] at h; cases h
          | channel v c => rw [hd] at h; cases h
          | other srcs => rw [hd] at h; cases h
        · rw [if_neg hb] at h
          cases h

theorem io_chain_path (sh : io_shader) (cursor tail m m0 cv : Nat) (path : List Nat)
    (hc : cursor < sh.next) (ht : tail < sh.next)
    (htail : sh.heap tail = io_deref_var m0 cv) :
    ∀ j, j ≤ path.length →
      io_deref_path (j + 1) (io_emit sh cursor (io_chain_derefs m tail sh.next path))
        (sh.next + path.length) (if j = 0 then tail else sh.next + j - 1)
        = some (path.take j) ∧
      nir_deref_instr_get_variable (j + 1)
        (io_emit sh cursor (io_chain_derefs m tail sh.next path))
        (if j = 0 then tail else sh.next + j - 1) = some cv ∧
      ∃ dr, (io_emit sh cursor (io_chain_derefs m tail sh.next path)).heap
        (if j = 0 then tail else sh.next + j - 1) = .deref dr := by
  intro j
  induction j with
  | zero =>
    intro _
    have h0 : (io_emit sh cursor (io_chain_derefs m tail sh.next path)).heap tail
        = io_deref_var m0 cv := by
      rw [io_emit_heap_old sh cursor hc _ tail ht]
      exact htail
    simp only [if_true]
    refine ⟨?_, ?_, ⟨_, h0⟩⟩
    · unfold io_deref_path
      rw [if_pos (by omega), h0]
      rfl
    · unfold nir_deref_instr_get_variable
      rw [h0]
      rfl
  | succ j ih =>
    intro hj
    obtain ⟨ih1, ih2, dr0, ih3⟩ := ih (by omega)
    have hne : ¬ (j + 1 = 0) := by omega
    have e : sh.next + (j + 1) - 1 = sh.next + j := by omega
    rw [if_neg hne, e]
    have hh : (io_emit sh cursor (io_chain_derefs m tail sh.next path)).heap (sh.next + j)
        = .deref { deref_type := .array, mode := m, var := 0,
                   parent := if j = 0 then tail else sh.next + j - 1,
                   index := path.getD j 0 } := by
      rw [io_emit_heap_new sh cursor hc _ j (by rw [io_chain_derefs_length]; omega),
        io_chain_derefs_getD _ _ _ _ _ (by omega)]
    have hpar : (if j = 0 then tail else sh.next + j - 1) < sh.next + path.length := by
      split <;> omega
    refine ⟨?_, ?_, ⟨_, hh⟩⟩
    · unfold io_deref_path
      rw [if_pos (by omega), hh]
      simp only
      rw [if_neg (by decide), if_pos hpar, ih3]
      simp only
      rw [if_pos trivial, ih1]
      simp only [Option.map_some', Option.some.injEq]
      rw [List.take_succ, List.getElem?_eq_getElem (by omega), List.getD_eq_getElem?_getD,
        List.getElem?_eq_getElem (by omega)]
      rfl
    · unfold nir_deref_instr_get_variable
      rw [hh]
      simp only
      rw [if_neg (by decide), if_neg (by decide)]
      exact ih2

/-- C21: let the deref `src_head` be reached from the deref of a variable by the
array steps with the indices `path` (k = `path.length` steps, root first), all at
allocated addresses. With fuel above k, `clone_deref_array` returns: it creates k
instructions, at the cursor and in order, and changes no older instruction; the
j-th new instruction is an array step with the index `path[j]` of the j-th source
step, the first on `dst_tail` and every further one on the step before it, with
the mode of `dst_tail`; the result is the last of them, and for k = 0 it is
`dst_tail` itself, with the shader unchanged. When `dst_tail` is the deref of a
variable, the result is reached from it by the array steps with the indices
`path`. -/
theorem C21_clone_deref_array (sh : io_shader) (cursor dst_tail src_head f0 fuel : Nat)
    (path : List Nat) (hc : cursor < sh.next)
    (hpath : io_deref_path f0 sh sh.next src_head = some path)
    (hfuel : path.length < fuel) :
    ∃ r sh', clone_deref_array fuel sh cursor dst_tail src_head = some (r, sh') ∧
      sh'.next = sh.next + path.length ∧
      (∀ q, q < sh.next → sh'.heap q = sh.heap q) ∧
      (path = [] → r = dst_tail ∧ sh' = sh) ∧
      (path ≠ [] → r = sh.next + path.length - 1) ∧
      (∀ j, j < path.length →
        sh'.heap (sh.next + j) = .deref ⟨.array, io_deref_mode sh dst_tail, 0,
          if j = 0 then dst_tail else sh.next + j - 1, path.getD j 0⟩) ∧
      sh'.functions
        = io_splice_all cursor (List.range' sh.next path.length ++ [cursor]) sh.functions ∧
      (∀ m cv, dst_tail < sh.next → sh.heap dst_tail = io_deref_var m cv →
        io_deref_path (path.length + 1) sh' sh'.next r = some path ∧
        nir_deref_instr_get_variable (path.length + 1) sh' r = some cv) := by
  have h := clone_deref_array_chain fuel sh cursor dst_tail sh.next hc src_head path
    (io_deref_path_fuel f0 sh sh.next src_head path hpath fuel hfuel)
  refine ⟨_, _, h, ?_, ?_, ?_, ?_, ?_, ?_, ?_⟩
  · rw [io_emit_next, io_chain_derefs_length]
  · intro q hq
    exact io_emit_heap_old sh cursor hc _ q hq
  · intro hp
    rw [if_pos hp, hp]
    exact ⟨rfl, rfl⟩
  · intro hp
    rw [if_neg hp]
  · intro j hj
    rw [io_emit_heap_new sh cursor hc _ j (by rw [io_chain_derefs_length]; exact hj),
      io_chain_derefs_getD _ _ _ _ _ hj]
  · rw [io_emit_eq sh cursor hc, io_chain_derefs_length]
  · intro m cv ht htail
    have hk := io_chain_path sh cursor dst_tail (io_deref_mode sh dst_tail) m cv path hc ht
      htail path.length (Nat.le_refl _)
    rw [io_emit_next, io_chain_derefs_length]
    have e : (if path.length = 0 then dst_tail else sh.next + path.length - 1)
        = (if path = [] then dst_tail else sh.next + path.length - 1) := by
      by_cases hp : path = []
      · rw [if_pos hp, if_pos (by rw [hp]; rfl)]
      · rw [if_neg hp, if_neg (fun h0 => hp (List.length_eq_zero.1 h0))]
    rw [e, List.take_length] at hk
    exact ⟨hk.1, hk.2.1⟩

/-- Witness of C21: in `ex_early_shader` the deref at address 2 is `v2[i]` with the
index `1`; cloned onto the deref of variable 1 at address 7, with the cursor at
address 3, it gives the new array step at address 10, on address 7 with index
`1`. -/
theorem C21_clone_deref_array_witness :
    io_deref_path 2 ex_early_shader ex_early_shader.next 2 = some [1] ∧
    ∃ r sh', clone_deref_array 2 ex_early_shader 3 7 2 = some (r, sh') ∧
      sh'.next = ex_early_shader.next + [1].length ∧
      (∀ q, q < ex_early_shader.next → sh'.heap q = ex_early_shader.heap q) ∧
      (([1] : List Nat) = [] → r = 7 ∧ sh' = ex_early_shader) ∧
      (([1] : List Nat) ≠ [] → r = ex_early_shader.next + [1].length - 1) ∧
      (∀ j, j < [1].length →
        sh'.heap (ex_early_shader.next + j) = .deref ⟨.array, io_deref_mode ex_early_shader 7, 0,
          if j = 0 then 7 else ex_early_shader.next + j - 1, [1].getD j 0⟩) ∧
      sh'.functions
        = io_splice_all 3 (List.range' ex_early_shader.next [1].length ++ [3])
            ex_early_shader.functions ∧
      (∀ m cv, 7 < ex_early_shader.next → ex_early_shader.heap 7 = io_deref_var m cv →
        io_deref_path ([1].length + 1) sh' sh'.next r = some [1] ∧
        nir_deref_instr_get_variable ([1].length + 1) sh' r = some cv) :=
  ⟨by decide, C21_clone_deref_array ex_early_shader 3 7 2 2 2 [1] (by decide) (by decide)
    (by decide)⟩

theorem late_run_unchanged (E : IoEnv) (mask : Nat) (shader : io_shader)
    (h : ∀ p ∈ io_instrs shader.functions, io_matches E mask (shader.heap p) = false) :
    nir_lower_io_to_scalar E shader mask = some shader := by
  obtain ⟨t, h1, h2, _⟩ := io_foreach_function_post io_shader.functions (lower_io_instr E mask)
    (fun s => s = shader) (fun s x => io_matches E mask (s.heap x) = false) (fun _ _ => True)
    (fun s fi bi x hs hx => by
      subst hs
      exact h x (mem_io_instrs_of_block _ fi bi x hx))
    (fun s a hs hV =>
      ⟨s, lower_io_instr_skip E mask s a hV, hs, io_step_refl _ _ _ s,
        fun _ _ _ _ => Or.inl trivial⟩)
    shader rfl
  unfold nir_lower_io_to_scalar
  rw [h1, h2]

theorem late_run_removed (E : IoEnv) (mask : Nat) (shader : io_shader)
    (h_wf : ∀ p ∈ io_instrs shader.functions, p < shader.next)
    (h_fit : ∀ p ∈ io_instrs shader.functions, ∀ intr, shader.heap p = .intrinsic intr →
      intr.intrinsic = .load_input → intr.num_components ≤ E.NIR_MAX_VEC_COMPONENTS) :
    ∃ t, nir_lower_io_to_scalar E shader mask = some t ∧
      ∀ p ∈ io_instrs shader.functions, io_matches E mask (shader.heap p) = true →
        p ∉ io_instrs t.functions := by
  obtain ⟨t, h1, h2, h3⟩ := late_run E mask shader h_wf h_fit
  refine ⟨t, h1, ?_⟩
  intro p hp hm hin
  obtain ⟨f, hf, _⟩ := h2.heap p (h_wf p hp)
  have := h3 p hin
  rw [hf, io_matches_map_srcs] at this
  rw [this] at hm
  cases hm

/-- C23, counterexample: on `ex_late_shader` with both modes in the mask the pass
rewrites (the load at address 1 is no longer linked), with the empty mask it
leaves the shader as it is, and the value returned to the caller is the same in
both runs: no boolean read from it is true for the first and false for the
second. -/
theorem C23_no_progress_result :
    (∃ t, nir_lower_io_to_scalar ex_io_env ex_late_shader 3 = some t ∧
      1 ∈ io_instrs ex_late_shader.functions ∧ 1 ∉ io_instrs t.functions) ∧
    nir_lower_io_to_scalar ex_io_env ex_late_shader 0 = some ex_late_shader ∧
    ¬ ∃ progress : Unit → Bool,
      progress (nir_lower_io_to_scalar_return ex_io_env ex_late_shader 3) = true ∧
      progress (nir_lower_io_to_scalar_return ex_io_env ex_late_shader 0) = false := by
  refine ⟨?_, ?_, ?_⟩
  · obtain ⟨t, h1, h2⟩ := late_run_removed ex_io_env 3 ex_late_shader (by decide)
      ex_late_shader_fit
    exact ⟨t, h1, by decide, h2 1 (by decide) (by decide)⟩
  · exact late_run_unchanged ex_io_env 0 ex_late_shader (by decide)
  · rintro ⟨progress, h1, h2⟩
    rw [show nir_lower_io_to_scalar_return ex_io_env ex_late_shader 3
      = nir_lower_io_to_scalar_return ex_io_env ex_late_shader 0 from rfl, h2] at h1
    cases h1

/-- C35 fails on the seventh example. `Y` (102, block 0) and `P` (103, block 1)
are on one stack, stored with the hash they have while they read `A`. The combine
of `A` and `B` in block 1 rewrites their source, so `P` is not found and stays on
the stack when block 1 is left; the combine with `C` in block 2 rewrites the source
again, to an address whose hash collides with that of `A`. When block 0 is left,
the first call of `vec_instr_set_remove` is for `Y`; it finds the stack, which has
two entries, and pops its top entry, which is `P` and not `Y`: the assertion
`last == instr` of `vec_instr_stack_pop` is false. -/
theorem C35_pop_of_other_entry :
    (functions_instrs ex_pop_shader.functions).Nodup ∧
    (vectorize_block ex_env ex_sibling_tree (impl_state ex_pop_shader ex_pop_impl)).2.instr_set
      = (remove_instrs ex_env (ex_pop_walk.blocks.getD 0 []).reverse ex_pop_walk).instr_set ∧
    (ex_pop_walk.blocks.getD 0 []).reverse.head? = some 102 ∧
    instr_can_rewrite ex_env (ex_pop_walk.heap 102) = true ∧
    _mesa_set_search ex_env ex_pop_walk [102] = some 1 ∧
    (ex_pop_walk.instr_set.getD 1 (0, [])).2 = [102, 103] ∧
    (ex_pop_walk.instr_set.getD 1 (0, [])).2.length > 1 ∧
    (ex_pop_walk.instr_set.getD 1 (0, [])).2.getLast? = some 103 ∧
    (vec_instr_set_remove ex_env 102 ex_pop_walk).instr_set.map Prod.snd
      = [[94375660088864], [102]] := by
  decide

theorem io_rewrite_load_chan_id (d v : Nat) (intr : nir_intrinsic_instr) (e : Nat)
    (hde : e ≠ d) (hself : intr.src.getD 1 0 ≠ d) :
    io_rewrite_src d v (.intrinsic (load_early_chan intr e))
      = .intrinsic (load_early_chan intr e) := by
  unfold load_early_chan io_rewrite_src
  simp only
  split
  · simp only [List.map, io_rewrite_slot, if_neg hde, if_neg hself]
  · simp only [List.map, io_rewrite_slot, if_neg hde]

theorem load_early_body_chan (E : IoEnv) (fuel : Nat) (intr : nir_intrinsic_instr)
    (instr var : Nat) (sh0 : io_shader) (ht0 : List (Nat × List (Option Nat)))
    (path : List Nat) (arr0 : List (Option Nat))
    (hc : instr < sh0.next)
    (hmax : intr.num_components ≤ E.NIR_MAX_VEC_COMPONENTS)
    (hpath : io_deref_path fuel sh0 sh0.next (intr.src.getD 0 0) = some path)
    (hvar : var < sh0.next_var)
    (hs : io_table_search ht0 var = some arr0)
    (hfit : (sh0.vars var).location_frac + intr.num_components ≤ arr0.length)
    (hvals : ∀ k cv, io_slot ht0 var k = some cv → cv < sh0.next_var)
    (hself : intr.src.getD 1 0 ≠ instr) :
    ∃ loads sh ht,
      lower_load_early_body E fuel sh0 ht0 instr intr var = some (sh, ht) ∧
      loads.length = intr.num_components ∧
      sh.heap (sh.next - 1) = .vec loads ∧
      (∀ i, i < intr.num_components → ∃ cv,
        io_slot ht var ((sh0.vars var).location_frac + i) = some cv ∧
        sh.heap (loads.getD i 0) = .intrinsic (load_early_chan intr (loads.getD i 0 - 1)) ∧
        EarlyChainAt path.length sh (loads.getD i 0 - 1) cv ∧
        sh0.next ≤ loads.getD i 0 - 1) := by
  obtain ⟨loads, shN, htN, l, hrun, hrel, hv, hsame, hscal, hlen, hch, hord⟩ :=
    load_early_loop fuel intr instr var sh0 ht0 path arr0 hc hpath hvar hs hvals
      intr.num_components hfit
  obtain ⟨e1, e2, e3, e4, e5⟩ := hsame
  have hcN : instr < shN.next := by rw [e2, io_emit_next]; omega
  have hnN : shN.next = sh0.next + l.length := by rw [e2, io_emit_next]
  have hXnext : (io_emit shN instr [.vec loads]).next = sh0.next + l.length + 1 := by
    rw [io_emit_next, hnN]; rfl
  have hXold : ∀ q, q < shN.next → (io_emit shN instr [.vec loads]).heap q = shN.heap q :=
    fun q hq => io_emit_heap_old shN instr hcN _ q hq
  have hXvec : (io_emit shN instr [.vec loads]).heap shN.next = .vec loads := by
    have := io_emit_heap_new shN instr hcN [.vec loads] 0 (by simp)
    rw [Nat.add_zero] at this
    rw [this]
    rfl
  have hbody : lower_load_early_body E fuel sh0 ht0 instr intr var
      = some (io_instr_remove (nir_ssa_def_rewrite_uses (io_emit shN instr [.vec loads])
          instr shN.next) instr, htN) := by
    unfold lower_load_early_body
    rw [if_neg (by omega), hrun]
    rfl
  have hheap : ∀ q, (io_instr_remove (nir_ssa_def_rewrite_uses
      (io_emit shN instr [.vec loads]) instr shN.next) instr).heap q
        = (io_emit shN instr [.vec loads]).heap q ∨
      (io_instr_remove (nir_ssa_def_rewrite_uses
        (io_emit shN instr [.vec loads]) instr shN.next) instr).heap q
        = io_rewrite_src instr shN.next ((io_emit shN instr [.vec loads]).heap q) := by
    intro q
    simp only [io_instr_remove, nir_ssa_def_rewrite_uses]
    split
    · exact Or.inr rfl
    · exact Or.inl rfl
  have hnext : (io_instr_remove (nir_ssa_def_rewrite_uses
      (io_emit shN instr [.vec loads]) instr shN.next) instr).next
        = sh0.next + l.length + 1 := hXnext
  have hloads : ∀ x ∈ loads, instr < x := by
    intro x hx
    obtain ⟨i, hi, e⟩ := List.getElem_of_mem hx
    rw [hlen] at hi
    obtain ⟨_, _, _, _, hlo, _⟩ := hch i hi
    have hg : loads.getD i 0 = x := by
      rw [List.getD_eq_getElem?_getD, List.getElem?_eq_getElem (by rw [hlen]; exact hi), e]
      rfl
    omega
  refine ⟨loads, _, htN, hbody, hlen, ?_, ?_⟩
  · rw [hnext, Nat.add_sub_cancel, ← hnN]
    rcases hheap shN.next with h | h
    · rw [h, hXvec]
    · rw [h, hXvec]
      simp only [io_rewrite_src]
      rw [map_rewrite_slot_not_mem]
      intro hm
      exact absurd (hloads instr hm) (Nat.lt_irrefl _)
  · intro i hi
    obtain ⟨cv, hsl, hh, hchain, hlo, hhi⟩ := hch i hi
    have hlt : loads.getD i 0 < shN.next := hhi
    refine ⟨cv, hsl, ?_, ?_, by omega⟩
    · rcases hheap (loads.getD i 0) with h | h
      · rw [h, hXold _ hlt, hh]
      · rw [h, hXold _ hlt, hh]
        exact io_rewrite_load_chan_id instr shN.next intr _ (by omega) hself
    · refine io_rewrite_chain instr shN.next path.length shN _ _ cv hchain
        (by have := hchain.1; omega) rfl ?_
      intro q _ hq2
      have hq : q < shN.next := by omega
      rcases hheap q with h | h
      · left; rw [h, hXold q hq]
      · right; rw [h, hXold q hq]

/-- C32: for a load_deref or interp_deref_at_centroid/sample/offset with N > 1
components (at most the component limit) that the early scalarizer lowers (its
root variable passes the eligibility filter and its mode is in the mask, and it
does not read its own result), the loop body of `nir_lower_io_to_scalar_early`
returns and the last new instruction is the vector of the N per-channel
intrinsics; for interp_deref_at_offset and interp_deref_at_sample the operands
of the intrinsic of channel i are the shadow deref and the second operand of the
original instruction, in this order; for load_deref and
interp_deref_at_centroid the shadow deref is its only operand; the shadow deref
is the instruction right before the intrinsic and its root variable is the
channel variable in slot `location_frac + i` of the variable. -/
theorem C32_channel_operands (E : IoEnv) (fuel mask : Nat) (s : early_state)
    (instr : Nat) (intr : nir_intrinsic_instr) (dr : nir_deref_instr) (var : Nat)
    (path : List Nat)
    (h_heap : s.shader.heap instr = .intrinsic intr)
    (h_op : intr.intrinsic = .load_deref ∨ intr.intrinsic = .interp_deref_at_centroid ∨
      intr.intrinsic = .interp_deref_at_sample ∨ intr.intrinsic = .interp_deref_at_offset)
    (hN : 1 < intr.num_components)
    (h_max : intr.num_components ≤ E.NIR_MAX_VEC_COMPONENTS)
    (h_deref : s.shader.heap (intr.src.getD 0 0) = .deref dr)
    (h_var : nir_deref_instr_get_variable fuel s.shader (intr.src.getD 0 0) = some var)
    (h_path : io_deref_path fuel s.shader s.shader.next (intr.src.getD 0 0) = some path)
    (h_mode : (mask &&& E.nir_var_shader_in ≠ 0 ∧ dr.mode = E.nir_var_shader_in) ∨
      (mask &&& E.nir_var_shader_out ≠ 0 ∧ dr.mode = E.nir_var_shader_out))
    (h_patch : (s.shader.vars var).patch = false)
    (h_64 : glsl_type_is_64bit (glsl_without_array (s.shader.vars var).type) = false)
    (h_loc : (s.shader.stage = E.MESA_SHADER_VERTEX ∧ dr.mode = E.nir_var_shader_in) ∨
      (s.shader.vars var).location < 0 ∨ E.VARYING_SLOT_VAR0 ≤ (s.shader.vars var).location)
    (h_active : (s.shader.vars var).always_active_io = false)
    (h_matrix : glsl_type_is_matrix (glsl_without_array (s.shader.vars var).type) = false)
    (h_struct : glsl_type_is_struct (glsl_without_array (s.shader.vars var).type) = false)
    (h_wf : ∀ p ∈ io_instrs s.shader.functions, p < s.shader.next)
    (h_in : instr ∈ io_instrs s.shader.functions)
    (h_varlt : var < s.shader.next_var)
    (h_frac : (s.shader.vars var).location_frac + intr.num_components ≤ 4)
    (h_tab : ∀ arr, io_table_search (early_load_table E s var) var = some arr →
      arr.length = 4)
    (h_vals : ∀ k cv, io_slot (early_load_table E s var) var k = some cv →
      cv < s.shader.next_var)
    (h_self : intr.src.getD 1 0 ≠ instr) :
    ∃ t loads, lower_io_early_instr E fuel mask s instr = some t ∧
      loads.length = intr.num_components ∧
      t.shader.heap (t.shader.next - 1) = .vec loads ∧
      (∀ i, i < intr.num_components → ∃ cv chan,
        t.shader.heap (loads.getD i 0) = .intrinsic chan ∧
        chan.intrinsic = intr.intrinsic ∧
        (intr.intrinsic = .interp_deref_at_offset ∨ intr.intrinsic = .interp_deref_at_sample →
          chan.src = [loads.getD i 0 - 1, intr.src.getD 1 0]) ∧
        (intr.intrinsic = .load_deref ∨ intr.intrinsic = .interp_deref_at_centroid →
          chan.src = [loads.getD i 0 - 1]) ∧
        s.shader.next ≤ loads.getD i 0 - 1 ∧
        io_slot (early_load_table E t var) var ((s.shader.vars var).location_frac + i)
          = some cv ∧
        nir_deref_instr_get_variable (path.length + 1) t.shader (loads.getD i 0 - 1)
          = some cv) := by
  have hc : instr < s.shader.next := h_wf instr h_in
  have h_elig := io_early_skips_false E s.shader.stage dr.mode (s.shader.vars var)
    h_patch h_64 h_loc h_active h_matrix h_struct
  have h_mask : dr.mode &&& mask ≠ 0 := by
    rcases h_mode with h | h
    · exact land_mode_ne_zero mask dr.mode _ h.1 h.2
    · exact land_mode_ne_zero mask dr.mode _ h.1 h.2
  have h_nstore : ¬ intr.intrinsic = .store_deref := by
    intro e
    rw [e] at h_op
    rcases h_op with h | h | h | h <;> cases h
  have hbody := early_instr_var E fuel mask s instr intr dr var h_heap (by omega)
    (by rcases h_op with h | h | h | h
        · exact Or.inl h
        · exact Or.inr (Or.inr (Or.inl h))
        · exact Or.inr (Or.inr (Or.inr (Or.inl h)))
        · exact Or.inr (Or.inr (Or.inr (Or.inr h))))
    h_deref h_mask h_var
  rw [h_elig] at hbody
  simp only [Bool.false_eq_true, if_false, if_neg h_nstore, if_pos h_mode] at hbody
  have hlen := get_channel_variables_length (early_load_table E s var) var h_tab
  obtain ⟨_, sh0, ht0, hb0, hrel, _⟩ :=
    load_early_table_spec E fuel intr instr var s.shader (early_load_table E s var) path
      hc h_max h_path h_varlt h_frac h_tab h_vals
  obtain ⟨loads, sh, ht, hb, hl, hvec, hch⟩ :=
    load_early_body_chan E fuel intr instr var s.shader
      (get_channel_variables (early_load_table E s var) var) path _
      hc h_max h_path h_varlt (get_channel_variables_search _ var) (by rw [hlen]; exact h_frac)
      (fun k cv h => h_vals k cv (get_channel_variables_slot _ var k cv h)) h_self
  have hsame : (sh0, ht0) = (sh, ht) := Option.some.inj (hb0.symm.trans hb)
  have hvv : sh.vars var = s.shader.vars var := by
    have := hrel.old_vars var h_varlt
    rw [hsame] at this
    exact this
  obtain ⟨t, ht1, ht2, ht3, _⟩ := lower_load_to_scalar_early_eq E fuel s instr intr var sh ht
    hb hvv
  refine ⟨t, loads, hbody.trans ht1, hl, ?_, ?_⟩
  · rw [ht2]; exact hvec
  · intro i hi
    obtain ⟨cv, hsl, hh, hchain, hlo⟩ := hch i hi
    refine ⟨cv, load_early_chan intr (loads.getD i 0 - 1), ?_, rfl, ?_, ?_, hlo, ?_, ?_⟩
    · rw [ht2]; exact hh
    · intro h
      simp only [load_early_chan, if_pos h]
    · intro h
      have hn : ¬ (intr.intrinsic = .interp_deref_at_offset ∨
          intr.intrinsic = .interp_deref_at_sample) := by
        intro h2
        rcases h with h | h <;> rcases h2 with h2 | h2 <;> rw [h] at h2 <;> cases h2
      simp only [load_early_chan, if_neg hn]
    · rw [ht3]; exact hsl
    · rw [ht2]
      exact early_chain_get_variable path.length sh cv _ hchain

/-- Witness of C32: the three-component interp_deref_at_offset at address 2 of
`ex_interp_shader`, a fragment shader; its root variable 0 is an input at the
first generic slot and its offset operand is instruction 1. -/
theorem C32_channel_operands_witness :
    ∃ t loads, lower_io_early_instr ex_io_env 4 1 ex_interp_state 2 = some t ∧
      loads.length = 3 ∧
      t.shader.heap (t.shader.next - 1) = .vec loads ∧
      (∀ i, i < 3 → ∃ cv chan,
        t.shader.heap (loads.getD i 0) = .intrinsic chan ∧
        chan.intrinsic = .interp_deref_at_offset ∧
        (nir_intrinsic_op.interp_deref_at_offset = .interp_deref_at_offset ∨
          nir_intrinsic_op.interp_deref_at_offset = .interp_deref_at_sample →
          chan.src = [loads.getD i 0 - 1, 1]) ∧
        (nir_intrinsic_op.interp_deref_at_offset = .load_deref ∨
          nir_intrinsic_op.interp_deref_at_offset = .interp_deref_at_centroid →
          chan.src = [loads.getD i 0 - 1]) ∧
        4 ≤ loads.getD i 0 - 1 ∧
        io_slot (early_load_table ex_io_env t 0) 0 (0 + i) = some cv ∧
        nir_deref_instr_get_variable 1 t.shader (loads.getD i 0 - 1) = some cv) :=
  C32_channel_operands ex_io_env 4 1 ex_interp_state 2
    ⟨.interp_deref_at_offset, 3, 32, 0, 0, 0, [0, 1]⟩
    ⟨.var, 1, 0, 0, 0⟩ 0 [] rfl (Or.inr (Or.inr (Or.inr rfl))) (by decide) (by decide) rfl rfl
    rfl (Or.inl ⟨by decide, rfl⟩) rfl rfl (Or.inr (Or.inr (by decide))) rfl rfl rfl
    (by decide) (by decide) (by decide) (by decide)
    (by intro arr h; simp [early_load_table, ex_interp_state, io_table_search] at h)
    (by intro k cv h; simp [early_load_table, ex_interp_state, io_slot, io_table_search] at h)
    (by decide)

theorem io_chan_var_slots (sh : io_shader) (ht : List (Nat × List (Option Nat)))
    (var i cv : Nat) (sh1 : io_shader) (ht1 : List (Nat × List (Option Nat)))
    (h : io_chan_var sh ht var i = some (cv, sh1, ht1)) :
    ∀ k c, io_slot ht1 var k = some c →
      io_slot ht var k = some c ∨ k = (sh.vars var).location_frac + i := by
  intro k c hk
  unfold io_chan_var at h
  cases hs : io_table_search ht var with
  | none => simp only [hs] at h; cases h
  | some arr =>
      simp only [hs] at h
      by_cases hlt : (sh.vars var).location_frac + i < arr.length
      · rw [List.getElem?_eq_getElem hlt] at h
        cases harr : arr[(sh.vars var).location_frac + i] with
        | some x =>
            rw [harr] at h
            simp only [Option.some.injEq, Prod.mk.injEq] at h
            obtain ⟨_, _, h3⟩ := h
            rw [← h3] at hk
            exact Or.inl hk
        | none =>
            rw [harr] at h
            simp only [Option.some.injEq, Prod.mk.injEq] at h
            obtain ⟨_, _, h3⟩ := h
            by_cases e : k = (sh.vars var).location_frac + i
            · exact Or.inr e
            · left
              have hsearch : io_table_search ht1 var
                  = some (arr.set ((sh.vars var).location_frac + i) (some sh.next_var)) := by
                rw [← h3, io_table_search_set, if_pos rfl, hs]
                rfl
              rw [io_slot_of_search _ var k _ hsearch, getD_set_option _ _ _ _ hlt,
                if_neg e] at hk
              rw [io_slot_of_search ht var k arr hs]
              exact hk
      · rw [List.getElem?_eq_none (by omega)] at h
        cases h

theorem store_early_loop_slots (fuel : Nat) (intr : nir_intrinsic_instr)
    (cursor var value : Nat)
    (sh0 : io_shader) (ht0 : List (Nat × List (Option Nat))) (path : List Nat)
    (arr0 : List (Option Nat))
    (hc : cursor < sh0.next)
    (hpath : io_deref_path fuel sh0 sh0.next (intr.src.getD 0 0) = some path)
    (hvar : var < sh0.next_var)
    (hs : io_table_search ht0 var = some arr0)
    (hvals : ∀ k cv, io_slot ht0 var k = some cv → cv < sh0.next_var) :
    ∀ chs : List Nat, (∀ i ∈ chs, (sh0.vars var).location_frac + i < arr0.length) →
      ∀ sh ht,
        chs.foldlM (lower_store_early_step fuel intr cursor var value) (sh0, ht0)
          = some (sh, ht) →
        ∀ k c, io_slot ht var k = some c →
          io_slot ht0 var k = some c ∨
          ∃ i ∈ chs, ¬ intr.write_mask &&& (1 <<< i) = 0 ∧
            k = (sh0.vars var).location_frac + i := by
  intro chs
  induction chs using List.reverseRecOn with
  | nil =>
      intro _ sh ht h k c hk
      simp only [List.foldlM_nil] at h
      cases h
      exact Or.inl hk
  | append_singleton chs i ih =>
      intro hfit sh' ht' hrun' k c hk
      have hfit0 : ∀ j ∈ chs, (sh0.vars var).location_frac + j < arr0.length :=
        fun j hj => hfit j (List.mem_append_left _ hj)
      obtain ⟨sh, ht, l, hrun, hrel, hv, hsame, _, _, _⟩ :=
        store_early_loop fuel intr cursor var value sh0 ht0 path arr0 hc hpath hvar hs hvals
          chs hfit0
      have ih' := ih hfit0 sh ht hrun
      rw [List.foldlM_append, hrun] at hrun'
      simp only [Option.bind_eq_bind, Option.some_bind, List.foldlM_cons, List.foldlM_nil]
        at hrun'
      by_cases hbit : intr.write_mask &&& (1 <<< i) = 0
      · unfold lower_store_early_step at hrun'
        rw [if_pos hbit] at hrun'
        simp only [Option.some_bind, Option.pure_def, Option.some.injEq, Prod.mk.injEq]
          at hrun'
        rw [← hrun'.2] at hk
        rcases ih' k c hk with h | ⟨j, hj, r⟩
        · exact Or.inl h
        · exact Or.inr ⟨j, List.mem_append_left _ hj, r⟩
      · obtain ⟨e1, e2, e3, e4, e5⟩ := hsame
        have hfrac : (sh.vars var).location_frac = (sh0.vars var).location_frac := by
          rw [hrel.old_vars var hvar]
        obtain ⟨arr, harr, harrlen⟩ := hrel.lengths arr0 hs
        have hnext0 : sh0.next ≤ sh.next := by
          rw [e2, io_emit_next]; omega
        have hfi := hfit i (List.mem_append_right _ (List.mem_singleton.2 rfl))
        obtain ⟨cv, sh1, ht1, hcv, _, g1, g2, _⟩ :=
          io_chan_var_spec sh ht var i arr harr (by rw [hfrac, harrlen]; exact hfi) hv
        have hc1 : cursor < sh1.next := by rw [g2]; omega
        have hpath1 : io_deref_path fuel sh1 sh0.next (intr.src.getD 0 0) = some path := by
          rw [io_deref_path_frame fuel sh0 sh1 sh0.next
            (fun q hq => by rw [g1, e1]; exact io_emit_heap_old sh0 cursor hc l q hq)]
          exact hpath
        have hstep := lower_store_early_step_eq fuel intr cursor var value sh ht i sh0.next
          path cv sh1 ht1 hbit hcv hc1 (by rw [g2]; exact hnext0) hpath1
        rw [hstep] at hrun'
        simp only [Option.some_bind, Option.pure_def, Option.some.injEq, Prod.mk.injEq]
          at hrun'
        rw [← hrun'.2] at hk
        rcases io_chan_var_slots sh ht var i cv sh1 ht1 hcv k c hk with h | h
        · rcases ih' k c h with h' | ⟨j, hj, r⟩
          · exact Or.inl h'
          · exact Or.inr ⟨j, List.mem_append_left _ hj, r⟩
        · exact Or.inr ⟨i, List.mem_append_right _ (List.mem_singleton.2 rfl), hbit,
            by rw [h, hfrac]⟩

theorem store_early_slots (fuel : Nat) (s : early_state) (instr : Nat)
    (intr : nir_intrinsic_instr) (var : Nat) (path : List Nat)
    (hc : instr < s.shader.next)
    (h_path : io_deref_path fuel s.shader s.shader.next (intr.src.getD 0 0) = some path)
    (h_varlt : var < s.shader.next_var)
    (h_frac : (s.shader.vars var).location_frac + intr.num_components ≤ 4)
    (h_tab : ∀ arr, io_table_search s.split_outputs var = some arr → arr.length = 4)
    (h_vals : ∀ k cv, io_slot s.split_outputs var k = some cv → cv < s.shader.next_var)
    (t : early_state)
    (ht : lower_store_output_to_scalar_early fuel s instr intr var = some t) :
    ∀ k c, io_slot t.split_outputs var k = some c →
      io_slot s.split_outputs var k = some c ∨
      ∃ i, i < intr.num_components ∧ ¬ intr.write_mask &&& (1 <<< i) = 0 ∧
        k = (s.shader.vars var).location_frac + i := by
  intro k c hk
  have hlen := get_channel_variables_length s.split_outputs var h_tab
  unfold lower_store_output_to_scalar_early at ht
  simp only at ht
  cases hrun : (List.range intr.num_components).foldlM
      (lower_store_early_step fuel intr instr var (nir_ssa_for_src (intr.src.getD 1 0)))
      (s.shader, get_channel_variables s.split_outputs var) with
  | none => rw [hrun] at ht; cases ht
  | some r =>
      rw [hrun] at ht
      simp only [Option.some.injEq] at ht
      rw [← ht] at hk
      simp only at hk
      rcases store_early_loop_slots fuel intr instr var (nir_ssa_for_src (intr.src.getD 1 0))
        s.shader (get_channel_variables s.split_outputs var) path _ hc h_path h_varlt
        (get_channel_variables_search s.split_outputs var)
        (fun k cv h => h_vals k cv (get_channel_variables_slot s.split_outputs var k cv h))
        (List.range intr.num_components)
        (fun i hi => by rw [hlen]; have := List.mem_range.1 hi; omega)
        r.1 r.2 hrun k c hk with h | ⟨i, hi, hb, e⟩
      · exact Or.inl (get_channel_variables_slot s.split_outputs var k c h)
      · exact Or.inr ⟨i, List.mem_range.1 hi, hb, e⟩

/-- C33: a run of `nir_lower_io_to_scalar_early` on a well-formed shader
(`io_access_ok`, distinct input and output modes) returns, and every variable
created by the run sits in the slot `location_frac + i` of an original variable
for a channel i and is its clone for that channel: mode, location, patch flag
and always-active flag are those of the original, its `location_frac` is the
`location_frac` of the original plus i, and its type is the channel type of the
type of the original. A call of `lower_store_output_to_scalar_early` returns;
every variable it creates is the clone of the variable for a channel i below the
component count whose write-mask bit is set and whose slot was empty, and sits
in slot `location_frac + i`; for a channel i whose write-mask bit is clear the
slot `location_frac + i` holds after the call what it held before. -/
theorem C33_shadow_is_channel_clone (E : IoEnv) (fuel mask : Nat) (shader : io_shader)
    (hE : E.nir_var_shader_in ≠ E.nir_var_shader_out)
    (hl : ∀ p ∈ io_instrs shader.functions, p < shader.next ∧
      io_access_ok E fuel shader shader.next shader.next_var (shader.heap p) = true) :
    (∃ s, early_run E fuel shader mask = some s ∧
      ∀ q, shader.next_var ≤ q → q < s.shader.next_var →
        ∃ v i, v < shader.next_var ∧
          (io_slot s.split_inputs v ((shader.vars v).location_frac + i) = some q ∨
            io_slot s.split_outputs v ((shader.vars v).location_frac + i) = some q) ∧
          (s.shader.vars q).mode = (shader.vars v).mode ∧
          (s.shader.vars q).location = (shader.vars v).location ∧
          (s.shader.vars q).patch = (shader.vars v).patch ∧
          (s.shader.vars q).always_active_io = (shader.vars v).always_active_io ∧
          (s.shader.vars q).location_frac = (shader.vars v).location_frac + i ∧
          (s.shader.vars q).type = glsl_channel_type (shader.vars v).type) ∧
    (∀ (st : early_state) (instr : Nat) (intr : nir_intrinsic_instr) (var : Nat)
        (path : List Nat),
      instr < st.shader.next →
      io_deref_path fuel st.shader st.shader.next (intr.src.getD 0 0) = some path →
      var < st.shader.next_var →
      (st.shader.vars var).location_frac + intr.num_components ≤ 4 →
      (∀ arr, io_table_search st.split_outputs var = some arr → arr.length = 4) →
      (∀ k cv, io_slot st.split_outputs var k = some cv → cv < st.shader.next_var) →
      ∃ t, lower_store_output_to_scalar_early fuel st instr intr var = some t ∧
        (∀ q, st.shader.next_var ≤ q → q < t.shader.next_var →
          ∃ i, i < intr.num_components ∧ ¬ intr.write_mask &&& (1 <<< i) = 0 ∧
            io_slot st.split_outputs var ((st.shader.vars var).location_frac + i) = none ∧
            io_slot t.split_outputs var ((st.shader.vars var).location_frac + i) = some q ∧
            (t.shader.vars q).mode = (st.shader.vars var).mode ∧
            (t.shader.vars q).location = (st.shader.vars var).location ∧
            (t.shader.vars q).patch = (st.shader.vars var).patch ∧
            (t.shader.vars q).always_active_io = (st.shader.vars var).always_active_io ∧
            (t.shader.vars q).location_frac = (st.shader.vars var).location_frac + i ∧
            (t.shader.vars q).type = glsl_channel_type (st.shader.vars var).type) ∧
        (∀ i, intr.write_mask &&& (1 <<< i) = 0 →
          io_slot t.split_outputs var ((st.shader.vars var).location_frac + i)
            = io_slot st.split_outputs var ((st.shader.vars var).location_frac + i))) := by
  constructor
  · obtain ⟨s, hrun, hs⟩ := early_run_inv E fuel mask shader hE hl
    refine ⟨s, hrun, ?_⟩
    intro q h1 h2
    obtain ⟨v, k, a, b, c, _⟩ := hs.shadows q h1 h2
    have hlt : k < 4 ∧ v < shader.next_var := by
      rcases a with a | a
      · exact io_slot_lt _ _ _ hs.inputs_ok v k q a
      · exact io_slot_lt _ _ _ hs.outputs_ok v k q a
    have hk : (shader.vars v).location_frac + (k - (shader.vars v).location_frac) = k := by
      omega
    refine ⟨v, k - (shader.vars v).location_frac, hlt.2, by rw [hk]; exact a, ?_⟩
    rw [c]
    exact ⟨rfl, rfl, rfl, rfl, rfl, rfl⟩
  · intro st instr intr var path hc h_path h_varlt h_frac h_tab h_vals
    obtain ⟨t, ht, _, _, hrel, _, _, _, _, _, _⟩ :=
      store_early_spec fuel st instr intr var path hc h_path h_varlt h_frac h_tab h_vals
    have hslots := store_early_slots fuel st instr intr var path hc h_path h_varlt h_frac
      h_tab h_vals t ht
    have hpersist : ∀ k c, io_slot st.split_outputs var k = some c →
        io_slot t.split_outputs var k = some c := fun k c h =>
      hrel.persist k c (get_channel_variables_slot_old st.split_outputs var k c h)
    refine ⟨t, ht, ?_, ?_⟩
    · intro q h1 h2
      obtain ⟨k, hk, _⟩ := hrel.fresh_once q h1 h2
      simp only at hk
      rcases hslots k q hk with h | ⟨i, hi, hb, e⟩
      · exact absurd (h_vals k q h) (by omega)
      · have hcl : t.shader.vars q = io_chan_clone (st.shader.vars var) i := by
          rcases hrel.created k q hk with h | ⟨_, _, _, h4⟩
          · exact absurd
              (h_vals k q (get_channel_variables_slot st.split_outputs var k q h)) (by omega)
          · simp only at h4
            rw [h4, e, Nat.add_sub_cancel_left]
        refine ⟨i, hi, hb, ?_, by rw [← e]; exact hk, ?_⟩
        · cases hold : io_slot st.split_outputs var ((st.shader.vars var).location_frac + i)
            with
          | none => rfl
          | some c =>
              have h3 := hpersist _ c hold
              rw [← e, hk] at h3
              injection h3 with h3
              rw [← e] at hold
              have := h_vals k c hold
              omega
        · rw [hcl]
          exact ⟨rfl, rfl, rfl, rfl, rfl, rfl⟩
    · intro i hb
      cases hnew : io_slot t.split_outputs var ((st.shader.vars var).location_frac + i) with
      | some c =>
          rcases hslots _ c hnew with h | ⟨j, _, hjb, e⟩
          · exact h.symm
          · have : i = j := by omega
            rw [this] at hb
            exact absurd hb hjb
      | none =>
          cases hold : io_slot st.split_outputs var ((st.shader.vars var).location_frac + i)
            with
          | none => rfl
          | some c =>
              have h3 := hpersist _ c hold
              rw [hnew] at h3
              cases h3

/-- Witness of C33: the run on `ex_early_shader` with both modes in the mask,
and the store at address 6 of `ex_early_shader` to the output 0, four components
with write mask 0b1011: bit 2 is clear. -/
theorem C33_shadow_is_channel_clone_witness :
    ex_io_env.nir_var_shader_in ≠ ex_io_env.nir_var_shader_out ∧
    (∃ s, early_run ex_io_env 4 ex_early_shader 3 = some s ∧
      ∀ q, ex_early_shader.next_var ≤ q → q < s.shader.next_var →
        ∃ v i, v < ex_early_shader.next_var ∧
          (io_slot s.split_inputs v ((ex_early_shader.vars v).location_frac + i) = some q ∨
            io_slot s.split_outputs v ((ex_early_shader.vars v).location_frac + i) = some q) ∧
          (s.shader.vars q).mode = (ex_early_shader.vars v).mode ∧
          (s.shader.vars q).location = (ex_early_shader.vars v).location ∧
          (s.shader.vars q).patch = (ex_early_shader.vars v).patch ∧
          (s.shader.vars q).always_active_io = (ex_early_shader.vars v).always_active_io ∧
          (s.shader.vars q).location_frac = (ex_early_shader.vars v).location_frac + i ∧
          (s.shader.vars q).type = glsl_channel_type (ex_early_shader.vars v).type) ∧
    (∃ t, lower_store_output_to_scalar_early 4 ex_early_state 6
        ⟨.store_deref, 4, 0, 0, 0, 11, [4, 5]⟩ 0 = some t ∧
      (∀ q, 3 ≤ q → q < t.shader.next_var →
        ∃ i, i < 4 ∧ ¬ 11 &&& (1 <<< i) = 0 ∧
          io_slot [] 0 (0 + i) = none ∧
          io_slot t.split_outputs 0 (0 + i) = some q ∧
          (t.shader.vars q).mode = 2 ∧
          (t.shader.vars q).location = 32 ∧
          (t.shader.vars q).patch = false ∧
          (t.shader.vars q).always_active_io = false ∧
          (t.shader.vars q).location_frac = 0 + i ∧
          (t.shader.vars q).type = glsl_channel_type (.vector 32 4)) ∧
      (∀ i, 11 &&& (1 <<< i) = 0 →
        io_slot t.split_outputs 0 (0 + i) = io_slot [] 0 (0 + i))) :=
  ⟨by decide,
    (C33_shadow_is_channel_clone ex_io_env 4 3 ex_early_shader (by decide)
      ex_early_shader_ok).1,
    (C33_shadow_is_channel_clone ex_io_env 4 3 ex_early_shader (by decide)
      ex_early_shader_ok).2 ex_early_state 6 ⟨.store_deref, 4, 0, 0, 0, 11, [4, 5]⟩ 0 []
      (by decide) (by decide) (by decide) (by decide)
      (by intro arr h; simp [ex_early_state, io_table_search] at h)
      (by intro k cv h; simp [ex_early_state, io_slot, io_table_search] at h)⟩

theorem rewrite_both_alu_id (E : Env) (instr1 instr2 new_alu n1 : Nat) (u : nir_alu_instr)
    (h : ∀ i, i < (E.nir_op_infos u.op).num_inputs →
      (u.src.getD i default).ssa ≠ instr1 ∧ (u.src.getD i default).ssa ≠ instr2) :
    rewrite_both E instr1 instr2 new_alu n1 (.alu u) = .alu u := by
  unfold rewrite_both
  rw [rewrite_use1_id E _ _ _ _ (fun i hi _ => (h i hi).1),
    rewrite_use2_id E _ _ _ _ _ (fun i hi _ => (h i hi).2)]

theorem src_components_congr (E : Env) (u u1 : nir_alu_instr) (i : Nat)
    (hop : u1.op = u.op) (hnc : u1.num_components = u.num_components) :
    nir_ssa_alu_instr_src_components E u1 i = nir_ssa_alu_instr_src_components E u i := by
  unfold nir_ssa_alu_instr_src_components
  rw [hop, hnc]

/-- C34: for linked ALU instructions A, B, C of one class with at most 4
components in total, whose operands are allocated values other than A, B, C:
combining B into A returns the new instruction `s.next`, and combining C into
it returns the new instruction `s.next + 3`, which has the opcode and bit size
of A, the sum of the three component counts, and in every operand slot the
source of A with the lanes of A, then those of B, then those of C. For every
other linked ALU instruction, after the two combines: an operand that read A
reads `s.next + 3` with its swizzle unchanged; an operand that read B reads
`s.next + 3` with every lane (below the width of B) moved up by the width of A;
an operand that read C reads `s.next + 3` with every lane (below the width of C)
moved up by the widths of A and B; each reads the value it read before the two
combines; an operand of another allocated value is unchanged. -/
theorem C34_swizzles_compose {α : Type} (E : Env) (s : vec_state) (A B C : Nat)
    (a b c : nir_alu_instr) (val : Nat → Nat → α)
    (hA : s.heap A = .alu a) (hB : s.heap B = .alu b) (hC : s.heap C = .alu c)
    (hab : instrs_equal E (.alu a) (.alu b) = true)
    (hac : instrs_equal E (.alu a) (.alu c) = true)
    (hw : a.num_components + b.num_components + c.num_components ≤ 4)
    (hAB : A ≠ B) (hAC : A ≠ C) (hBC : B ≠ C)
    (hlA : A ∈ s.blocks.flatten) (hlB : B ∈ s.blocks.flatten) (hlC : C ∈ s.blocks.flatten)
    (hlt : ∀ p, p ∈ s.blocks.flatten → p < s.next)
    (hops : ∀ i, i < (E.nir_op_infos a.op).num_inputs →
      (a.src.getD i default).ssa < s.next ∧ (a.src.getD i default).ssa ≠ A ∧
      (a.src.getD i default).ssa ≠ B ∧ (a.src.getD i default).ssa ≠ C) :
    (instr_try_combine E s A B).1 = some s.next ∧
    (instr_try_combine E (instr_try_combine E s A B).2 s.next C).1 = some (s.next + 3) ∧
    (∃ n, (instr_try_combine E (instr_try_combine E s A B).2 s.next C).2.heap (s.next + 3)
        = .alu n ∧
      n.op = a.op ∧ n.bit_size = a.bit_size ∧
      n.num_components = a.num_components + b.num_components + c.num_components ∧
      ∀ i, i < (E.nir_op_infos a.op).num_inputs →
        (n.src.getD i default).ssa = (a.src.getD i default).ssa ∧
        (∀ j, j < a.num_components →
          (n.src.getD i default).swizzle.getD j 0 = (a.src.getD i default).swizzle.getD j 0) ∧
        (∀ j, j < b.num_components →
          (n.src.getD i default).swizzle.getD (a.num_components + j) 0
            = (b.src.getD i default).swizzle.getD j 0) ∧
        (∀ j, j < c.num_components →
          (n.src.getD i default).swizzle.getD (a.num_components + b.num_components + j) 0
            = (c.src.getD i default).swizzle.getD j 0)) ∧
    (∀ p u, p ∈ s.blocks.flatten → p ≠ A → p ≠ B → s.heap p = .alu u →
      ∃ u2, (instr_try_combine E (instr_try_combine E s A B).2 s.next C).2.heap p = .alu u2 ∧
        u2.op = u.op ∧ u2.num_components = u.num_components ∧
        u2.src.length = u.src.length ∧
        ∀ i, i < (E.nir_op_infos u.op).num_inputs → i < u.src.length →
          ((u.src.getD i default).ssa = A →
            u2.src.getD i default =
              { ssa := s.next + 3, swizzle := (u.src.getD i default).swizzle } ∧
            ∀ j, (u.src.getD i default).swizzle.getD j 0 < a.num_components →
              read_lane (combined_val (combined_val val A B a.num_components s.next)
                  s.next C (a.num_components + b.num_components) (s.next + 3))
                (u2.src.getD i default) j = read_lane val (u.src.getD i default) j) ∧
          ((u.src.getD i default).ssa = B →
            (u2.src.getD i default).ssa = s.next + 3 ∧
            ∀ j, j < nir_ssa_alu_instr_src_components E u i →
              j < (u.src.getD i default).swizzle.length →
              (u.src.getD i default).swizzle.getD j 0 < b.num_components →
              (u2.src.getD i default).swizzle.getD j 0 =
                (u.src.getD i default).swizzle.getD j 0 + a.num_components ∧
              read_lane (combined_val (combined_val val A B a.num_components s.next)
                  s.next C (a.num_components + b.num_components) (s.next + 3))
                (u2.src.getD i default) j = read_lane val (u.src.getD i default) j) ∧
          ((u.src.getD i default).ssa = C →
            (u2.src.getD i default).ssa = s.next + 3 ∧
            ∀ j, j < nir_ssa_alu_instr_src_components E u i →
              j < (u.src.getD i default).swizzle.length →
              (u.src.getD i default).swizzle.getD j 0 < c.num_components →
              (u2.src.getD i default).swizzle.getD j 0 =
                (u.src.getD i default).swizzle.getD j 0
                  + (a.num_components + b.num_components) ∧
              read_lane (combined_val (combined_val val A B a.num_components s.next)
                  s.next C (a.num_components + b.num_components) (s.next + 3))
                (u2.src.getD i default) j = read_lane val (u.src.getD i default) j) ∧
          ((u.src.getD i default).ssa ≠ A → (u.src.getD i default).ssa ≠ B →
            (u.src.getD i default).ssa ≠ C → (u.src.getD i default).ssa < s.next →
            u2.src.getD i default = u.src.getD i default)) := by
  have hw1 : a.num_components + b.num_components ≤ 4 := by omega
  have heb := (alu_instrs_equal_iff E a b).1 hab
  have hec := (alu_instrs_equal_iff E a c).1 hac
  have hBlt : B < s.next := hlt B hlB
  have hClt : C < s.next := hlt C hlC
  have hNC : s.next ≠ C := by omega
  have hsrcAB : ∀ i, i < (E.nir_op_infos a.op).num_inputs →
      (a.src.getD i default).ssa ≠ A ∧ (a.src.getD i default).ssa ≠ B :=
    fun i hi => ⟨(hops i hi).2.1, (hops i hi).2.2.1⟩
  have e1 : instr_try_combine E s A B = (some s.next, combine_alu E s A B a b) := by
    rw [instr_try_combine_alu E s A B a b hA hB, if_neg (by omega)]
  have h1N : (combine_alu E s A B a b).heap s.next = .alu (combined_alu E a b) :=
    combine_alu_heap_new E s A B a b hsrcAB
  have h1C : (combine_alu E s A B a b).heap C = .alu c := by
    rw [combine_heap_live E s A B a b C hlC hClt, hC]
    apply rewrite_both_alu_id
    intro i hi
    have hi' : i < (E.nir_op_infos a.op).num_inputs := by rw [hec.1]; exact hi
    rw [← hec.2.2 i hi']
    exact hsrcAB i hi'
  have hn1 : (combine_alu E s A B a b).next = s.next + 3 := rfl
  have hw2 : (combined_alu E a b).num_components + c.num_components ≤ 4 := by
    show a.num_components + b.num_components + c.num_components ≤ 4
    exact hw
  have e2 : instr_try_combine E (combine_alu E s A B a b) s.next C
      = (some (s.next + 3),
          combine_alu E (combine_alu E s A B a b) s.next C (combined_alu E a b) c) := by
    rw [instr_try_combine_alu E _ s.next C _ c h1N h1C, if_neg (by omega)]
    rfl
  rw [e1]
  simp only
  rw [e2]
  simp only
  refine ⟨trivial, trivial, ?_, ?_⟩
  · refine ⟨combined_alu E (combined_alu E a b) c, ?_, rfl, rfl, rfl, ?_⟩
    · have := combine_alu_heap_new E (combine_alu E s A B a b) s.next C (combined_alu E a b) c
        (by
          intro i hi
          have hi' : i < (E.nir_op_infos a.op).num_inputs := hi
          rw [combined_alu_src_getD E a b i hi']
          simp only [combined_src]
          exact ⟨by have := (hops i hi').1; omega, (hops i hi').2.2.2⟩)
      rw [hn1] at this
      exact this
    · intro i hi
      have hi2 : i < (E.nir_op_infos (combined_alu E a b).op).num_inputs := hi
      rw [combined_alu_src_getD E (combined_alu E a b) c i hi2]
      refine ⟨?_, ?_, ?_, ?_⟩
      · simp only [combined_src]
        rw [combined_alu_src_getD E a b i hi]
        rfl
      · intro j hj
        rw [combined_src_low (combined_alu E a b) c i j hw2
          (by show j < a.num_components + b.num_components; omega),
          combined_alu_src_getD E a b i hi, combined_src_low a b i j hw1 hj]
      · intro j hj
        rw [combined_src_low (combined_alu E a b) c i (a.num_components + j) hw2
          (by show a.num_components + j < a.num_components + b.num_components; omega),
          combined_alu_src_getD E a b i hi, combined_src_high a b i j hw1 hj]
      · intro j hj
        exact combined_src_high (combined_alu E a b) c i j hw2 hj
  · intro p u hp hpA hpB hu
    obtain ⟨u1, g1, g1op, g1nc, _, g1len, g1src⟩ :=
      combine_alu_consumer E s A B a b val hw1 hAB hBlt p u hp (hlt p hp) hu
    have hp1 : p ∈ (combine_alu E s A B a b).blocks.flatten :=
      (mem_combine_blocks_iff E s A B a b p hlA).2 ⟨Or.inl hp, hpA, hpB⟩
    obtain ⟨u2, g2, g2op, g2nc, _, g2len, g2src⟩ :=
      combine_alu_consumer E (combine_alu E s A B a b) s.next C (combined_alu E a b) c
        (combined_val val A B a.num_components s.next) hw2 hNC (by rw [hn1]; omega)
        p u1 hp1 (by rw [hn1]; have := hlt p hp; omega) g1
    refine ⟨u2, g2, g2op.trans g1op, g2nc.trans g1nc, g2len.trans g1len, ?_⟩
    intro i hi hil
    obtain ⟨k1, k2, k3⟩ := g1src i hi hil
    obtain ⟨m1, m2, m3⟩ := g2src i (by rw [g1op]; exact hi) (by rw [g1len]; exact hil)
    rw [hn1] at m1 m2
    have hnc' : (combined_alu E a b).num_components = a.num_components + b.num_components :=
      rfl
    rw [hnc'] at m1 m2
    refine ⟨?_, ?_, ?_, ?_⟩
    · intro hsa
      obtain ⟨k1a, k1b⟩ := k1 hsa
      obtain ⟨m1a, m1b⟩ := m1 (by rw [k1a])
      rw [k1a] at m1a m1b
      refine ⟨m1a, ?_⟩
      intro j hj
      rw [m1b j (by simp only; omega)]
      rw [← k1a]
      exact k1b j hj
    · intro hsb
      obtain ⟨k2a, k2b⟩ := k2 hsb
      obtain ⟨m1a, m1b⟩ := m1 k2a
      refine ⟨by rw [m1a], ?_⟩
      intro j hj hjl hjb
      obtain ⟨_, k2c⟩ := k2b j hj hjl
      obtain ⟨q1, q2, q3⟩ := k2c hjb
      refine ⟨by rw [m1a]; exact q1, ?_⟩
      rw [m1b j q2]
      exact q3
    · intro hsc
      have hu1 : u1.src.getD i default = u.src.getD i default :=
        k3 (by rw [hsc]; exact Ne.symm hAC) (by rw [hsc]; exact Ne.symm hBC)
      obtain ⟨m2a, m2b⟩ := m2 (by rw [hu1]; exact hsc)
      refine ⟨m2a, ?_⟩
      intro j hj hjl hjc
      rw [hu1] at m2b
      obtain ⟨_, m2c⟩ := m2b j
        (by rw [src_components_congr E u u1 i g1op g1nc]; exact hj) hjl
      obtain ⟨q1, _, q3⟩ := m2c hjc
      refine ⟨q1, ?_⟩
      rw [q3]
      simp only [read_lane, combined_val, hsc, if_neg (Ne.symm hNC)]
    · intro n1 n2 n3 n4
      rw [m3 (by rw [k3 n1 n2]; omega) (by rw [k3 n1 n2]; exact n3)]
      exact k3 n1 n2

/-- Witness of C34: the eighth example, `A = a.x + b.x` (102), `B = a.y + b.y`
(103), `C = a.z + b.z` (104): the two combines return `200` and `203`; `203`
reads `a.xyz` and `b.xyz`; `U = A + C` reads lanes 0 and 2 of `203` and
`V = -B` reads lane 1 of `203`. -/
theorem C34_swizzles_compose_witness :
    (instr_try_combine ex_env ex_three_state 102 103).1 = some 200 ∧
    (instr_try_combine ex_env (instr_try_combine ex_env ex_three_state 102 103).2 200 104).1
      = some 203 ∧
    (instr_try_combine ex_env (instr_try_combine ex_env ex_three_state 102 103).2 200 104).2.heap
        203
      = .alu { op := 1, num_components := 3, bit_size := 32, write_mask := 7,
               src := [⟨100, [0, 1, 2, 3]⟩, ⟨101, [0, 1, 2, 3]⟩] } ∧
    (instr_try_combine ex_env (instr_try_combine ex_env ex_three_state 102 103).2 200 104).2.heap
        105
      = ex_alu 1 1 [⟨203, [0, 0, 0, 0]⟩, ⟨203, [2, 0, 0, 0]⟩] ∧
    (instr_try_combine ex_env (instr_try_combine ex_env ex_three_state 102 103).2 200 104).2.heap
        106
      = ex_alu 2 1 [⟨203, [1, 0, 0, 0]⟩] :=
  ⟨(C34_swizzles_compose ex_env ex_three_state 102 103 104
      { op := 1, num_components := 1, bit_size := 32, write_mask := 1,
        src := [⟨100, [0, 0, 0, 0]⟩, ⟨101, [0, 0, 0, 0]⟩] }
      { op := 1, num_components := 1, bit_size := 32, write_mask := 1,
        src := [⟨100, [1, 0, 0, 0]⟩, ⟨101, [1, 0, 0, 0]⟩] }
      { op := 1, num_components := 1, bit_size := 32, write_mask := 1,
        src := [⟨100, [2, 0, 0, 0]⟩, ⟨101, [2, 0, 0, 0]⟩] }
      (fun d l => 4 * d + l) rfl rfl rfl (by decide) (by decide) (by decide) (by decide)
      (by decide) (by decide) (by decide) (by decide) (by decide) (by decide) (by decide)).1,
   (C34_swizzles_compose ex_env ex_three_state 102 103 104
      { op := 1, num_components := 1, bit_size := 32, write_mask := 1,
        src := [⟨100, [0, 0, 0, 0]⟩, ⟨101, [0, 0, 0, 0]⟩] }
      { op := 1, num_components := 1, bit_size := 32, write_mask := 1,
        src := [⟨100, [1, 0, 0, 0]⟩, ⟨101, [1, 0, 0, 0]⟩] }
      { op := 1, num_components := 1, bit_size := 32, write_mask := 1,
        src := [⟨100, [2, 0, 0, 0]⟩, ⟨101, [2, 0, 0, 0]⟩] }
      (fun d l => 4 * d + l) rfl rfl rfl (by decide) (by decide) (by decide) (by decide)
      (by decide) (by decide) (by decide) (by decide) (by decide) (by decide) (by decide)).2.1,
   by decide, by decide, by decide⟩

theorem indexOf_cons_self_nat (x : Nat) (l : List Nat) : (x :: l).indexOf x = 0 := by
  simp [List.indexOf_cons]

theorem indexOf_cons_ne_nat (x p : Nat) (l : List Nat) (h : x ≠ p) :
    (x :: l).indexOf p = l.indexOf p + 1 := by
  simp [List.indexOf_cons, h]

theorem sublist_pair_indexOf (l : List Nat) (p q : Nat) (hn : l.Nodup) (h : List.Sublist [p, q] l) :
    l.indexOf p < l.indexOf q := by
  induction l with
  | nil => cases h
  | cons x rest ih =>
    have hx := (List.nodup_cons.1 hn).1
    cases h with
    | cons _ h' =>
      have hp : p ∈ rest := h'.subset (by simp)
      have hq : q ∈ rest := h'.subset (by simp)
      rw [indexOf_cons_ne_nat x p rest (fun e => hx (e ▸ hp)),
        indexOf_cons_ne_nat x q rest (fun e => hx (e ▸ hq))]
      have := ih (List.nodup_cons.1 hn).2 h'
      omega
    | cons₂ _ h' =>
      have hq : q ∈ rest := h'.subset (by simp)
      rw [indexOf_cons_self_nat, indexOf_cons_ne_nat p q rest (fun e => hx (e ▸ hq))]
      omega

theorem indexOf_sublist_pair (l : List Nat) (p q : Nat) (hq : q ∈ l)
    (h : l.indexOf p < l.indexOf q) : List.Sublist [p, q] l := by
  induction l with
  | nil => cases hq
  | cons x rest ih =>
    by_cases hxp : x = p
    · subst hxp
      have hxq : x ≠ q := by
        intro e
        subst e
        omega
      have hq' : q ∈ rest := by
        rcases List.mem_cons.1 hq with e | e
        · exact absurd e.symm hxq
        · exact e
      exact List.Sublist.cons₂ _ (List.singleton_sublist.2 hq')
    · have hxq : x ≠ q := by
        intro e
        subst e
        rw [indexOf_cons_self_nat] at h
        omega
      rw [indexOf_cons_ne_nat x p rest hxp, indexOf_cons_ne_nat x q rest hxq] at h
      have hq' : q ∈ rest := by
        rcases List.mem_cons.1 hq with e | e
        · exact absurd e.symm hxq
        · exact e
      exact List.Sublist.cons _ (ih hq' (by omega))

theorem flatMap_insert_id (l : List Nat) (a n : Nat) (h : a ∉ l) :
    l.flatMap (fun p => if p = a then [p, n] else [p]) = l := by
  induction l with
  | nil => rfl
  | cons x rest ih =>
    have hx : x ≠ a := fun e => h (by simp [e])
    rw [List.flatMap_cons, if_neg hx, ih (fun e => h (List.mem_cons_of_mem _ e))]
    rfl

theorem flatMap_insert_split (pre post : List Nat) (a n : Nat) (h1 : a ∉ pre)
    (h2 : a ∉ post) :
    (pre ++ a :: post).flatMap (fun p => if p = a then [p, n] else [p])
      = pre ++ a :: n :: post := by
  rw [List.flatMap_append, List.flatMap_cons, if_pos rfl, flatMap_insert_id pre a n h1,
    flatMap_insert_id post a n h2]
  rfl

theorem filter_ne_id (l : List Nat) (a : Nat) (h : a ∉ l) :
    l.filter (fun p => p != a) = l := by
  apply List.filter_eq_self.2
  intro x hx
  have : x ≠ a := fun e => h (e ▸ hx)
  simpa using this

theorem sublist_flatMap_insert (l : List Nat) (a n : Nat) :
    List.Sublist l (l.flatMap (fun p => if p = a then [p, n] else [p])) := by
  induction l with
  | nil => exact List.Sublist.slnil
  | cons x rest ih =>
    rw [List.flatMap_cons]
    by_cases hx : x = a
    · rw [if_pos hx]
      exact List.Sublist.cons₂ _ (List.Sublist.cons _ ih)
    · rw [if_neg hx]
      exact List.Sublist.cons₂ _ ih

theorem block_of_eq (blocks : List (List Nat)) (hn : blocks.flatten.Nodup) (c p : Nat)
    (hc : c < blocks.length) (hp : p ∈ blocks.getD c []) : block_of blocks p = some c := by
  unfold block_of
  cases h : (List.range blocks.length).find? (fun c => (blocks.getD c []).contains p) with
  | none =>
    have := List.find?_eq_none.1 h c (List.mem_range.2 hc)
    exact absurd hp (by simpa using this)
  | some c' =>
    have h1 := List.find?_some h
    have h1' : p ∈ blocks.getD c' [] := by simpa using h1
    by_cases e : c' = c
    · rw [e]
    · exact absurd (getD_disjoint blocks hn c' c p e h1' hp) id

theorem block_of_some (blocks : List (List Nat)) (c p : Nat)
    (h : block_of blocks p = some c) : c < blocks.length ∧ p ∈ blocks.getD c [] := by
  unfold block_of at h
  have h1 := List.find?_some h
  have h2 := List.mem_of_find?_eq_some h
  exact ⟨List.mem_range.1 h2, by simpa using h1⟩

theorem mem_flatten_getD (blocks : List (List Nat)) (p : Nat) (h : p ∈ blocks.flatten) :
    ∃ c, c < blocks.length ∧ p ∈ blocks.getD c [] := by
  obtain ⟨b, hb, hp⟩ := List.mem_flatten.1 h
  obtain ⟨c, hc, e⟩ := List.getElem_of_mem hb
  refine ⟨c, hc, ?_⟩
  rw [List.getD_eq_getElem?_getD, List.getElem?_eq_getElem hc, e]
  exact hp

theorem combine_blocks_length (E : Env) (s : vec_state) (instr1 instr2 : Nat)
    (alu1 alu2 : nir_alu_instr) :
    (combine_alu E s instr1 instr2 alu1 alu2).blocks.length = s.blocks.length := by
  rw [combine_alu_blocks_eq]
  simp [combine_blocks3, nir_instr_remove, nir_instr_insert_after]

theorem combine_blocks_getD (E : Env) (s : vec_state) (instr1 instr2 : Nat)
    (alu1 alu2 : nir_alu_instr) (c : Nat) :
    (combine_alu E s instr1 instr2 alu1 alu2).blocks.getD c []
      = ((((((s.blocks.getD c []).flatMap (fun p => if p = instr1 then [p, s.next] else [p])).flatMap
            (fun p => if p = s.next then [p, s.next + 1] else [p])).flatMap
            (fun p => if p = s.next + 1 then [p, s.next + 2] else [p])).filter
            (fun p => p != instr1)).filter (fun p => p != instr2)) := by
  rw [combine_alu_blocks_eq]
  unfold combine_blocks3 nir_instr_remove nir_instr_insert_after
  rw [getD_map_blocks _ (by rfl), getD_map_blocks _ (by rfl), getD_map_blocks _ (by rfl),
    getD_map_blocks _ (by rfl), getD_map_blocks _ (by rfl)]

theorem combine_block_other (E : Env) (s : vec_state) (instr1 instr2 : Nat)
    (alu1 alu2 : nir_alu_instr) (c : Nat)
    (hlt : ∀ q, q ∈ s.blocks.flatten → q < s.next)
    (h1 : instr1 ∉ s.blocks.getD c []) :
    (combine_alu E s instr1 instr2 alu1 alu2).blocks.getD c []
      = (s.blocks.getD c []).filter (fun p => p != instr2) := by
  have hno : ∀ n, s.next ≤ n → n ∉ s.blocks.getD c [] := by
    intro n hn hm
    have := hlt n (getD_mem_flatten _ _ _ hm)
    omega
  rw [combine_blocks_getD, flatMap_insert_id _ _ _ h1,
    flatMap_insert_id _ _ _ (hno _ (le_refl _)), flatMap_insert_id _ _ _ (hno _ (by omega)),
    filter_ne_id _ _ h1]

theorem combine_block_split (E : Env) (s : vec_state) (instr1 instr2 : Nat)
    (alu1 alu2 : nir_alu_instr) (c : Nat) (pre post : List Nat)
    (hn : s.blocks.flatten.Nodup)
    (hlt : ∀ q, q ∈ s.blocks.flatten → q < s.next)
    (h2 : instr2 < s.next)
    (hb : s.blocks.getD c [] = pre ++ instr1 :: post) :
    (combine_alu E s instr1 instr2 alu1 alu2).blocks.getD c []
      = pre.filter (fun p => p != instr2) ++
          s.next :: (s.next + 1) :: (s.next + 2) :: post.filter (fun p => p != instr2) := by
  have hnb : (pre ++ instr1 :: post).Nodup := hb ▸ nodup_getD _ hn c
  have hd := List.nodup_append.1 hnb
  have h1pre : instr1 ∉ pre := fun h => hd.2.2 h (by simp)
  have h1post : instr1 ∉ post := (List.nodup_cons.1 hd.2.1).1
  have hlt' : ∀ q, q ∈ pre ++ instr1 :: post → q < s.next := by
    intro q hq
    exact hlt q (getD_mem_flatten _ c _ (hb ▸ hq))
  have h1lt : instr1 < s.next := hlt' _ (by simp)
  have hpre : ∀ n, s.next ≤ n → n ∉ pre := by
    intro n hn hm
    have := hlt' n (by simp [hm])
    omega
  have hpost : ∀ n, s.next ≤ n → n ∉ post := by
    intro n hn hm
    have := hlt' n (by simp [hm])
    omega
  rw [combine_blocks_getD, hb, flatMap_insert_split pre post _ _ h1pre h1post]
  have e1 : pre ++ instr1 :: s.next :: post = (pre ++ [instr1]) ++ s.next :: post := by simp
  rw [e1, flatMap_insert_split (pre ++ [instr1]) post s.next (s.next + 1)
    (by
      intro h
      rcases List.mem_append.1 h with h | h
      · exact hpre _ (le_refl _) h
      · simp at h; omega)
    (hpost _ (le_refl _))]
  have e2 : (pre ++ [instr1]) ++ s.next :: (s.next + 1) :: post
      = (pre ++ [instr1, s.next]) ++ (s.next + 1) :: post := by simp
  rw [e2, flatMap_insert_split (pre ++ [instr1, s.next]) post (s.next + 1) (s.next + 2)
    (by
      intro h
      rcases List.mem_append.1 h with h | h
      · exact hpre _ (by omega) h
      · simp at h; omega)
    (hpost _ (by omega))]
  have step : ((pre ++ [instr1, s.next]) ++ (s.next + 1) :: (s.next + 2) :: post).filter
      (fun p => p != instr1) = pre ++ s.next :: (s.next + 1) :: (s.next + 2) :: post := by
    have a2 : (s.next != instr1) = true := by simp; omega
    have a3 : (s.next + 1 != instr1) = true := by simp; omega
    have a4 : (s.next + 2 != instr1) = true := by simp; omega
    simp [List.filter_append, List.filter_cons, filter_ne_id pre _ h1pre,
      filter_ne_id post _ h1post, a2, a3, a4]
  rw [step]
  have b2 : (s.next != instr2) = true := by simp; omega
  have b3 : (s.next + 1 != instr2) = true := by simp; omega
  have b4 : (s.next + 2 != instr2) = true := by simp; omega
  simp [List.filter_append, List.filter_cons, b2, b3, b4]

theorem strictly_dominates_mem (t : DomTree) (a b : Nat) :
    strictly_dominates a b t = true → a ∈ tree_blocks t ∧ b ∈ tree_blocks t := by
  induction t using DomTree.rec
    (motive_2 := fun cs => strictly_dominates_any a b cs = true →
      a ∈ forest_blocks cs ∧ b ∈ forest_blocks cs) with
  | node block dom_children ih =>
    intro h
    simp only [strictly_dominates, Bool.or_eq_true, Bool.and_eq_true, beq_iff_eq,
      List.contains_eq_any_beq, List.any_eq_true] at h
    simp only [tree_blocks, List.mem_cons]
    rcases h with ⟨h1, x, hx, hxb⟩ | h
    · exact ⟨Or.inl h1.symm, Or.inr (hxb ▸ hx)⟩
    · exact ⟨Or.inr (ih h).1, Or.inr (ih h).2⟩
  | nil =>
    rename_i h
    simp [strictly_dominates_any] at h
  | cons child rest ih1 ih2 =>
    rename_i h
    simp only [strictly_dominates_any, Bool.or_eq_true] at h
    simp only [forest_blocks, List.mem_append]
    rcases h with h | h
    · exact ⟨Or.inl (ih1 h).1, Or.inl (ih1 h).2⟩
    · exact ⟨Or.inr (ih2 h).1, Or.inr (ih2 h).2⟩

theorem strictly_dominates_any_mem (cs : List DomTree) (a b : Nat) :
    strictly_dominates_any a b cs = true → a ∈ forest_blocks cs ∧ b ∈ forest_blocks cs := by
  induction cs with
  | nil =>
    intro h
    simp [strictly_dominates_any] at h
  | cons child rest ih =>
    intro h
    simp only [strictly_dominates_any, Bool.or_eq_true] at h
    simp only [forest_blocks, List.mem_append]
    rcases h with h | h
    · have := strictly_dominates_mem child a b h
      exact ⟨Or.inl this.1, Or.inl this.2⟩
    · exact ⟨Or.inr (ih h).1, Or.inr (ih h).2⟩

theorem strictly_dominates_node (block : Nat) (cs : List DomTree) (a b : Nat) :
    strictly_dominates a b (.node block cs) = true ↔
      (block = a ∧ b ∈ forest_blocks cs) ∨ strictly_dominates_any a b cs = true := by
  simp only [strictly_dominates, Bool.or_eq_true, Bool.and_eq_true, beq_iff_eq,
    List.contains_eq_any_beq, List.any_eq_true]
  constructor
  · rintro (⟨h1, x, hx, hxb⟩ | h)
    · exact Or.inl ⟨h1, hxb ▸ hx⟩
    · exact Or.inr h
  · rintro (⟨h1, h2⟩ | h)
    · exact Or.inl ⟨h1, b, h2, rfl⟩
    · exact Or.inr h

theorem strictly_dominates_trans (t : DomTree) (a b c : Nat) :
    (tree_blocks t).Nodup → strictly_dominates a b t = true →
      strictly_dominates b c t = true → strictly_dominates a c t = true := by
  induction t using DomTree.rec
    (motive_2 := fun cs => (forest_blocks cs).Nodup → strictly_dominates_any a b cs = true →
      strictly_dominates_any b c cs = true → strictly_dominates_any a c cs = true) with
  | node block dom_children ih =>
    intro hn h1 h2
    simp only [tree_blocks, List.nodup_cons] at hn
    rw [strictly_dominates_node] at h1 h2 ⊢
    have h2' : strictly_dominates_any b c dom_children = true := by
      rcases h2 with ⟨e, _⟩ | h2
      · exfalso
        apply hn.1
        rw [e]
        rcases h1 with ⟨_, hb⟩ | h1
        · exact hb
        · exact (strictly_dominates_any_mem _ a b h1).2
      · exact h2
    rcases h1 with ⟨e, _⟩ | h1
    · exact Or.inl ⟨e, (strictly_dominates_any_mem _ b c h2').2⟩
    · exact Or.inr (ih hn.2 h1 h2')
  | nil =>
    rename_i _ h _
    simp [strictly_dominates_any] at h
  | cons child rest ih1 ih2 =>
    rename_i hn h1 h2
    simp only [forest_blocks] at hn
    have hd := List.nodup_append.1 hn
    simp only [strictly_dominates_any, Bool.or_eq_true] at h1 h2 ⊢
    rcases h1 with h1 | h1
    · rcases h2 with h2 | h2
      · exact Or.inl (ih1 hd.1 h1 h2)
      · exact absurd (strictly_dominates_any_mem _ b c h2).1
          (fun h => hd.2.2 (strictly_dominates_mem _ a b h1).2 h)
    · rcases h2 with h2 | h2
      · exact absurd (strictly_dominates_any_mem _ a b h1).2
          (fun h => hd.2.2 (strictly_dominates_mem _ b c h2).1 h)
      · exact Or.inr (ih2 hd.2.1 h1 h2)

theorem strictly_dominates_irrefl (t : DomTree) (a : Nat) :
    (tree_blocks t).Nodup → strictly_dominates a a t = false := by
  induction t using DomTree.rec
    (motive_2 := fun cs => (forest_blocks cs).Nodup →
      strictly_dominates_any a a cs = false) with
  | node block dom_children ih =>
    intro hn
    simp only [tree_blocks, List.nodup_cons] at hn
    cases h : strictly_dominates a a (.node block dom_children) with
    | false => rfl
    | true =>
      rw [strictly_dominates_node] at h
      rcases h with ⟨e, hm⟩ | h
      · exact absurd (e ▸ hm) hn.1
      · rw [ih hn.2] at h
        cases h
  | nil =>
    rfl
  | cons child rest ih1 ih2 =>
    rename_i hn
    simp only [forest_blocks] at hn
    have hd := List.nodup_append.1 hn
    simp only [strictly_dominates_any, ih1 hd.1, ih2 hd.2.1, Bool.or_self]

theorem instr_dominates_iff (t : DomTree) (blocks : List (List Nat)) (p q : Nat)
    (hn : blocks.flatten.Nodup) :
    instr_dominates t blocks p q = true ↔
      ∃ cp cq, cp < blocks.length ∧ cq < blocks.length ∧ p ∈ blocks.getD cp [] ∧
        q ∈ blocks.getD cq [] ∧
        ((cp = cq ∧ List.Sublist [p, q] (blocks.getD cp [])) ∨
          (cp ≠ cq ∧ strictly_dominates cp cq t = true)) := by
  constructor
  · intro h
    unfold instr_dominates at h
    cases hp : block_of blocks p with
    | none => rw [hp] at h; cases h
    | some cp =>
      cases hq : block_of blocks q with
      | none => rw [hp, hq] at h; cases h
      | some cq =>
        rw [hp, hq] at h
        simp only at h
        obtain ⟨a1, a2⟩ := block_of_some blocks cp p hp
        obtain ⟨b1, b2⟩ := block_of_some blocks cq q hq
        refine ⟨cp, cq, a1, b1, a2, b2, ?_⟩
        by_cases e : cp = cq
        · rw [if_pos e] at h
          refine Or.inl ⟨e, indexOf_sublist_pair _ p q (e ▸ b2) (of_decide_eq_true h)⟩
        · rw [if_neg e] at h
          exact Or.inr ⟨e, h⟩
  · rintro ⟨cp, cq, a1, b1, a2, b2, h⟩
    unfold instr_dominates
    rw [block_of_eq blocks hn cp p a1 a2, block_of_eq blocks hn cq q b1 b2]
    simp only
    rcases h with ⟨e, h⟩ | ⟨e, h⟩
    · rw [if_pos e]
      exact decide_eq_true (sublist_pair_indexOf _ p q (nodup_getD blocks hn cp) h)
    · rw [if_neg e]
      exact h

theorem instr_dominates_irrefl (t : DomTree) (blocks : List (List Nat)) (p : Nat)
    (hn : blocks.flatten.Nodup) : instr_dominates t blocks p p = false := by
  cases h : instr_dominates t blocks p p with
  | false => rfl
  | true =>
    obtain ⟨cp, cq, _, _, a2, b2, h⟩ := (instr_dominates_iff t blocks p p hn).1 h
    rcases h with ⟨_, h⟩ | ⟨e, _⟩
    · have := sublist_pair_indexOf _ p p (nodup_getD blocks hn cp) h
      omega
    · exact absurd (by_contra fun e' => getD_disjoint blocks hn cp cq p e' a2 b2) e

theorem instr_dominates_trans (t : DomTree) (blocks : List (List Nat)) (p q r : Nat)
    (hn : blocks.flatten.Nodup) (ht : (tree_blocks t).Nodup)
    (h1 : instr_dominates t blocks p q = true) (h2 : instr_dominates t blocks q r = true) :
    instr_dominates t blocks p r = true := by
  obtain ⟨cp, cq, a1, a2, a3, a4, a5⟩ := (instr_dominates_iff t blocks p q hn).1 h1
  obtain ⟨cq', cr, b1, b2, b3, b4, b5⟩ := (instr_dominates_iff t blocks q r hn).1 h2
  have e : cq' = cq := by_contra fun e' => getD_disjoint blocks hn cq' cq q e' b3 a4
  subst e
  refine (instr_dominates_iff t blocks p r hn).2 ⟨cp, cr, a1, b2, a3, b4, ?_⟩
  rcases a5 with ⟨e1, s1⟩ | ⟨e1, s1⟩
  · subst e1
    rcases b5 with ⟨e2, s2⟩ | ⟨e2, s2⟩
    · subst e2
      left
      refine ⟨rfl, indexOf_sublist_pair _ p r b4 ?_⟩
      have i1 := sublist_pair_indexOf _ p q (nodup_getD blocks hn _) s1
      have i2 := sublist_pair_indexOf _ q r (nodup_getD blocks hn _) s2
      omega
    · exact Or.inr ⟨e2, s2⟩
  · rcases b5 with ⟨e2, _⟩ | ⟨e2, s2⟩
    · subst e2
      exact Or.inr ⟨e1, s1⟩
    · right
      have s3 := strictly_dominates_trans t cp cq' cr ht s1 s2
      refine ⟨?_, s3⟩
      intro e3
      subst e3
      have s4 := strictly_dominates_trans t cp cq' cp ht s1 s2
      rw [strictly_dominates_irrefl t cp ht] at s4
      cases s4

theorem combine_block_sublist (E : Env) (s : vec_state) (instr1 instr2 : Nat)
    (alu1 alu2 : nir_alu_instr) (c : Nat) :
    List.Sublist
      (((s.blocks.getD c []).filter (fun p => p != instr1)).filter (fun p => p != instr2))
      ((combine_alu E s instr1 instr2 alu1 alu2).blocks.getD c []) := by
  rw [combine_blocks_getD]
  apply List.Sublist.filter
  apply List.Sublist.filter
  exact ((sublist_flatMap_insert _ _ _).trans (sublist_flatMap_insert _ _ _)).trans
    (sublist_flatMap_insert _ _ _)

theorem sublist_pair_survives (l : List Nat) (x q a b : Nat) (h : List.Sublist [x, q] l)
    (hxa : x ≠ a) (hxb : x ≠ b) (hqa : q ≠ a) (hqb : q ≠ b) :
    List.Sublist [x, q] ((l.filter (fun p => p != a)).filter (fun p => p != b)) := by
  have h1 := (h.filter (fun p => p != a)).filter (fun p => p != b)
  have e : ([x, q].filter (fun p => p != a)).filter (fun p => p != b) = [x, q] := by
    simp [List.filter_cons, hxa, hxb, hqa, hqb]
  rw [e] at h1
  exact h1

theorem mem_survives (l : List Nat) (x a b : Nat) (h : x ∈ l) (hxa : x ≠ a) (hxb : x ≠ b) :
    x ∈ (l.filter (fun p => p != a)).filter (fun p => p != b) := by
  simp [List.mem_filter, h, hxa, hxb]

/-- Dominance between two instructions that a combine leaves linked is kept. -/
theorem dominates_combine_old (E : Env) (t : DomTree) (s : vec_state) (instr1 instr2 : Nat)
    (alu1 alu2 : nir_alu_instr) (x q : Nat)
    (hn : s.blocks.flatten.Nodup) (hlt : ∀ p, p ∈ s.blocks.flatten → p < s.next)
    (hxa : x ≠ instr1) (hxb : x ≠ instr2) (hqa : q ≠ instr1) (hqb : q ≠ instr2)
    (h : instr_dominates t s.blocks x q = true) :
    instr_dominates t (combine_alu E s instr1 instr2 alu1 alu2).blocks x q = true := by
  obtain ⟨cp, cq, a1, a2, a3, a4, a5⟩ := (instr_dominates_iff t s.blocks x q hn).1 h
  refine (instr_dominates_iff t _ x q (nodup_combine_blocks E s instr1 instr2 alu1 alu2 hn hlt)).2
    ⟨cp, cq, by rw [combine_blocks_length]; exact a1, by rw [combine_blocks_length]; exact a2,
      (combine_block_sublist E s instr1 instr2 alu1 alu2 cp).subset
        (mem_survives _ x _ _ a3 hxa hxb),
      (combine_block_sublist E s instr1 instr2 alu1 alu2 cq).subset
        (mem_survives _ q _ _ a4 hqa hqb), ?_⟩
  rcases a5 with ⟨e, h5⟩ | h5
  · exact Or.inl ⟨e, (sublist_pair_survives _ x q _ _ h5 hxa hxb hqa hqb).trans
      (combine_block_sublist E s instr1 instr2 alu1 alu2 cp)⟩
  · exact Or.inr h5

theorem split_after (pre post : List Nat) (a q : Nat) (hn : (pre ++ a :: post).Nodup)
    (h : List.Sublist [a, q] (pre ++ a :: post)) : q ∈ post := by
  have hi := sublist_pair_indexOf _ a q hn h
  have hq : q ∈ pre ++ a :: post := h.subset (by simp)
  rcases List.mem_append.1 hq with hq | hq
  · have h2 : List.Sublist ([q] ++ [a]) (pre ++ a :: post) :=
      List.Sublist.append (List.singleton_sublist.2 hq)
        (List.singleton_sublist.2 (List.mem_cons_self _ _))
    have := sublist_pair_indexOf _ q a hn h2
    omega
  · rcases List.mem_cons.1 hq with e | hq
    · subst e
      omega
    · exact hq

theorem split_before (pre post : List Nat) (a x : Nat) (hn : (pre ++ a :: post).Nodup)
    (h : List.Sublist [x, a] (pre ++ a :: post)) : x ∈ pre := by
  have hi := sublist_pair_indexOf _ x a hn h
  have hx : x ∈ pre ++ a :: post := h.subset (by simp)
  rcases List.mem_append.1 hx with hx | hx
  · exact hx
  · rcases List.mem_cons.1 hx with e | hx
    · subst e
      omega
    · have h2 : List.Sublist ([a] ++ [x]) (pre ++ a :: post) :=
        List.sublist_append_of_sublist_right
          (List.Sublist.cons₂ _ (List.singleton_sublist.2 hx))
      have := sublist_pair_indexOf _ a x hn h2
      omega

/-- After a combine the three new instructions dominate what `instr1` dominated. -/
theorem dominates_combine_after (E : Env) (t : DomTree) (s : vec_state) (instr1 instr2 : Nat)
    (alu1 alu2 : nir_alu_instr) (q n : Nat)
    (hn : s.blocks.flatten.Nodup) (hlt : ∀ p, p ∈ s.blocks.flatten → p < s.next)
    (h2 : instr2 < s.next) (hqb : q ≠ instr2)
    (hnew : n = s.next ∨ n = s.next + 1 ∨ n = s.next + 2)
    (h : instr_dominates t s.blocks instr1 q = true) :
    instr_dominates t (combine_alu E s instr1 instr2 alu1 alu2).blocks n q = true := by
  obtain ⟨cp, cq, a1, a2, a3, a4, a5⟩ := (instr_dominates_iff t s.blocks instr1 q hn).1 h
  have hqa : q ≠ instr1 := by
    intro e
    rw [e, instr_dominates_irrefl t s.blocks instr1 hn] at h
    cases h
  obtain ⟨pre, post, hb⟩ := List.append_of_mem a3
  have hfin := combine_block_split E s instr1 instr2 alu1 alu2 cp pre post hn hlt h2 hb
  have hnb : (pre ++ instr1 :: post).Nodup := hb ▸ nodup_getD _ hn cp
  have hnm : n ∈ (combine_alu E s instr1 instr2 alu1 alu2).blocks.getD cp [] := by
    rw [hfin]
    rcases hnew with e | e | e <;> simp [e]
  refine (instr_dominates_iff t _ n q (nodup_combine_blocks E s instr1 instr2 alu1 alu2 hn hlt)).2
    ⟨cp, cq, by rw [combine_blocks_length]; exact a1, by rw [combine_blocks_length]; exact a2,
      hnm, (combine_block_sublist E s instr1 instr2 alu1 alu2 cq).subset
        (mem_survives _ q _ _ a4 hqa hqb), ?_⟩
  rcases a5 with ⟨e, h5⟩ | h5
  · refine Or.inl ⟨e, ?_⟩
    rw [hb] at h5
    have hq : q ∈ post.filter (fun p => p != instr2) := by
      simp [List.mem_filter, split_after pre post instr1 q hnb h5, hqb]
    rw [hfin]
    apply List.sublist_append_of_sublist_right
    rcases hnew with e | e | e
    · rw [e]
      exact List.Sublist.cons₂ _ (List.Sublist.cons _ (List.Sublist.cons _
        (List.singleton_sublist.2 hq)))
    · rw [e]
      exact List.Sublist.cons _ (List.Sublist.cons₂ _ (List.Sublist.cons _
        (List.singleton_sublist.2 hq)))
    · rw [e]
      exact List.Sublist.cons _ (List.Sublist.cons _ (List.Sublist.cons₂ _
        (List.singleton_sublist.2 hq)))
  · exact Or.inr h5

/-- After a combine the new instruction is dominated by what dominated `instr1`. -/
theorem dominates_combine_before (E : Env) (t : DomTree) (s : vec_state) (instr1 instr2 : Nat)
    (alu1 alu2 : nir_alu_instr) (x : Nat)
    (hn : s.blocks.flatten.Nodup) (hlt : ∀ p, p ∈ s.blocks.flatten → p < s.next)
    (h2 : instr2 < s.next) (hxb : x ≠ instr2)
    (h : instr_dominates t s.blocks x instr1 = true) :
    instr_dominates t (combine_alu E s instr1 instr2 alu1 alu2).blocks x s.next = true := by
  obtain ⟨cp, cq, a1, a2, a3, a4, a5⟩ := (instr_dominates_iff t s.blocks x instr1 hn).1 h
  have hxa : x ≠ instr1 := by
    intro e
    rw [e, instr_dominates_irrefl t s.blocks instr1 hn] at h
    cases h
  obtain ⟨pre, post, hb⟩ := List.append_of_mem a4
  have hfin := combine_block_split E s instr1 instr2 alu1 alu2 cq pre post hn hlt h2 hb
  have hnb : (pre ++ instr1 :: post).Nodup := hb ▸ nodup_getD _ hn cq
  have hnm : s.next ∈ (combine_alu E s instr1 instr2 alu1 alu2).blocks.getD cq [] := by
    rw [hfin]
    simp
  refine (instr_dominates_iff t _ x s.next
    (nodup_combine_blocks E s instr1 instr2 alu1 alu2 hn hlt)).2
    ⟨cp, cq, by rw [combine_blocks_length]; exact a1, by rw [combine_blocks_length]; exact a2,
      (combine_block_sublist E s instr1 instr2 alu1 alu2 cp).subset
        (mem_survives _ x _ _ a3 hxa hxb), hnm, ?_⟩
  rcases a5 with ⟨e, h5⟩ | h5
  · refine Or.inl ⟨e, ?_⟩
    subst e
    rw [hb] at h5
    have hx : x ∈ pre.filter (fun p => p != instr2) := by
      simp [List.mem_filter, split_before pre post instr1 x hnb h5, hxb]
    rw [hfin]
    exact List.Sublist.append (List.singleton_sublist.2 hx)
      (List.Sublist.cons₂ _ (List.nil_sublist _))
  · exact Or.inr h5

/-- After a combine the new instruction dominates the two extractions. -/
theorem dominates_combine_new (E : Env) (t : DomTree) (s : vec_state) (instr1 instr2 : Nat)
    (alu1 alu2 : nir_alu_instr)
    (hn : s.blocks.flatten.Nodup) (hlt : ∀ p, p ∈ s.blocks.flatten → p < s.next)
    (h1 : instr1 ∈ s.blocks.flatten) (h2 : instr2 < s.next) :
    instr_dominates t (combine_alu E s instr1 instr2 alu1 alu2).blocks s.next (s.next + 1)
      = true ∧
    instr_dominates t (combine_alu E s instr1 instr2 alu1 alu2).blocks s.next (s.next + 2)
      = true := by
  obtain ⟨c, hc, hm⟩ := mem_flatten_getD s.blocks instr1 h1
  obtain ⟨pre, post, hb⟩ := List.append_of_mem hm
  have hfin := combine_block_split E s instr1 instr2 alu1 alu2 c pre post hn hlt h2 hb
  have hnd := nodup_combine_blocks E s instr1 instr2 alu1 alu2 hn hlt
  have hc' : c < (combine_alu E s instr1 instr2 alu1 alu2).blocks.length := by
    rw [combine_blocks_length]; exact hc
  constructor
  · refine (instr_dominates_iff t _ _ _ hnd).2 ⟨c, c, hc', hc', by rw [hfin]; simp,
      by rw [hfin]; simp, Or.inl ⟨rfl, ?_⟩⟩
    rw [hfin]
    exact List.sublist_append_of_sublist_right
      (List.Sublist.cons₂ _ (List.Sublist.cons₂ _ (List.nil_sublist _)))
  · refine (instr_dominates_iff t _ _ _ hnd).2 ⟨c, c, hc', hc', by rw [hfin]; simp,
      by rw [hfin]; simp, Or.inl ⟨rfl, ?_⟩⟩
    rw [hfin]
    exact List.sublist_append_of_sublist_right
      (List.Sublist.cons₂ _ (List.Sublist.cons _ (List.Sublist.cons₂ _ (List.nil_sublist _))))

theorem uses_rewrite_use1_src (E : Env) (d n n1 : Nat) (x : nir_instr) (y : Nat)
    (h : y ∈ instr_uses E (rewrite_use1 E d n n1 x)) :
    (y ∈ instr_uses E x ∧ y ≠ d) ∨ ((y = n ∨ y = n1) ∧ d ∈ instr_uses E x) := by
  cases x with
  | alu u =>
    simp only [rewrite_use1, instr_uses, List.mem_map] at h ⊢
    obtain ⟨x, hx, hxy⟩ := h
    obtain ⟨k, s, hk, hs, hf⟩ := mem_take_map_srcs _ _ _ _ hx
    subst hf
    by_cases hc : k < (E.nir_op_infos u.op).num_inputs ∧ s.ssa = d
    · rw [if_pos hc] at hxy
      exact Or.inr ⟨Or.inl hxy.symm, s, hs, hc.2⟩
    · rw [if_neg hc] at hxy
      refine Or.inl ⟨⟨s, hs, hxy⟩, ?_⟩
      intro hyd
      exact hc ⟨hk, by rw [hxy, hyd]⟩
  | other srcs =>
    simp only [rewrite_use1, instr_uses, List.mem_map] at h ⊢
    obtain ⟨x, hx, hxy⟩ := h
    by_cases hc : x = d
    · rw [if_pos hc] at hxy
      exact Or.inr ⟨Or.inr hxy.symm, hc ▸ hx⟩
    · rw [if_neg hc] at hxy
      exact Or.inl ⟨by rw [← hxy]; exact hx, by rw [← hxy]; exact hc⟩

theorem uses_rewrite_use2_src (E : Env) (d n n2 k1 : Nat) (x : nir_instr) (y : Nat)
    (h : y ∈ instr_uses E (rewrite_use2 E d n n2 k1 x)) :
    (y ∈ instr_uses E x ∧ y ≠ d) ∨ ((y = n ∨ y = n2) ∧ d ∈ instr_uses E x) := by
  cases x with
  | alu u =>
    simp only [rewrite_use2, instr_uses, List.mem_map] at h ⊢
    obtain ⟨x, hx, hxy⟩ := h
    obtain ⟨k, s, hk, hs, hf⟩ := mem_take_map_srcs _ _ _ _ hx
    subst hf
    by_cases hc : k < (E.nir_op_infos u.op).num_inputs ∧ s.ssa = d
    · rw [if_pos hc] at hxy
      exact Or.inr ⟨Or.inl hxy.symm, s, hs, hc.2⟩
    · rw [if_neg hc] at hxy
      refine Or.inl ⟨⟨s, hs, hxy⟩, ?_⟩
      intro hyd
      exact hc ⟨hk, by rw [hxy, hyd]⟩
  | other srcs =>
    simp only [rewrite_use2, instr_uses, List.mem_map] at h ⊢
    obtain ⟨x, hx, hxy⟩ := h
    by_cases hc : x = d
    · rw [if_pos hc] at hxy
      exact Or.inr ⟨Or.inr hxy.symm, hc ▸ hx⟩
    · rw [if_neg hc] at hxy
      exact Or.inl ⟨by rw [← hxy]; exact hx, by rw [← hxy]; exact hc⟩

theorem uses_rewrite_both (E : Env) (instr1 instr2 new_alu n1 : Nat) (x : nir_instr) (y : Nat)
    (h2 : instr2 < new_alu)
    (h : y ∈ instr_uses E (rewrite_both E instr1 instr2 new_alu n1 x)) :
    (y ∈ instr_uses E x ∧ y ≠ instr1 ∧ y ≠ instr2) ∨
    ((y = new_alu ∨ y = new_alu + 1) ∧ instr1 ∈ instr_uses E x) ∨
    ((y = new_alu ∨ y = new_alu + 2) ∧ instr2 ∈ instr_uses E x) := by
  unfold rewrite_both at h
  rcases uses_rewrite_use2_src E _ _ _ _ _ y h with ⟨a, b⟩ | ⟨a, b⟩
  · rcases uses_rewrite_use1_src E _ _ _ _ y a with ⟨c, d⟩ | c
    · exact Or.inl ⟨c, d, b⟩
    · exact Or.inr (Or.inl c)
  · rcases uses_rewrite_use1_src E _ _ _ _ instr2 b with ⟨c, _⟩ | ⟨c, _⟩
    · exact Or.inr (Or.inr ⟨a, c⟩)
    · omega

theorem uses_combined_alu (E : Env) (alu1 alu2 : nir_alu_instr) (y : Nat)
    (har : alu1.src.length = (E.nir_op_infos alu1.op).num_inputs)
    (h : y ∈ instr_uses E (.alu (combined_alu E alu1 alu2))) :
    y ∈ instr_uses E (.alu alu1) := by
  simp only [instr_uses, List.mem_map] at h ⊢
  obtain ⟨x, hx, hxy⟩ := h
  have hx' := List.mem_of_mem_take hx
  simp only [combined_alu, List.mem_map, List.mem_range] at hx'
  obtain ⟨i, hi, e⟩ := hx'
  have hil : i < alu1.src.length := by rw [har]; exact hi
  refine ⟨alu1.src.getD i default, ?_, ?_⟩
  · rw [← har, List.take_length, List.getD_eq_getElem?_getD, List.getElem?_eq_getElem hil]
    exact List.getElem_mem hil
  · rw [← hxy, ← e]
    rfl

theorem uses_nir_swizzle (E : Env) (src bit_size : Nat) (swiz : List Nat) (k y : Nat)
    (h : y ∈ instr_uses E (.alu (nir_swizzle E src bit_size swiz k))) : y = src := by
  simp only [instr_uses, List.mem_map] at h
  obtain ⟨x, hx, hxy⟩ := h
  have hx' := List.mem_of_mem_take hx
  simp only [nir_swizzle, List.mem_singleton] at hx'
  rw [← hxy, hx']

theorem mem_rewrite_if_uses_src (d n : Nat) (l : List Nat) (y : Nat)
    (h : y ∈ rewrite_if_uses d n l) : (y ∈ l ∧ y ≠ d) ∨ (y = n ∧ d ∈ l) := by
  simp only [rewrite_if_uses, List.mem_map] at h
  obtain ⟨x, hx, hxy⟩ := h
  by_cases hc : x = d
  · rw [if_pos hc] at hxy
    exact Or.inr ⟨hxy.symm, hc ▸ hx⟩
  · rw [if_neg hc] at hxy
    exact Or.inl ⟨by rw [← hxy]; exact hx, by rw [← hxy]; exact hc⟩

theorem combine_alu_if_uses (E : Env) (s : vec_state) (instr1 instr2 : Nat)
    (alu1 alu2 : nir_alu_instr) :
    (combine_alu E s instr1 instr2 alu1 alu2).if_uses
      = rewrite_if_uses instr2 (s.next + 2) (rewrite_if_uses instr1 (s.next + 1) s.if_uses) :=
  rfl

theorem dominates_block_end_iff (t : DomTree) (blocks : List (List Nat)) (x c : Nat)
    (hn : blocks.flatten.Nodup) :
    dominates_block_end t blocks x c = true ↔
      ∃ cx, cx < blocks.length ∧ x ∈ blocks.getD cx [] ∧
        (cx = c ∨ strictly_dominates cx c t = true) := by
  unfold dominates_block_end
  constructor
  · intro h
    cases hb : block_of blocks x with
    | none => rw [hb] at h; cases h
    | some cx =>
      rw [hb] at h
      simp only [Bool.or_eq_true, beq_iff_eq] at h
      obtain ⟨a1, a2⟩ := block_of_some blocks cx x hb
      exact ⟨cx, a1, a2, h⟩
  · rintro ⟨cx, a1, a2, h⟩
    rw [block_of_eq blocks hn cx x a1 a2]
    simp only [Bool.or_eq_true, beq_iff_eq]
    exact h

/-- What is available at the end of a block stays available there after a
combine, if the combine leaves it linked. -/
theorem block_end_combine_old (E : Env) (t : DomTree) (s : vec_state) (instr1 instr2 : Nat)
    (alu1 alu2 : nir_alu_instr) (x c : Nat)
    (hn : s.blocks.flatten.Nodup) (hlt : ∀ p, p ∈ s.blocks.flatten → p < s.next)
    (hxa : x ≠ instr1) (hxb : x ≠ instr2)
    (h : dominates_block_end t s.blocks x c = true) :
    dominates_block_end t (combine_alu E s instr1 instr2 alu1 alu2).blocks x c = true := by
  obtain ⟨cx, a1, a2, a3⟩ := (dominates_block_end_iff t s.blocks x c hn).1 h
  exact (dominates_block_end_iff t _ x c
    (nodup_combine_blocks E s instr1 instr2 alu1 alu2 hn hlt)).2
    ⟨cx, by rw [combine_blocks_length]; exact a1,
      (combine_block_sublist E s instr1 instr2 alu1 alu2 cx).subset
        (mem_survives _ x _ _ a2 hxa hxb), a3⟩

/-- After a combine the three new instructions are available at the end of every
block at whose end `instr1` was available. -/
theorem block_end_combine_new (E : Env) (t : DomTree) (s : vec_state) (instr1 instr2 : Nat)
    (alu1 alu2 : nir_alu_instr) (n c : Nat)
    (hn : s.blocks.flatten.Nodup) (hlt : ∀ p, p ∈ s.blocks.flatten → p < s.next)
    (h2 : instr2 < s.next)
    (hnew : n = s.next ∨ n = s.next + 1 ∨ n = s.next + 2)
    (h : dominates_block_end t s.blocks instr1 c = true) :
    dominates_block_end t (combine_alu E s instr1 instr2 alu1 alu2).blocks n c = true := by
  obtain ⟨cx, a1, a2, a3⟩ := (dominates_block_end_iff t s.blocks instr1 c hn).1 h
  obtain ⟨pre, post, hb⟩ := List.append_of_mem a2
  have hfin := combine_block_split E s instr1 instr2 alu1 alu2 cx pre post hn hlt h2 hb
  refine (dominates_block_end_iff t _ n c
    (nodup_combine_blocks E s instr1 instr2 alu1 alu2 hn hlt)).2
    ⟨cx, by rw [combine_blocks_length]; exact a1, ?_, a3⟩
  rw [hfin]
  rcases hnew with e | e | e <;> simp [e]

/-- What dominates an instruction is available wherever that instruction is. -/
theorem block_end_of_dominates (t : DomTree) (blocks : List (List Nat)) (p q c : Nat)
    (hn : blocks.flatten.Nodup) (ht : (tree_blocks t).Nodup)
    (h1 : instr_dominates t blocks p q = true)
    (h2 : dominates_block_end t blocks q c = true) :
    dominates_block_end t blocks p c = true := by
  obtain ⟨cp, cq, a1, _, a3, a4, a5⟩ := (instr_dominates_iff t blocks p q hn).1 h1
  obtain ⟨cq', _, b2, b3⟩ := (dominates_block_end_iff t blocks q c hn).1 h2
  have e : cq' = cq := by_contra fun e' => getD_disjoint blocks hn cq' cq q e' b2 a4
  subst e
  refine (dominates_block_end_iff t blocks p c hn).2 ⟨cp, a1, a3, ?_⟩
  rcases a5 with ⟨e1, _⟩ | ⟨_, s1⟩
  · rw [e1]; exact b3
  · rcases b3 with e2 | s2
    · rw [← e2]; exact Or.inr s1
    · exact Or.inr (strictly_dominates_trans t cp cq' c ht s1 s2)

/-- C31: for a combine of two ALU instructions `instr1` and `instr2` with at
most 4 components together, where `instr1` dominates `instr2` (the contract of
`instr_try_combine`) and the operands of `instr1` dominate it: the combine
returns the new instruction `s.next`; the insertion at the cursor puts it right
behind `instr1` in the block of `instr1`, and when the combine is done that
block holds, in the place of `instr1`, the new instruction and the two
extractions `s.next + 1` and `s.next + 2`, between what stood before `instr1`
and what stood behind it (without `instr2`). The linked instructions are then
the three new ones and the old ones without `instr1` and `instr2`. Every
operand of the new instruction is an operand of `instr1` and dominates the new
instruction; the extractions read the new instruction, which dominates them.
Every operand of another linked instruction comes from an operand it had before:
it is that operand, or, where that was `instr1` or `instr2`, the new instruction
or the extraction for it; if the old operand dominated the instruction the new
one does, and at the end of every block where the old operand was available (the
place of a phi source or of an if condition) the new one is. The same holds for
the conditions of the ifs. -/
theorem C31_combined_placed_after (E : Env) (t : DomTree) (s : vec_state)
    (instr1 instr2 : Nat) (alu1 alu2 : nir_alu_instr)
    (h1 : s.heap instr1 = .alu alu1) (h2 : s.heap instr2 = .alu alu2)
    (hw : alu1.num_components + alu2.num_components ≤ 4)
    (har : alu1.src.length = (E.nir_op_infos alu1.op).num_inputs)
    (hn : s.blocks.flatten.Nodup) (hlt : ∀ p, p ∈ s.blocks.flatten → p < s.next)
    (ht : (tree_blocks t).Nodup)
    (hdom : instr_dominates t s.blocks instr1 instr2 = true)
    (hops : ∀ y, y ∈ instr_uses E (.alu alu1) → instr_dominates t s.blocks y instr1 = true) :
    (instr_try_combine E s instr1 instr2).1 = some s.next ∧
    (∀ c pre post, s.blocks.getD c [] = pre ++ instr1 :: post →
      (nir_instr_insert_after s.blocks instr1 s.next).getD c []
        = pre ++ instr1 :: s.next :: post ∧
      (instr_try_combine E s instr1 instr2).2.blocks.getD c []
        = pre ++ s.next :: (s.next + 1) :: (s.next + 2) ::
            post.filter (fun p => p != instr2)) ∧
    (∀ q, q ∈ (instr_try_combine E s instr1 instr2).2.blocks.flatten ↔
      (q ∈ s.blocks.flatten ∧ q ≠ instr1 ∧ q ≠ instr2) ∨
        q = s.next ∨ q = s.next + 1 ∨ q = s.next + 2) ∧
    (∀ x, x ∈ instr_uses E ((instr_try_combine E s instr1 instr2).2.heap s.next) →
      x ∈ instr_uses E (.alu alu1) ∧
      instr_dominates t (instr_try_combine E s instr1 instr2).2.blocks x s.next = true) ∧
    ((∀ x, x ∈ instr_uses E ((instr_try_combine E s instr1 instr2).2.heap (s.next + 1)) →
        x = s.next) ∧
      (∀ x, x ∈ instr_uses E ((instr_try_combine E s instr1 instr2).2.heap (s.next + 2)) →
        x = s.next) ∧
      instr_dominates t (instr_try_combine E s instr1 instr2).2.blocks s.next (s.next + 1)
        = true ∧
      instr_dominates t (instr_try_combine E s instr1 instr2).2.blocks s.next (s.next + 2)
        = true) ∧
    (∀ q, q ∈ s.blocks.flatten → q ≠ instr1 → q ≠ instr2 →
      ∀ x, x ∈ instr_uses E ((instr_try_combine E s instr1 instr2).2.heap q) →
        ∃ y, y ∈ instr_uses E (s.heap q) ∧
          ((x = y ∧ y ≠ instr1 ∧ y ≠ instr2) ∨
            (y = instr1 ∧ (x = s.next ∨ x = s.next + 1)) ∨
            (y = instr2 ∧ (x = s.next ∨ x = s.next + 2))) ∧
          (instr_dominates t s.blocks y q = true →
            instr_dominates t (instr_try_combine E s instr1 instr2).2.blocks x q = true) ∧
          (∀ c, dominates_block_end t s.blocks y c = true →
            dominates_block_end t (instr_try_combine E s instr1 instr2).2.blocks x c
              = true)) ∧
    (∀ x, x ∈ (instr_try_combine E s instr1 instr2).2.if_uses →
      ∃ y, y ∈ s.if_uses ∧
        ((x = y ∧ y ≠ instr1 ∧ y ≠ instr2) ∨ (y = instr1 ∧ x = s.next + 1) ∨
          (y = instr2 ∧ x = s.next + 2)) ∧
        (∀ c, dominates_block_end t s.blocks y c = true →
          dominates_block_end t (instr_try_combine E s instr1 instr2).2.blocks x c
            = true)) := by
  obtain ⟨cA, cB, a1, a2, a3, a4, a5⟩ :=
    (instr_dominates_iff t s.blocks instr1 instr2 hn).1 hdom
  have hlA : instr1 ∈ s.blocks.flatten := getD_mem_flatten _ _ _ a3
  have hlB : instr2 ∈ s.blocks.flatten := getD_mem_flatten _ _ _ a4
  have hA : instr1 < s.next := hlt _ hlA
  have hB : instr2 < s.next := hlt _ hlB
  have hne : instr1 ≠ instr2 := by
    intro e
    rw [e, instr_dominates_irrefl t s.blocks instr2 hn] at hdom
    cases hdom
  have hnoA : instr1 ∉ instr_uses E (.alu alu1) := by
    intro h
    have := hops _ h
    rw [instr_dominates_irrefl t s.blocks instr1 hn] at this
    cases this
  have hnoB : instr2 ∉ instr_uses E (.alu alu1) := by
    intro h
    have := instr_dominates_trans t s.blocks _ _ _ hn ht hdom (hops _ h)
    rw [instr_dominates_irrefl t s.blocks instr1 hn] at this
    cases this
  have hendB : ∀ c, dominates_block_end t s.blocks instr2 c = true →
      dominates_block_end t s.blocks instr1 c = true :=
    fun c h => block_end_of_dominates t s.blocks instr1 instr2 c hn ht hdom h
  have e1 : instr_try_combine E s instr1 instr2
      = (some s.next, combine_alu E s instr1 instr2 alu1 alu2) := by
    rw [instr_try_combine_alu E s instr1 instr2 alu1 alu2 h1 h2, if_neg (by omega)]
  rw [e1]
  simp only
  refine ⟨trivial, ?_, ?_, ?_, ⟨?_, ?_, ?_, ?_⟩, ?_, ?_⟩
  · intro c pre post hb
    have hnb : (pre ++ instr1 :: post).Nodup := hb ▸ nodup_getD _ hn c
    have hd := List.nodup_append.1 hnb
    have h1pre : instr1 ∉ pre := fun h => hd.2.2 h (by simp)
    have h1post : instr1 ∉ post := (List.nodup_cons.1 hd.2.1).1
    have hmem : instr1 ∈ s.blocks.getD c [] := by rw [hb]; simp
    have hcA : cA = c := by_contra fun e => getD_disjoint s.blocks hn cA c instr1 e a3 hmem
    have h2pre : instr2 ∉ pre := by
      intro hm
      have hmB : instr2 ∈ s.blocks.getD c [] := by rw [hb]; simp [hm]
      have hcB : cB = c := by_contra fun e => getD_disjoint s.blocks hn cB c instr2 e a4 hmB
      rcases a5 with ⟨_, h5⟩ | ⟨e, _⟩
      · rw [hcA, hb] at h5
        exact hd.2.2 hm (List.mem_cons_of_mem _ (split_after pre post instr1 instr2 hnb h5))
      · exact e (hcA.trans hcB.symm)
    constructor
    · unfold nir_instr_insert_after
      rw [getD_map_blocks _ (by rfl), hb, flatMap_insert_split pre post _ _ h1pre h1post]
    · rw [combine_block_split E s instr1 instr2 alu1 alu2 c pre post hn hlt hB hb,
        filter_ne_id pre _ h2pre]
  · intro q
    rw [mem_combine_blocks_iff E s instr1 instr2 alu1 alu2 q hlA]
    constructor
    · rintro ⟨h | h | h | h, ha, hb⟩
      · exact Or.inl ⟨h, ha, hb⟩
      · exact Or.inr (Or.inl h)
      · exact Or.inr (Or.inr (Or.inl h))
      · exact Or.inr (Or.inr (Or.inr h))
    · rintro (⟨h, ha, hb⟩ | h | h | h)
      · exact ⟨Or.inl h, ha, hb⟩
      · exact ⟨Or.inr (Or.inl h), by omega, by omega⟩
      · exact ⟨Or.inr (Or.inr (Or.inl h)), by omega, by omega⟩
      · exact ⟨Or.inr (Or.inr (Or.inr h)), by omega, by omega⟩
  · intro x hx
    rw [combine_heap_new E s instr1 instr2 alu1 alu2 hlA] at hx
    rcases uses_rewrite_both E _ _ _ _ _ x hB hx with ⟨u1, _, u3⟩ | ⟨_, u2⟩ | ⟨_, u2⟩
    · have u1' := uses_combined_alu E alu1 alu2 x har u1
      exact ⟨u1', dominates_combine_before E t s instr1 instr2 alu1 alu2 x hn hlt hB u3
        (hops x u1')⟩
    · exact absurd (uses_combined_alu E alu1 alu2 _ har u2) hnoA
    · exact absurd (uses_combined_alu E alu1 alu2 _ har u2) hnoB
  · intro x hx
    rw [(combine_alu_heap_mov E s instr1 instr2 alu1 alu2 hA hB).1] at hx
    exact uses_nir_swizzle E _ _ _ _ x hx
  · intro x hx
    rw [(combine_alu_heap_mov E s instr1 instr2 alu1 alu2 hA hB).2] at hx
    exact uses_nir_swizzle E _ _ _ _ x hx
  · exact (dominates_combine_new E t s instr1 instr2 alu1 alu2 hn hlt hlA hB).1
  · exact (dominates_combine_new E t s instr1 instr2 alu1 alu2 hn hlt hlA hB).2
  · intro q hq hqa hqb x hx
    rw [combine_heap_live E s instr1 instr2 alu1 alu2 q hq (hlt q hq)] at hx
    rcases uses_rewrite_both E _ _ _ _ _ x hB hx with ⟨u1, u2, u3⟩ | ⟨u1, u2⟩ | ⟨u1, u2⟩
    · exact ⟨x, u1, Or.inl ⟨rfl, u2, u3⟩,
        dominates_combine_old E t s instr1 instr2 alu1 alu2 x q hn hlt u2 u3 hqa hqb,
        fun c => block_end_combine_old E t s instr1 instr2 alu1 alu2 x c hn hlt u2 u3⟩
    · have hnew : x = s.next ∨ x = s.next + 1 ∨ x = s.next + 2 := by
        rcases u1 with u1 | u1
        · exact Or.inl u1
        · exact Or.inr (Or.inl u1)
      exact ⟨instr1, u2, Or.inr (Or.inl ⟨rfl, u1⟩),
        dominates_combine_after E t s instr1 instr2 alu1 alu2 q x hn hlt hB hqb hnew,
        fun c => block_end_combine_new E t s instr1 instr2 alu1 alu2 x c hn hlt hB hnew⟩
    · have hnew : x = s.next ∨ x = s.next + 1 ∨ x = s.next + 2 := by
        rcases u1 with u1 | u1
        · exact Or.inl u1
        · exact Or.inr (Or.inr u1)
      exact ⟨instr2, u2, Or.inr (Or.inr ⟨rfl, u1⟩),
        fun h => dominates_combine_after E t s instr1 instr2 alu1 alu2 q x hn hlt hB hqb hnew
          (instr_dominates_trans t s.blocks _ _ _ hn ht hdom h),
        fun c h => block_end_combine_new E t s instr1 instr2 alu1 alu2 x c hn hlt hB hnew
          (hendB c h)⟩
  · intro x hx
    rw [combine_alu_if_uses] at hx
    rcases mem_rewrite_if_uses_src _ _ _ x hx with ⟨u1, u2⟩ | ⟨u1, u2⟩
    · rcases mem_rewrite_if_uses_src _ _ _ x u1 with ⟨v1, v2⟩ | ⟨v1, v2⟩
      · exact ⟨x, v1, Or.inl ⟨rfl, v2, u2⟩,
          fun c => block_end_combine_old E t s instr1 instr2 alu1 alu2 x c hn hlt v2 u2⟩
      · exact ⟨instr1, v2, Or.inr (Or.inl ⟨rfl, v1⟩),
          fun c => block_end_combine_new E t s instr1 instr2 alu1 alu2 x c hn hlt hB
            (Or.inr (Or.inl v1))⟩
    · rcases mem_rewrite_if_uses_src _ _ _ instr2 u2 with ⟨v1, _⟩ | ⟨v1, _⟩
      · exact ⟨instr2, v1, Or.inr (Or.inr ⟨rfl, u1⟩),
          fun c h => block_end_combine_new E t s instr1 instr2 alu1 alu2 x c hn hlt hB
            (Or.inr (Or.inr u1)) (hendB c h)⟩
      · omega

/-- Witness of C31: the combine of `A` (102, block 0) and `B` (104, block 1) of
the ninth example, whose block 3 holds a phi of `P` and `Q`, values that do not
dominate it. The new instruction `200` and the extractions `201` and `202` stand
where `A` stood, at the end of block 0. `P` (block 1), `Q` (block 2) and `R`
(block 3) read `200`, the store in block 1 reads the extraction `202`, and the if
that ends block 0 tests the extraction `201`, which is in block 0. -/
theorem C31_combined_placed_after_witness :
    instr_dominates ex_phi_tree ex_phi_state.blocks 102 104 = true ∧
    instr_dominates ex_phi_tree ex_phi_state.blocks 103 107 = false ∧
    (instr_try_combine ex_env ex_phi_state 102 104).1 = some 200 ∧
    (∀ x, x ∈ (instr_try_combine ex_env ex_phi_state 102 104).2.if_uses →
      ∃ y, y ∈ ex_phi_state.if_uses ∧
        ((x = y ∧ y ≠ 102 ∧ y ≠ 104) ∨ (y = 102 ∧ x = 200 + 1) ∨ (y = 104 ∧ x = 200 + 2)) ∧
        (∀ c, dominates_block_end ex_phi_tree ex_phi_state.blocks y c = true →
          dominates_block_end ex_phi_tree
            (instr_try_combine ex_env ex_phi_state 102 104).2.blocks x c = true)) ∧
    (instr_try_combine ex_env ex_phi_state 102 104).2.blocks
      = [[100, 101, 200, 201, 202], [103, 105], [106], [107, 108]] ∧
    (instr_try_combine ex_env ex_phi_state 102 104).2.if_uses = [201] ∧
    [103, 105, 106, 107, 108].map
        (fun q => instr_uses ex_env ((instr_try_combine ex_env ex_phi_state 102 104).2.heap q))
      = [[200], [202], [200], [103, 106], [200]] ∧
    [103, 106, 108].map (fun q =>
        instr_dominates ex_phi_tree (instr_try_combine ex_env ex_phi_state 102 104).2.blocks
          200 q) = [true, true, true] ∧
    instr_dominates ex_phi_tree (instr_try_combine ex_env ex_phi_state 102 104).2.blocks
      202 105 = true ∧
    dominates_block_end ex_phi_tree (instr_try_combine ex_env ex_phi_state 102 104).2.blocks
      201 0 = true :=
  ⟨by decide, by decide,
   (C31_combined_placed_after ex_env ex_phi_tree ex_phi_state 102 104
      { op := 1, num_components := 1, bit_size := 32, write_mask := 1,
        src := [⟨100, [0, 0, 0, 0]⟩, ⟨101, [0, 0, 0, 0]⟩] }
      { op := 1, num_components := 1, bit_size := 32, write_mask := 1,
        src := [⟨100, [1, 0, 0, 0]⟩, ⟨101, [1, 0, 0, 0]⟩] }
      rfl rfl (by decide) (by decide) (by decide) (by decide) (by decide) (by decide)
      (by decide)).1,
   (C31_combined_placed_after ex_env ex_phi_tree ex_phi_state 102 104
      { op := 1, num_components := 1, bit_size := 32, write_mask := 1,
        src := [⟨100, [0, 0, 0, 0]⟩, ⟨101, [0, 0, 0, 0]⟩] }
      { op := 1, num_components := 1, bit_size := 32, write_mask := 1,
        src := [⟨100, [1, 0, 0, 0]⟩, ⟨101, [1, 0, 0, 0]⟩] }
      rfl rfl (by decide) (by decide) (by decide) (by decide) (by decide) (by decide)
      (by decide)).2.2.2.2.2.2,
   by decide, by decide, by decide, by decide, by decide, by decide⟩

theorem io_chan_of_rewrite (a v : Nat) (intr0 c : nir_intrinsic_instr) (i : Nat)
    (h : io_chan_of intr0 i c) :
    ∃ c', io_rewrite_src a v (.intrinsic c) = .intrinsic c' ∧ io_chan_of intr0 i c' :=
  ⟨_, rfl, h⟩

theorem late_chan_load (E : IoEnv) (s : io_shader) (a : Nat) (intr : nir_intrinsic_instr)
    (ha : a < s.next) (hl : a ∈ io_instrs s.functions)
    (hmax : intr.num_components ≤ E.NIR_MAX_VEC_COMPONENTS)
    (hop : intr.intrinsic = .load_input) (t : io_shader)
    (ht : lower_load_input_to_scalar E s a intr = some t) (i : Nat)
    (hi : i < intr.num_components) :
    ∃ q c, s.next ≤ q ∧ q ∈ io_instrs t.functions ∧ t.heap q = .intrinsic c ∧
      io_chan_of intr i c := by
  rw [lower_load_eq E s a intr ha hmax] at ht
  injection ht with ht
  subst ht
  have hq : lowered_load_heap s intr (s.next + i) = .intrinsic (load_input_chan intr i) := by
    unfold lowered_load_heap
    rw [if_neg (by omega), if_pos (by omega), Nat.add_sub_cancel_left]
  have hc : io_chan_of intr i (load_input_chan intr i) :=
    ⟨rfl, rfl, rfl, rfl, fun _ => rfl, fun h => by rw [hop] at h; cases h⟩
  refine ⟨s.next + i, ?_⟩
  simp only
  split
  · obtain ⟨c', e, hc'⟩ := io_chan_of_rewrite a (s.next + intr.num_components) intr _ i hc
    refine ⟨c', Nat.le_add_right _ _, ?_, by rw [hq, e], hc'⟩
    exact mem_io_instrs_splice_new a _ _ _ hl (List.mem_range'_1.2 ⟨by omega, by omega⟩)
  · exact ⟨_, Nat.le_add_right _ _,
      mem_io_instrs_splice_new a _ _ _ hl (List.mem_range'_1.2 ⟨by omega, by omega⟩), hq, hc⟩

theorem late_chan_store (s : io_shader) (a : Nat) (intr : nir_intrinsic_instr)
    (ha : a < s.next) (hl : a ∈ io_instrs s.functions)
    (hop : intr.intrinsic = .store_output) (i : Nat)
    (hi : i < intr.num_components) (hb : intr.write_mask &&& (1 <<< i) ≠ 0) :
    ∃ q c, s.next ≤ q ∧ q ∈ io_instrs (lower_store_output_to_scalar s a intr).functions ∧
      (lower_store_output_to_scalar s a intr).heap q = .intrinsic c ∧
      io_chan_of intr i c := by
  rw [lower_store_eq s a intr ha]
  have hmem : i ∈ store_channels intr.write_mask (List.range intr.num_components) := by
    rw [mem_store_channels]
    exact ⟨List.mem_range.2 hi, hb⟩
  generalize store_channels intr.write_mask (List.range intr.num_components) = L at hmem
  obtain ⟨j, hj, hji⟩ := exists_getD_of_mem L i hmem
  refine ⟨s.next + 2 * j + 1, store_output_chan intr i (s.next + 2 * j), by omega, ?_, ?_,
    ⟨rfl, rfl, rfl, rfl, fun h => (by rw [hop] at h; cases h), fun _ => rfl⟩⟩
  · exact mem_io_instrs_splice_new a _ _ _ hl (List.mem_range'_1.2 ⟨by omega, by omega⟩)
  · show lowered_store_heap s intr _ L (s.next + 2 * j + 1) = _
    unfold lowered_store_heap
    have h4 : s.next ≤ s.next + 2 * j + 1 ∧ s.next + 2 * j + 1 < s.next + 2 * L.length := by
      omega
    have e1 : s.next + 2 * j + 1 - s.next = 2 * j + 1 := by omega
    have h5 : ¬ (2 * j + 1) % 2 = 0 := by omega
    have e2 : (2 * j + 1) / 2 = j := by omega
    have e3 : s.next + 2 * j + 1 - 1 = s.next + 2 * j := by omega
    rw [if_pos h4, e1, if_neg h5, e2, hji, e3]

theorem late_repl_step (E : IoEnv) (mask : Nat) (s0 s t : io_shader) (a : Nat)
    (hs : LateInv E mask s0 s) (hr : LateRepl E mask s0 s) (ha : a < s.next)
    (hfit : io_loads_fit E (s.heap a))
    (ht : lower_io_instr E mask s a = some t) (hstep : LateStep E mask a s t) :
    LateRepl E mask s0 t := by
  obtain ⟨ha0, _, _⟩ := late_inv_old E mask s0 s a hs ha hstep.lowered
  obtain ⟨L, hL, _⟩ := hstep.functions
  intro x intr0 hx hh hm hnot i hneed
  by_cases hxs : x ∈ io_instrs s.functions
  · have hxa : x = a := by
      by_contra e
      exact hnot (by rw [hL]; exact mem_io_instrs_splice_old a L _ x hxs e)
    subst hxa
    obtain ⟨f, hf, _⟩ := hs.heap x ha0
    rw [hh] at hf
    obtain ⟨intr, hi, hN, hcase⟩ := lower_io_instr_lowers E mask s x hstep.lowered
    have hintr : intr = { intr0 with src := intr0.src.map f } := by
      rw [hf] at hi
      simp only [io_map_srcs, io_instr.intrinsic.injEq] at hi
      exact hi.symm
    rcases hcase with ⟨hop, heq⟩ | ⟨hop, heq⟩
    · rw [heq] at ht
      obtain ⟨q, c, q1, q2, q3, q4⟩ := late_chan_load E s x intr ha hxs (hfit intr hi hop hN)
        hop t ht i (by rw [hintr]; exact hneed.1)
      refine ⟨q, c, Nat.le_trans hs.next_le q1, q2, q3, ?_⟩
      rw [hintr] at q4
      exact q4
    · rw [heq] at ht
      injection ht with ht
      subst ht
      have hop0 : intr0.intrinsic = .store_output := by rw [hintr] at hop; exact hop
      obtain ⟨q, c, q1, q2, q3, q4⟩ := late_chan_store s x intr ha hxs hop i
        (by rw [hintr]; exact hneed.1) (by rw [hintr]; exact hneed.2 hop0)
      refine ⟨q, c, Nat.le_trans hs.next_le q1, q2, q3, ?_⟩
      rw [hintr] at q4
      exact q4
  · obtain ⟨q, c, q1, q2, q3, q4⟩ := hr x intr0 hx hh hm hxs i hneed
    have hqa : q ≠ a := by omega
    have hqs : q < s.next := (hs.base q q2).1
    have hqt : q ∈ io_instrs t.functions := by
      rw [hL]
      exact mem_io_instrs_splice_old a L _ q q2 hqa
    rcases hstep.old q (by omega) with e | ⟨v, _, _, _, _, e⟩
    · exact ⟨q, c, q1, hqt, by rw [e, q3], q4⟩
    · rw [q3] at e
      obtain ⟨c', e', hc'⟩ := io_chan_of_rewrite a v intr0 c i q4
      exact ⟨q, c', q1, hqt, by rw [e, e'], hc'⟩

theorem late_run_repl (E : IoEnv) (mask : Nat) (shader : io_shader)
    (h_wf : ∀ p ∈ io_instrs shader.functions, p < shader.next)
    (h_fit : ∀ p ∈ io_instrs shader.functions, ∀ intr, shader.heap p = .intrinsic intr →
      intr.intrinsic = .load_input → intr.num_components ≤ E.NIR_MAX_VEC_COMPONENTS) :
    ∃ t, nir_lower_io_to_scalar E shader mask = some t ∧ LateInv E mask shader t ∧
      LateRepl E mask shader t ∧
      ∀ x, x ∈ io_instrs t.functions → io_matches E mask (t.heap x) = false := by
  obtain ⟨t, ht, hInv, _, hok⟩ := io_foreach_function_post io_shader.functions
    (lower_io_instr E mask) (fun s => LateInv E mask shader s ∧ LateRepl E mask shader s)
    (fun s x => x < s.next ∧ io_loads_fit E (s.heap x))
    (fun s x => io_matches E mask (s.heap x) = false)
    (fun s fi bi x hs hx => hs.1.base x (mem_io_instrs_of_block _ fi bi x hx))
    (by
      intro s a hs hV
      obtain ⟨t, ht, h | h⟩ := late_body E mask s a hV.1 hV.2
      · obtain ⟨rfl, hm⟩ := h
        refine ⟨t, ht, hs, io_step_refl _ _ _ _, ?_⟩
        intro fi bi x hx
        by_cases e : x = a
        · exact Or.inl (e ▸ hm)
        · exact Or.inr ⟨hx, e⟩
      · exact ⟨t, ht, ⟨late_inv_step E mask shader s t a hs.1 h hV.1,
            late_repl_step E mask shader s t a hs.1 hs.2 hV.1 hV.2 ht h⟩,
          (late_step_io_step E mask a s t h).1, (late_step_io_step E mask a s t h).2⟩)
    shader
    ⟨late_inv_init E mask shader h_wf h_fit,
      fun x _ hx _ _ hnot => absurd hx hnot⟩
  exact ⟨t, ht, hInv.1, hInv.2, hok⟩

/-- C23, amended: `nir_lower_io_to_scalar` returns no value. On a shader whose
linked instructions have addresses below `next` and whose load_input instructions
have at most `NIR_MAX_VEC_COMPONENTS` components the call ends; the shader is
unchanged if and only if no linked instruction matches (`io_matches`: an
intrinsic with a component count other than 1 that is a load_input with the
input mode in the mask or a store_output with the output mode in the mask);
every linked instruction that matches is linked no more afterwards, and in its
place there is, for every channel of a load and for every channel of a store
whose write-mask bit is set, a linked new instruction of the same opcode and
base with one component and the component offset of that channel (a load of the
same bit size, a store with write mask 1). -/
theorem C23_changed_iff_match (E : IoEnv) (shader : io_shader) (mask : Nat)
    (h_wf : ∀ p ∈ io_instrs shader.functions, p < shader.next)
    (h_fit : ∀ p ∈ io_instrs shader.functions, ∀ intr, shader.heap p = .intrinsic intr →
      intr.intrinsic = .load_input → intr.num_components ≤ E.NIR_MAX_VEC_COMPONENTS) :
    nir_lower_io_to_scalar_return E shader mask = () ∧
    ∃ t, nir_lower_io_to_scalar E shader mask = some t ∧
      (t = shader ↔
        ∀ p ∈ io_instrs shader.functions, io_matches E mask (shader.heap p) = false) ∧
      (∀ p ∈ io_instrs shader.functions, io_matches E mask (shader.heap p) = true →
        p ∉ io_instrs t.functions) ∧
      (∀ p ∈ io_instrs shader.functions, ∀ intr, shader.heap p = .intrinsic intr →
        io_matches E mask (shader.heap p) = true →
        ∀ i, i < intr.num_components →
          (intr.intrinsic = .store_output → intr.write_mask &&& (1 <<< i) ≠ 0) →
          ∃ q c, shader.next ≤ q ∧ q ∈ io_instrs t.functions ∧ t.heap q = .intrinsic c ∧
            c.intrinsic = intr.intrinsic ∧ c.num_components = 1 ∧ c.base = intr.base ∧
            c.component = intr.component + i ∧
            (intr.intrinsic = .load_input → c.bit_size = intr.bit_size) ∧
            (intr.intrinsic = .store_output → c.write_mask = 1)) := by
  obtain ⟨t, h1, hinv, hrepl, hok⟩ := late_run_repl E mask shader h_wf h_fit
  have hgone : ∀ p ∈ io_instrs shader.functions, io_matches E mask (shader.heap p) = true →
      p ∉ io_instrs t.functions := by
    intro p hp hm hin
    obtain ⟨f, hf, _⟩ := hinv.heap p (h_wf p hp)
    have := hok p hin
    rw [hf, io_matches_map_srcs] at this
    rw [this] at hm
    cases hm
  refine ⟨rfl, t, h1, ⟨?_, ?_⟩, hgone, ?_⟩
  · intro e p hp
    cases hm : io_matches E mask (shader.heap p) with
    | false => rfl
    | true =>
      have := hgone p hp hm
      rw [e] at this
      exact absurd hp this
  · intro h
    have := late_run_unchanged E mask shader h
    rw [h1] at this
    injection this
  · intro p hp intr hh hm i hi hb
    exact hrepl p intr hp hh hm (hgone p hp hm) i ⟨hi, hb⟩

/-- C23, amended, at `ex_late_shader` with both modes in the mask: the load at
address 1 and the store at address 3 match, are linked no more and have their
per-channel instructions in their place. -/
theorem C23_changed_iff_match_witness :
    (∀ p ∈ io_instrs ex_late_shader.functions, p < ex_late_shader.next) ∧
    io_matches ex_io_env 3 (ex_late_shader.heap 1) = true ∧
    io_matches ex_io_env 3 (ex_late_shader.heap 3) = true ∧
    nir_lower_io_to_scalar_return ex_io_env ex_late_shader 3 = () ∧
    ∃ t, nir_lower_io_to_scalar ex_io_env ex_late_shader 3 = some t ∧
      (t = ex_late_shader ↔
        ∀ p ∈ io_instrs ex_late_shader.functions,
          io_matches ex_io_env 3 (ex_late_shader.heap p) = false) ∧
      (∀ p ∈ io_instrs ex_late_shader.functions,
        io_matches ex_io_env 3 (ex_late_shader.heap p) = true → p ∉ io_instrs t.functions) ∧
      (∀ p ∈ io_instrs ex_late_shader.functions, ∀ intr,
        ex_late_shader.heap p = .intrinsic intr →
        io_matches ex_io_env 3 (ex_late_shader.heap p) = true →
        ∀ i, i < intr.num_components →
          (intr.intrinsic = .store_output → intr.write_mask &&& (1 <<< i) ≠ 0) →
          ∃ q c, ex_late_shader.next ≤ q ∧ q ∈ io_instrs t.functions ∧
            t.heap q = .intrinsic c ∧
            c.intrinsic = intr.intrinsic ∧ c.num_components = 1 ∧ c.base = intr.base ∧
            c.component = intr.component + i ∧
            (intr.intrinsic = .load_input → c.bit_size = intr.bit_size) ∧
            (intr.intrinsic = .store_output → c.write_mask = 1)) :=
  ⟨by decide, by decide, by decide,
    C23_changed_iff_match ex_io_env ex_late_shader 3 (by decide) ex_late_shader_fit⟩

end Nir
